import Mathlib

/-!
# The Vulkan device-memory suballocator (`video/out/vulkan/malloc.c`)

A shallow embedding of the allocator and a verification of its region-list,
slice and accounting invariants.

Conventions of the embedding

* `size_t` / `VkDeviceSize` values are natural numbers; every arithmetic
  operation of the source that can wrap is written with an explicit
  `% SIZE_MOD` (64-bit `size_t`).
* Arrays (`regions`, `slabs`, `heaps`, `types`) are lists; the `MP_TARRAY_*`
  macros (append, insert at, remove at) are the list operations.
* The macro `VK(cmd)` of `slab_alloc` is the jump to the `error:` label when
  the result of the call is not `VK_SUCCESS`.
* A `struct vk_slab *` is an index into `mpvk_ctx.slabs`, the store of the
  slab objects obtained from `talloc`; `talloc_free` leaves `none` behind.
  A `struct vk_heap *` is a pair (index of the memory type, index of the
  heap inside `types[i].heaps`).
* A failing `assert` (or the use of an invalid pointer) makes a function
  return `none`.
* `vk_slab.elided` is a ghost field the source does not have: the number of
  bytes of the regions that `insert_region` has dropped from the free space
  map of the slab because they were shorter than the minimum region size.
  It is written by the embedding and never read by it.
* The answers of the Vulkan driver to the calls issued by `slab_alloc` are an
  argument (`vk_driver`); every call issued to the device is appended to
  `mpvk_ctx.calls`.

The file also embeds the UTF-8 functions of `misc/bstr_utf8.c` (byte strings
are lists of natural numbers below 256) and the colour enum mappings of
`video/csputils.c` (enumerator values are integers; the values of the
enumerators of libavutil and libplacebo are parameters of the functions).
-/

namespace VkMalloc

/-! ## Constants -/

/-- The modulus of `size_t` arithmetic. -/
def SIZE_MOD : Nat := 2 ^ 64

def MPVK_HEAP_SLAB_GROWTH_RATE : Nat := 4
def MPVK_HEAP_MINIMUM_SLAB_SIZE : Nat := 2 ^ 20
def MPVK_HEAP_MAXIMUM_SLAB_SIZE : Nat := 2 ^ 29
def MPVK_HEAP_MINIMUM_REGION_SIZE : Nat := 2 ^ 10
def VK_MEMORY_PROPERTY_HOST_VISIBLE_BIT : Nat := 2

/-! ## Data model -/

/-- Represents a region of available memory: `start` is the first offset in
the region, `end_` the first offset not in the region (`end` in the source). -/
structure vk_region where
  start : Nat
  end_ : Nat
deriving DecidableEq, Repr

/-- The source's `region_len`: `r.end - r.start` in `size_t`. -/
def region_len (r : vk_region) : Nat :=
  (r.end_ + SIZE_MOD - r.start % SIZE_MOD) % SIZE_MOD

/-- A slab: one device allocation, with its free space map. -/
structure vk_slab where
  mem : Nat
  size : Nat
  used : Nat
  dedicated : Bool
  regions : List vk_region
  buffer : Nat
  data : Nat
  elided : Nat
deriving DecidableEq, Repr

/-- A heap: the slabs of one (memory type, buffer usage) pair. `slabs` holds
slab pointers. The back pointer `type` of the source is the position of the
heap in the tree. -/
structure vk_heap where
  usage : Nat
  slabs : List Nat
deriving DecidableEq, Repr

structure vk_memtype where
  index : Nat
  heapIndex : Nat
  flags : Nat
  heaps : List vk_heap
deriving DecidableEq, Repr

/-- The allocator: `num_types` is the length of `types`. -/
structure vk_malloc where
  types : List vk_memtype
deriving DecidableEq, Repr

/-- A slice handed to the caller; `priv` is the slab pointer. -/
structure vk_memslice where
  vkmem : Nat
  offset : Nat
  size : Nat
  priv : Nat
deriving DecidableEq, Repr

structure vk_bufslice where
  mem : vk_memslice
  buf : Nat
  data : Nat
deriving DecidableEq, Repr

/-- The fields of `VkMemoryRequirements` the allocator reads. -/
structure VkMemoryRequirements where
  size : Nat
  alignment : Nat
  memoryTypeBits : Nat
deriving DecidableEq, Repr

/-- One entry of `VkPhysicalDeviceMemoryProperties.memoryTypes`. -/
structure VkMemoryType where
  propertyFlags : Nat
  heapIndex : Nat
deriving DecidableEq, Repr

/-- A call issued to the device. -/
inductive dev_call where
  | create_buffer (size usage : Nat) (ok : Bool) (buffer : Nat)
  | allocate_memory (typeIndex size : Nat) (ok : Bool) (mem : Nat)
  | map_memory (mem : Nat) (ok : Bool) (data : Nat)
  | bind_buffer (buffer mem : Nat) (ok : Bool)
  | destroy_buffer (buffer : Nat)
  | free_memory (mem : Nat)
deriving DecidableEq, Repr

/-- What the driver answers to the calls of one `slab_alloc`: `none` is a
result other than `VK_SUCCESS`. -/
structure vk_driver where
  createBuffer : Option Nat
  reqs_size : Nat
  reqs_memoryTypeBits : Nat
  allocateMemory : Option Nat
  mapMemory : Option Nat
  bindBufferMemory : Bool
deriving DecidableEq, Repr

/-- The part of `struct mpvk_ctx` the allocator uses, with the store of slab
objects and the record of device calls. -/
structure mpvk_ctx where
  bufferImageGranularity : Nat
  alloc : Option vk_malloc
  slabs : List (Option vk_slab)
  calls : List dev_call
deriving DecidableEq, Repr

/-! ## Helper macros -/

/-- Modelled from the spec: the macro `MP_ALIGN_UP` (the spec's `align_up`) is
not among the sources; it is the power-of-two round-up by mask
`((x) + (align) - 1) & ~((align) - 1)` (the shape of `PL_ALIGN2` in
`libplacebo/common.h`), here on 64-bit `size_t`. On a power of two and without
wrap-around it is the least multiple of `align` that is at least `x`
(`MP_ALIGN_UP_eq`, `MP_ALIGN_UP_spec`). -/
def MP_ALIGN_UP (x align : Nat) : Nat :=
  ((x + align + (SIZE_MOD - 1)) % SIZE_MOD) &&&
    (SIZE_MOD - 1 - (align + (SIZE_MOD - 1)) % SIZE_MOD)

/-- Modelled from the spec: the macro `MPMAX` (the spec's `max`) is not among
the sources. -/
def MPMAX (a b : Nat) : Nat := if a > b then a else b

/-- Modelled from the spec: the macro `MPMIN` (the upper bound of the spec's
`clamp`) is not among the sources. -/
def MPMIN (a b : Nat) : Nat := if a > b then b else a

/-- Dereference of a slab pointer. -/
def get_slab (vk : mpvk_ctx) (p : Nat) : Option vk_slab :=
  (vk.slabs.get? p).join

/-- Store through a slab pointer. -/
def set_slab (vk : mpvk_ctx) (p : Nat) (s : vk_slab) : mpvk_ctx :=
  { vk with slabs := vk.slabs.set p (some s) }

/-- Dereference of a heap pointer. -/
def get_heap (ma : vk_malloc) (h : Nat × Nat) : Option vk_heap :=
  match ma.types.get? h.1 with
  | none => none
  | some t => t.heaps.get? h.2

/-! ## Slabs -/

/-- The source's `slab_free` on a non-null slab pointer. -/
def slab_free (vk : mpvk_ctx) (p : Nat) : Option mpvk_ctx :=
  match get_slab vk p with
  | none => none
  | some slab =>
    if slab.used = 0 then
      some { vk with
        calls := vk.calls ++ [dev_call.destroy_buffer slab.buffer, dev_call.free_memory slab.mem],
        slabs := vk.slabs.set p none }
    else none

/-- The `error:` label of `slab_alloc`: `slab_free` of the slab under
construction (stored at the end of the store), and `NULL` as result. `calls`
are the device calls recorded so far. -/
def slab_alloc_error (vk : mpvk_ctx) (calls : List dev_call) (slab : vk_slab) :
    Option (mpvk_ctx × Option Nat) :=
  match slab_free { vk with calls := calls, slabs := vk.slabs ++ [some slab] }
      vk.slabs.length with
  | none => none
  | some vk2 => some (vk2, none)

/-- The end of `slab_alloc`, from the call of `vkBindBufferMemory` on. -/
def slab_alloc_bind (vk : mpvk_ctx) (calls : List dev_call) (drv : vk_driver) (usage : Nat)
    (slab : vk_slab) : Option (mpvk_ctx × Option Nat) :=
  if usage ≠ 0 then
    if drv.bindBufferMemory then
      some ({ vk with
              calls := calls ++ [dev_call.bind_buffer slab.buffer slab.mem true],
              slabs := vk.slabs ++ [some slab] }, some vk.slabs.length)
    else
      slab_alloc_error vk (calls ++ [dev_call.bind_buffer slab.buffer slab.mem false]) slab
  else
    some ({ vk with calls := calls, slabs := vk.slabs ++ [some slab] }, some vk.slabs.length)

/-- The part of `slab_alloc` from the call of `vkAllocateMemory` on;
`allocationSize` is `minfo.allocationSize`. -/
def slab_alloc_memory (vk : mpvk_ctx) (calls : List dev_call) (drv : vk_driver)
    (type : vk_memtype) (usage : Nat) (slab : vk_slab) (allocationSize : Nat) :
    Option (mpvk_ctx × Option Nat) :=
  match drv.allocateMemory with
  | none =>
    slab_alloc_error vk
      (calls ++ [dev_call.allocate_memory type.index allocationSize false 0]) slab
  | some m =>
    let calls1 := calls ++ [dev_call.allocate_memory type.index allocationSize true m]
    let slab1 := { slab with mem := m }
    if type.flags &&& VK_MEMORY_PROPERTY_HOST_VISIBLE_BIT ≠ 0 then
      match drv.mapMemory with
      | none => slab_alloc_error vk (calls1 ++ [dev_call.map_memory m false 0]) slab1
      | some d =>
        slab_alloc_bind vk (calls1 ++ [dev_call.map_memory m true d]) drv usage
          { slab1 with data := d }
    else slab_alloc_bind vk calls1 drv usage slab1

/-- The source's `slab_alloc`. The slab object is allocated at the end of the
store. The result is the new context and the slab pointer, or `NULL`. -/
def slab_alloc (vk : mpvk_ctx) (drv : vk_driver) (type : vk_memtype) (usage : Nat)
    (size : Nat) : Option (mpvk_ctx × Option Nat) :=
  let slab : vk_slab :=
    { mem := 0, size := size, used := 0, dedicated := false,
      regions := [{ start := 0, end_ := size }], buffer := 0, data := 0, elided := 0 }
  if usage ≠ 0 then
    match drv.createBuffer with
    | none =>
      slab_alloc_error vk (vk.calls ++ [dev_call.create_buffer size usage false 0]) slab
    | some b =>
      let calls1 := vk.calls ++ [dev_call.create_buffer size usage true b]
      let slab1 := { slab with buffer := b }
      if drv.reqs_memoryTypeBits &&& (1 <<< type.index) = 0 then
        slab_alloc_error vk calls1 slab1
      else slab_alloc_memory vk calls1 drv type usage slab1 drv.reqs_size
  else slab_alloc_memory vk vk.calls drv type usage slab size

/-! ## The free space map -/

/-- The inner `while` of `insert_region`: `r` is the region that was extended,
the list holds the regions after it. -/
def coalesce_following (r : vk_region) : List vk_region → List vk_region
  | [] => [r]
  | next :: rest =>
    if r.end_ = next.start then
      coalesce_following { r with end_ := next.end_ } rest
    else r :: next :: rest

/-- The `for` loop of `insert_region` (with the final append), on the part of
the array that is still to be visited. -/
def insert_region_loop (region : vk_region) (big_enough : Bool) :
    List vk_region → List vk_region
  | [] => if big_enough then [region] else []
  | r :: rest =>
    if r.end_ = region.start then
      coalesce_following { r with end_ := region.end_ } rest
    else if r.start = region.end_ then
      { r with start := region.start } :: rest
    else if r.start > region.start then
      if big_enough then region :: r :: rest else r :: rest
    else r :: insert_region_loop region big_enough rest

/-- The source's `insert_region`, on the region array of the slab. -/
def insert_region (regions : List vk_region) (region : vk_region) : List vk_region :=
  if region.start = region.end_ then regions
  else
    insert_region_loop region
      (decide (region_len region ≥ MPVK_HEAP_MINIMUM_REGION_SIZE)) regions

/-- Ghost companion of `insert_region_loop`: the length of the region when
the loop drops it, 0 in every other case. -/
def insert_region_elided_loop (region : vk_region) (big_enough : Bool) :
    List vk_region → Nat
  | [] => if big_enough then 0 else region_len region
  | r :: rest =>
    if r.end_ = region.start then 0
    else if r.start = region.end_ then 0
    else if r.start > region.start then
      if big_enough then 0 else region_len region
    else insert_region_elided_loop region big_enough rest

/-- Ghost companion of `insert_region`: the number of bytes the call drops. -/
def insert_region_elided (regions : List vk_region) (region : vk_region) : Nat :=
  if region.start = region.end_ then 0
  else
    insert_region_elided_loop region
      (decide (region_len region ≥ MPVK_HEAP_MINIMUM_REGION_SIZE)) regions

/-! ## Heaps -/

/-- The source's `heap_uninit`, on the list of slab pointers: `slab_free` of
every slab (a `NULL` entry cannot occur in the list). -/
def heap_uninit_slabs (vk : mpvk_ctx) : List Nat → Option mpvk_ctx
  | [] => some vk
  | p :: ps =>
    match slab_free vk p with
    | none => none
    | some vk1 => heap_uninit_slabs vk1 ps

def heap_uninit_heaps (vk : mpvk_ctx) : List vk_heap → Option mpvk_ctx
  | [] => some vk
  | h :: hs =>
    match heap_uninit_slabs vk h.slabs with
    | none => none
    | some vk1 => heap_uninit_heaps vk1 hs

def heap_uninit_types (vk : mpvk_ctx) : List vk_memtype → Option mpvk_ctx
  | [] => some vk
  | t :: ts =>
    match heap_uninit_heaps vk t.heaps with
    | none => none
    | some vk1 => heap_uninit_types vk1 ts

/-- The source's `heap_init`. -/
def heap_init (usage : Nat) : vk_heap := { usage := usage, slabs := [] }

/-- The loop of `vk_malloc_init` over the memory types, from index `i`. -/
def init_types (i : Nat) : List VkMemoryType → List vk_memtype
  | [] => []
  | m :: ms =>
    { index := i, heapIndex := m.heapIndex, flags := m.propertyFlags, heaps := [] }
      :: init_types (i + 1) ms

/-- The source's `vk_malloc_init`; `prop` is the array of memory types the
physical device reports. -/
def vk_malloc_init (vk : mpvk_ctx) (prop : List VkMemoryType) : mpvk_ctx :=
  { vk with alloc := some { types := init_types 0 prop } }

/-- The source's `vk_malloc_uninit`. -/
def vk_malloc_uninit (vk : mpvk_ctx) : Option mpvk_ctx :=
  match vk.alloc with
  | none => some vk
  | some ma =>
    match heap_uninit_types vk ma.types with
    | none => none
    | some vk1 => some { vk1 with alloc := none }

/-- The source's `vk_free_memslice`. -/
def vk_free_memslice (vk : mpvk_ctx) (slice : vk_memslice) : Option mpvk_ctx :=
  match get_slab vk slice.priv with
  | none => none
  | some slab =>
    if slab.used ≥ slice.size then
      let slab1 := { slab with used := slab.used - slice.size }
      let vk1 := set_slab vk slice.priv slab1
      if slab1.dedicated then
        slab_free vk1 slice.priv
      else
        let region : vk_region :=
          { start := slice.offset, end_ := (slice.offset + slice.size) % SIZE_MOD }
        some (set_slab vk1 slice.priv
          { slab1 with
            regions := insert_region slab1.regions region,
            elided := slab1.elided + insert_region_elided slab1.regions region })
    else none

/-- The loop of `find_best_memtype` from index `i`; `reqs` is the optional
`memoryTypeBits`. The result is the index of the type. -/
def find_best_memtype_loop (flags : Nat) (reqs : Option Nat) (i : Nat) :
    List vk_memtype → Option Nat
  | [] => none
  | t :: ts =>
    if t.flags &&& flags ≠ flags then find_best_memtype_loop flags reqs (i + 1) ts
    else
      match reqs with
      | some bits =>
        if bits &&& (1 <<< i) = 0 then find_best_memtype_loop flags reqs (i + 1) ts
        else some i
      | none => some i

/-- The source's `find_best_memtype`. -/
def find_best_memtype (ma : vk_malloc) (flags : Nat) (reqs : Option Nat) : Option Nat :=
  find_best_memtype_loop flags reqs 0 ma.types

/-- The search loop of `find_heap`. -/
def find_heap_loop (usage : Nat) (i : Nat) : List vk_heap → Option Nat
  | [] => none
  | h :: hs => if h.usage = usage then some i else find_heap_loop usage (i + 1) hs

/-- The source's `find_heap`: the heap pointer, and the allocator with the
heap added when it was not found. -/
def find_heap (ma : vk_malloc) (type : Option Nat) (usage : Nat) :
    vk_malloc × Option (Nat × Nat) :=
  match type with
  | none => (ma, none)
  | some ti =>
    match ma.types.get? ti with
    | none => (ma, none)
    | some t =>
      match find_heap_loop usage 0 t.heaps with
      | some hi => (ma, some (ti, hi))
      | none =>
        let t1 : vk_memtype := { t with heaps := t.heaps ++ [heap_init usage] }
        ({ ma with types := ma.types.set ti t1 }, some (ti, t.heaps.length))

/-- The source's `region_fits`. -/
def region_fits (r : vk_region) (size align : Nat) : Bool :=
  decide ((MP_ALIGN_UP r.start align + size) % SIZE_MOD ≤ r.end_)

/-- The best fit search over the regions of one slab, from index `n`; `best`
is the index found so far, with the region at that index. -/
def best_fit_loop (size align : Nat) (n : Nat) (best : Option (Nat × vk_region)) :
    List vk_region → Option (Nat × vk_region)
  | [] => best
  | r :: rest =>
    if ¬ region_fits r size align then best_fit_loop size align (n + 1) best rest
    else
      match best with
      | some (b, rb) =>
        if region_len r > region_len rb then
          best_fit_loop size align (n + 1) (some (b, rb)) rest
        else best_fit_loop size align (n + 1) (some (n, r)) rest
      | none => best_fit_loop size align (n + 1) (some (n, r)) rest

/-- The loop of `heap_get_region` over the slabs of the heap. The result is
the slab and region index found (if any) and the last slab looked at (the
value of the variable `slab` after the loop), or `none` on an invalid slab
pointer. -/
def search_slabs (vk : mpvk_ctx) (size align : Nat) (last : Option vk_slab) :
    List Nat → Option (Option (Nat × Nat) × Option vk_slab)
  | [] => some (none, last)
  | p :: ps =>
    match get_slab vk p with
    | none => none
    | some slab =>
      if slab.size < size then search_slabs vk size align (some slab) ps
      else
        match best_fit_loop size align 0 none slab.regions with
        | some (best, _) => some (some (p, best), some slab)
        | none => search_slabs vk size align (some slab) ps

/-- Append of a slab pointer to `heap->slabs`. -/
def heap_append_slab (ma : vk_malloc) (h : Nat × Nat) (p : Nat) : vk_malloc :=
  match ma.types.get? h.1 with
  | none => ma
  | some t =>
    match t.heaps.get? h.2 with
    | none => ma
    | some heap =>
      let heap1 : vk_heap := { heap with slabs := heap.slabs ++ [p] }
      let t1 : vk_memtype := { t with heaps := t.heaps.set h.2 heap1 }
      { ma with types := ma.types.set h.1 t1 }

/-- The source's `heap_get_region`. The inner result is `(out_slab, out_index)`
when the function returns true. -/
def heap_get_region (vk : mpvk_ctx) (drv : vk_driver) (heap : Option (Nat × Nat))
    (size align : Nat) : Option (mpvk_ctx × Option (Nat × Nat)) :=
  match heap, vk.alloc with
  | none, _ => some (vk, none)
  | some _, none => none
  | some h, some ma =>
    match ma.types.get? h.1 with
    | none => none
    | some type =>
      match type.heaps.get? h.2 with
      | none => none
      | some hp =>
        if size > MPVK_HEAP_MAXIMUM_SLAB_SIZE then
          match slab_alloc vk drv type hp.usage size with
          | none => none
          | some (vk1, none) => some (vk1, none)
          | some (vk1, some p) => some (vk1, some (p, 0))
        else
          match search_slabs vk size align none hp.slabs with
          | none => none
          | some (some found, _) => some (vk, some found)
          | some (none, last) =>
            let cur_size := MPMAX size (match last with | some s => s.size | none => 0)
            let slab_size := (MPVK_HEAP_SLAB_GROWTH_RATE * cur_size) % SIZE_MOD
            let slab_size := MPMAX MPVK_HEAP_MINIMUM_SLAB_SIZE slab_size
            let slab_size := MPMIN MPVK_HEAP_MAXIMUM_SLAB_SIZE slab_size
            if slab_size ≥ size then
              match slab_alloc vk drv type hp.usage slab_size with
              | none => none
              | some (vk1, none) => some (vk1, none)
              | some (vk1, some p) =>
                match get_slab vk1 p with
                | none => none
                | some slab =>
                  if slab.regions.length = 1 then
                    some ({ vk1 with alloc := some (heap_append_slab ma h p) }, some (p, 0))
                  else none
            else none

/-- The source's `slice_heap`. -/
def slice_heap (vk : mpvk_ctx) (drv : vk_driver) (heap : Option (Nat × Nat))
    (size alignment : Nat) : Option (mpvk_ctx × Option vk_memslice) :=
  let alignment := MP_ALIGN_UP alignment vk.bufferImageGranularity
  match heap_get_region vk drv heap size alignment with
  | none => none
  | some (vk1, none) => some (vk1, none)
  | some (vk1, some (p, index)) =>
    match get_slab vk1 p with
    | none => none
    | some slab =>
      match slab.regions.get? index with
      | none => none
      | some reg =>
        let regions0 := slab.regions.eraseIdx index
        let offset := MP_ALIGN_UP reg.start alignment
        let out : vk_memslice :=
          { vkmem := slab.mem, offset := offset, size := size, priv := p }
        let out_end := (out.offset + out.size) % SIZE_MOD
        let head : vk_region := { start := reg.start, end_ := out.offset }
        let tail : vk_region := { start := out_end, end_ := reg.end_ }
        let regions1 := insert_region regions0 head
        let regions2 := insert_region regions1 tail
        some (set_slab vk1 p
                { slab with
                  regions := regions2,
                  used := (slab.used + size) % SIZE_MOD,
                  elided := slab.elided + insert_region_elided regions0 head
                              + insert_region_elided regions1 tail },
              some out)

/-- The calls of `find_best_memtype` and `find_heap` the two entry points
share. -/
def select_heap (vk : mpvk_ctx) (flags : Nat) (reqs : Option Nat) (usage : Nat) :
    Option (mpvk_ctx × Option (Nat × Nat)) :=
  match vk.alloc with
  | none => none
  | some ma =>
    let type := find_best_memtype ma flags reqs
    let r := find_heap ma type usage
    some ({ vk with alloc := some r.1 }, r.2)

/-- The source's `vk_malloc_generic`. -/
def vk_malloc_generic (vk : mpvk_ctx) (drv : vk_driver) (reqs : VkMemoryRequirements)
    (flags : Nat) : Option (mpvk_ctx × Option vk_memslice) :=
  match select_heap vk flags (some reqs.memoryTypeBits) 0 with
  | none => none
  | some (vk1, heap) => slice_heap vk1 drv heap reqs.size reqs.alignment

/-- The source's `vk_malloc_buffer`; `out0` is what `*out` holds before the
call. -/
def vk_malloc_buffer (vk : mpvk_ctx) (drv : vk_driver) (bufFlags memFlags : Nat)
    (size alignment : Nat) (out0 : vk_bufslice) :
    Option (mpvk_ctx × Option vk_bufslice) :=
  match select_heap vk memFlags none bufFlags with
  | none => none
  | some (vk1, heap) =>
    match slice_heap vk1 drv heap size alignment with
    | none => none
    | some (vk2, none) => some (vk2, none)
    | some (vk2, some mem) =>
      match get_slab vk2 mem.priv with
      | none => none
      | some slab =>
        some (vk2, some
          { mem := mem, buf := slab.buffer,
            data := if slab.data ≠ 0 then (slab.data + mem.offset) % SIZE_MOD else out0.data })

/-! ## Runs of the allocator -/

/-- A call of one of the two allocation entry points. -/
inductive vk_request where
  | generic (reqs : VkMemoryRequirements) (flags : Nat)
  | buffer (bufFlags memFlags size alignment : Nat) (out0 : vk_bufslice)
deriving DecidableEq, Repr

/-- The size the request asks for. -/
def vk_request.size : vk_request → Nat
  | .generic reqs _ => reqs.size
  | .buffer _ _ size _ _ => size

/-- The alignment the request asks for. -/
def vk_request.alignment : vk_request → Nat
  | .generic reqs _ => reqs.alignment
  | .buffer _ _ _ alignment _ => alignment

/-- The call itself: the new context and, on success, the memory slice
(`out` of `vk_malloc_generic`, `out->mem` of `vk_malloc_buffer`). -/
def vk_request.run (vk : mpvk_ctx) (drv : vk_driver) :
    vk_request → Option (mpvk_ctx × Option vk_memslice)
  | .generic reqs flags => vk_malloc_generic vk drv reqs flags
  | .buffer bufFlags memFlags size alignment out0 =>
    match vk_malloc_buffer vk drv bufFlags memFlags size alignment out0 with
    | none => none
    | some (vk1, none) => some (vk1, none)
    | some (vk1, some out) => some (vk1, some out.mem)

/-- The slices a call adds to the live ones. -/
def returned (out : Option vk_memslice) : List vk_memslice :=
  match out with
  | none => []
  | some s => [s]

/-- `Reachable vk live`: the context `vk` is reached from `vk_malloc_init` by
calls of `vk_malloc_generic` / `vk_malloc_buffer` (successful or not) and of
`vk_free_memslice` on live slices, and `live` are the slices returned and not
yet freed. Sizes and alignments are `size_t` values, the alignments and
`bufferImageGranularity` are powers of two, and the device reports at most
`VK_MAX_MEMORY_TYPES` (32) memory types. -/
inductive Reachable : mpvk_ctx → List vk_memslice → Prop where
  | init (vk0 : mpvk_ctx) (prop : List VkMemoryType) (g : Nat) :
      g < 64 → vk0.bufferImageGranularity = 2 ^ g → vk0.slabs = [] →
      prop.length ≤ 32 →
      Reachable (vk_malloc_init vk0 prop) []
  | malloc (vk : mpvk_ctx) (live : List vk_memslice) (drv : vk_driver)
      (req : vk_request) (k : Nat) (vk1 : mpvk_ctx) (out : Option vk_memslice) :
      Reachable vk live →
      k < 64 → req.alignment = 2 ^ k → req.size < SIZE_MOD →
      req.run vk drv = some (vk1, out) →
      Reachable vk1 (returned out ++ live)
  | free (vk : mpvk_ctx) (live : List vk_memslice) (slice : vk_memslice)
      (vk1 : mpvk_ctx) :
      Reachable vk live →
      slice ∈ live →
      vk_free_memslice vk slice = some vk1 →
      Reachable vk1 (live.erase slice)

/-! ## Quantities of the specification -/

/-- The byte `x` lies in the region `r`. -/
def in_region (r : vk_region) (x : Nat) : Prop := r.start ≤ x ∧ x < r.end_

/-- The byte `x` lies in the slice `s`. -/
def in_slice (s : vk_memslice) (x : Nat) : Prop := s.offset ≤ x ∧ x < s.offset + s.size

/-- The sum of `region_len` over a region list. -/
def free_bytes (regions : List vk_region) : Nat :=
  (regions.map region_len).sum

/-- The slab pointers linked into the heaps, in the order of teardown. -/
def heap_slabs (ma : vk_malloc) : List Nat :=
  ma.types.flatMap (fun t => t.heaps.flatMap (fun h => h.slabs))

/-! ## Invariants -/

/-- Consecutive regions are strictly separated. -/
def sep (a b : vk_region) : Prop := a.end_ < b.start

/-- A region as the free space map holds it in a slab of size `n`. -/
def region_ok (n : Nat) (r : vk_region) : Prop :=
  r.start + MPVK_HEAP_MINIMUM_REGION_SIZE ≤ r.end_ ∧ r.end_ ≤ n

/-- The free space map of a slab of size `n` is well formed. -/
def regions_wf (n : Nat) (l : List vk_region) : Prop :=
  l.Pairwise sep ∧ ∀ r ∈ l, region_ok n r

/-- The sum of the lengths, without wrap-around. -/
def region_sum : List vk_region → Nat
  | [] => 0
  | r :: rest => (r.end_ - r.start) + region_sum rest

/-- What `slab_alloc` and its parts guarantee about their result: the
allocator and the limits are untouched, and the store grows by one entry,
either the freed slab (`NULL` result) or a slab as `slab_alloc` initialises
it. -/
def slab_alloc_post (vk : mpvk_ctx) (size : Nat) (vk1 : mpvk_ctx) (r : Option Nat) : Prop :=
  vk1.alloc = vk.alloc ∧ vk1.bufferImageGranularity = vk.bufferImageGranularity ∧
    ((r = none ∧ vk1.slabs = vk.slabs ++ [none]) ∨
     (r = some vk.slabs.length ∧ ∃ slab : vk_slab, vk1.slabs = vk.slabs ++ [some slab] ∧
        slab.size = size ∧ slab.used = 0 ∧ slab.dedicated = false ∧
        slab.regions = [{ start := 0, end_ := size }] ∧ slab.elided = 0))

/-- A slab as `slab_alloc` initialises it. -/
def slab_fresh (size : Nat) (slab : vk_slab) : Prop :=
  slab.size = size ∧ slab.used = 0 ∧ slab.dedicated = false ∧
    slab.regions = [{ start := 0, end_ := size }] ∧ slab.elided = 0

/-- The bytes of the live slices carved from the slab `p`. -/
def live_used (p : Nat) : List vk_memslice → Nat
  | [] => 0
  | s :: l => (if s.priv = p then s.size else 0) + live_used p l

/-- Two slices of one slab share no byte. -/
def slices_disjoint (s t : vk_memslice) : Prop :=
  s.priv = t.priv → ∀ x, in_slice s x → in_slice t x → False

/-- The invariant of the slab at `p`, with respect to the live slices. -/
def slab_inv (live : List vk_memslice) (p : Nat) (slab : vk_slab) : Prop :=
  slab.size < SIZE_MOD ∧ slab.dedicated = false ∧
  regions_wf slab.size slab.regions ∧
  slab.used = live_used p live ∧
  slab.used + region_sum slab.regions + slab.elided = slab.size ∧
  (∀ s ∈ live, s.priv = p →
    s.offset + s.size ≤ slab.size ∧
    ∀ r ∈ slab.regions, ∀ x, in_slice s x → in_region r x → False)

/-- The invariant of the heaps: the slab pointers linked into the heaps are
pairwise distinct and point to slabs of at most the maximum slab size. -/
def heaps_inv (vk : mpvk_ctx) (ma : vk_malloc) : Prop :=
  (heap_slabs ma).Nodup ∧
  ∀ p ∈ heap_slabs ma, ∃ slab, get_slab vk p = some slab ∧
    slab.size ≤ MPVK_HEAP_MAXIMUM_SLAB_SIZE

/-- The invariant of the allocator, with respect to the live slices. -/
def Inv (vk : mpvk_ctx) (live : List vk_memslice) : Prop :=
  (∃ g, g < 64 ∧ vk.bufferImageGranularity = 2 ^ g) ∧
  (∃ ma, vk.alloc = some ma ∧ heaps_inv vk ma) ∧
  (∀ p slab, get_slab vk p = some slab → slab_inv live p slab) ∧
  (∀ s ∈ live, ∃ slab, get_slab vk s.priv = some slab) ∧
  live.Pairwise slices_disjoint

/-- What `heap_get_region` returns: a region of a live slab in which the
aligned request fits. -/
def region_found (vk1 : mpvk_ctx) (size align : Nat) (p idx : Nat) : Prop :=
  ∃ slab reg, get_slab vk1 p = some slab ∧ slab.regions.get? idx = some reg ∧
    reg.start ≤ MP_ALIGN_UP reg.start align ∧
    MP_ALIGN_UP reg.start align + size ≤ reg.end_ ∧
    MP_ALIGN_UP reg.start align % align = 0

/-! ## Scenarios -/

/-- A device with one memory type, granularity 1 and no allocator yet. -/
def demo_vk0 : mpvk_ctx :=
  { bufferImageGranularity := 1, alloc := none, slabs := [], calls := [] }

/-- A driver that answers every call with success. -/
def demo_drv : vk_driver :=
  { createBuffer := some 7, reqs_size := 0, reqs_memoryTypeBits := 1,
    allocateMemory := some 9, mapMemory := some 4096, bindBufferMemory := true }

/-- The allocator after `vk_malloc_init`. -/
def demo_init : mpvk_ctx := vk_malloc_init demo_vk0 [{ propertyFlags := 0, heapIndex := 0 }]

/-- A generic request of 512 bytes, alignment 1. -/
def demo_req : vk_request :=
  .generic { size := 512, alignment := 1, memoryTypeBits := 1 } 0

def demo_slice_a : vk_memslice := { vkmem := 9, offset := 0, size := 512, priv := 0 }

def demo_slice_b : vk_memslice := { vkmem := 9, offset := 512, size := 512, priv := 0 }

def demo_alloc : vk_malloc :=
  { types := [{ index := 0, heapIndex := 0, flags := 0, heaps := [{ usage := 0, slabs := [0] }] }] }

def demo_slab1 : vk_slab :=
  { mem := 9, size := 1048576, used := 512, dedicated := false,
    regions := [{ start := 512, end_ := 1048576 }], buffer := 0, data := 0, elided := 0 }

/-- The state after the first request. -/
def demo_ctx1 : mpvk_ctx :=
  { bufferImageGranularity := 1, alloc := some demo_alloc, slabs := [some demo_slab1],
    calls := [dev_call.allocate_memory 0 1048576 true 9] }

def demo_slab2 : vk_slab :=
  { mem := 9, size := 1048576, used := 1024, dedicated := false,
    regions := [{ start := 1024, end_ := 1048576 }], buffer := 0, data := 0, elided := 0 }

/-- The state after the second request. -/
def demo_ctx2 : mpvk_ctx :=
  { bufferImageGranularity := 1, alloc := some demo_alloc, slabs := [some demo_slab2],
    calls := [dev_call.allocate_memory 0 1048576 true 9] }

def demo_slab3 : vk_slab :=
  { mem := 9, size := 1048576, used := 512, dedicated := false,
    regions := [{ start := 1024, end_ := 1048576 }], buffer := 0, data := 0, elided := 512 }

/-- The state after the first slice was freed: its 512 bytes were dropped. -/
def demo_ctx3 : mpvk_ctx :=
  { bufferImageGranularity := 1, alloc := some demo_alloc, slabs := [some demo_slab3],
    calls := [dev_call.allocate_memory 0 1048576 true 9] }

/-- A generic request of 4 KiB, alignment 1. -/
def demo_req4k : vk_request :=
  .generic { size := 4096, alignment := 1, memoryTypeBits := 1 } 0

def demo_slice_c : vk_memslice := { vkmem := 9, offset := 0, size := 4096, priv := 0 }

def demo_slice_d : vk_memslice := { vkmem := 9, offset := 4096, size := 4096, priv := 0 }

def demo_slab5 : vk_slab :=
  { mem := 9, size := 1048576, used := 4096, dedicated := false,
    regions := [{ start := 4096, end_ := 1048576 }], buffer := 0, data := 0, elided := 0 }

def demo_ctx5 : mpvk_ctx :=
  { bufferImageGranularity := 1, alloc := some demo_alloc, slabs := [some demo_slab5],
    calls := [dev_call.allocate_memory 0 1048576 true 9] }

def demo_slab6 : vk_slab :=
  { mem := 9, size := 1048576, used := 8192, dedicated := false,
    regions := [{ start := 8192, end_ := 1048576 }], buffer := 0, data := 0, elided := 0 }

def demo_ctx6 : mpvk_ctx :=
  { bufferImageGranularity := 1, alloc := some demo_alloc, slabs := [some demo_slab6],
    calls := [dev_call.allocate_memory 0 1048576 true 9] }

def demo_slab7 : vk_slab :=
  { mem := 9, size := 1048576, used := 4096, dedicated := false,
    regions := [{ start := 0, end_ := 4096 }, { start := 8192, end_ := 1048576 }],
    buffer := 0, data := 0, elided := 0 }

/-- Two slices of 4 KiB were carved and the first one freed: two free regions. -/
def demo_ctx7 : mpvk_ctx :=
  { bufferImageGranularity := 1, alloc := some demo_alloc, slabs := [some demo_slab7],
    calls := [dev_call.allocate_memory 0 1048576 true 9] }

def demo_slab8 : vk_slab :=
  { mem := 9, size := 1048576, used := 0, dedicated := false,
    regions := [{ start := 0, end_ := 1048576 }], buffer := 0, data := 0, elided := 0 }

/-- Both slices were freed. -/
def demo_ctx8 : mpvk_ctx :=
  { bufferImageGranularity := 1, alloc := some demo_alloc, slabs := [some demo_slab8],
    calls := [dev_call.allocate_memory 0 1048576 true 9] }

/-- A generic request of 1 GiB, more than the maximum slab size. -/
def big_req : vk_request :=
  .generic { size := 1073741824, alignment := 1, memoryTypeBits := 1 } 0

def big_slice : vk_memslice := { vkmem := 9, offset := 0, size := 1073741824, priv := 0 }

def big_alloc : vk_malloc :=
  { types := [{ index := 0, heapIndex := 0, flags := 0, heaps := [{ usage := 0, slabs := [] }] }] }

def big_slab1 : vk_slab :=
  { mem := 9, size := 1073741824, used := 1073741824, dedicated := false,
    regions := [], buffer := 0, data := 0, elided := 0 }

/-- The state after the request of 1 GiB. -/
def big_ctx1 : mpvk_ctx :=
  { bufferImageGranularity := 1, alloc := some big_alloc, slabs := [some big_slab1],
    calls := [dev_call.allocate_memory 0 1073741824 true 9] }

def big_slab2 : vk_slab :=
  { mem := 9, size := 1073741824, used := 0, dedicated := false,
    regions := [{ start := 0, end_ := 1073741824 }], buffer := 0, data := 0, elided := 0 }

/-- The state after the free of the slice of 1 GiB. -/
def big_ctx2 : mpvk_ctx :=
  { bufferImageGranularity := 1, alloc := some big_alloc, slabs := [some big_slab2],
    calls := [dev_call.allocate_memory 0 1073741824 true 9] }

/-- The state after `vk_malloc_uninit`. -/
def big_ctx3 : mpvk_ctx :=
  { bufferImageGranularity := 1, alloc := none, slabs := [some big_slab2],
    calls := [dev_call.allocate_memory 0 1073741824 true 9] }

/-- The number of successful `allocate_memory` calls in a record of calls. -/
def count_allocate_memory : List dev_call → Nat
  | [] => 0
  | dev_call.allocate_memory _ _ true _ :: cs => count_allocate_memory cs + 1
  | _ :: cs => count_allocate_memory cs

/-- The number of `free_memory` calls on a handle other than `VK_NULL_HANDLE`. -/
def count_free_memory : List dev_call → Nat
  | [] => 0
  | dev_call.free_memory m :: cs => count_free_memory cs + (if m = 0 then 0 else 1)
  | _ :: cs => count_free_memory cs

/-- A generic request of `size` bytes with alignment `align`, any memory
type of the first 32 allowed, no property flag asked for. -/
def gen_req (size align : Nat) : vk_request :=
  .generic { size := size, alignment := align, memoryTypeBits := 4294967295 } 0

/-- A request that must succeed with the driver `demo_drv`: the new context and
the slice. -/
def alloc_ok (vk : mpvk_ctx) (req : vk_request) : Option (mpvk_ctx × vk_memslice) :=
  match req.run vk demo_drv with
  | some (vk1, some s) => some (vk1, s)
  | _ => none

/-- Scenario S3: slices of 32, 1, 8, 1, 16 KiB and of the rest of the 1 MiB slab
are carved; the slices of 32, 8 and 16 KiB are freed. The result is the
context with free regions of 32, 8 and 16 KiB in the slab. -/
def s3_state : Option mpvk_ctx := do
  let (v1, a) ← alloc_ok demo_init (gen_req 32768 1)
  let (v2, _) ← alloc_ok v1 (gen_req 1024 1)
  let (v3, c) ← alloc_ok v2 (gen_req 8192 1)
  let (v4, _) ← alloc_ok v3 (gen_req 1024 1)
  let (v5, e) ← alloc_ok v4 (gen_req 16384 1)
  let (v6, _) ← alloc_ok v5 (gen_req 989184 1)
  let v7 ← vk_free_memslice v6 a
  let v8 ← vk_free_memslice v7 c
  vk_free_memslice v8 e

/-- Scenario S3, the request of 6 KiB with alignment 1 in `s3_state`. -/
def s3_request : Option (mpvk_ctx × vk_memslice) := do
  let v ← s3_state
  alloc_ok v (gen_req 6144 1)

/-- Scenario S4, the fully used slab: a slice of 512 bytes and a slice of the
rest of the 1 MiB slab. The result is the context and the first slice. -/
def s4_full : Option (mpvk_ctx × vk_memslice) := do
  let (v1, a) ← alloc_ok demo_init (gen_req 512 1)
  let (v2, _) ← alloc_ok v1 (gen_req 1048064 1)
  pure (v2, a)

/-- Scenario S4: the 512-byte prefix is freed. -/
def s4_freed : Option mpvk_ctx := do
  let (v2, a) ← s4_full
  vk_free_memslice v2 a

/-- Scenario S4: a request of one byte after the free. -/
def s4_request : Option (mpvk_ctx × vk_memslice) := do
  let v ← s4_freed
  alloc_ok v (gen_req 1 1)

/-- The regions of the slab at `p`. -/
def regions_at (vk : Option mpvk_ctx) (p : Nat) : Option (List vk_region) :=
  match vk with
  | none => none
  | some v =>
    match get_slab v p with
    | none => none
    | some slab => some slab.regions

/-- A driver for a device whose buffers need as much memory as asked for. -/
def hv_drv : vk_driver :=
  { createBuffer := some 7, reqs_size := 1048576, reqs_memoryTypeBits := 1,
    allocateMemory := some 9, mapMemory := some 65536, bindBufferMemory := true }

/-- A device with one host-visible memory type, after `vk_malloc_init`. -/
def hv_init : mpvk_ctx := vk_malloc_init demo_vk0 [{ propertyFlags := 2, heapIndex := 0 }]

/-- What the caller's `vk_bufslice` holds before a call. -/
def hv_out0 : vk_bufslice :=
  { mem := { vkmem := 0, offset := 0, size := 0, priv := 0 }, buf := 0, data := 0 }

/-- The context after a first buffer request (usage 1, host visible, 4 KiB,
alignment 16). -/
def hv_ctx1 : mpvk_ctx :=
  match vk_malloc_buffer hv_init hv_drv 1 2 4096 16 hv_out0 with
  | some (vk, _) => vk
  | none => hv_init

/-- The context after a second buffer request. -/
def hv_ctx2 : mpvk_ctx :=
  match vk_malloc_buffer hv_ctx1 hv_drv 1 2 4096 16 hv_out0 with
  | some (vk, _) => vk
  | none => hv_ctx1

/-- The buffer slice of the second request. -/
def hv_out2 : vk_bufslice :=
  { mem := { vkmem := 9, offset := 4096, size := 4096, priv := 0 }, buf := 7, data := 69632 }

/-- Slab creation fails, in the words of the specification: `create_buffer`
fails, the buffer's `memoryTypeBits` lack the bit of the heap's memory type,
`allocate_memory` fails, `map_memory` fails (host-visible type) or
`bind_buffer` fails (the buffer calls are there for a heap with a usage). -/
def slab_alloc_fails (drv : vk_driver) (type : vk_memtype) (usage : Nat) : Prop :=
  (usage ≠ 0 ∧ drv.createBuffer = none) ∨
  (usage ≠ 0 ∧ drv.reqs_memoryTypeBits &&& (1 <<< type.index) = 0) ∨
  drv.allocateMemory = none ∨
  (type.flags &&& VK_MEMORY_PROPERTY_HOST_VISIBLE_BIT ≠ 0 ∧ drv.mapMemory = none) ∨
  (usage ≠ 0 ∧ drv.bindBufferMemory = false)

/-- The calls `c` of a slab creation hold no successful `create_buffer` but of
the handle `b`, no successful `allocate_memory` but of the handle `m`, and no
`destroy_buffer` or `free_memory`. -/
def creation_calls (c : List dev_call) (b m : Nat) : Prop :=
  (∀ sz u x, dev_call.create_buffer sz u true x ∈ c → x = b) ∧
  (∀ t sz x, dev_call.allocate_memory t sz true x ∈ c → x = m) ∧
  (∀ x, dev_call.destroy_buffer x ∉ c) ∧ (∀ x, dev_call.free_memory x ∉ c)

/-- The slab under construction was torn down: after the calls of the
creation, the record of calls ends with the `destroy_buffer` and the
`free_memory` of `slab_free`, on the handles the creation obtained (if any). -/
def torn_down (before after : List dev_call) : Prop :=
  ∃ c b m, after = before ++ c ++ [dev_call.destroy_buffer b, dev_call.free_memory m] ∧
    creation_calls c b m

/-- The result of a failed slab creation: `NULL`, the allocator untouched, the
slab object freed again, the slab torn down. -/
def creation_failed (vk : mpvk_ctx) (res : Option (mpvk_ctx × Option Nat)) : Prop :=
  ∃ vk1, res = some (vk1, none) ∧
    vk1.alloc = vk.alloc ∧ vk1.bufferImageGranularity = vk.bufferImageGranularity ∧
    vk1.slabs = vk.slabs ++ [none] ∧ torn_down vk.calls vk1.calls

/-- The result of a successful slab creation: the slab is stored at the end of
the store; it is as `slab_alloc` initialises it and holds the handles the
driver returned; `data` is the pointer of `map_memory` for a host-visible
type and null otherwise. -/
def creation_done (vk : mpvk_ctx) (drv : vk_driver) (type : vk_memtype) (usage size : Nat)
    (res : Option (mpvk_ctx × Option Nat)) : Prop :=
  ∃ vk1 slab, res = some (vk1, some vk.slabs.length) ∧
    vk1.alloc = vk.alloc ∧ vk1.bufferImageGranularity = vk.bufferImageGranularity ∧
    vk1.slabs = vk.slabs ++ [some slab] ∧
    (∃ c, vk1.calls = vk.calls ++ c ∧
      (type.flags &&& VK_MEMORY_PROPERTY_HOST_VISIBLE_BIT ≠ 0 →
        dev_call.map_memory slab.mem true slab.data ∈ c)) ∧
    slab_fresh size slab ∧
    drv.allocateMemory = some slab.mem ∧
    (usage = 0 → slab.buffer = 0) ∧ (usage ≠ 0 → drv.createBuffer = some slab.buffer) ∧
    (type.flags &&& VK_MEMORY_PROPERTY_HOST_VISIBLE_BIT = 0 → slab.data = 0) ∧
    (type.flags &&& VK_MEMORY_PROPERTY_HOST_VISIBLE_BIT ≠ 0 → drv.mapMemory = some slab.data)

/-- The size `heap_get_region` computes for a new slab; `last` is the value of
the variable `slab` after the loop over the slabs. -/
def new_slab_size (size : Nat) (last : Option vk_slab) : Nat :=
  MPMIN MPVK_HEAP_MAXIMUM_SLAB_SIZE
    (MPMAX MPVK_HEAP_MINIMUM_SLAB_SIZE
      ((MPVK_HEAP_SLAB_GROWTH_RATE *
        MPMAX size (match last with | some s => s.size | none => 0)) % SIZE_MOD))

/-- The slab after the carve of `slice_heap`: the region `reg` at `index` is
removed, the parts of it before `offset` and after the slice are inserted
again, `used` grows by `size`. -/
def carve_slab (slab : vk_slab) (index : Nat) (reg : vk_region) (offset size : Nat) :
    vk_slab :=
  let regions0 := slab.regions.eraseIdx index
  let head : vk_region := { start := reg.start, end_ := offset }
  let tail : vk_region := { start := (offset + size) % SIZE_MOD, end_ := reg.end_ }
  let regions1 := insert_region regions0 head
  let regions2 := insert_region regions1 tail
  { slab with
    regions := regions2,
    used := (slab.used + size) % SIZE_MOD,
    elided := slab.elided + insert_region_elided regions0 head
                + insert_region_elided regions1 tail }

/-- The ways `heap_get_region` returns for the heap `hp` at `h` (of the memory
type `type`): a region was found in a slab of the heap; the creation of a slab
failed; a slab was created for an oversized request; a slab was created and
appended to the heap. -/
inductive hgr_outcome (vk : mpvk_ctx) (drv : vk_driver) (ma : vk_malloc) (h : Nat × Nat)
    (type : vk_memtype) (hp : vk_heap) (size align : Nat) :
    mpvk_ctx → Option (Nat × Nat) → Prop where
  | found (p idx : Nat) (last : Option vk_slab) :
      size ≤ MPVK_HEAP_MAXIMUM_SLAB_SIZE →
      search_slabs vk size align none hp.slabs = some (some (p, idx), last) →
      hgr_outcome vk drv ma h type hp size align vk (some (p, idx))
  | failed (sz : Nat) (vk2 : mpvk_ctx) :
      slab_alloc vk drv type hp.usage sz = some (vk2, none) →
      hgr_outcome vk drv ma h type hp size align vk2 none
  | oversized (vk2 : mpvk_ctx) (p : Nat) :
      size > MPVK_HEAP_MAXIMUM_SLAB_SIZE →
      slab_alloc vk drv type hp.usage size = some (vk2, some p) →
      hgr_outcome vk drv ma h type hp size align vk2 (some (p, 0))
  | grown (vk2 : mpvk_ctx) (p : Nat) (last : Option vk_slab) :
      size ≤ MPVK_HEAP_MAXIMUM_SLAB_SIZE →
      search_slabs vk size align none hp.slabs = some (none, last) →
      size ≤ new_slab_size size last →
      slab_alloc vk drv type hp.usage (new_slab_size size last) = some (vk2, some p) →
      hgr_outcome vk drv ma h type hp size align
        { vk2 with alloc := some (heap_append_slab ma h p) } (some (p, 0))

/-- The memory property flags the request asks for. -/
def vk_request.flags : vk_request → Nat
  | .generic _ flags => flags
  | .buffer _ memFlags _ _ _ => memFlags

/-- The `memoryTypeBits` handed to `find_best_memtype` (none for a buffer). -/
def vk_request.typeBits : vk_request → Option Nat
  | .generic reqs _ => some reqs.memoryTypeBits
  | .buffer _ _ _ _ _ => none

/-- The usage of the heap the request is served from. -/
def vk_request.usage : vk_request → Nat
  | .generic _ _ => 0
  | .buffer bufFlags _ _ _ _ => bufFlags

/-- A driver whose `allocate_memory` fails. -/
def fail_drv : vk_driver :=
  { createBuffer := some 7, reqs_size := 1048576, reqs_memoryTypeBits := 1,
    allocateMemory := none, mapMemory := some 65536, bindBufferMemory := true }

/-- The context after the request `demo_req` with the failing driver. -/
def fail_ctx : mpvk_ctx :=
  match demo_req.run demo_init fail_drv with
  | some (vk, _) => vk
  | none => demo_init

/-- The slab pointers linked into the heaps of one memory type. -/
def type_slabs (t : vk_memtype) : List Nat :=
  t.heaps.flatMap (fun h => h.slabs)

/-- The mapping of a slab agrees with a memory type of property flags `flags`:
`data` is null when the type is not host visible, and otherwise the record of
calls holds the successful `map_memory` of the slab's memory that returned
`data`. -/
def data_ok (flags : Nat) (calls : List dev_call) (slab : vk_slab) : Prop :=
  (flags &&& VK_MEMORY_PROPERTY_HOST_VISIBLE_BIT = 0 → slab.data = 0) ∧
  (flags &&& VK_MEMORY_PROPERTY_HOST_VISIBLE_BIT ≠ 0 →
    dev_call.map_memory slab.mem true slab.data ∈ calls)

/-- The invariant of the mappings: every slab linked into a heap of a memory
type agrees with the type. -/
def data_inv (vk : mpvk_ctx) : Prop :=
  ∀ ma, vk.alloc = some ma → ∀ ti t, ma.types.get? ti = some t →
    ∀ p ∈ type_slabs t, ∀ slab, get_slab vk p = some slab → data_ok t.flags vk.calls slab

/-- What the caller's `vk_bufslice` holds before a call when it was used
before: a stale mapped pointer. -/
def stale_out : vk_bufslice :=
  { mem := { vkmem := 0, offset := 0, size := 0, priv := 0 }, buf := 0, data := 5 }

/-- The context after a buffer request on the device of `demo_init`, whose
memory type is not host visible. -/
def nv_ctx : mpvk_ctx :=
  match vk_malloc_buffer demo_init hv_drv 1 0 4096 16 stale_out with
  | some (vk, _) => vk
  | none => demo_init

/-- The buffer slice of that request. -/
def nv_out : vk_bufslice :=
  { mem := { vkmem := 9, offset := 0, size := 4096, priv := 0 }, buf := 7, data := 5 }

/-- The buffer slice of the first request on the host-visible device. -/
def hv_out1 : vk_bufslice :=
  { mem := { vkmem := 9, offset := 0, size := 4096, priv := 0 }, buf := 7, data := 65536 }

/-- The size of the new slab in the words of the specification:
`min(2^29, max(2^20, 4 * max(size, s_last)))`. -/
def grown_slab_size (size s_last : Nat) : Nat :=
  min (2 ^ 29) (max (2 ^ 20) (4 * max size s_last))

/-- The size of the last slab of a list of slab pointers, 0 if there is none. -/
def last_slab_size (vk : mpvk_ctx) (slabs : List Nat) : Nat :=
  match slabs.getLast? with
  | none => 0
  | some p =>
    match get_slab vk p with
    | none => 0
    | some s => s.size

/-- The size of the slab the variable `slab` points to after the loop of
`heap_get_region`, 0 for a null pointer. -/
def slab_size_or_zero : Option vk_slab → Nat
  | some s => s.size
  | none => 0

/-- Scenario S6: `n` generic requests of 2 MiB, none freed. -/
def alloc_n : Nat → mpvk_ctx → Option mpvk_ctx
  | 0, vk => some vk
  | n + 1, vk =>
    match alloc_ok vk (gen_req 2097152 1) with
    | some (vk1, _) => alloc_n n vk1
    | none => none

/-- The sizes of the slabs in the store. -/
def slab_sizes (vk : Option mpvk_ctx) : Option (List Nat) :=
  vk.map (fun v => v.slabs.map (fun s => match s with | some s => s.size | none => 0))

/-- A freshly initialised allocator with one memory type, on a device of
`bufferImageGranularity` `g`. -/
def s1_init (g : Nat) : mpvk_ctx :=
  vk_malloc_init { bufferImageGranularity := g, alloc := none, slabs := [], calls := [] }
    [{ propertyFlags := 0, heapIndex := 0 }]

/-- Scenario S1 on the generic heap: A = 4 KiB aligned 256, B = 64 KiB aligned
4096, free A, C = 4 KiB aligned 256. The result is `(A, C)`. -/
def s1_run (g : Nat) : Option (vk_memslice × vk_memslice) := do
  let (v1, a) ← alloc_ok (s1_init g) (gen_req 4096 256)
  let (v2, _) ← alloc_ok v1 (gen_req 65536 4096)
  let v3 ← vk_free_memslice v2 a
  let (_, c) ← alloc_ok v3 (gen_req 4096 256)
  some (a, c)

/-- Both boundaries of the region are multiples of
`MPVK_HEAP_MINIMUM_REGION_SIZE`. -/
def on_grid (r : vk_region) : Prop :=
  MPVK_HEAP_MINIMUM_REGION_SIZE ∣ r.start ∧ MPVK_HEAP_MINIMUM_REGION_SIZE ∣ r.end_

/-- The slab `p` lost no free space: nothing was elided, and the free regions
and the live slices of the slab begin and end at multiples of
`MPVK_HEAP_MINIMUM_REGION_SIZE`. -/
def grid_ok (live : List vk_memslice) (p : Nat) (slab : vk_slab) : Prop :=
  slab.elided = 0 ∧ (∀ r ∈ slab.regions, on_grid r) ∧
  ∀ s ∈ live, s.priv = p →
    MPVK_HEAP_MINIMUM_REGION_SIZE ∣ s.offset ∧ MPVK_HEAP_MINIMUM_REGION_SIZE ∣ s.size

/-- The invariant of the slab `p` for C17: its size is positive, and if the
size is a multiple of `MPVK_HEAP_MINIMUM_REGION_SIZE`, the slab lost no free
space. -/
def grid_inv (p : Nat) (vk : mpvk_ctx) (live : List vk_memslice) : Prop :=
  ∀ slab, get_slab vk p = some slab →
    0 < slab.size ∧ (MPVK_HEAP_MINIMUM_REGION_SIZE ∣ slab.size → grid_ok live p slab)

/-- `ReachableOn p vk live`: as `Reachable vk live`, by a sequence of calls in
which every slice carved from the slab `p` has a size that is a multiple of
`MPVK_HEAP_MINIMUM_REGION_SIZE`. -/
inductive ReachableOn (p : Nat) : mpvk_ctx → List vk_memslice → Prop where
  | init (vk0 : mpvk_ctx) (prop : List VkMemoryType) (g : Nat) :
      g < 64 → vk0.bufferImageGranularity = 2 ^ g → vk0.slabs = [] →
      prop.length ≤ 32 →
      ReachableOn p (vk_malloc_init vk0 prop) []
  | malloc (vk : mpvk_ctx) (live : List vk_memslice) (drv : vk_driver)
      (req : vk_request) (k : Nat) (vk1 : mpvk_ctx) (out : Option vk_memslice) :
      ReachableOn p vk live →
      k < 64 → req.alignment = 2 ^ k → req.size < SIZE_MOD →
      req.run vk drv = some (vk1, out) →
      (∀ s, out = some s → s.priv = p → MPVK_HEAP_MINIMUM_REGION_SIZE ∣ req.size) →
      ReachableOn p vk1 (returned out ++ live)
  | free (vk : mpvk_ctx) (live : List vk_memslice) (slice : vk_memslice)
      (vk1 : mpvk_ctx) :
      ReachableOn p vk live →
      slice ∈ live →
      vk_free_memslice vk slice = some vk1 →
      ReachableOn p vk1 (live.erase slice)

/-- The context a request returns, for the scenarios. -/
def ctx_of (r : Option (mpvk_ctx × Option vk_memslice)) : mpvk_ctx :=
  match r with
  | some (vk, _) => vk
  | none => demo_vk0

/-- A generic request of 4 KiB, alignment 1. -/
def s2_req : vk_request := gen_req 4096 1

def s2_left : vk_memslice := { vkmem := 9, offset := 0, size := 4096, priv := 0 }

def s2_middle : vk_memslice := { vkmem := 9, offset := 4096, size := 4096, priv := 0 }

def s2_right : vk_memslice := { vkmem := 9, offset := 8192, size := 4096, priv := 0 }

/-- Scenario S2: the state after the first request, which creates the slab of
1 MiB. -/
def s2_ctx1 : mpvk_ctx := ctx_of (s2_req.run demo_init demo_drv)

def s2_ctx2 : mpvk_ctx := ctx_of (s2_req.run s2_ctx1 demo_drv)

/-- Scenario S2: the state with the three slices. -/
def s2_ctx3 : mpvk_ctx := ctx_of (s2_req.run s2_ctx2 demo_drv)

/-- Scenario S2: the middle slice is freed. -/
def s2_ctx4 : mpvk_ctx := (vk_free_memslice s2_ctx3 s2_middle).getD demo_vk0

/-- Scenario S2: the left slice is freed. -/
def s2_ctx5 : mpvk_ctx := (vk_free_memslice s2_ctx4 s2_left).getD demo_vk0

/-- Scenario S2: the right slice is freed. -/
def s2_ctx6 : mpvk_ctx := (vk_free_memslice s2_ctx5 s2_right).getD demo_vk0

/-- The slab of scenario S2 after the three frees. -/
def s2_slab : vk_slab :=
  { mem := 9, size := 1048576, used := 0, dedicated := false,
    regions := [{ start := 0, end_ := 1048576 }], buffer := 0, data := 0, elided := 0 }

/-! ## UTF-8 decoding (`misc/bstr_utf8.c`): the model -/

/-- The halving loop of `av_log2`, with `fuel` iterations at most. -/
def av_log2_fuel : Nat → Nat → Nat
  | 0, _ => 0
  | fuel + 1, v => if v ≥ 2 then av_log2_fuel fuel (v / 2) + 1 else 0

/-- Modelled from the spec: `av_log2` of libavutil is not among the sources, and
the specification does not describe it; this is the function of its
documentation on an `unsigned` (32 bit) value: the index of the highest set
bit, and 0 for 0. -/
def av_log2 (v : Nat) : Nat := av_log2_fuel 32 v

/-- The source's `bstr_parse_utf8_code_length`; `b` is an `unsigned char`. -/
def bstr_parse_utf8_code_length (b : Nat) : Int :=
  if b < 128 then 1
  else
    let bytes : Int := 7 - (av_log2 (b ^^^ 255) : Nat)
    if bytes ≥ 2 ∧ bytes ≤ 4 then bytes else -1

/-- The `for` loop of `bstr_decode_utf8` with `n` iterations left, on the
`unsigned` (32 bit) `codepoint` and the string `s`. The result is `none` for a
read past the end of the string, `some none` for `return -1`, and the
codepoint and the rest of the string after the loop. `tmp & ~0xC0` is an
`int` operation, `~0xC0` being `0xFFFFFF3F`. -/
def decode_loop : Nat → Nat → List Nat → Option (Option (Nat × List Nat))
  | 0, codepoint, s => some (some (codepoint, s))
  | _ + 1, _, [] => none
  | n + 1, codepoint, tmp :: rest =>
    if tmp &&& 0xC0 ≠ 0x80 then some none
    else decode_loop n (((codepoint <<< 6) % 2 ^ 32) ||| (tmp &&& 0xFFFFFF3F)) rest

/-- The source's `bstr_decode_utf8` with a non-null `out_next`. A string is the
list of its bytes; `out_next` is what `*out_next` holds before the call. The
result is the value returned and what `*out_next` holds after the call; it is
`none` for a read past the end of the string. -/
def bstr_decode_utf8 (s : List Nat) (out_next : List Nat) : Option (Int × List Nat) :=
  match s with
  | [] => some (-1, out_next)
  | b :: s1 =>
    let codepoint := b
    if codepoint ≥ 128 then
      let bytes := bstr_parse_utf8_code_length codepoint
      if bytes < 1 ∨ (s1.length : Int) < bytes - 1 then some (-1, out_next)
      else
        let codepoint := codepoint &&& (127 >>> bytes.toNat)
        match decode_loop (bytes.toNat - 1) codepoint s1 with
        | none => none
        | some none => some (-1, out_next)
        | some (some (codepoint, s2)) =>
          if codepoint > 0x10FFFF ∨ (codepoint ≥ 0xD800 ∧ codepoint ≤ 0xDFFF) then
            some (-1, out_next)
          else
            let min : Nat := if bytes = 2 then 0x80 else 1 <<< (5 * bytes.toNat - 4)
            if codepoint < min then some (-1, out_next)
            else some ((codepoint : Int), s2)
    else some ((codepoint : Int), s1)

/-- A Unicode scalar value: `0..0x10FFFF` without the surrogates. -/
def is_scalar_value (cp : Nat) : Prop :=
  cp ≤ 0x10FFFF ∧ ¬ (0xD800 ≤ cp ∧ cp ≤ 0xDFFF)

/-- The shortest-form UTF-8 encoding of a code point of at most 21 bits. -/
def utf8_encode (cp : Nat) : List Nat :=
  if cp < 0x80 then [cp]
  else if cp < 0x800 then [0xC0 + cp / 64, 0x80 + cp % 64]
  else if cp < 0x10000 then [0xE0 + cp / 4096, 0x80 + cp / 64 % 64, 0x80 + cp % 64]
  else [0xF0 + cp / 262144, 0x80 + cp / 4096 % 64, 0x80 + cp / 64 % 64, 0x80 + cp % 64]

/-- The conversion of a `size_t` value to `int` for a `return` (the value is
reduced modulo 2^32 to the range of `int`). -/
def size_to_int (x : Nat) : Int :=
  if x % 2 ^ 32 < 2 ^ 31 then ((x % 2 ^ 32 : Nat) : Int) else ((x % 2 ^ 32 : Nat) : Int) - 2 ^ 32

/-- The `for` loop of `bstr_validate_utf8` over the bytes after the lead byte,
at index `n` with `k` iterations left. The result is `none` for a read past
the end of the string, `some (some r)` for `return r`, and `some none` when the
loop ends or is left by `break`. `-(bytes - s.len)` is computed in `size_t`. -/
def cut_off_loop (bytes : Nat) (s : List Nat) : Nat → Nat → Option (Option Int)
  | 0, _ => some none
  | k + 1, n =>
    if n ≥ s.length then
      some (some (size_to_int ((2 ^ 64 - (bytes + 2 ^ 64 - s.length) % 2 ^ 64) % 2 ^ 64)))
    else
      match s.get? n with
      | none => none
      | some tmp =>
        if tmp &&& 0xC0 ≠ 0x80 then some none
        else cut_off_loop bytes s k (n + 1)

/-- The body of `if (bstr_decode_utf8(s, &s) < 0)` in `bstr_validate_utf8`: the
value returned for the string `s` at which decoding failed; `none` for a read
past the end of the string. -/
def validate_error (s : List Nat) : Option Int :=
  match s with
  | [] => none
  | codepoint :: _ =>
    let bytes := bstr_parse_utf8_code_length codepoint
    if bytes > 1 ∧ s.length < 6 then
      match cut_off_loop bytes.toNat s (bytes.toNat - 1) 1 with
      | none => none
      | some (some r) => some r
      | some none => some (-8)
    else some (-8)

/-- The source's `bstr_validate_utf8`; `fuel` bounds the number of iterations
of the `while` loop. The result is `none` when the fuel runs out or a byte past
the end of the string is read. -/
def bstr_validate_utf8 : Nat → List Nat → Option Int
  | _, [] => some 0
  | 0, _ :: _ => none
  | fuel + 1, b :: t =>
    match bstr_decode_utf8 (b :: t) (b :: t) with
    | none => none
    | some (r, s1) =>
      if r < 0 then validate_error s1 else bstr_validate_utf8 fuel s1

/-- Valid UTF-8 in the words of C21: a concatenation of sequences each accepted
by `bstr_decode_utf8` (the call succeeds and consumes the whole sequence). -/
inductive valid_utf8 : List Nat → Prop where
  | nil : valid_utf8 []
  | cons (seq rest : List Nat) (r : Int) :
      bstr_decode_utf8 seq [] = some (r, []) → 0 ≤ r → valid_utf8 rest →
      valid_utf8 (seq ++ rest)

/-- A rest of a string that `bstr_validate_utf8` takes for a sequence cut off
with `N` bytes missing: a lead byte of a sequence of `rest.length + N` bytes,
followed by continuation bytes only. -/
def cut_off_tail (rest : List Nat) (N : Nat) : Prop :=
  ∃ lead conts, rest = lead :: conts ∧ (∀ t ∈ conts, 128 ≤ t ∧ t < 192) ∧ 1 ≤ N ∧
    bstr_parse_utf8_code_length lead = ((rest.length + N : Nat) : Int)

/-- Valid-but-cut-off UTF-8 in the words of C22: the valid string
`v ++ utf8_encode cp` from which the `N >= 1` trailing bytes `suf` of the final
sequence were removed, a part `pre` of that sequence being left. -/
def cut_off (s : List Nat) (N : Nat) : Prop :=
  ∃ v cp pre suf, valid_utf8 v ∧ is_scalar_value cp ∧ utf8_encode cp = pre ++ suf ∧
    pre ≠ [] ∧ suf.length = N ∧ 1 ≤ N ∧ s = v ++ pre

/-- The `while (shift >= 6)` loop of `PUT_UTF8` with `k` iterations left (the
shift is `6 * k` after `shift -= 6`); `tmp` is a `uint8_t`. -/
def put_utf8_tail (inp : Nat) : Nat → List Nat
  | 0 => []
  | k + 1 => ((0x80 ||| ((inp >>> (6 * k)) &&& 0x3f)) % 256) :: put_utf8_tail inp k

/-- Modelled from the spec: the macro `PUT_UTF8` of libavutil is not among the
sources, and the specification does not describe it; this is the macro of
libavutil's `common.h` on a `uint32_t` value, the list being the bytes it
puts. -/
def PUT_UTF8 (val : Nat) : List Nat :=
  let inp := val % 2 ^ 32
  if inp < 0x80 then [inp % 256]
  else
    let bytes := (av_log2 inp + 4) / 5
    let shift := (bytes - 1) * 6
    (((256 - (256 >>> bytes)) ||| (inp >>> shift)) % 256) :: put_utf8_tail inp (bytes - 1)

/-- Modelled from the spec: `bstr_xappend` (`misc/bstr.c`) is not among the
sources, and the specification does not describe it; this is the function of
its documentation, the append to a talloc'ed buffer. A buffer is `none` when
its `start` is `NULL`. Whether an append of no bytes allocates the buffer
differs between versions of the function, so it is the parameter
`alloc_empty`. -/
def bstr_xappend (alloc_empty : Bool) (s : Option (List Nat)) (append : List Nat) :
    Option (List Nat) :=
  if append.length = 0 ∧ alloc_empty = false then s else some (s.getD [] ++ append)

/-- The source's `bstr_append_utf8`. -/
def bstr_append_utf8 (alloc_empty : Bool) (buf : Option (List Nat)) (codepoint : Nat) :
    Option (List Nat) :=
  bstr_xappend alloc_empty buf (PUT_UTF8 codepoint)

/-- The `while` loop of `bstr_sanitize_utf8_latin1`. `new` is the buffer, `ok`
the bytes from `first_ok` up to `left.start`, `left` the string still to be
read; `fuel` bounds the number of iterations. The result is `new` and `ok`
after the loop, or `none` when the fuel runs out or a byte past the end of the
string is read. -/
def sanitize_loop (alloc_empty : Bool) :
    Nat → Option (List Nat) → List Nat → List Nat → Option (Option (List Nat) × List Nat)
  | _, new, ok, [] => some (new, ok)
  | 0, _, _, _ :: _ => none
  | fuel + 1, new, ok, b :: t =>
    match bstr_decode_utf8 (b :: t) (b :: t) with
    | none => none
    | some (r, left1) =>
      if r < 0 then
        match left1 with
        | [] => none
        | c :: left2 =>
          let new1 := bstr_xappend alloc_empty new ok
          let new2 := bstr_append_utf8 alloc_empty new1 c
          sanitize_loop alloc_empty fuel new2 [] left2
      else
        sanitize_loop alloc_empty fuel new
          (ok ++ (b :: t).take ((b :: t).length - left1.length)) left1

/-- The source's `bstr_sanitize_utf8_latin1`: the bytes of the string
returned. -/
def bstr_sanitize_utf8_latin1 (alloc_empty : Bool) (fuel : Nat) (s : List Nat) :
    Option (List Nat) :=
  match sanitize_loop alloc_empty fuel none [] s with
  | none => none
  | some (none, _) => some s
  | some (some new, ok) =>
    if ok ≠ [] then bstr_xappend alloc_empty (some new) ok
    else some new

/-- The result of the sanitising in the words of C23: every validly decoded
sequence is copied, every byte at which decoding fails is replaced by the UTF-8
encoding of the byte read as a Latin-1 code point. -/
inductive sanitized : List Nat → List Nat → Prop where
  | nil : sanitized [] []
  | copy (cp : Nat) (rest out : List Nat) :
      is_scalar_value cp → sanitized rest out →
      sanitized (utf8_encode cp ++ rest) (utf8_encode cp ++ out)
  | replace (b : Nat) (t out : List Nat) :
      bstr_decode_utf8 (b :: t) [] = some (-1, []) → sanitized t out →
      sanitized (b :: t) (utf8_encode b ++ out)

/-- Scenario of C25: four slices of 4 KiB are carved from a fresh slab of
1 MiB, the first and the third are freed. The free regions are `[0, 4096)`,
`[8192, 12288)` and `[16384, 1 MiB)`. -/
def tie_state : Option mpvk_ctx := do
  let (v1, a) ← alloc_ok demo_init (gen_req 4096 1)
  let (v2, _) ← alloc_ok v1 (gen_req 4096 1)
  let (v3, c) ← alloc_ok v2 (gen_req 4096 1)
  let (v4, _) ← alloc_ok v3 (gen_req 4096 1)
  let v5 ← vk_free_memslice v4 a
  vk_free_memslice v5 c

/-- Scenario of C25: a request of 4 KiB with alignment 1 in `tie_state`. -/
def tie_request : Option (mpvk_ctx × vk_memslice) := do
  let v ← tie_state
  alloc_ok v (gen_req 4096 1)

/-- A well-formed region list in the words of C26: sorted, disjoint, no two
consecutive regions touching (`sep`), every region non-empty. -/
def wf_regions (l : List vk_region) : Prop :=
  l.Pairwise sep ∧ ∀ e ∈ l, e.start < e.end_

/-- The byte `t` is covered by the list. -/
def covered (l : List vk_region) (t : Nat) : Prop := ∃ e ∈ l, in_region e t

/-- The region `r` touches a region of the list. -/
def touches (l : List vk_region) (r : vk_region) : Prop :=
  ∃ e ∈ l, e.end_ = r.start ∨ e.start = r.end_

/-- The slab at `q` qualifies for the request: it is large enough and one of
its regions fits. -/
def qualifies (vk : mpvk_ctx) (size align : Nat) (q : Nat) : Prop :=
  ∃ slab, get_slab vk q = some slab ∧ size ≤ slab.size ∧
    ∃ r ∈ slab.regions, region_fits r size align = true

/-- Scenario of C27: a request of 1 MiB creates the slab 0 of 4 MiB. -/
def ff_ctx1 : mpvk_ctx := ctx_of ((gen_req 1048576 1).run demo_init demo_drv)

/-- Scenario of C27: a request of 3 MiB fills the slab 0. -/
def ff_ctx2 : mpvk_ctx := ctx_of ((gen_req 3145728 1).run ff_ctx1 demo_drv)

/-- Scenario of C27: a request of 4 KiB creates the slab 1 of 16 MiB. -/
def ff_ctx3 : mpvk_ctx := ctx_of ((gen_req 4096 1).run ff_ctx2 demo_drv)

def ff_slice_a : vk_memslice := { vkmem := 9, offset := 0, size := 1048576, priv := 0 }

def ff_slice_b : vk_memslice := { vkmem := 9, offset := 1048576, size := 3145728, priv := 0 }

def ff_slice_c : vk_memslice := { vkmem := 9, offset := 0, size := 4096, priv := 1 }

/-- The slab 1 of `ff_ctx3`. -/
def ff_slab1 : vk_slab :=
  { mem := 9, size := 16777216, used := 4096, dedicated := false,
    regions := [{ start := 4096, end_ := 16777216 }], buffer := 0, data := 0, elided := 0 }

def ff_heap : vk_heap := { usage := 0, slabs := [0, 1] }

def ff_type : vk_memtype := { index := 0, heapIndex := 0, flags := 0, heaps := [ff_heap] }

/-- The allocator of `ff_ctx3`. -/
def ff_alloc : vk_malloc := { types := [ff_type] }

/-- `Steps vk live vk1 live1`: the context `vk1` with the live slices `live1` is
reached from `vk` with the live slices `live` by calls of `vk_malloc_generic` /
`vk_malloc_buffer` and of `vk_free_memslice` on live slices. -/
inductive Steps (vk : mpvk_ctx) (live : List vk_memslice) :
    mpvk_ctx → List vk_memslice → Prop where
  | refl : Steps vk live vk live
  | malloc (vk1 : mpvk_ctx) (live1 : List vk_memslice) (drv : vk_driver)
      (req : vk_request) (k : Nat) (vk2 : mpvk_ctx) (out : Option vk_memslice) :
      Steps vk live vk1 live1 →
      k < 64 → req.alignment = 2 ^ k → req.size < SIZE_MOD →
      req.run vk1 drv = some (vk2, out) →
      Steps vk live vk2 (returned out ++ live1)
  | free (vk1 : mpvk_ctx) (live1 : List vk_memslice) (slice : vk_memslice)
      (vk2 : mpvk_ctx) :
      Steps vk live vk1 live1 →
      slice ∈ live1 →
      vk_free_memslice vk1 slice = some vk2 →
      Steps vk live vk2 (live1.erase slice)

/-- The memory type satisfies the request of `find_best_memtype`. -/
def memtype_matches (t : vk_memtype) (flags : Nat) (reqs : Option Nat) : Prop :=
  t.flags &&& flags = flags ∧ ∀ bits, reqs = some bits → bits &&& (1 <<< t.index) ≠ 0

/-- A device with three memory types, for C29. -/
def three_types : vk_malloc :=
  { types := init_types 0 [{ propertyFlags := 1, heapIndex := 0 },
      { propertyFlags := 6, heapIndex := 1 }, { propertyFlags := 7, heapIndex := 1 }] }

/-- No two heaps of a memory type have the same usage mask. -/
def usages_nodup (ma : vk_malloc) : Prop :=
  ∀ i t, ma.types.get? i = some t → (t.heaps.map (fun h => h.usage)).Nodup

/-- The sizes of the slabs of a heap, in the order of `heap.slabs`. -/
def heap_slab_sizes (vk : mpvk_ctx) (hp : vk_heap) : List Nat :=
  hp.slabs.map (fun p => slab_size_or_zero (get_slab vk p))

/-- The slabs of the heap exist, their sizes lie between the minimum and the
maximum slab size, and the sizes do not decrease along `heap.slabs`. -/
def heap_sizes_ok (vk : mpvk_ctx) (hp : vk_heap) : Prop :=
  (∀ p ∈ hp.slabs, ∃ slab, get_slab vk p = some slab ∧
    MPVK_HEAP_MINIMUM_SLAB_SIZE ≤ slab.size ∧ slab.size ≤ MPVK_HEAP_MAXIMUM_SLAB_SIZE) ∧
  (heap_slab_sizes vk hp).Pairwise (fun a b => a ≤ b)

/-- Every heap of the allocator satisfies `heap_sizes_ok`. -/
def sizes_inv (vk : mpvk_ctx) : Prop :=
  ∃ ma, vk.alloc = some ma ∧ ∀ h hp, get_heap ma h = some hp → heap_sizes_ok vk hp

/-- The fields of a slab that neither the carve of `slice_heap` nor
`vk_free_memslice` writes: the second slab has the memory handle, size,
dedicated flag, buffer and data pointer of the first. -/
def slab_frame (a b : vk_slab) : Prop :=
  b.mem = a.mem ∧ b.size = a.size ∧ b.dedicated = a.dedicated ∧ b.buffer = a.buffer ∧
    b.data = a.data

/-- The number of heaps of the allocator, over all memory types. -/
def heap_count (ma : vk_malloc) : Nat :=
  (ma.types.map (fun t => t.heaps.length)).sum

/-- The heap `b` is the heap `a`, possibly with one slab appended. -/
def heap_extends (a b : vk_heap) : Prop :=
  b.usage = a.usage ∧ (b.slabs = a.slabs ∨ ∃ p, b.slabs = a.slabs ++ [p])

/-! ## Colour enum mappings (`video/csputils.c`): the model -/

/-- The values of the enumerators of libavutil (`AVColorSpace`, `AVColorRange`,
`AVColorPrimaries`, `AVColorTransferCharacteristic`, `AVChromaLocation`) that
`csputils.c` names. Their declarations are not among the sources, so the values
are a parameter of the model. -/
structure avutil_enums where
  AVCOL_SPC_BT709 : Int
  AVCOL_SPC_BT470BG : Int
  AVCOL_SPC_BT2020_NCL : Int
  AVCOL_SPC_BT2020_CL : Int
  AVCOL_SPC_SMPTE170M : Int
  AVCOL_SPC_SMPTE240M : Int
  AVCOL_SPC_RGB : Int
  AVCOL_SPC_YCOCG : Int
  AVCOL_SPC_UNSPECIFIED : Int
  AVCOL_RANGE_MPEG : Int
  AVCOL_RANGE_JPEG : Int
  AVCOL_RANGE_UNSPECIFIED : Int
  AVCOL_PRI_SMPTE240M : Int
  AVCOL_PRI_SMPTE170M : Int
  AVCOL_PRI_BT470BG : Int
  AVCOL_PRI_BT709 : Int
  AVCOL_PRI_BT2020 : Int
  AVCOL_PRI_BT470M : Int
  AVCOL_PRI_UNSPECIFIED : Int
  AVCOL_TRC_BT709 : Int
  AVCOL_TRC_SMPTE170M : Int
  AVCOL_TRC_SMPTE240M : Int
  AVCOL_TRC_BT1361_ECG : Int
  AVCOL_TRC_BT2020_10 : Int
  AVCOL_TRC_BT2020_12 : Int
  AVCOL_TRC_IEC61966_2_1 : Int
  AVCOL_TRC_LINEAR : Int
  AVCOL_TRC_GAMMA22 : Int
  AVCOL_TRC_GAMMA28 : Int
  AVCOL_TRC_SMPTEST2084 : Int
  AVCOL_TRC_ARIB_STD_B67 : Int
  AVCOL_TRC_UNSPECIFIED : Int
  AVCHROMA_LOC_LEFT : Int
  AVCHROMA_LOC_CENTER : Int
  AVCHROMA_LOC_UNSPECIFIED : Int

/-- The values of the enumerators of `libplacebo/public/colorspace.h`
(`pl_color_system`, `pl_color_levels`, `pl_color_primaries`,
`pl_color_transfer`, `pl_chroma_location`) that the mapping functions of
`csputils.c` name. The header is not among the sources, so the values are a
parameter of the model. -/
structure placebo_enums where
  PL_COLOR_SYSTEM_UNKNOWN : Int
  PL_COLOR_SYSTEM_BT_601 : Int
  PL_COLOR_SYSTEM_BT_709 : Int
  PL_COLOR_SYSTEM_SMPTE_240M : Int
  PL_COLOR_SYSTEM_BT_2020_NC : Int
  PL_COLOR_SYSTEM_BT_2020_C : Int
  PL_COLOR_SYSTEM_RGB : Int
  PL_COLOR_SYSTEM_YCGCO : Int
  PL_COLOR_LEVELS_UNKNOWN : Int
  PL_COLOR_LEVELS_TV : Int
  PL_COLOR_LEVELS_PC : Int
  PL_COLOR_PRIM_UNKNOWN : Int
  PL_COLOR_PRIM_BT_601_525 : Int
  PL_COLOR_PRIM_BT_601_625 : Int
  PL_COLOR_PRIM_BT_709 : Int
  PL_COLOR_PRIM_BT_2020 : Int
  PL_COLOR_PRIM_BT_470M : Int
  PL_COLOR_TRC_UNKNOWN : Int
  PL_COLOR_TRC_BT_1886 : Int
  PL_COLOR_TRC_SRGB : Int
  PL_COLOR_TRC_LINEAR : Int
  PL_COLOR_TRC_GAMMA22 : Int
  PL_COLOR_TRC_GAMMA28 : Int
  PL_COLOR_TRC_PQ : Int
  PL_COLOR_TRC_HLG : Int
  PL_CHROMA_UNKNOWN : Int
  PL_CHROMA_LEFT : Int
  PL_CHROMA_CENTER : Int

/-- The source's `avcol_spc_to_mp_csp`. A `switch` is the chain of comparisons
with its case labels in source order (the labels of one `switch` are pairwise
distinct in C). -/
def avcol_spc_to_mp_csp (av : avutil_enums) (pl : placebo_enums) (avcolorspace : Int) : Int :=
  if avcolorspace = av.AVCOL_SPC_BT709 then pl.PL_COLOR_SYSTEM_BT_709
  else if avcolorspace = av.AVCOL_SPC_BT470BG then pl.PL_COLOR_SYSTEM_BT_601
  else if avcolorspace = av.AVCOL_SPC_BT2020_NCL then pl.PL_COLOR_SYSTEM_BT_2020_NC
  else if avcolorspace = av.AVCOL_SPC_BT2020_CL then pl.PL_COLOR_SYSTEM_BT_2020_C
  else if avcolorspace = av.AVCOL_SPC_SMPTE170M then pl.PL_COLOR_SYSTEM_BT_601
  else if avcolorspace = av.AVCOL_SPC_SMPTE240M then pl.PL_COLOR_SYSTEM_SMPTE_240M
  else if avcolorspace = av.AVCOL_SPC_RGB then pl.PL_COLOR_SYSTEM_RGB
  else if avcolorspace = av.AVCOL_SPC_YCOCG then pl.PL_COLOR_SYSTEM_YCGCO
  else pl.PL_COLOR_SYSTEM_UNKNOWN

/-- The source's `avcol_range_to_mp_csp_levels`. -/
def avcol_range_to_mp_csp_levels (av : avutil_enums) (pl : placebo_enums) (avrange : Int) :
    Int :=
  if avrange = av.AVCOL_RANGE_MPEG then pl.PL_COLOR_LEVELS_TV
  else if avrange = av.AVCOL_RANGE_JPEG then pl.PL_COLOR_LEVELS_PC
  else pl.PL_COLOR_LEVELS_UNKNOWN

/-- The source's `avcol_pri_to_mp_csp_prim`. -/
def avcol_pri_to_mp_csp_prim (av : avutil_enums) (pl : placebo_enums) (avpri : Int) : Int :=
  if avpri = av.AVCOL_PRI_SMPTE240M then pl.PL_COLOR_PRIM_BT_601_525
  else if avpri = av.AVCOL_PRI_SMPTE170M then pl.PL_COLOR_PRIM_BT_601_525
  else if avpri = av.AVCOL_PRI_BT470BG then pl.PL_COLOR_PRIM_BT_601_625
  else if avpri = av.AVCOL_PRI_BT709 then pl.PL_COLOR_PRIM_BT_709
  else if avpri = av.AVCOL_PRI_BT2020 then pl.PL_COLOR_PRIM_BT_2020
  else if avpri = av.AVCOL_PRI_BT470M then pl.PL_COLOR_PRIM_BT_470M
  else pl.PL_COLOR_PRIM_UNKNOWN

/-- The source's `avcol_trc_to_mp_csp_trc`. -/
def avcol_trc_to_mp_csp_trc (av : avutil_enums) (pl : placebo_enums) (avtrc : Int) : Int :=
  if avtrc = av.AVCOL_TRC_BT709 then pl.PL_COLOR_TRC_BT_1886
  else if avtrc = av.AVCOL_TRC_SMPTE170M then pl.PL_COLOR_TRC_BT_1886
  else if avtrc = av.AVCOL_TRC_SMPTE240M then pl.PL_COLOR_TRC_BT_1886
  else if avtrc = av.AVCOL_TRC_BT1361_ECG then pl.PL_COLOR_TRC_BT_1886
  else if avtrc = av.AVCOL_TRC_BT2020_10 then pl.PL_COLOR_TRC_BT_1886
  else if avtrc = av.AVCOL_TRC_BT2020_12 then pl.PL_COLOR_TRC_BT_1886
  else if avtrc = av.AVCOL_TRC_IEC61966_2_1 then pl.PL_COLOR_TRC_SRGB
  else if avtrc = av.AVCOL_TRC_LINEAR then pl.PL_COLOR_TRC_LINEAR
  else if avtrc = av.AVCOL_TRC_GAMMA22 then pl.PL_COLOR_TRC_GAMMA22
  else if avtrc = av.AVCOL_TRC_GAMMA28 then pl.PL_COLOR_TRC_GAMMA28
  else if avtrc = av.AVCOL_TRC_SMPTEST2084 then pl.PL_COLOR_TRC_PQ
  else if avtrc = av.AVCOL_TRC_ARIB_STD_B67 then pl.PL_COLOR_TRC_HLG
  else pl.PL_COLOR_TRC_UNKNOWN

/-- The source's `avchroma_location_to_mp`. -/
def avchroma_location_to_mp (av : avutil_enums) (pl : placebo_enums) (avloc : Int) : Int :=
  if avloc = av.AVCHROMA_LOC_LEFT then pl.PL_CHROMA_LEFT
  else if avloc = av.AVCHROMA_LOC_CENTER then pl.PL_CHROMA_CENTER
  else pl.PL_CHROMA_UNKNOWN

/-- The source's `mp_csp_to_avcol_spc`. -/
def mp_csp_to_avcol_spc (av : avutil_enums) (pl : placebo_enums) (csp : Int) : Int :=
  if csp = pl.PL_COLOR_SYSTEM_BT_709 then av.AVCOL_SPC_BT709
  else if csp = pl.PL_COLOR_SYSTEM_BT_601 then av.AVCOL_SPC_BT470BG
  else if csp = pl.PL_COLOR_SYSTEM_BT_2020_NC then av.AVCOL_SPC_BT2020_NCL
  else if csp = pl.PL_COLOR_SYSTEM_BT_2020_C then av.AVCOL_SPC_BT2020_CL
  else if csp = pl.PL_COLOR_SYSTEM_SMPTE_240M then av.AVCOL_SPC_SMPTE240M
  else if csp = pl.PL_COLOR_SYSTEM_RGB then av.AVCOL_SPC_RGB
  else if csp = pl.PL_COLOR_SYSTEM_YCGCO then av.AVCOL_SPC_YCOCG
  else av.AVCOL_SPC_UNSPECIFIED

/-- The source's `mp_csp_levels_to_avcol_range`. -/
def mp_csp_levels_to_avcol_range (av : avutil_enums) (pl : placebo_enums) (levels : Int) :
    Int :=
  if levels = pl.PL_COLOR_LEVELS_TV then av.AVCOL_RANGE_MPEG
  else if levels = pl.PL_COLOR_LEVELS_PC then av.AVCOL_RANGE_JPEG
  else av.AVCOL_RANGE_UNSPECIFIED

/-- The source's `mp_csp_prim_to_avcol_pri`. -/
def mp_csp_prim_to_avcol_pri (av : avutil_enums) (pl : placebo_enums) (prim : Int) : Int :=
  if prim = pl.PL_COLOR_PRIM_BT_601_525 then av.AVCOL_PRI_SMPTE170M
  else if prim = pl.PL_COLOR_PRIM_BT_601_625 then av.AVCOL_PRI_BT470BG
  else if prim = pl.PL_COLOR_PRIM_BT_709 then av.AVCOL_PRI_BT709
  else if prim = pl.PL_COLOR_PRIM_BT_2020 then av.AVCOL_PRI_BT2020
  else if prim = pl.PL_COLOR_PRIM_BT_470M then av.AVCOL_PRI_BT470M
  else av.AVCOL_PRI_UNSPECIFIED

/-- The source's `mp_csp_trc_to_avcol_trc`. -/
def mp_csp_trc_to_avcol_trc (av : avutil_enums) (pl : placebo_enums) (trc : Int) : Int :=
  if trc = pl.PL_COLOR_TRC_BT_1886 then av.AVCOL_TRC_BT709
  else if trc = pl.PL_COLOR_TRC_SRGB then av.AVCOL_TRC_IEC61966_2_1
  else if trc = pl.PL_COLOR_TRC_LINEAR then av.AVCOL_TRC_LINEAR
  else if trc = pl.PL_COLOR_TRC_GAMMA22 then av.AVCOL_TRC_GAMMA22
  else if trc = pl.PL_COLOR_TRC_GAMMA28 then av.AVCOL_TRC_GAMMA28
  else if trc = pl.PL_COLOR_TRC_PQ then av.AVCOL_TRC_SMPTEST2084
  else if trc = pl.PL_COLOR_TRC_HLG then av.AVCOL_TRC_ARIB_STD_B67
  else av.AVCOL_TRC_UNSPECIFIED

/-- The source's `mp_chroma_location_to_av`. -/
def mp_chroma_location_to_av (av : avutil_enums) (pl : placebo_enums) (loc : Int) : Int :=
  if loc = pl.PL_CHROMA_LEFT then av.AVCHROMA_LOC_LEFT
  else if loc = pl.PL_CHROMA_CENTER then av.AVCHROMA_LOC_CENTER
  else av.AVCHROMA_LOC_UNSPECIFIED

/-- The case labels of the `switch` of `mp_csp_to_avcol_spc`. -/
def mp_csp_cases (pl : placebo_enums) : List Int :=
  [pl.PL_COLOR_SYSTEM_BT_709, pl.PL_COLOR_SYSTEM_BT_601, pl.PL_COLOR_SYSTEM_BT_2020_NC,
    pl.PL_COLOR_SYSTEM_BT_2020_C, pl.PL_COLOR_SYSTEM_SMPTE_240M, pl.PL_COLOR_SYSTEM_RGB,
    pl.PL_COLOR_SYSTEM_YCGCO]

/-- The case labels of the `switch` of `mp_csp_levels_to_avcol_range`. -/
def mp_levels_cases (pl : placebo_enums) : List Int :=
  [pl.PL_COLOR_LEVELS_TV, pl.PL_COLOR_LEVELS_PC]

/-- The case labels of the `switch` of `mp_csp_prim_to_avcol_pri`. -/
def mp_prim_cases (pl : placebo_enums) : List Int :=
  [pl.PL_COLOR_PRIM_BT_601_525, pl.PL_COLOR_PRIM_BT_601_625, pl.PL_COLOR_PRIM_BT_709,
    pl.PL_COLOR_PRIM_BT_2020, pl.PL_COLOR_PRIM_BT_470M]

/-- The case labels of the `switch` of `mp_csp_trc_to_avcol_trc`. -/
def mp_trc_cases (pl : placebo_enums) : List Int :=
  [pl.PL_COLOR_TRC_BT_1886, pl.PL_COLOR_TRC_SRGB, pl.PL_COLOR_TRC_LINEAR,
    pl.PL_COLOR_TRC_GAMMA22, pl.PL_COLOR_TRC_GAMMA28, pl.PL_COLOR_TRC_PQ,
    pl.PL_COLOR_TRC_HLG]

/-- The case labels of the `switch` of `mp_chroma_location_to_av`. -/
def mp_chroma_cases (pl : placebo_enums) : List Int :=
  [pl.PL_CHROMA_LEFT, pl.PL_CHROMA_CENTER]

/-- The enumerators of libavutil that `csputils.c` names are pairwise distinct
within each enumeration. -/
def av_distinct (av : avutil_enums) : Prop :=
  [av.AVCOL_SPC_BT709, av.AVCOL_SPC_BT470BG, av.AVCOL_SPC_BT2020_NCL,
    av.AVCOL_SPC_BT2020_CL, av.AVCOL_SPC_SMPTE170M, av.AVCOL_SPC_SMPTE240M,
    av.AVCOL_SPC_RGB, av.AVCOL_SPC_YCOCG, av.AVCOL_SPC_UNSPECIFIED].Nodup ∧
  [av.AVCOL_RANGE_MPEG, av.AVCOL_RANGE_JPEG, av.AVCOL_RANGE_UNSPECIFIED].Nodup ∧
  [av.AVCOL_PRI_SMPTE240M, av.AVCOL_PRI_SMPTE170M, av.AVCOL_PRI_BT470BG,
    av.AVCOL_PRI_BT709, av.AVCOL_PRI_BT2020, av.AVCOL_PRI_BT470M,
    av.AVCOL_PRI_UNSPECIFIED].Nodup ∧
  [av.AVCOL_TRC_BT709, av.AVCOL_TRC_SMPTE170M, av.AVCOL_TRC_SMPTE240M,
    av.AVCOL_TRC_BT1361_ECG, av.AVCOL_TRC_BT2020_10, av.AVCOL_TRC_BT2020_12,
    av.AVCOL_TRC_IEC61966_2_1, av.AVCOL_TRC_LINEAR, av.AVCOL_TRC_GAMMA22,
    av.AVCOL_TRC_GAMMA28, av.AVCOL_TRC_SMPTEST2084, av.AVCOL_TRC_ARIB_STD_B67,
    av.AVCOL_TRC_UNSPECIFIED].Nodup ∧
  [av.AVCHROMA_LOC_LEFT, av.AVCHROMA_LOC_CENTER, av.AVCHROMA_LOC_UNSPECIFIED].Nodup

/-- The enumerator values of libavutil's `pixfmt.h`. -/
def avutil_values : avutil_enums :=
  { AVCOL_SPC_BT709 := 1, AVCOL_SPC_BT470BG := 5, AVCOL_SPC_BT2020_NCL := 9,
    AVCOL_SPC_BT2020_CL := 10, AVCOL_SPC_SMPTE170M := 6, AVCOL_SPC_SMPTE240M := 7,
    AVCOL_SPC_RGB := 0, AVCOL_SPC_YCOCG := 8, AVCOL_SPC_UNSPECIFIED := 2,
    AVCOL_RANGE_MPEG := 1, AVCOL_RANGE_JPEG := 2, AVCOL_RANGE_UNSPECIFIED := 0,
    AVCOL_PRI_SMPTE240M := 7, AVCOL_PRI_SMPTE170M := 6, AVCOL_PRI_BT470BG := 5,
    AVCOL_PRI_BT709 := 1, AVCOL_PRI_BT2020 := 9, AVCOL_PRI_BT470M := 4,
    AVCOL_PRI_UNSPECIFIED := 2,
    AVCOL_TRC_BT709 := 1, AVCOL_TRC_SMPTE170M := 6, AVCOL_TRC_SMPTE240M := 7,
    AVCOL_TRC_BT1361_ECG := 12, AVCOL_TRC_BT2020_10 := 14, AVCOL_TRC_BT2020_12 := 15,
    AVCOL_TRC_IEC61966_2_1 := 13, AVCOL_TRC_LINEAR := 8, AVCOL_TRC_GAMMA22 := 4,
    AVCOL_TRC_GAMMA28 := 5, AVCOL_TRC_SMPTEST2084 := 16, AVCOL_TRC_ARIB_STD_B67 := 18,
    AVCOL_TRC_UNSPECIFIED := 2,
    AVCHROMA_LOC_LEFT := 1, AVCHROMA_LOC_CENTER := 2, AVCHROMA_LOC_UNSPECIFIED := 0 }

/-- Values for the enumerators of libplacebo: each enumeration numbered from 0,
in the order of the name tables of `csputils.c`. -/
def placebo_values : placebo_enums :=
  { PL_COLOR_SYSTEM_UNKNOWN := 0, PL_COLOR_SYSTEM_BT_601 := 1, PL_COLOR_SYSTEM_BT_709 := 2,
    PL_COLOR_SYSTEM_SMPTE_240M := 3, PL_COLOR_SYSTEM_BT_2020_NC := 4,
    PL_COLOR_SYSTEM_BT_2020_C := 5, PL_COLOR_SYSTEM_RGB := 6, PL_COLOR_SYSTEM_YCGCO := 8,
    PL_COLOR_LEVELS_UNKNOWN := 0, PL_COLOR_LEVELS_TV := 1, PL_COLOR_LEVELS_PC := 2,
    PL_COLOR_PRIM_UNKNOWN := 0, PL_COLOR_PRIM_BT_601_525 := 1,
    PL_COLOR_PRIM_BT_601_625 := 2, PL_COLOR_PRIM_BT_709 := 3, PL_COLOR_PRIM_BT_2020 := 4,
    PL_COLOR_PRIM_BT_470M := 5,
    PL_COLOR_TRC_UNKNOWN := 0, PL_COLOR_TRC_BT_1886 := 1, PL_COLOR_TRC_SRGB := 2,
    PL_COLOR_TRC_LINEAR := 3, PL_COLOR_TRC_GAMMA22 := 5, PL_COLOR_TRC_GAMMA28 := 6,
    PL_COLOR_TRC_PQ := 8, PL_COLOR_TRC_HLG := 9,
    PL_CHROMA_UNKNOWN := 0, PL_CHROMA_LEFT := 1, PL_CHROMA_CENTER := 2 }

/-! ## Alignment arithmetic -/

theorem and_mask_eq (y k : Nat) (hk : k < 64) (hy : y < 2 ^ 64) :
    y &&& (2 ^ 64 - 2 ^ k) = 2 ^ k * (y / 2 ^ k) := by
  apply Nat.eq_of_testBit_eq
  intro i
  have hpk : (2:Nat) ^ k - 1 < 2 ^ 64 := by
    have : (2:Nat) ^ k < 2 ^ 64 := Nat.pow_lt_pow_right (by norm_num) hk
    omega
  have hm : (2:Nat) ^ 64 - 2 ^ k = 2 ^ 64 - ((2 ^ k - 1) + 1) := by
    have : (2:Nat) ^ k ≥ 1 := Nat.one_le_two_pow
    omega
  rw [Nat.testBit_and, hm, Nat.testBit_two_pow_sub_succ hpk, Nat.testBit_two_pow_sub_one,
    Nat.testBit_mul_pow_two, ← Nat.shiftRight_eq_div_pow, Nat.testBit_shiftRight]
  by_cases h1 : i < k
  · have : ¬ (i ≥ k) := by omega
    simp [h1, this]
  · have h2 : i ≥ k := by omega
    have h3 : k + (i - k) = i := by omega
    by_cases h4 : i < 64
    · simp [h1, h2, h3, h4]
    · have : y < 2 ^ i := lt_of_lt_of_le hy (Nat.pow_le_pow_right (by norm_num) (by omega))
      simp [h1, h2, h3, h4, Nat.testBit_lt_two_pow this]

/-- On a power of two `2 ^ k` and without wrap-around, `MP_ALIGN_UP` rounds up to
the next multiple. -/
theorem MP_ALIGN_UP_eq (x k : Nat) (hk : k < 64) (hx : x + 2 ^ k ≤ 2 ^ 64) :
    MP_ALIGN_UP x (2 ^ k) = 2 ^ k * ((x + 2 ^ k - 1) / 2 ^ k) := by
  have hp : (2:Nat) ^ k ≥ 1 := Nat.one_le_two_pow
  have hlt : (2:Nat) ^ k < 2 ^ 64 := Nat.pow_lt_pow_right (by norm_num) hk
  have e1 : (x + 2 ^ k + (2 ^ 64 - 1)) % 2 ^ 64 = x + 2 ^ k - 1 := by
    have : x + 2 ^ k + (2 ^ 64 - 1) = (x + 2 ^ k - 1) + 2 ^ 64 := by omega
    rw [this, Nat.add_mod_right, Nat.mod_eq_of_lt (by omega)]
  have e2 : (2 ^ k + (2 ^ 64 - 1)) % 2 ^ 64 = 2 ^ k - 1 := by
    have : (2:Nat) ^ k + (2 ^ 64 - 1) = (2 ^ k - 1) + 2 ^ 64 := by omega
    rw [this, Nat.add_mod_right, Nat.mod_eq_of_lt (by omega)]
  have e3 : (2:Nat) ^ 64 - 1 - (2 ^ k - 1) = 2 ^ 64 - 2 ^ k := by omega
  unfold MP_ALIGN_UP SIZE_MOD
  rw [e1, e2, e3]
  exact and_mask_eq _ k hk (by omega)

theorem MP_ALIGN_UP_spec (x k : Nat) (hk : k < 64) (hx : x + 2 ^ k ≤ 2 ^ 64) :
    x ≤ MP_ALIGN_UP x (2 ^ k) ∧ MP_ALIGN_UP x (2 ^ k) < x + 2 ^ k ∧
      MP_ALIGN_UP x (2 ^ k) % 2 ^ k = 0 := by
  rw [MP_ALIGN_UP_eq x k hk hx]
  have hp : (2:Nat) ^ k > 0 := Nat.two_pow_pos k
  have h1 := Nat.div_add_mod (x + 2 ^ k - 1) (2 ^ k)
  have h2 := Nat.mod_lt (x + 2 ^ k - 1) hp
  refine ⟨by omega, by omega, Nat.mul_mod_right _ _⟩

theorem MP_ALIGN_UP_pow (j k : Nat) (hj : j < 64) (hk : k < 64) :
    MP_ALIGN_UP (2 ^ j) (2 ^ k) = 2 ^ (max j k) := by
  have hj' : (2:Nat) ^ j ≤ 2 ^ 63 := Nat.pow_le_pow_right (by norm_num) (by omega)
  have hk' : (2:Nat) ^ k ≤ 2 ^ 63 := Nat.pow_le_pow_right (by norm_num) (by omega)
  have hp : (2:Nat) ^ k > 0 := Nat.two_pow_pos k
  rw [MP_ALIGN_UP_eq _ k hk (by omega)]
  rcases Nat.le_total j k with h | h
  · rw [max_eq_right h]
    have hjk : (2:Nat) ^ j ≤ 2 ^ k := Nat.pow_le_pow_right (by norm_num) h
    have hj0 : (2:Nat) ^ j > 0 := Nat.two_pow_pos j
    have : (2 ^ j + 2 ^ k - 1) / 2 ^ k = 1 := by
      apply Nat.div_eq_of_lt_le <;> omega
    rw [this, Nat.mul_one]
  · rw [max_eq_left h]
    obtain ⟨d, rfl⟩ : ∃ d, j = k + d := ⟨j - k, by omega⟩
    have : (2 ^ (k + d) + 2 ^ k - 1) / 2 ^ k = 2 ^ d := by
      rw [Nat.pow_add]
      apply Nat.div_eq_of_lt_le
      · rw [Nat.mul_comm]; omega
      · rw [Nat.mul_comm (2 ^ d + 1)]
        rw [Nat.mul_add]; omega
    rw [this, Nat.pow_add]

/-! ## The free space map: `insert_region` -/

theorem coalesce_following_starts (r : vk_region) (rest : List vk_region) :
    ∀ x ∈ coalesce_following r rest, x.start = r.start ∨ ∃ y ∈ rest, x.start = y.start := by
  induction rest generalizing r with
  | nil => intro x hx; simp [coalesce_following] at hx; left; rw [hx]
  | cons next rest ih =>
    intro x hx
    unfold coalesce_following at hx
    split at hx
    · rcases ih _ x hx with h | ⟨y, hy, h⟩
      · left; exact h
      · right; exact ⟨y, List.mem_cons_of_mem _ hy, h⟩
    · rcases List.mem_cons.1 hx with h | h
      · left; rw [h]
      · right; exact ⟨x, h, rfl⟩

theorem insert_region_loop_starts (region : vk_region) (b : Bool) (l : List vk_region) :
    ∀ x ∈ insert_region_loop region b l,
      x.start = region.start ∨ ∃ y ∈ l, x.start = y.start := by
  induction l with
  | nil =>
    intro x hx
    unfold insert_region_loop at hx
    split at hx
    · simp at hx; left; rw [hx]
    · simp at hx
  | cons r rest ih =>
    intro x hx
    unfold insert_region_loop at hx
    split at hx
    · rcases coalesce_following_starts _ rest x hx with h | ⟨y, hy, h⟩
      · right; exact ⟨r, List.mem_cons_self _ _, h⟩
      · right; exact ⟨y, List.mem_cons_of_mem _ hy, h⟩
    · split at hx
      · rcases List.mem_cons.1 hx with h | h
        · left; rw [h]
        · right; exact ⟨x, List.mem_cons_of_mem _ h, rfl⟩
      · split at hx
        · split at hx
          · rcases List.mem_cons.1 hx with h | h
            · left; rw [h]
            · right; exact ⟨x, h, rfl⟩
          · right; exact ⟨x, hx, rfl⟩
        · rcases List.mem_cons.1 hx with h | h
          · right; exact ⟨r, List.mem_cons_self _ _, by rw [h]⟩
          · rcases ih x h with h | ⟨y, hy, h⟩
            · left; exact h
            · right; exact ⟨y, List.mem_cons_of_mem _ hy, h⟩

theorem coalesce_following_wf (n : Nat) (r : vk_region) (rest : List vk_region)
    (hr : region_ok n r) (hle : ∀ y ∈ rest, r.end_ ≤ y.start)
    (hw : regions_wf n rest) : regions_wf n (coalesce_following r rest) := by
  induction rest generalizing r with
  | nil =>
    simp [coalesce_following, regions_wf, hr]
  | cons next rest ih =>
    obtain ⟨hp, hok⟩ := hw
    have hnext := hok next (List.mem_cons_self _ _)
    have hp' := List.pairwise_cons.1 hp
    unfold coalesce_following
    split
    · rename_i heq
      apply ih
      · simp only [sep, region_ok, MPVK_HEAP_MINIMUM_REGION_SIZE] at *; omega
      · intro y hy
        have := hp'.1 y hy
        unfold sep at this; simp only; omega
      · exact ⟨hp'.2, fun y hy => hok y (List.mem_cons_of_mem _ hy)⟩
    · rename_i hne
      have h1 := hle next (List.mem_cons_self _ _)
      refine ⟨List.pairwise_cons.2 ⟨?_, hp⟩, ?_⟩
      · intro y hy
        rcases List.mem_cons.1 hy with h | h
        · subst h; simp only [sep, region_ok, MPVK_HEAP_MINIMUM_REGION_SIZE] at *; omega
        · have := hp'.1 y h
          simp only [sep, region_ok, MPVK_HEAP_MINIMUM_REGION_SIZE] at *; omega
      · intro y hy
        rcases List.mem_cons.1 hy with h | h
        · subst h; exact hr
        · exact hok y h

theorem insert_region_loop_wf (n : Nat) (region : vk_region) (b : Bool) (l : List vk_region)
    (hb : b = true → region_ok n region)
    (hne : region.start < region.end_) (hn : region.end_ ≤ n)
    (hd : ∀ y ∈ l, region.end_ ≤ y.start ∨ y.end_ ≤ region.start)
    (hw : regions_wf n l) : regions_wf n (insert_region_loop region b l) := by
  induction l with
  | nil =>
    unfold insert_region_loop
    split
    · rename_i h; simp [regions_wf, hb h]
    · simp [regions_wf]
  | cons r rest ih =>
    obtain ⟨hp, hok⟩ := hw
    have hr := hok r (List.mem_cons_self _ _)
    have hp' := List.pairwise_cons.1 hp
    have hrest : regions_wf n rest := ⟨hp'.2, fun y hy => hok y (List.mem_cons_of_mem _ hy)⟩
    have hdr := hd r (List.mem_cons_self _ _)
    unfold insert_region_loop
    split
    · rename_i heq
      apply coalesce_following_wf
      · simp only [sep, region_ok, MPVK_HEAP_MINIMUM_REGION_SIZE] at *; omega
      · intro y hy
        have h1 := hd y (List.mem_cons_of_mem _ hy)
        have h2 := hp'.1 y hy
        have h3 := hok y (List.mem_cons_of_mem _ hy)
        simp only [sep, region_ok, MPVK_HEAP_MINIMUM_REGION_SIZE] at *; omega
      · exact hrest
    · split
      · rename_i hne1 heq
        refine ⟨List.pairwise_cons.2 ⟨?_, hp'.2⟩, ?_⟩
        · intro y hy; have := hp'.1 y hy; unfold sep at *; simpa using this
        · intro y hy
          rcases List.mem_cons.1 hy with h | h
          · subst h; simp only [sep, region_ok, MPVK_HEAP_MINIMUM_REGION_SIZE] at *; omega
          · exact hok y (List.mem_cons_of_mem _ h)
      · split
        · rename_i hne1 hne2 hgt
          split
          · rename_i hbig
            refine ⟨List.pairwise_cons.2 ⟨?_, hp⟩, ?_⟩
            · intro y hy
              rcases List.mem_cons.1 hy with h | h
              · subst h; simp only [sep, region_ok, MPVK_HEAP_MINIMUM_REGION_SIZE] at *; omega
              · have := hp'.1 y h
                simp only [sep, region_ok, MPVK_HEAP_MINIMUM_REGION_SIZE] at *; omega
            · intro y hy
              rcases List.mem_cons.1 hy with h | h
              · subst h; exact hb hbig
              · exact hok y h
          · exact ⟨hp, hok⟩
        · rename_i hne1 hne2 hgt
          have ih' := ih (fun y hy => hd y (List.mem_cons_of_mem _ hy)) hrest
          refine ⟨List.pairwise_cons.2 ⟨?_, ih'.1⟩, ?_⟩
          · intro y hy
            rcases insert_region_loop_starts region b rest y hy with h | ⟨z, hz, h⟩
            · simp only [sep, region_ok, MPVK_HEAP_MINIMUM_REGION_SIZE] at *; omega
            · have := hp'.1 z hz
              unfold sep at *; omega
          · intro y hy
            rcases List.mem_cons.1 hy with h | h
            · subst h; exact hr
            · exact ih'.2 y h

theorem coalesce_following_cover (r : vk_region) (rest : List vk_region) :
    ∀ x ∈ coalesce_following r rest, ∀ t, in_region x t →
      in_region r t ∨ ∃ y ∈ rest, in_region y t := by
  induction rest generalizing r with
  | nil => intro x hx t ht; simp [coalesce_following] at hx; left; rw [← hx]; exact ht
  | cons next rest ih =>
    intro x hx t ht
    unfold coalesce_following at hx
    split at hx
    · rename_i heq
      rcases ih _ x hx t ht with h | ⟨y, hy, h⟩
      · simp only [in_region] at *
        by_cases hlt : t < r.end_
        · left; omega
        · right; exact ⟨next, List.mem_cons_self _ _, by omega⟩
      · right; exact ⟨y, List.mem_cons_of_mem _ hy, h⟩
    · rcases List.mem_cons.1 hx with h | h
      · left; rw [← h]; exact ht
      · right; exact ⟨x, h, ht⟩

theorem insert_region_loop_cover (region : vk_region) (b : Bool) (l : List vk_region) :
    ∀ x ∈ insert_region_loop region b l, ∀ t, in_region x t →
      in_region region t ∨ ∃ y ∈ l, in_region y t := by
  induction l with
  | nil =>
    intro x hx t ht
    unfold insert_region_loop at hx
    split at hx
    · simp at hx; left; rw [← hx]; exact ht
    · simp at hx
  | cons r rest ih =>
    intro x hx t ht
    unfold insert_region_loop at hx
    split at hx
    · rename_i heq
      rcases coalesce_following_cover _ rest x hx t ht with h | ⟨y, hy, h⟩
      · simp only [in_region] at *
        by_cases hlt : t < r.end_
        · right; exact ⟨r, List.mem_cons_self _ _, by omega⟩
        · left; omega
      · right; exact ⟨y, List.mem_cons_of_mem _ hy, h⟩
    · split at hx
      · rename_i hne heq
        rcases List.mem_cons.1 hx with h | h
        · subst h
          simp only [in_region] at *
          by_cases hlt : t < region.end_
          · left; omega
          · right; exact ⟨r, List.mem_cons_self _ _, by omega⟩
        · right; exact ⟨x, List.mem_cons_of_mem _ h, ht⟩
      · split at hx
        · split at hx
          · rcases List.mem_cons.1 hx with h | h
            · left; rw [← h]; exact ht
            · right; exact ⟨x, h, ht⟩
          · right; exact ⟨x, hx, ht⟩
        · rcases List.mem_cons.1 hx with h | h
          · right; exact ⟨r, List.mem_cons_self _ _, by rw [← h]; exact ht⟩
          · rcases ih x h t ht with h | ⟨y, hy, h⟩
            · left; exact h
            · right; exact ⟨y, List.mem_cons_of_mem _ hy, h⟩

theorem insert_region_cover (l : List vk_region) (region : vk_region) :
    ∀ x ∈ insert_region l region, ∀ t, in_region x t →
      in_region region t ∨ ∃ y ∈ l, in_region y t := by
  intro x hx t ht
  unfold insert_region at hx
  split at hx
  · right; exact ⟨x, hx, ht⟩
  · exact insert_region_loop_cover _ _ l x hx t ht

theorem region_len_eq (r : vk_region) (h1 : r.start ≤ r.end_) (h2 : r.end_ < SIZE_MOD) :
    region_len r = r.end_ - r.start := by
  unfold region_len
  unfold SIZE_MOD at *
  rw [Nat.mod_eq_of_lt (show r.start < 2 ^ 64 by omega)]
  have : r.end_ + 2 ^ 64 - r.start = (r.end_ - r.start) + 2 ^ 64 := by omega
  rw [this, Nat.add_mod_right, Nat.mod_eq_of_lt (by omega)]

theorem insert_region_wf (n : Nat) (l : List vk_region) (region : vk_region)
    (hle : region.start ≤ region.end_) (hn : region.end_ ≤ n) (hn2 : n < SIZE_MOD)
    (hd : ∀ y ∈ l, region.end_ ≤ y.start ∨ y.end_ ≤ region.start)
    (hw : regions_wf n l) : regions_wf n (insert_region l region) := by
  unfold insert_region
  split
  · exact hw
  · rename_i hne
    apply insert_region_loop_wf n region _ l _ (by omega) hn hd hw
    intro hb
    have := of_decide_eq_true hb
    rw [region_len_eq region hle (by omega)] at this
    simp only [region_ok]; omega

theorem coalesce_following_sum (r : vk_region) (rest : List vk_region)
    (hr : r.start ≤ r.end_) (hrest : ∀ y ∈ rest, y.start ≤ y.end_) :
    region_sum (coalesce_following r rest) = (r.end_ - r.start) + region_sum rest := by
  induction rest generalizing r with
  | nil => simp [coalesce_following, region_sum]
  | cons next rest ih =>
    have hnext := hrest next (List.mem_cons_self _ _)
    unfold coalesce_following
    split
    · rename_i heq
      rw [ih _ (by simp only; omega) (fun y hy => hrest y (List.mem_cons_of_mem _ hy))]
      simp only [region_sum]; omega
    · simp only [region_sum]

theorem insert_region_loop_sum (region : vk_region) (b : Bool) (l : List vk_region)
    (hle : region.start ≤ region.end_) (h2 : region.end_ < SIZE_MOD)
    (hl : ∀ y ∈ l, y.start ≤ y.end_) :
    region_sum (insert_region_loop region b l) + insert_region_elided_loop region b l
      = region_sum l + (region.end_ - region.start) := by
  induction l with
  | nil =>
    unfold insert_region_loop insert_region_elided_loop
    split
    · simp [region_sum]
    · simp [region_sum, region_len_eq region hle h2]
  | cons r rest ih =>
    have hr := hl r (List.mem_cons_self _ _)
    have hrest : ∀ y ∈ rest, y.start ≤ y.end_ := fun y hy => hl y (List.mem_cons_of_mem _ hy)
    unfold insert_region_loop insert_region_elided_loop
    split
    · rename_i heq
      rw [coalesce_following_sum _ rest (by simp only; omega) hrest]
      simp only [region_sum]; omega
    · split
      · simp only [region_sum]; omega
      · split
        · split
          · simp only [region_sum]; omega
          · simp only [region_sum, region_len_eq region hle h2]
        · have := ih hrest
          simp only [region_sum]; omega

theorem insert_region_sum (l : List vk_region) (region : vk_region)
    (hle : region.start ≤ region.end_) (h2 : region.end_ < SIZE_MOD)
    (hl : ∀ y ∈ l, y.start ≤ y.end_) :
    region_sum (insert_region l region) + insert_region_elided l region
      = region_sum l + (region.end_ - region.start) := by
  unfold insert_region insert_region_elided
  split
  · omega
  · exact insert_region_loop_sum region _ l hle h2 hl

theorem free_bytes_eq (n : Nat) (l : List vk_region) (hn : n < SIZE_MOD)
    (hw : ∀ r ∈ l, region_ok n r) : free_bytes l = region_sum l := by
  induction l with
  | nil => rfl
  | cons r rest ih =>
    have hr := hw r (List.mem_cons_self _ _)
    simp only [region_ok] at hr
    have := ih (fun y hy => hw y (List.mem_cons_of_mem _ hy))
    simp only [free_bytes, List.map_cons, List.sum_cons, region_sum] at *
    rw [this, region_len_eq r (by omega) (by omega)]

theorem eraseIdx_sep (l : List vk_region) (i : Nat) (reg : vk_region)
    (hp : l.Pairwise sep) (hg : l.get? i = some reg) (hreg : reg.start ≤ reg.end_)
    (hl : ∀ y ∈ l, y.start ≤ y.end_) :
    ∀ y ∈ l.eraseIdx i, y.end_ < reg.start ∨ reg.end_ < y.start := by
  induction l generalizing i with
  | nil => simp at hg
  | cons r rest ih =>
    have hp' := List.pairwise_cons.1 hp
    cases i with
    | zero =>
      simp at hg; subst hg
      intro y hy
      simp at hy
      right; exact hp'.1 y hy
    | succ i =>
      simp at hg
      intro y hy
      simp at hy
      rcases hy with h | h
      · subst h
        left
        have hm : reg ∈ rest := List.getElem?_mem hg
        exact hp'.1 reg hm
      · exact ih i hp'.2 (by simpa using hg) (fun y hy => hl y (List.mem_cons_of_mem _ hy)) y h

theorem eraseIdx_sum (l : List vk_region) (i : Nat) (reg : vk_region)
    (hg : l.get? i = some reg) :
    region_sum l = region_sum (l.eraseIdx i) + (reg.end_ - reg.start) := by
  induction l generalizing i with
  | nil => simp at hg
  | cons r rest ih =>
    cases i with
    | zero => simp at hg; subst hg; simp [region_sum]; omega
    | succ i =>
      simp at hg
      have := ih i (by simpa using hg)
      simp [region_sum]; omega

theorem eraseIdx_wf (n : Nat) (l : List vk_region) (i : Nat) (hw : regions_wf n l) :
    regions_wf n (l.eraseIdx i) :=
  ⟨hw.1.sublist (List.eraseIdx_sublist l i), fun y hy => hw.2 y (List.mem_of_mem_eraseIdx hy)⟩

theorem order_of_disjoint (a b c d : Nat) (h1 : a < b) (h2 : c < d)
    (h : ∀ t, a ≤ t → t < b → c ≤ t → t < d → False) : b ≤ c ∨ d ≤ a := by
  by_contra hc
  push_neg at hc
  rcases Nat.le_total a c with h3 | h3
  · exact h c h3 (by omega) (le_refl _) h2
  · exact h a (le_refl _) h1 h3 (by omega)

/-! ## Slab creation -/

theorem get_slab_append_length (vk : mpvk_ctx) (calls : List dev_call) (x : Option vk_slab) :
    get_slab { vk with calls := calls, slabs := vk.slabs ++ [x] } vk.slabs.length = x := by
  simp [get_slab]

theorem slab_alloc_error_spec (vk : mpvk_ctx) (calls : List dev_call) (slab : vk_slab)
    (size : Nat) (hs : slab_fresh size slab) (vk1 : mpvk_ctx) (r : Option Nat)
    (h : slab_alloc_error vk calls slab = some (vk1, r)) :
    slab_alloc_post vk size vk1 r := by
  unfold slab_alloc_error slab_free at h
  rw [get_slab_append_length] at h
  simp [hs.2.1] at h
  obtain ⟨h1, h2⟩ := h
  subst h1 h2
  simp [slab_alloc_post]

theorem slab_alloc_bind_spec (vk : mpvk_ctx) (calls : List dev_call) (drv : vk_driver)
    (usage : Nat) (slab : vk_slab) (size : Nat) (hs : slab_fresh size slab)
    (vk1 : mpvk_ctx) (r : Option Nat)
    (h : slab_alloc_bind vk calls drv usage slab = some (vk1, r)) :
    slab_alloc_post vk size vk1 r := by
  unfold slab_alloc_bind at h
  split at h
  · split at h
    · simp at h
      obtain ⟨h1, h2⟩ := h
      subst h1 h2
      exact ⟨rfl, rfl, Or.inr ⟨rfl, slab, rfl, hs⟩⟩
    · exact slab_alloc_error_spec _ _ _ size hs _ _ h
  · simp at h
    obtain ⟨h1, h2⟩ := h
    subst h1 h2
    exact ⟨rfl, rfl, Or.inr ⟨rfl, slab, rfl, hs⟩⟩

theorem slab_alloc_memory_spec (vk : mpvk_ctx) (calls : List dev_call) (drv : vk_driver)
    (type : vk_memtype) (usage : Nat) (slab : vk_slab) (asz : Nat) (size : Nat)
    (hs : slab_fresh size slab) (vk1 : mpvk_ctx) (r : Option Nat)
    (h : slab_alloc_memory vk calls drv type usage slab asz = some (vk1, r)) :
    slab_alloc_post vk size vk1 r := by
  unfold slab_alloc_memory at h
  split at h
  · exact slab_alloc_error_spec _ _ _ size hs _ _ h
  · simp only [] at h
    split at h
    · split at h
      · exact slab_alloc_error_spec _ _ _ size (by exact hs) _ _ h
      · exact slab_alloc_bind_spec _ _ _ _ _ size (by exact hs) _ _ h
    · exact slab_alloc_bind_spec _ _ _ _ _ size (by exact hs) _ _ h

theorem slab_alloc_spec (vk : mpvk_ctx) (drv : vk_driver) (type : vk_memtype) (usage size : Nat)
    (vk1 : mpvk_ctx) (r : Option Nat)
    (h : slab_alloc vk drv type usage size = some (vk1, r)) :
    slab_alloc_post vk size vk1 r := by
  unfold slab_alloc at h
  simp only [] at h
  split at h
  · split at h
    · exact slab_alloc_error_spec _ _ _ size ⟨rfl, rfl, rfl, rfl, rfl⟩ _ _ h
    · split at h
      · exact slab_alloc_error_spec _ _ _ size ⟨rfl, rfl, rfl, rfl, rfl⟩ _ _ h
      · exact slab_alloc_memory_spec _ _ _ _ _ _ _ size ⟨rfl, rfl, rfl, rfl, rfl⟩ _ _ h
  · exact slab_alloc_memory_spec _ _ _ _ _ _ _ size ⟨rfl, rfl, rfl, rfl, rfl⟩ _ _ h

/-! ## The carve of `slice_heap` -/

theorem insert_region_wf' (n : Nat) (l : List vk_region) (region : vk_region)
    (hle : region.start ≤ region.end_) (hn : region.end_ ≤ n) (hn2 : n < SIZE_MOD)
    (hd : region.start < region.end_ →
      ∀ y ∈ l, region.end_ ≤ y.start ∨ y.end_ ≤ region.start)
    (hw : regions_wf n l) : regions_wf n (insert_region l region) := by
  by_cases h : region.start = region.end_
  · unfold insert_region; rw [if_pos h]; exact hw
  · exact insert_region_wf n l region hle hn hn2 (hd (by omega)) hw

theorem regions_wf_le (n : Nat) (l : List vk_region) (hw : regions_wf n l) :
    ∀ y ∈ l, y.start < y.end_ ∧ y.end_ ≤ n := by
  intro y hy
  have := hw.2 y hy
  simp only [region_ok, MPVK_HEAP_MINIMUM_REGION_SIZE] at this
  omega

/-- The carve of `slice_heap` on the region list: `reg` is the region at
`index`, the slice is `[offset, offset + size)`. -/
theorem carve_spec (n : Nat) (l : List vk_region) (index : Nat) (reg : vk_region)
    (offset size : Nat) (hn : n < SIZE_MOD) (hw : regions_wf n l)
    (hg : l.get? index = some reg) (h1 : reg.start ≤ offset) (h2 : offset + size ≤ reg.end_)
    (regions0 regions1 regions2 : List vk_region) (head tail : vk_region)
    (e0 : regions0 = l.eraseIdx index) (eh : head = { start := reg.start, end_ := offset })
    (et : tail = { start := offset + size, end_ := reg.end_ })
    (e1 : regions1 = insert_region regions0 head)
    (e2 : regions2 = insert_region regions1 tail) :
    regions_wf n regions2 ∧
    region_sum regions2 + insert_region_elided regions0 head
        + insert_region_elided regions1 tail + size = region_sum l ∧
    (∀ x ∈ regions2, ∀ t, in_region x t →
      (∃ y ∈ l, in_region y t) ∧ ¬ (offset ≤ t ∧ t < offset + size)) := by
  have hhs : head.start = reg.start := by rw [eh]
  have hhe : head.end_ = offset := by rw [eh]
  have hts : tail.start = offset + size := by rw [et]
  have hte : tail.end_ = reg.end_ := by rw [et]
  subst e0
  have hreg := regions_wf_le n l hw reg (List.get?_mem hg)
  have hl := regions_wf_le n l hw
  have hsep := eraseIdx_sep l index reg hw.1 hg (by omega) (fun y hy => by have := hl y hy; omega)
  have hw0 : regions_wf n (l.eraseIdx index) := eraseIdx_wf n l index hw
  have hw1 : regions_wf n regions1 := by
    rw [e1]
    apply insert_region_wf' n _ head (by omega) (by omega) hn _ hw0
    intro _ y hy
    have := hsep y hy
    omega
  have hc1 : ∀ x ∈ regions1, ∀ t, in_region x t →
      (∃ y ∈ l, in_region y t) ∧ ¬ (offset ≤ t ∧ t < reg.end_) := by
    intro x hx t ht
    rw [e1] at hx
    rcases insert_region_cover _ head x hx t ht with h | ⟨y, hy, h⟩
    · simp only [in_region] at h
      exact ⟨⟨reg, List.get?_mem hg, by simp only [in_region]; omega⟩, by omega⟩
    · have := hsep y hy
      simp only [in_region] at h
      exact ⟨⟨y, List.mem_of_mem_eraseIdx hy, h⟩, by omega⟩
  have hw2 : regions_wf n regions2 := by
    rw [e2]
    apply insert_region_wf' n regions1 tail (by omega) (by omega) hn _ hw1
    intro hne y hy
    have hy' := regions_wf_le n regions1 hw1 y hy
    have := order_of_disjoint tail.start tail.end_ y.start y.end_ hne hy'.1 (by
      intro t a1 a2 a3 a4
      have := (hc1 y hy t ⟨a3, a4⟩).2
      omega)
    omega
  refine ⟨hw2, ?_, ?_⟩
  · have s0 := eraseIdx_sum l index reg hg
    have s1 := insert_region_sum (l.eraseIdx index) head (by omega)
      (by omega) (fun y hy => by have := regions_wf_le n _ hw0 y hy; omega)
    have s2 := insert_region_sum regions1 tail (by omega)
      (by omega) (fun y hy => by have := regions_wf_le n _ hw1 y hy; omega)
    rw [← e1] at s1
    rw [← e2] at s2
    omega
  · intro x hx t ht
    rw [e2] at hx
    rcases insert_region_cover regions1 tail x hx t ht with h | ⟨y, hy, h⟩
    · simp only [in_region] at h
      exact ⟨⟨reg, List.get?_mem hg, by simp only [in_region]; omega⟩, by omega⟩
    · have := hc1 y hy t h
      exact ⟨this.1, by omega⟩

/-! ## The slab store, the search and the heap lists -/

theorem get_slab_lt (vk : mpvk_ctx) (p : Nat) (slab : vk_slab)
    (h : get_slab vk p = some slab) : p < vk.slabs.length := by
  unfold get_slab at h
  by_contra hc
  have : vk.slabs.get? p = none := by
    rw [List.get?_eq_none]; omega
  rw [this] at h
  simp at h

theorem get_slab_set_slab (vk : mpvk_ctx) (p q : Nat) (s : vk_slab)
    (hp : p < vk.slabs.length) :
    get_slab (set_slab vk p s) q = if q = p then some s else get_slab vk q := by
  unfold get_slab set_slab
  simp only [List.get?_eq_getElem?, List.getElem?_set]
  by_cases h : q = p
  · subst h; simp [hp]
  · have : ¬ p = q := fun e => h e.symm
    simp [h, this]

theorem get_slab_append (vk vk1 : mpvk_ctx) (x : Option vk_slab)
    (h : vk1.slabs = vk.slabs ++ [x]) (q : Nat) :
    get_slab vk1 q = if q = vk.slabs.length then x else get_slab vk q := by
  unfold get_slab
  rw [h]
  simp only [List.get?_eq_getElem?]
  by_cases hq : q = vk.slabs.length
  · subst hq; simp
  · rw [if_neg hq]
    by_cases hlt : q < vk.slabs.length
    · rw [List.getElem?_append_left hlt]
    · have h1 : (vk.slabs ++ [x])[q]? = none := by
        rw [List.getElem?_eq_none]; simp; omega
      have h2 : vk.slabs[q]? = none := by
        rw [List.getElem?_eq_none]; omega
      rw [h1, h2]

theorem best_fit_loop_spec (size align : Nat) (l : List vk_region) (n : Nat)
    (best : Option (Nat × vk_region)) (b : Nat) (rb : vk_region)
    (h : best_fit_loop size align n best l = some (b, rb)) :
    best = some (b, rb) ∨
      ∃ i, l.get? i = some rb ∧ b = n + i ∧ region_fits rb size align = true := by
  induction l generalizing n best with
  | nil => left; simpa [best_fit_loop] using h
  | cons r rest ih =>
    unfold best_fit_loop at h
    have step : ∀ best', best_fit_loop size align (n + 1) best' rest = some (b, rb) →
        (best' = best ∨ (best' = some (n, r) ∧ region_fits r size align = true)) →
        best = some (b, rb) ∨
          ∃ i, (r :: rest).get? i = some rb ∧ b = n + i ∧ region_fits rb size align = true := by
      intro best' h' hb
      rcases ih (n + 1) best' h' with h1 | ⟨i, h1, h2, h3⟩
      · rcases hb with hb | ⟨hb, hf⟩
        · left; rw [← hb]; exact h1
        · right
          rw [hb] at h1
          simp at h1
          refine ⟨0, ?_, ?_, ?_⟩
          · simp [h1.2]
          · omega
          · rw [← h1.2]; exact hf
      · right; exact ⟨i + 1, by simpa using h1, by omega, h3⟩
    split at h
    · exact step _ h (Or.inl rfl)
    · rename_i hfit
      have hfit' : region_fits r size align = true := by simpa using hfit
      split at h
      · split at h
        · exact step _ h (Or.inl rfl)
        · exact step _ h (Or.inr ⟨rfl, hfit'⟩)
      · exact step _ h (Or.inr ⟨rfl, hfit'⟩)

theorem search_slabs_spec (vk : mpvk_ctx) (size align : Nat) (ps : List Nat)
    (last last1 : Option vk_slab) (p idx : Nat)
    (h : search_slabs vk size align last ps = some (some (p, idx), last1)) :
    p ∈ ps ∧ ∃ slab reg, get_slab vk p = some slab ∧ slab.regions.get? idx = some reg ∧
      region_fits reg size align = true := by
  induction ps generalizing last with
  | nil => simp [search_slabs] at h
  | cons q qs ih =>
    unfold search_slabs at h
    split at h
    · simp at h
    · rename_i slab hq
      split at h
      · have := ih _ h
        exact ⟨List.mem_cons_of_mem _ this.1, this.2⟩
      · split at h
        · rename_i best rb hbest
          simp at h
          obtain ⟨⟨h1, h2⟩, _⟩ := h
          subst h1 h2
          rcases best_fit_loop_spec size align slab.regions 0 none _ rb hbest with h1 | ⟨i, h1, h2, h3⟩
          · simp at h1
          · refine ⟨List.mem_cons_self _ _, slab, rb, hq, ?_, h3⟩
            rw [h2]; simpa using h1
        · have := ih _ h
          exact ⟨List.mem_cons_of_mem _ this.1, this.2⟩

theorem flatMap_set_eq {α β : Type} (l : List α) (i : Nat) (a a1 : α) (f : α → List β)
    (hg : l.get? i = some a) (hf : f a1 = f a) :
    (l.set i a1).flatMap f = l.flatMap f := by
  induction l generalizing i with
  | nil => simp at hg
  | cons x rest ih =>
    cases i with
    | zero => simp at hg; subst hg; simp [hf]
    | succ i =>
      simp at hg
      simp [ih i (by simpa using hg)]

theorem flatMap_set_perm {α β : Type} (l : List α) (i : Nat) (a a1 : α) (f : α → List β)
    (p : β) (hg : l.get? i = some a) (hf : (f a1).Perm (p :: f a)) :
    ((l.set i a1).flatMap f).Perm (p :: l.flatMap f) := by
  induction l generalizing i with
  | nil => simp at hg
  | cons x rest ih =>
    cases i with
    | zero =>
      simp at hg; subst hg
      simp only [List.set_cons_zero, List.flatMap_cons]
      exact (List.Perm.append_right _ hf)
    | succ i =>
      simp at hg
      have := ih i (by simpa using hg)
      simp only [List.set_cons_succ, List.flatMap_cons]
      exact (List.Perm.append_left _ this).trans List.perm_middle

theorem mem_heap_slabs (ma : vk_malloc) (h : Nat × Nat) (t : vk_memtype) (hp : vk_heap)
    (p : Nat) (h1 : ma.types.get? h.1 = some t) (h2 : t.heaps.get? h.2 = some hp)
    (h3 : p ∈ hp.slabs) : p ∈ heap_slabs ma := by
  unfold heap_slabs
  simp only [List.mem_flatMap]
  exact ⟨t, List.get?_mem h1, hp, List.get?_mem h2, h3⟩

theorem heap_slabs_find_heap (ma : vk_malloc) (type : Option Nat) (usage : Nat) :
    heap_slabs (find_heap ma type usage).1 = heap_slabs ma := by
  unfold find_heap
  split
  · rfl
  · split
    · rfl
    · rename_i ti t ht
      split
      · rfl
      · simp only [heap_slabs]
        apply flatMap_set_eq _ _ t _ _ ht
        simp [heap_init]

theorem heap_slabs_append (ma : vk_malloc) (h : Nat × Nat) (p : Nat) :
    heap_slabs (heap_append_slab ma h p) = heap_slabs ma ∨
      (heap_slabs (heap_append_slab ma h p)).Perm (p :: heap_slabs ma) := by
  unfold heap_append_slab
  split
  · left; rfl
  · rename_i t ht
    split
    · left; rfl
    · rename_i hp hhp
      right
      simp only [heap_slabs]
      apply flatMap_set_perm _ _ t _ _ p ht
      apply flatMap_set_perm _ _ hp _ _ p hhp
      simp only
      exact List.perm_append_singleton _ _

/-! ## Preservation of the invariant -/

theorem live_used_zero (p : Nat) (live : List vk_memslice)
    (h : ∀ s ∈ live, s.priv ≠ p) : live_used p live = 0 := by
  induction live with
  | nil => rfl
  | cons s l ih =>
    have h1 := h s (List.mem_cons_self _ _)
    simp only [live_used, if_neg h1]
    rw [ih (fun t ht => h t (List.mem_cons_of_mem _ ht))]

theorem live_used_erase (p : Nat) (live : List vk_memslice) (s : vk_memslice)
    (h : s ∈ live) :
    live_used p live = live_used p (live.erase s) + (if s.priv = p then s.size else 0) := by
  induction live with
  | nil => simp at h
  | cons a l ih =>
    by_cases ha : a = s
    · subst ha
      simp only [List.erase_cons_head, live_used]; omega
    · have hs : s ∈ l := by
        rcases List.mem_cons.1 h with h1 | h1
        · exact absurd h1.symm ha
        · exact h1
      have hne : ¬ (a == s) = true := by simpa using ha
      rw [List.erase_cons_tail hne]
      simp only [live_used]
      have := ih hs
      omega

theorem pairwise_erase_rel {α : Type} [DecidableEq α] (R : α → α → Prop)
    (hsym : ∀ a b, R a b → R b a) (l : List α) (s t : α)
    (hp : l.Pairwise R) (hs : s ∈ l) (ht : t ∈ l.erase s) : R s t := by
  induction l with
  | nil => simp at hs
  | cons a l ih =>
    have hp' := List.pairwise_cons.1 hp
    by_cases ha : a = s
    · subst ha
      rw [List.erase_cons_head] at ht
      exact hp'.1 t ht
    · have hs' : s ∈ l := by
        rcases List.mem_cons.1 hs with h1 | h1
        · exact absurd h1.symm ha
        · exact h1
      have hne : ¬ (a == s) = true := by simpa using ha
      rw [List.erase_cons_tail hne] at ht
      rcases List.mem_cons.1 ht with h1 | h1
      · subst h1
        exact hsym _ _ (hp'.1 s hs')
      · exact ih hp'.2 hs' h1

theorem Inv_alloc_eq (vk : mpvk_ctx) (live : List vk_memslice) (ma1 : vk_malloc)
    (hI : Inv vk live)
    (h : ∀ ma, vk.alloc = some ma → heap_slabs ma1 = heap_slabs ma) :
    Inv { vk with alloc := some ma1 } live := by
  obtain ⟨hg, ⟨ma, hma, hh⟩, hs, hl, hp⟩ := hI
  refine ⟨hg, ⟨ma1, rfl, ?_⟩, hs, hl, hp⟩
  unfold heaps_inv at *
  rw [h ma hma]
  exact hh

theorem Inv_append (vk vk1 : mpvk_ctx) (live : List vk_memslice) (x : Option vk_slab)
    (hI : Inv vk live) (ha : vk1.alloc = vk.alloc)
    (hg : vk1.bufferImageGranularity = vk.bufferImageGranularity)
    (hs : vk1.slabs = vk.slabs ++ [x])
    (hx : ∀ slab, x = some slab → ∃ size, slab_fresh size slab ∧
        MPVK_HEAP_MINIMUM_REGION_SIZE ≤ size ∧ size < SIZE_MOD) :
    Inv vk1 live := by
  obtain ⟨hg0, ⟨ma, hma, hh⟩, hsl, hl, hp⟩ := hI
  have hget := get_slab_append vk vk1 x hs
  have hlive : ∀ s ∈ live, s.priv ≠ vk.slabs.length := by
    intro s hs'
    obtain ⟨slab, h⟩ := hl s hs'
    have := get_slab_lt vk _ _ h
    omega
  refine ⟨by rw [hg]; exact hg0, ⟨ma, by rw [ha]; exact hma, hh.1, ?_⟩, ?_, ?_, hp⟩
  · intro p hp'
    obtain ⟨slab, h1, h2⟩ := hh.2 p hp'
    have := get_slab_lt vk _ _ h1
    refine ⟨slab, ?_, h2⟩
    rw [hget, if_neg (by omega)]; exact h1
  · intro p slab h
    rw [hget] at h
    split at h
    · rename_i hp'
      subst hp'
      obtain ⟨size, ⟨f1, f2, f3, f4, f5⟩, h1, h2⟩ := hx slab h
      refine ⟨by rw [f1]; exact h2, f3, ?_, ?_, ?_, ?_⟩
      · rw [f4, f1]
        refine ⟨by simp, ?_⟩
        intro r hr
        simp at hr
        subst hr
        simp only [region_ok]; omega
      · rw [f2, live_used_zero _ _ hlive]
      · rw [f2, f4, f5, f1]; simp [region_sum]
      · intro s hs' hpr
        exact absurd hpr (hlive s hs')
    · exact hsl p slab h
  · intro s hs'
    obtain ⟨slab, h⟩ := hl s hs'
    have := get_slab_lt vk _ _ h
    exact ⟨slab, by rw [hget, if_neg (by omega)]; exact h⟩

theorem Inv_link (vk : mpvk_ctx) (live : List vk_memslice) (ma : vk_malloc) (h : Nat × Nat)
    (p : Nat) (slab : vk_slab) (hI : Inv vk live) (hma : vk.alloc = some ma)
    (hp : get_slab vk p = some slab) (hsz : slab.size ≤ MPVK_HEAP_MAXIMUM_SLAB_SIZE)
    (hnew : p ∉ heap_slabs ma) :
    Inv { vk with alloc := some (heap_append_slab ma h p) } live := by
  obtain ⟨hg0, ⟨ma0, hma0, hh⟩, hsl, hl, hpw⟩ := hI
  rw [hma] at hma0
  simp at hma0
  subst hma0
  refine ⟨hg0, ⟨_, rfl, ?_⟩, hsl, hl, hpw⟩
  rcases heap_slabs_append ma h p with he | hperm
  · unfold heaps_inv; rw [he]; exact hh
  · refine ⟨hperm.nodup_iff.2 (List.nodup_cons.2 ⟨hnew, hh.1⟩), ?_⟩
    intro q hq
    have := hperm.mem_iff.1 hq
    rcases List.mem_cons.1 this with h1 | h1
    · subst h1; exact ⟨slab, hp, hsz⟩
    · exact hh.2 q h1

theorem MP_ALIGN_UP_zero (j : Nat) (hj : j < 64) : MP_ALIGN_UP 0 (2 ^ j) = 0 := by
  have hle : (2:Nat) ^ j ≤ 2 ^ 63 := Nat.pow_le_pow_right (by norm_num) (by omega)
  have h := MP_ALIGN_UP_spec 0 j hj (by omega)
  have := Nat.mod_eq_of_lt (show MP_ALIGN_UP 0 (2 ^ j) < 2 ^ j by omega)
  omega

theorem slab_size_bounds (x : Nat) :
    MPVK_HEAP_MINIMUM_REGION_SIZE
      ≤ MPMIN MPVK_HEAP_MAXIMUM_SLAB_SIZE (MPMAX MPVK_HEAP_MINIMUM_SLAB_SIZE x) ∧
    MPMIN MPVK_HEAP_MAXIMUM_SLAB_SIZE (MPMAX MPVK_HEAP_MINIMUM_SLAB_SIZE x) < SIZE_MOD ∧
    MPMIN MPVK_HEAP_MAXIMUM_SLAB_SIZE (MPMAX MPVK_HEAP_MINIMUM_SLAB_SIZE x)
      ≤ MPVK_HEAP_MAXIMUM_SLAB_SIZE := by
  unfold MPMIN MPMAX MPVK_HEAP_MINIMUM_SLAB_SIZE MPVK_HEAP_MAXIMUM_SLAB_SIZE
    MPVK_HEAP_MINIMUM_REGION_SIZE SIZE_MOD
  split <;> split <;> omega

theorem region_found_fresh (vk vk1 : mpvk_ctx) (slab : vk_slab) (sz size j : Nat)
    (hj : j < 64) (hs : vk1.slabs = vk.slabs ++ [some slab]) (hf : slab_fresh sz slab)
    (hle : size ≤ sz) :
    region_found vk1 size (2 ^ j) vk.slabs.length 0 := by
  refine ⟨slab, { start := 0, end_ := sz }, ?_, ?_, ?_, ?_, ?_⟩
  · rw [get_slab_append vk vk1 _ hs, if_pos rfl]
  · rw [hf.2.2.2.1]; rfl
  · simp
  · simp only [MP_ALIGN_UP_zero j hj]; omega
  · simp only [MP_ALIGN_UP_zero j hj]; simp

theorem heap_get_region_spec (vk : mpvk_ctx) (live : List vk_memslice) (drv : vk_driver)
    (heap : Option (Nat × Nat)) (size j : Nat) (vk1 : mpvk_ctx) (r : Option (Nat × Nat))
    (hI : Inv vk live) (hsz : size < SIZE_MOD) (hj : j < 64)
    (h : heap_get_region vk drv heap size (2 ^ j) = some (vk1, r)) :
    Inv vk1 live ∧ vk1.bufferImageGranularity = vk.bufferImageGranularity ∧
      ∀ p idx, r = some (p, idx) → region_found vk1 size (2 ^ j) p idx := by
  unfold heap_get_region at h
  split at h
  · simp at h
    obtain ⟨h1, h2⟩ := h
    subst h1 h2
    exact ⟨hI, rfl, by simp⟩
  · simp at h
  · rename_i hp ma hma
    split at h
    · simp at h
    · rename_i type htype
      split at h
      · simp at h
      · rename_i heap1 hheap
        split at h
        · -- the oversized request
          rename_i hbig
          split at h
          · simp at h
          · rename_i vk2 hsa
            simp at h
            obtain ⟨h1, h2⟩ := h
            subst h1 h2
            obtain ⟨a1, a2, a3⟩ := slab_alloc_spec _ _ _ _ _ _ _ hsa
            rcases a3 with ⟨a3, a4⟩ | ⟨a3, slab, a4, a5⟩
            · exact ⟨Inv_append vk vk2 live none hI a1 a2 a4 (by simp), a2, by simp⟩
            · simp at a3
          · rename_i vk2 p hsa
            simp at h
            obtain ⟨h1, h2⟩ := h
            subst h1 h2
            obtain ⟨a1, a2, a3⟩ := slab_alloc_spec _ _ _ _ _ _ _ hsa
            rcases a3 with ⟨a3, a4⟩ | ⟨a3, slab, a4, a5⟩
            · simp at a3
            · simp at a3
              subst a3
              refine ⟨Inv_append vk vk2 live (some slab) hI a1 a2 a4 ?_, a2, ?_⟩
              · intro s hs
                simp at hs; subst hs
                refine ⟨size, a5, ?_, hsz⟩
                unfold MPVK_HEAP_MAXIMUM_SLAB_SIZE at hbig
                unfold MPVK_HEAP_MINIMUM_REGION_SIZE
                omega
              · intro p idx hpi
                simp at hpi
                obtain ⟨e1, e2⟩ := hpi
                subst e1 e2
                exact region_found_fresh vk vk2 slab size size j hj a4 a5 (le_refl _)
        · rename_i hsmall
          split at h
          · simp at h
          · -- a region was found
            rename_i found last hsearch
            simp at h
            obtain ⟨h1, h2⟩ := h
            subst h1 h2
            refine ⟨hI, rfl, ?_⟩
            intro p idx hpi
            simp at hpi
            subst hpi
            obtain ⟨hmem, slab, reg, g1, g2, g3⟩ := search_slabs_spec _ _ _ _ _ _ _ _ hsearch
            obtain ⟨_, ⟨ma0, hma0, hh⟩, hsl, _, _⟩ := hI
            rw [hma] at hma0; simp at hma0; subst hma0
            have hin := mem_heap_slabs ma hp type heap1 p htype hheap hmem
            obtain ⟨slab1, s1, s2⟩ := hh.2 p hin
            rw [g1] at s1; simp at s1; subst s1
            have hsi := hsl p slab g1
            have hreg := regions_wf_le _ _ hsi.2.2.1 reg (List.get?_mem g2)
            have hle : (2:Nat) ^ j ≤ 2 ^ 63 := Nat.pow_le_pow_right (by norm_num) (by omega)
            unfold MPVK_HEAP_MAXIMUM_SLAB_SIZE at s2 hsmall
            have hau := MP_ALIGN_UP_spec reg.start j hj (by omega)
            refine ⟨slab, reg, g1, g2, hau.1, ?_, hau.2.2⟩
            unfold region_fits at g3
            have g4 := of_decide_eq_true g3
            unfold SIZE_MOD at g4
            rw [Nat.mod_eq_of_lt (by omega)] at g4
            exact g4
          · -- a new slab
            rename_i last hsearch
            simp only [] at h
            split at h
            · rename_i hge
              split at h
              · simp at h
              · rename_i vk2 hsa
                simp at h
                obtain ⟨h1, h2⟩ := h
                subst h1 h2
                obtain ⟨a1, a2, a3⟩ := slab_alloc_spec _ _ _ _ _ _ _ hsa
                rcases a3 with ⟨a3, a4⟩ | ⟨a3, slab, a4, a5⟩
                · exact ⟨Inv_append vk vk2 live none hI a1 a2 a4 (by simp), a2, by simp⟩
                · simp at a3
              · rename_i vk2 p hsa
                obtain ⟨a1, a2, a3⟩ := slab_alloc_spec _ _ _ _ _ _ _ hsa
                rcases a3 with ⟨a3, a4⟩ | ⟨a3, slab, a4, a5⟩
                · simp at a3
                · simp at a3
                  subst a3
                  have hb := slab_size_bounds
                  have hI2 : Inv vk2 live := by
                    refine Inv_append vk vk2 live (some slab) hI a1 a2 a4 ?_
                    intro s hs
                    simp at hs; subst hs
                    exact ⟨_, a5, (hb _).1, (hb _).2.1⟩
                  have hgs : get_slab vk2 vk.slabs.length = some slab := by
                    rw [get_slab_append vk vk2 _ a4, if_pos rfl]
                  rw [hgs] at h
                  simp only [] at h
                  split at h
                  · simp at h
                    obtain ⟨h1, h2⟩ := h
                    subst h1 h2
                    have hnew : vk.slabs.length ∉ heap_slabs ma := by
                      intro hc
                      obtain ⟨_, ⟨ma0, hma0, hh⟩, _⟩ := hI
                      rw [hma] at hma0; simp at hma0; subst hma0
                      obtain ⟨s, hs, _⟩ := hh.2 _ hc
                      have := get_slab_lt vk _ _ hs
                      omega
                    refine ⟨Inv_link vk2 live ma hp _ slab hI2 (by rw [a1]; exact hma) hgs
                      (by rw [a5.1]; exact (hb _).2.2) hnew, a2, ?_⟩
                    intro p idx hpi
                    simp at hpi
                    obtain ⟨e1, e2⟩ := hpi
                    subst e1 e2
                    obtain ⟨s', r', f1, f2⟩ := region_found_fresh vk vk2 slab _ size j hj a4 a5 hge
                    exact ⟨s', r', f1, f2⟩
                  · simp at h
            · simp at h

theorem slab_inv_cons_other (live : List vk_memslice) (out : vk_memslice) (q : Nat)
    (slab : vk_slab) (hq : out.priv ≠ q) (h : slab_inv live q slab) :
    slab_inv (out :: live) q slab := by
  obtain ⟨h1, h2, h3, h4, h5, h6⟩ := h
  refine ⟨h1, h2, h3, ?_, h5, ?_⟩
  · simp only [live_used, if_neg hq]; omega
  · intro s hs hp
    rcases List.mem_cons.1 hs with e | e
    · subst e; exact absurd hp hq
    · exact h6 s e hp

theorem Inv_carve (vk : mpvk_ctx) (live : List vk_memslice) (p : Nat) (slab : vk_slab)
    (idx : Nat) (reg : vk_region) (offset size : Nat)
    (hI : Inv vk live) (hp : get_slab vk p = some slab)
    (hg : slab.regions.get? idx = some reg)
    (h1 : reg.start ≤ offset) (h2 : offset + size ≤ reg.end_)
    (slab1 : vk_slab) (out : vk_memslice)
    (ho : out.offset = offset) (hos : out.size = size) (hop : out.priv = p)
    (e_size : slab1.size = slab.size) (e_ded : slab1.dedicated = slab.dedicated)
    (e_reg : slab1.regions =
      insert_region
        (insert_region (slab.regions.eraseIdx idx) { start := reg.start, end_ := offset })
        { start := (offset + size) % SIZE_MOD, end_ := reg.end_ })
    (e_used : slab1.used = (slab.used + size) % SIZE_MOD)
    (e_el : slab1.elided = slab.elided
      + insert_region_elided (slab.regions.eraseIdx idx) { start := reg.start, end_ := offset }
      + insert_region_elided
          (insert_region (slab.regions.eraseIdx idx) { start := reg.start, end_ := offset })
          { start := (offset + size) % SIZE_MOD, end_ := reg.end_ }) :
    Inv (set_slab vk p slab1) (out :: live) := by
  obtain ⟨hg0, ⟨ma, hma, hh⟩, hsl, hl, hpw⟩ := hI
  obtain ⟨s1, s2, s3, s4, s5, s6⟩ := hsl p slab hp
  have hreg := regions_wf_le _ _ s3 reg (List.get?_mem hg)
  have hmod : (offset + size) % SIZE_MOD = offset + size := Nat.mod_eq_of_lt (by omega)
  rw [hmod] at e_reg e_el
  obtain ⟨c1, c2, c3⟩ := carve_spec slab.size slab.regions idx reg offset size s1 s3 hg h1 h2
    _ _ _ _ _ rfl rfl rfl rfl rfl
  rw [← e_reg] at c1 c2 c3
  have hmod2 : (slab.used + size) % SIZE_MOD = slab.used + size := Nat.mod_eq_of_lt (by omega)
  rw [hmod2] at e_used
  have hlt := get_slab_lt vk p slab hp
  have hget := fun q => get_slab_set_slab vk p q slab1 hlt
  refine ⟨hg0, ⟨ma, hma, hh.1, ?_⟩, ?_, ?_, ?_⟩
  · intro q hq
    obtain ⟨sq, a1, a2⟩ := hh.2 q hq
    rw [hget]
    by_cases e : q = p
    · subst e
      rw [hp] at a1; simp at a1; subst a1
      exact ⟨slab1, by simp, by rw [e_size]; exact a2⟩
    · exact ⟨sq, by rw [if_neg e]; exact a1, a2⟩
  · intro q sq hq
    rw [hget] at hq
    by_cases e : q = p
    · subst e
      rw [if_pos rfl] at hq
      simp at hq
      subst hq
      refine ⟨by rw [e_size]; exact s1, by rw [e_ded]; exact s2, by rw [e_size]; exact c1,
        ?_, ?_, ?_⟩
      · simp only [live_used, if_pos hop, hos]; omega
      · omega
      · intro s hs hpr
        rcases List.mem_cons.1 hs with e | e
        · subst e
          refine ⟨by omega, ?_⟩
          intro r hr x hx hrx
          have := (c3 r hr x hrx).2
          simp only [in_slice] at hx
          omega
        · have := s6 s e hpr
          refine ⟨by omega, ?_⟩
          intro r hr x hx hrx
          obtain ⟨y, hy, hyx⟩ := (c3 r hr x hrx).1
          exact this.2 y hy x hx hyx
    · rw [if_neg e] at hq
      exact slab_inv_cons_other live out q sq (by rw [hop]; exact fun e' => e e'.symm)
        (hsl q sq hq)
  · intro s hs
    rcases List.mem_cons.1 hs with e | e
    · subst e
      exact ⟨slab1, by rw [hget, if_pos hop]⟩
    · obtain ⟨ss, hss⟩ := hl s e
      rw [hget]
      by_cases e' : s.priv = p
      · exact ⟨slab1, by rw [if_pos e']⟩
      · exact ⟨ss, by rw [if_neg e']; exact hss⟩
  · refine List.pairwise_cons.2 ⟨?_, hpw⟩
    intro s hs hpr x hx hsx
    have := (s6 s hs (by rw [← hpr, hop])).2 reg (List.get?_mem hg) x hsx
    apply this
    simp only [in_slice, in_region] at *
    omega

theorem pow_max (k g : Nat) : (2:Nat) ^ (max k g) = max (2 ^ k) (2 ^ g) := by
  rcases Nat.le_total k g with h | h
  · rw [max_eq_right h, max_eq_right (Nat.pow_le_pow_right (by norm_num) h)]
  · rw [max_eq_left h, max_eq_left (Nat.pow_le_pow_right (by norm_num) h)]

theorem slice_heap_spec (vk : mpvk_ctx) (live : List vk_memslice) (drv : vk_driver)
    (heap : Option (Nat × Nat)) (size k : Nat) (vk1 : mpvk_ctx) (out : Option vk_memslice)
    (hI : Inv vk live) (hsz : size < SIZE_MOD) (hk : k < 64)
    (h : slice_heap vk drv heap size (2 ^ k) = some (vk1, out)) :
    Inv vk1 (returned out ++ live) ∧
      vk1.bufferImageGranularity = vk.bufferImageGranularity ∧
      ∀ s, out = some s →
        s.size = size ∧ s.offset % max (2 ^ k) vk.bufferImageGranularity = 0 := by
  obtain ⟨g, hg, hgv⟩ := hI.1
  unfold slice_heap at h
  simp only [] at h
  rw [hgv, MP_ALIGN_UP_pow k g hk hg] at h
  have hj : max k g < 64 := max_lt hk hg
  split at h
  · simp at h
  · rename_i vk2 hgr
    simp at h
    obtain ⟨e1, e2⟩ := h
    subst e1 e2
    obtain ⟨a1, a2, _⟩ := heap_get_region_spec vk live drv heap size _ _ _ hI hsz hj hgr
    exact ⟨by simpa [returned] using a1, a2, by simp⟩
  · rename_i vk2 p idx hgr
    obtain ⟨a1, a2, a3⟩ := heap_get_region_spec vk live drv heap size _ _ _ hI hsz hj hgr
    obtain ⟨slab, reg, b1, b2, b3, b4, b5⟩ := a3 p idx rfl
    rw [b1] at h
    simp only [] at h
    rw [b2] at h
    simp only [] at h
    simp at h
    obtain ⟨e1, e2⟩ := h
    subst e1 e2
    refine ⟨?_, a2, ?_⟩
    · simp only [returned, List.singleton_append]
      exact Inv_carve vk2 live p slab idx reg _ size a1 b1 b2 b3 b4 _ _ rfl rfl rfl rfl rfl
        rfl rfl rfl
    · intro s hs
      simp at hs
      subst hs
      simp only
      rw [hgv, ← pow_max]
      exact ⟨trivial, b5⟩

theorem select_heap_spec (vk : mpvk_ctx) (live : List vk_memslice) (flags : Nat)
    (reqs : Option Nat) (usage : Nat) (vk1 : mpvk_ctx) (heap : Option (Nat × Nat))
    (hI : Inv vk live) (h : select_heap vk flags reqs usage = some (vk1, heap)) :
    Inv vk1 live ∧ vk1.bufferImageGranularity = vk.bufferImageGranularity := by
  unfold select_heap at h
  split at h
  · simp at h
  · rename_i ma hma
    simp at h
    obtain ⟨e1, e2⟩ := h
    subst e1 e2
    refine ⟨Inv_alloc_eq vk live _ hI ?_, rfl⟩
    intro ma0 hma0
    rw [hma] at hma0; simp at hma0; subst hma0
    exact heap_slabs_find_heap _ _ _

theorem run_spec (vk : mpvk_ctx) (live : List vk_memslice) (drv : vk_driver)
    (req : vk_request) (k : Nat) (vk1 : mpvk_ctx) (out : Option vk_memslice)
    (hI : Inv vk live) (hk : k < 64) (ha : req.alignment = 2 ^ k) (hsz : req.size < SIZE_MOD)
    (h : req.run vk drv = some (vk1, out)) :
    Inv vk1 (returned out ++ live) ∧
      vk1.bufferImageGranularity = vk.bufferImageGranularity ∧
      ∀ s, out = some s →
        s.size = req.size ∧ s.offset % max (2 ^ k) vk.bufferImageGranularity = 0 := by
  cases req with
  | generic reqs flags =>
    simp only [vk_request.run, vk_malloc_generic] at h
    simp only [vk_request.alignment] at ha
    simp only [vk_request.size] at hsz ⊢
    split at h
    · simp at h
    · rename_i vk2 heap hsel
      obtain ⟨a1, a2⟩ := select_heap_spec _ _ _ _ _ _ _ hI hsel
      rw [ha] at h
      have := slice_heap_spec vk2 live drv heap _ k vk1 out a1 hsz hk h
      rw [a2] at this
      exact this
  | buffer bufFlags memFlags size alignment out0 =>
    simp only [vk_request.run, vk_malloc_buffer] at h
    simp only [vk_request.alignment] at ha
    simp only [vk_request.size] at hsz ⊢
    subst ha
    split at h
    · simp at h
    · rename_i vk2 hb
      simp at h
      obtain ⟨e1, e2⟩ := h
      subst e1 e2
      split at hb
      · simp at hb
      · rename_i vk3 heap hsel
        obtain ⟨a1, a2⟩ := select_heap_spec _ _ _ _ _ _ _ hI hsel
        split at hb
        · simp at hb
        · rename_i vk4 hsl
          simp at hb
          subst hb
          have := slice_heap_spec vk3 live drv heap _ k _ _ a1 hsz hk hsl
          rw [a2] at this
          exact this
        · rename_i vk4 mem hsl
          split at hb <;> simp at hb
    · rename_i vk2 o hb
      simp at h
      obtain ⟨e1, e2⟩ := h
      subst e1 e2
      split at hb
      · simp at hb
      · rename_i vk3 heap hsel
        obtain ⟨a1, a2⟩ := select_heap_spec _ _ _ _ _ _ _ hI hsel
        split at hb
        · simp at hb
        · simp at hb
        · rename_i vk4 mem hsl
          split at hb
          · simp at hb
          · simp at hb
            obtain ⟨e1, e2⟩ := hb
            subst e1 e2
            have := slice_heap_spec vk3 live drv heap _ k _ _ a1 hsz hk hsl
            rw [a2] at this
            exact this

theorem slab_inv_erase_other (live : List vk_memslice) (s : vk_memslice) (q : Nat)
    (slab : vk_slab) (hs : s ∈ live) (hq : s.priv ≠ q) (h : slab_inv live q slab) :
    slab_inv (live.erase s) q slab := by
  obtain ⟨h1, h2, h3, h4, h5, h6⟩ := h
  refine ⟨h1, h2, h3, ?_, h5, ?_⟩
  · rw [h4, live_used_erase q live s hs, if_neg hq]; omega
  · intro t ht hp
    exact h6 t (List.mem_of_mem_erase ht) hp

theorem slices_disjoint_symm (a b : vk_memslice) (h : slices_disjoint a b) :
    slices_disjoint b a :=
  fun e x hb ha => h e.symm x ha hb

theorem free_spec (vk : mpvk_ctx) (live : List vk_memslice) (slice : vk_memslice)
    (vk1 : mpvk_ctx) (hI : Inv vk live) (hs : slice ∈ live)
    (h : vk_free_memslice vk slice = some vk1) :
    Inv vk1 (live.erase slice) := by
  obtain ⟨hg0, ⟨ma, hma, hh⟩, hsl, hl, hpw⟩ := hI
  unfold vk_free_memslice at h
  split at h
  · simp at h
  · rename_i slab hp
    obtain ⟨s1, s2, s3, s4, s5, s6⟩ := hsl _ slab hp
    have hlt := get_slab_lt vk _ slab hp
    have hb := s6 slice hs rfl
    split at h
    · rename_i hge
      simp only [s2] at h
      simp at h
      subst h
      have hmod : (slice.offset + slice.size) % SIZE_MOD = slice.offset + slice.size :=
        Nat.mod_eq_of_lt (by omega)
      rw [hmod]
      have hset : ∀ (a b : vk_slab), set_slab (set_slab vk slice.priv a) slice.priv b
          = set_slab vk slice.priv b := by
        intro a b; simp [set_slab]
      rw [hset]
      have hget := fun q s => get_slab_set_slab vk slice.priv q s hlt
      have hwf : regions_wf slab.size
          (insert_region slab.regions
            { start := slice.offset, end_ := slice.offset + slice.size }) := by
        apply insert_region_wf' slab.size _ _ (by simp) (by simpa using hb.1) s1 _ s3
        intro hne y hy
        have hy' := regions_wf_le _ _ s3 y hy
        exact order_of_disjoint _ _ _ _ hne hy'.1 (fun t a1 a2 a3 a4 =>
          hb.2 y hy t ⟨a1, a2⟩ ⟨a3, a4⟩)
      have hsum := insert_region_sum slab.regions
        { start := slice.offset, end_ := slice.offset + slice.size } (by simp)
        (by simp only; omega)
        (fun y hy => by have := regions_wf_le _ _ s3 y hy; omega)
      simp only at hsum
      have hlu := live_used_erase slice.priv live slice hs
      rw [if_pos rfl] at hlu
      refine ⟨hg0, ⟨ma, hma, hh.1, ?_⟩, ?_, ?_, ?_⟩
      · intro q hq
        obtain ⟨sq, a1, a2⟩ := hh.2 q hq
        rw [hget]
        by_cases e : q = slice.priv
        · subst e
          rw [hp] at a1; simp at a1; subst a1
          exact ⟨_, if_pos rfl, a2⟩
        · exact ⟨sq, by rw [if_neg e]; exact a1, a2⟩
      · intro q sq hq
        rw [hget] at hq
        by_cases e : q = slice.priv
        · subst e
          rw [if_pos rfl] at hq
          simp at hq
          subst hq
          refine ⟨s1, rfl, hwf, ?_, ?_, ?_⟩
          · simp only; omega
          · simp only; omega
          · intro t ht hpr
            have ht' := List.mem_of_mem_erase ht
            have := s6 t ht' hpr
            refine ⟨this.1, ?_⟩
            intro r hr x hx hrx
            rcases insert_region_cover _ _ r hr x hrx with c | ⟨y, hy, c⟩
            · have hd := pairwise_erase_rel slices_disjoint slices_disjoint_symm live slice t
                hpw hs ht
              exact hd hpr.symm x (by simpa [in_region, in_slice] using c) hx
            · exact this.2 y hy x hx c
        · rw [if_neg e] at hq
          exact slab_inv_erase_other live slice q sq hs (fun e' => e e'.symm) (hsl q sq hq)
      · intro t ht
        obtain ⟨ss, hss⟩ := hl t (List.mem_of_mem_erase ht)
        rw [hget]
        by_cases e' : t.priv = slice.priv
        · exact ⟨_, by rw [if_pos e']⟩
        · exact ⟨ss, by rw [if_neg e']; exact hss⟩
      · exact hpw.sublist (List.erase_sublist _ _)
    · simp at h

theorem heap_slabs_init (i : Nat) (prop : List VkMemoryType) :
    heap_slabs { types := init_types i prop } = [] := by
  induction prop generalizing i with
  | nil => rfl
  | cons m ms ih =>
    have := ih (i + 1)
    simp only [heap_slabs, init_types, List.flatMap_cons, List.flatMap_nil,
      List.nil_append] at *
    exact this

/-- The invariant holds in every reachable state. -/
theorem Reachable_Inv (vk : mpvk_ctx) (live : List vk_memslice) (h : Reachable vk live) :
    Inv vk live := by
  induction h with
  | init vk0 prop g hg hgv hs hlen =>
    refine ⟨⟨g, hg, hgv⟩, ⟨_, rfl, ?_⟩, ?_, ?_, List.Pairwise.nil⟩
    · unfold heaps_inv
      rw [heap_slabs_init]
      simp
    · intro p slab hp
      simp [get_slab, vk_malloc_init, hs] at hp
    · simp
  | malloc vk live drv req k vk1 out _ hk ha hsz hrun ih =>
    exact (run_spec vk live drv req k vk1 out ih hk ha hsz hrun).1
  | free vk live slice vk1 _ hs hfree ih =>
    exact free_spec vk live slice vk1 ih hs hfree

/-! ## The scenarios are reachable -/

theorem demo_init_reachable : Reachable demo_init [] :=
  Reachable.init demo_vk0 _ 0 (by decide) rfl rfl (by decide)

theorem demo_run1 : demo_req.run demo_init demo_drv = some (demo_ctx1, some demo_slice_a) := by
  rfl

theorem demo_run2 : demo_req.run demo_ctx1 demo_drv = some (demo_ctx2, some demo_slice_b) := by
  rfl

theorem demo_free3 : vk_free_memslice demo_ctx2 demo_slice_a = some demo_ctx3 := by
  rfl

theorem demo_ctx1_reachable : Reachable demo_ctx1 [demo_slice_a] :=
  Reachable.malloc demo_init [] demo_drv demo_req 0 demo_ctx1 (some demo_slice_a)
    demo_init_reachable (by decide) rfl (by decide) demo_run1

theorem demo_ctx2_reachable : Reachable demo_ctx2 [demo_slice_b, demo_slice_a] :=
  Reachable.malloc demo_ctx1 [demo_slice_a] demo_drv demo_req 0 demo_ctx2 (some demo_slice_b)
    demo_ctx1_reachable (by decide) rfl (by decide) demo_run2

theorem demo_ctx3_reachable : Reachable demo_ctx3 [demo_slice_b] :=
  Reachable.free demo_ctx2 [demo_slice_b, demo_slice_a] demo_slice_a demo_ctx3
    demo_ctx2_reachable (by decide) demo_free3

/-! ## The claims -/

theorem pairwise_consecutive {α : Type} (R : α → α → Prop) (l : List α) (i : Nat) (a b : α)
    (hp : l.Pairwise R) (ha : l.get? i = some a) (hb : l.get? (i + 1) = some b) : R a b := by
  induction l generalizing i with
  | nil => simp at ha
  | cons x rest ih =>
    have hp' := List.pairwise_cons.1 hp
    cases i with
    | zero =>
      simp at ha hb
      subst ha
      exact hp'.1 b (List.getElem?_mem hb)
    | succ i =>
      simp at ha hb
      exact ih i hp'.2 (by simpa using ha) (by simpa using hb)

/-- C1: in every state reachable from `vk_malloc_init` by allocations and by
frees of live slices, every live slice has a slab, and the bytes of the slice
and the bytes of any free region of that slab's region list are disjoint. -/
theorem live_slice_disjoint_from_free_regions (vk : mpvk_ctx) (live : List vk_memslice)
    (h : Reachable vk live) (s : vk_memslice) (hs : s ∈ live) :
    ∃ slab, get_slab vk s.priv = some slab ∧
      ∀ r ∈ slab.regions,
        Set.Ico s.offset (s.offset + s.size) ∩ Set.Ico r.start r.end_ = ∅ := by
  have hI := Reachable_Inv vk live h
  obtain ⟨slab, hslab⟩ := hI.2.2.2.1 s hs
  refine ⟨slab, hslab, ?_⟩
  intro r hr
  have := (hI.2.2.1 _ slab hslab).2.2.2.2.2 s hs rfl
  ext x
  simp only [Set.mem_inter_iff, Set.mem_Ico, Set.mem_empty_iff_false, iff_false]
  intro hx
  exact this.2 r hr x hx.1 hx.2

theorem live_slice_disjoint_from_free_regions_witness :
    Reachable demo_ctx2 [demo_slice_b, demo_slice_a] ∧
      demo_slice_b ∈ [demo_slice_b, demo_slice_a] ∧
      ∃ slab, get_slab demo_ctx2 demo_slice_b.priv = some slab ∧
        ∀ r ∈ slab.regions,
          Set.Ico demo_slice_b.offset (demo_slice_b.offset + demo_slice_b.size)
            ∩ Set.Ico r.start r.end_ = ∅ :=
  ⟨demo_ctx2_reachable, by decide,
    live_slice_disjoint_from_free_regions demo_ctx2 _ demo_ctx2_reachable demo_slice_b
      (by decide)⟩

/-- C2: for every successful allocation (either entry point) in a reachable
state, with requested alignment a power of two (the granularity of the device
is one by reachability), the offset of the returned slice is a multiple of
`max(alignment, bufferImageGranularity)`. -/
theorem slice_offset_aligned (vk : mpvk_ctx) (live : List vk_memslice)
    (h : Reachable vk live) (drv : vk_driver) (req : vk_request) (k : Nat)
    (vk1 : mpvk_ctx) (s : vk_memslice)
    (hk : k < 64) (ha : req.alignment = 2 ^ k) (hsz : req.size < SIZE_MOD)
    (hrun : req.run vk drv = some (vk1, some s)) :
    s.offset % max req.alignment vk.bufferImageGranularity = 0 := by
  have hI := Reachable_Inv vk live h
  rw [ha]
  exact ((run_spec vk live drv req k vk1 (some s) hI hk ha hsz hrun).2.2 s rfl).2

theorem slice_offset_aligned_witness :
    Reachable demo_ctx1 [demo_slice_a] ∧ 0 < 64 ∧ demo_req.alignment = 2 ^ 0 ∧
      demo_req.size < SIZE_MOD ∧
      demo_req.run demo_ctx1 demo_drv = some (demo_ctx2, some demo_slice_b) ∧
      demo_slice_b.offset % max demo_req.alignment demo_ctx1.bufferImageGranularity = 0 :=
  ⟨demo_ctx1_reachable, by decide, rfl, by decide, demo_run2,
    slice_offset_aligned demo_ctx1 _ demo_ctx1_reachable demo_drv demo_req 0 demo_ctx2
      demo_slice_b (by decide) rfl (by decide) demo_run2⟩

/-- C3: for every successful allocation in a reachable state, whichever path
`heap_get_region` takes, the returned slice refers to a slab of the new state
and `slice.offset + slice.size <= slab.size`. -/
theorem slice_within_slab (vk : mpvk_ctx) (live : List vk_memslice)
    (h : Reachable vk live) (drv : vk_driver) (req : vk_request) (k : Nat)
    (vk1 : mpvk_ctx) (s : vk_memslice)
    (hk : k < 64) (ha : req.alignment = 2 ^ k) (hsz : req.size < SIZE_MOD)
    (hrun : req.run vk drv = some (vk1, some s)) :
    ∃ slab, get_slab vk1 s.priv = some slab ∧ s.offset + s.size ≤ slab.size := by
  have hI := Reachable_Inv vk live h
  have hI1 := (run_spec vk live drv req k vk1 (some s) hI hk ha hsz hrun).1
  have hs : s ∈ returned (some s) ++ live := by simp [returned]
  obtain ⟨slab, hslab⟩ := hI1.2.2.2.1 s hs
  exact ⟨slab, hslab, ((hI1.2.2.1 _ slab hslab).2.2.2.2.2 s hs rfl).1⟩

theorem slice_within_slab_witness :
    Reachable demo_ctx1 [demo_slice_a] ∧ 0 < 64 ∧ demo_req.alignment = 2 ^ 0 ∧
      demo_req.size < SIZE_MOD ∧
      demo_req.run demo_ctx1 demo_drv = some (demo_ctx2, some demo_slice_b) ∧
      ∃ slab, get_slab demo_ctx2 demo_slice_b.priv = some slab ∧
        demo_slice_b.offset + demo_slice_b.size ≤ slab.size :=
  ⟨demo_ctx1_reachable, by decide, rfl, by decide, demo_run2,
    slice_within_slab demo_ctx1 _ demo_ctx1_reachable demo_drv demo_req 0 demo_ctx2
      demo_slice_b (by decide) rfl (by decide) demo_run2⟩

/-- C4: in every reachable state (after every allocate or free operation),
the region list of every slab is sorted by start, its regions are pairwise
disjoint, and every region in it has length at least `MIN_REGION_SIZE`. -/
theorem regions_sorted_disjoint_min_size (vk : mpvk_ctx) (live : List vk_memslice)
    (h : Reachable vk live) (p : Nat) (slab : vk_slab) (hp : get_slab vk p = some slab) :
    slab.regions.Pairwise (fun a b => a.start < b.start) ∧
      slab.regions.Pairwise
        (fun a b => Set.Ico a.start a.end_ ∩ Set.Ico b.start b.end_ = ∅) ∧
      ∀ r ∈ slab.regions, region_len r ≥ MPVK_HEAP_MINIMUM_REGION_SIZE := by
  have hI := Reachable_Inv vk live h
  obtain ⟨s1, _, s3, _⟩ := hI.2.2.1 p slab hp
  have hle := regions_wf_le _ _ s3
  refine ⟨?_, ?_, ?_⟩
  · refine List.Pairwise.imp_of_mem ?_ s3.1
    intro a b ha hb hab
    have := hle a ha
    simp only [sep] at hab
    omega
  · refine List.Pairwise.imp_of_mem ?_ s3.1
    intro a b ha hb hab
    simp only [sep] at hab
    ext x
    simp only [Set.mem_inter_iff, Set.mem_Ico, Set.mem_empty_iff_false, iff_false]
    omega
  · intro r hr
    have h1 := s3.2 r hr
    have h2 := hle r hr
    simp only [region_ok] at h1
    rw [region_len_eq r (by omega) (by omega)]
    omega

theorem regions_sorted_disjoint_min_size_witness :
    Reachable demo_ctx3 [demo_slice_b] ∧ get_slab demo_ctx3 0 = some demo_slab3 ∧
      (demo_slab3.regions.Pairwise (fun a b => a.start < b.start) ∧
      demo_slab3.regions.Pairwise
        (fun a b => Set.Ico a.start a.end_ ∩ Set.Ico b.start b.end_ = ∅) ∧
      ∀ r ∈ demo_slab3.regions, region_len r ≥ MPVK_HEAP_MINIMUM_REGION_SIZE) :=
  ⟨demo_ctx3_reachable, rfl,
    regions_sorted_disjoint_min_size demo_ctx3 _ demo_ctx3_reachable 0 demo_slab3 rfl⟩

/-- C5: in every reachable state the region list of every slab is maximally
coalesced: no two consecutive regions `r[i]`, `r[i+1]` satisfy
`r[i].end == r[i+1].start`. -/
theorem regions_maximally_coalesced (vk : mpvk_ctx) (live : List vk_memslice)
    (h : Reachable vk live) (p : Nat) (slab : vk_slab) (hp : get_slab vk p = some slab)
    (i : Nat) (a b : vk_region) (ha : slab.regions.get? i = some a)
    (hb : slab.regions.get? (i + 1) = some b) : a.end_ ≠ b.start := by
  have hI := Reachable_Inv vk live h
  obtain ⟨_, _, s3, _⟩ := hI.2.2.1 p slab hp
  have := pairwise_consecutive sep slab.regions i a b s3.1 ha hb
  simp only [sep] at this
  omega

/-- C6: in every reachable state every region of every slab's region list
satisfies `0 <= r.start < r.end <= slab.size`. -/
theorem regions_within_slab (vk : mpvk_ctx) (live : List vk_memslice)
    (h : Reachable vk live) (p : Nat) (slab : vk_slab) (hp : get_slab vk p = some slab)
    (r : vk_region) (hr : r ∈ slab.regions) :
    0 ≤ r.start ∧ r.start < r.end_ ∧ r.end_ ≤ slab.size := by
  have hI := Reachable_Inv vk live h
  obtain ⟨_, _, s3, _⟩ := hI.2.2.1 p slab hp
  have := regions_wf_le _ _ s3 r hr
  omega

theorem regions_within_slab_witness :
    Reachable demo_ctx3 [demo_slice_b] ∧ get_slab demo_ctx3 0 = some demo_slab3 ∧
      ({ start := 1024, end_ := 1048576 } : vk_region) ∈ demo_slab3.regions ∧
      (0 ≤ 1024 ∧ 1024 < 1048576 ∧ 1048576 ≤ demo_slab3.size) :=
  ⟨demo_ctx3_reachable, rfl, by decide,
    regions_within_slab demo_ctx3 _ demo_ctx3_reachable 0 demo_slab3 rfl
      { start := 1024, end_ := 1048576 } (by decide)⟩

/-- C7 (as amended): in every reachable state every slab satisfies
`used + (sum of region_len over the region list) + elided = size`, where
`elided` counts the bytes of the regions `insert_region` has dropped; hence
`used <= size - sum`, with equality as long as no region has been dropped. -/
theorem used_accounting (vk : mpvk_ctx) (live : List vk_memslice)
    (h : Reachable vk live) (p : Nat) (slab : vk_slab) (hp : get_slab vk p = some slab) :
    slab.used + free_bytes slab.regions + slab.elided = slab.size ∧
      slab.used ≤ slab.size - free_bytes slab.regions ∧
      (slab.elided = 0 → slab.used = slab.size - free_bytes slab.regions) := by
  have hI := Reachable_Inv vk live h
  obtain ⟨s1, _, s3, _, s5, _⟩ := hI.2.2.1 p slab hp
  rw [free_bytes_eq slab.size slab.regions s1 s3.2]
  omega

theorem used_accounting_witness :
    Reachable demo_ctx3 [demo_slice_b] ∧ get_slab demo_ctx3 0 = some demo_slab3 ∧
      (demo_slab3.used + free_bytes demo_slab3.regions + demo_slab3.elided = demo_slab3.size ∧
      demo_slab3.used ≤ demo_slab3.size - free_bytes demo_slab3.regions ∧
      (demo_slab3.elided = 0 →
        demo_slab3.used = demo_slab3.size - free_bytes demo_slab3.regions)) :=
  ⟨demo_ctx3_reachable, rfl, used_accounting demo_ctx3 _ demo_ctx3_reachable 0 demo_slab3 rfl⟩

/-- C7 is false as stated: after two requests of 512 bytes and the free of the
first slice, the slab has `used = 512` but `size - sum of region_len = 1024`. -/
theorem used_lower_bound_fails :
    Reachable demo_ctx3 [demo_slice_b] ∧ get_slab demo_ctx3 0 = some demo_slab3 ∧
      ¬ (demo_slab3.used ≥ demo_slab3.size - free_bytes demo_slab3.regions) :=
  ⟨demo_ctx3_reachable, rfl, by decide⟩

theorem demo_ctx5_reachable : Reachable demo_ctx5 [demo_slice_c] :=
  Reachable.malloc demo_init [] demo_drv demo_req4k 0 demo_ctx5 (some demo_slice_c)
    demo_init_reachable (by decide) rfl (by decide) rfl

theorem demo_ctx6_reachable : Reachable demo_ctx6 [demo_slice_d, demo_slice_c] :=
  Reachable.malloc demo_ctx5 [demo_slice_c] demo_drv demo_req4k 0 demo_ctx6 (some demo_slice_d)
    demo_ctx5_reachable (by decide) rfl (by decide) rfl

theorem demo_ctx7_reachable : Reachable demo_ctx7 [demo_slice_d] :=
  Reachable.free demo_ctx6 [demo_slice_d, demo_slice_c] demo_slice_c demo_ctx7
    demo_ctx6_reachable (by decide) rfl

theorem demo_ctx8_reachable : Reachable demo_ctx8 [] :=
  Reachable.free demo_ctx7 [demo_slice_d] demo_slice_d demo_ctx8
    demo_ctx7_reachable (by decide) rfl

theorem regions_maximally_coalesced_witness :
    Reachable demo_ctx7 [demo_slice_d] ∧ get_slab demo_ctx7 0 = some demo_slab7 ∧
      demo_slab7.regions.get? 0 = some { start := 0, end_ := 4096 } ∧
      demo_slab7.regions.get? (0 + 1) = some { start := 8192, end_ := 1048576 } ∧
      (4096 : Nat) ≠ 8192 :=
  ⟨demo_ctx7_reachable, rfl, rfl, rfl,
    regions_maximally_coalesced demo_ctx7 _ demo_ctx7_reachable 0 demo_slab7 rfl 0
      { start := 0, end_ := 4096 } { start := 8192, end_ := 1048576 } rfl rfl⟩

/-- C8 (the code at the failing input): a request of 1 GiB succeeds, but the
slab backing the slice has `dedicated = false`; `vk_free_memslice` on the slice
issues no device call (no `free_memory`), keeps the slab and inserts the
region `[0, 1 GiB)` into its region list. -/
theorem oversized_slab_not_dedicated :
    big_req.run demo_init demo_drv = some (big_ctx1, some big_slice) ∧
      get_slab big_ctx1 big_slice.priv = some big_slab1 ∧
      big_slab1.dedicated = false ∧
      vk_free_memslice big_ctx1 big_slice = some big_ctx2 ∧
      big_ctx2.calls = big_ctx1.calls ∧
      count_free_memory big_ctx2.calls = 0 ∧
      get_slab big_ctx2 big_slice.priv = some big_slab2 ∧
      big_slab2.regions = [{ start := 0, end_ := 1073741824 }] :=
  ⟨rfl, rfl, rfl, rfl, rfl, rfl, rfl, rfl⟩

/-- C9 (the code at the failing input): init, one request of 1 GiB, the free of
its slice, then `vk_malloc_uninit`: the device has received one successful
`allocate_memory` and no `free_memory`. -/
theorem oversized_slab_never_freed :
    big_req.run demo_init demo_drv = some (big_ctx1, some big_slice) ∧
      vk_free_memslice big_ctx1 big_slice = some big_ctx2 ∧
      vk_malloc_uninit big_ctx2 = some big_ctx3 ∧
      count_allocate_memory big_ctx3.calls = 1 ∧
      count_free_memory big_ctx3.calls = 0 :=
  ⟨rfl, rfl, rfl, rfl, rfl⟩

/-- No slab is ever marked dedicated: nothing in the allocator sets the flag. -/
theorem never_dedicated (vk : mpvk_ctx) (live : List vk_memslice)
    (h : Reachable vk live) (p : Nat) (slab : vk_slab) (hp : get_slab vk p = some slab) :
    slab.dedicated = false :=
  ((Reachable_Inv vk live h).2.2.1 p slab hp).2.1

theorem heap_uninit_slabs_append (vk : mpvk_ctx) (a b : List Nat) :
    heap_uninit_slabs vk (a ++ b) =
      match heap_uninit_slabs vk a with
      | none => none
      | some vk1 => heap_uninit_slabs vk1 b := by
  induction a generalizing vk with
  | nil => rfl
  | cons p ps ih =>
    simp only [List.cons_append, heap_uninit_slabs]
    split
    · rfl
    · exact ih _

theorem heap_uninit_heaps_eq (vk : mpvk_ctx) (hs : List vk_heap) :
    heap_uninit_heaps vk hs = heap_uninit_slabs vk (hs.flatMap (fun h => h.slabs)) := by
  induction hs generalizing vk with
  | nil => rfl
  | cons h hs ih =>
    simp only [heap_uninit_heaps, List.flatMap_cons, heap_uninit_slabs_append]
    split
    · rfl
    · exact ih _

theorem heap_uninit_types_eq (vk : mpvk_ctx) (ts : List vk_memtype) :
    heap_uninit_types vk ts =
      heap_uninit_slabs vk (ts.flatMap (fun t => t.heaps.flatMap (fun h => h.slabs))) := by
  induction ts generalizing vk with
  | nil => rfl
  | cons t ts ih =>
    simp only [heap_uninit_types, List.flatMap_cons, heap_uninit_slabs_append,
      heap_uninit_heaps_eq]
    split
    · rfl
    · exact ih _

theorem heap_uninit_slabs_ok (ps : List Nat) (vk : mpvk_ctx) (hn : ps.Nodup)
    (h : ∀ p ∈ ps, ∃ slab, get_slab vk p = some slab ∧ slab.used = 0) :
    ∃ vk1, heap_uninit_slabs vk ps = some vk1 := by
  induction ps generalizing vk with
  | nil => exact ⟨vk, rfl⟩
  | cons p ps ih =>
    obtain ⟨slab, h1, h2⟩ := h p (List.mem_cons_self _ _)
    have hn' := List.nodup_cons.1 hn
    simp only [heap_uninit_slabs, slab_free, h1, h2, if_pos]
    apply ih _ hn'.2
    intro q hq
    obtain ⟨sq, g1, g2⟩ := h q (List.mem_cons_of_mem _ hq)
    refine ⟨sq, ?_, g2⟩
    have hne : p ≠ q := fun e => hn'.1 (e ▸ hq)
    unfold get_slab at *
    simp only [List.get?_eq_getElem?] at *
    rw [List.getElem?_set_ne hne]
    exact g1

/-- C10: when every slice returned by the allocator has been freed (no slice
is live), every slab in every heap's slab list has `used == 0`, and
`vk_malloc_uninit` returns: the assertion `slab->used == 0` of `slab_free`
does not fail. -/
theorem teardown_all_slabs_unused (vk : mpvk_ctx) (h : Reachable vk []) :
    ∃ ma, vk.alloc = some ma ∧
      (∀ t ∈ ma.types, ∀ hp ∈ t.heaps, ∀ p ∈ hp.slabs,
        ∃ slab, get_slab vk p = some slab ∧ slab.used = 0) ∧
      ∃ vk1, vk_malloc_uninit vk = some vk1 := by
  obtain ⟨_, ⟨ma, hma, hh⟩, hsl, _, _⟩ := Reachable_Inv vk [] h
  have hall : ∀ p ∈ heap_slabs ma, ∃ slab, get_slab vk p = some slab ∧ slab.used = 0 := by
    intro p hp
    obtain ⟨slab, h1, _⟩ := hh.2 p hp
    exact ⟨slab, h1, (hsl p slab h1).2.2.2.1⟩
  refine ⟨ma, hma, ?_, ?_⟩
  · intro t ht hp hhp p hp'
    apply hall
    simp only [heap_slabs, List.mem_flatMap]
    exact ⟨t, ht, hp, hhp, hp'⟩
  · obtain ⟨vk1, h1⟩ := heap_uninit_slabs_ok (heap_slabs ma) vk hh.1 hall
    unfold vk_malloc_uninit
    simp only [hma, heap_uninit_types_eq]
    unfold heap_slabs at h1
    rw [h1]
    exact ⟨_, rfl⟩

theorem teardown_all_slabs_unused_witness :
    Reachable demo_ctx8 [] ∧
      ∃ ma, demo_ctx8.alloc = some ma ∧
        (∀ t ∈ ma.types, ∀ hp ∈ t.heaps, ∀ p ∈ hp.slabs,
          ∃ slab, get_slab demo_ctx8 p = some slab ∧ slab.used = 0) ∧
        ∃ vk1, vk_malloc_uninit demo_ctx8 = some vk1 :=
  ⟨demo_ctx8_reachable, teardown_all_slabs_unused demo_ctx8 demo_ctx8_reachable⟩

theorem insert_region_loop_untouched (region : vk_region) (l : List vk_region)
    (h : ∀ e ∈ l, e.end_ ≠ region.start ∧ e.start ≠ region.end_) :
    insert_region_loop region false l = l := by
  induction l with
  | nil => simp [insert_region_loop]
  | cons r rest ih =>
    have hr := h r (List.mem_cons_self _ _)
    unfold insert_region_loop
    rw [if_neg hr.1, if_neg hr.2]
    split
    · simp
    · rw [ih (fun e he => h e (List.mem_cons_of_mem _ he))]

theorem best_fit_loop_min (size align : Nat) (l : List vk_region) (n : Nat)
    (best : Option (Nat × vk_region)) (b : Nat) (rb : vk_region)
    (h : best_fit_loop size align n best l = some (b, rb)) :
    (∀ r ∈ l, region_fits r size align = true → region_len rb ≤ region_len r) ∧
      (∀ b0 r0, best = some (b0, r0) → region_len rb ≤ region_len r0) := by
  induction l generalizing n best with
  | nil =>
    simp only [best_fit_loop] at h
    refine ⟨by simp, ?_⟩
    intro b0 r0 hb
    rw [hb] at h
    simp at h
    rw [h.2]
  | cons r rest ih =>
    unfold best_fit_loop at h
    split at h
    · rename_i hfit
      have := ih _ _ h
      refine ⟨?_, this.2⟩
      intro x hx hxf
      rcases List.mem_cons.1 hx with e | e
      · subst e; exact absurd hxf hfit
      · exact this.1 x e hxf
    · split at h
      · rename_i b1 r1
        split at h
        · rename_i hgt
          have := ih _ _ h
          have h2 := this.2 b1 r1 rfl
          refine ⟨?_, ?_⟩
          · intro x hx hxf
            rcases List.mem_cons.1 hx with e | e
            · subst e; omega
            · exact this.1 x e hxf
          · intro b0 r0 hb
            simp at hb
            rw [← hb.2]; exact h2
        · rename_i hgt
          have := ih _ _ h
          have h2 := this.2 n r rfl
          refine ⟨?_, ?_⟩
          · intro x hx hxf
            rcases List.mem_cons.1 hx with e | e
            · subst e; exact h2
            · exact this.1 x e hxf
          · intro b0 r0 hb
            simp at hb
            rw [← hb.2]; omega
      · have := ih _ _ h
        have h2 := this.2 n r rfl
        refine ⟨?_, by simp⟩
        intro x hx hxf
        rcases List.mem_cons.1 hx with e | e
        · subst e; exact h2
        · exact this.1 x e hxf

theorem best_fit_loop_none (size align : Nat) (l : List vk_region) (n : Nat)
    (best : Option (Nat × vk_region)) :
    best_fit_loop size align n best l = none ↔
      best = none ∧ ∀ r ∈ l, region_fits r size align = false := by
  induction l generalizing n best with
  | nil => simp [best_fit_loop]
  | cons r rest ih =>
    unfold best_fit_loop
    split
    · rename_i hfit
      rw [ih]
      have hf : region_fits r size align = false := by simpa using hfit
      simp [hf]
    · rename_i hfit
      have hf : region_fits r size align = true := by simpa using hfit
      split
      · split <;> (rw [ih]; simp [hf])
      · rw [ih]; simp [hf]

theorem slice_heap_out (vk : mpvk_ctx) (drv : vk_driver) (heap : Option (Nat × Nat))
    (size alignment : Nat) (vk1 : mpvk_ctx) (s : vk_memslice)
    (h : slice_heap vk drv heap size alignment = some (vk1, some s)) :
    s.size = size ∧ ∃ slab, get_slab vk1 s.priv = some slab := by
  unfold slice_heap at h
  simp only [] at h
  split at h
  · simp at h
  · simp at h
  · rename_i vk2 p idx hgr
    split at h
    · simp at h
    · rename_i slab hslab
      split at h
      · simp at h
      · simp at h
        obtain ⟨e1, e2⟩ := h
        subst e1 e2
        refine ⟨rfl, ?_⟩
        have hlt := get_slab_lt vk2 p slab hslab
        exact ⟨_, by rw [get_slab_set_slab vk2 p p _ hlt, if_pos rfl]⟩

theorem find_best_memtype_loop_none (flags : Nat) (reqs : Option Nat) (i : Nat)
    (l : List vk_memtype)
    (h : ∀ n t, l.get? n = some t →
      ¬ (t.flags &&& flags = flags ∧ ∀ bits, reqs = some bits → bits &&& (1 <<< (i + n)) ≠ 0)) :
    find_best_memtype_loop flags reqs i l = none := by
  induction l generalizing i with
  | nil => rfl
  | cons t ts ih =>
    have h0 := h 0 t (by simp)
    have hrest : find_best_memtype_loop flags reqs (i + 1) ts = none := by
      apply ih
      intro n t1 hn
      have := h (n + 1) t1 (by simpa using hn)
      rw [show i + 1 + n = i + (n + 1) by omega]
      exact this
    unfold find_best_memtype_loop
    split
    · exact hrest
    · rename_i hfl
      have hfl' : t.flags &&& flags = flags := by simpa using hfl
      split
      · rename_i bits
        split
        · exact hrest
        · rename_i hb
          exfalso
          apply h0
          refine ⟨hfl', ?_⟩
          intro b hb'
          simp at hb'
          subst hb'
          simpa using hb
      · exfalso
        apply h0
        exact ⟨hfl', by simp⟩

/-- C11: when no memory type satisfies the requested property flags (and, for
`vk_malloc_generic`, the `memoryTypeBits` of the requirements), both entry
points return false and the whole context, hence the allocator state, is
identical to the one before the call. -/
theorem no_matching_memtype_no_change (vk : mpvk_ctx) (ma : vk_malloc) (drv : vk_driver)
    (hma : vk.alloc = some ma) :
    (∀ reqs flags,
      (∀ i t, ma.types.get? i = some t →
        ¬ (t.flags &&& flags = flags ∧ reqs.memoryTypeBits &&& (1 <<< i) ≠ 0)) →
      vk_malloc_generic vk drv reqs flags = some (vk, none)) ∧
    (∀ bufFlags memFlags size alignment out0,
      (∀ i t, ma.types.get? i = some t → ¬ (t.flags &&& memFlags = memFlags)) →
      vk_malloc_buffer vk drv bufFlags memFlags size alignment out0 = some (vk, none)) := by
  have hvk : { vk with alloc := some ma } = vk := by
    cases vk; simp at hma; simp [hma]
  constructor
  · intro reqs flags h
    have hn : find_best_memtype ma flags (some reqs.memoryTypeBits) = none := by
      apply find_best_memtype_loop_none
      intro n t hn hc
      apply h n t hn
      refine ⟨hc.1, ?_⟩
      have := hc.2 _ rfl
      simpa using this
    simp only [vk_malloc_generic, select_heap, hma, hn, find_heap, hvk, slice_heap,
      heap_get_region]
  · intro bufFlags memFlags size alignment out0 h
    have hn : find_best_memtype ma memFlags none = none := by
      apply find_best_memtype_loop_none
      intro n t hn hc
      exact h n t hn hc.1
    simp only [vk_malloc_buffer, select_heap, hma, hn, find_heap, hvk, slice_heap,
      heap_get_region]

theorem no_matching_memtype_no_change_witness :
    demo_init.alloc = some { types := init_types 0 [{ propertyFlags := 0, heapIndex := 0 }] } ∧
      vk_malloc_generic demo_init demo_drv
        { size := 512, alignment := 1, memoryTypeBits := 1 } 1 = some (demo_init, none) ∧
      vk_malloc_buffer demo_init demo_drv 1 1 512 1 hv_out0 = some (demo_init, none) :=
  ⟨rfl,
    (no_matching_memtype_no_change demo_init _ demo_drv rfl).1 _ 1 (by
      intro i t ht hc
      cases i with
      | zero => simp [init_types] at ht; subst ht; simp at hc
      | succ i => simp [init_types] at ht),
    (no_matching_memtype_no_change demo_init _ demo_drv rfl).2 1 1 512 1 hv_out0 (by
      intro i t ht hc
      cases i with
      | zero => simp [init_types] at ht; subst ht; simp at hc
      | succ i => simp [init_types] at ht)⟩

/-- C13: on every successful `vk_malloc_buffer` call, `out.buf` is the buffer
handle of the slab the slice refers to, `out.mem.size` is the requested size,
and if the slab's `data` is non-null then `out.data` is `slab.data +
out.mem.offset` (in pointer arithmetic, 64 bits). -/
theorem buffer_slice_fields (vk : mpvk_ctx) (drv : vk_driver)
    (bufFlags memFlags size alignment : Nat) (out0 : vk_bufslice) (vk1 : mpvk_ctx)
    (out : vk_bufslice)
    (h : vk_malloc_buffer vk drv bufFlags memFlags size alignment out0 = some (vk1, some out)) :
    ∃ slab, get_slab vk1 out.mem.priv = some slab ∧ out.buf = slab.buffer ∧
      out.mem.size = size ∧
      (slab.data ≠ 0 → out.data = (slab.data + out.mem.offset) % SIZE_MOD) := by
  unfold vk_malloc_buffer at h
  split at h
  · simp at h
  · rename_i vk2 heap hsel
    split at h
    · simp at h
    · simp at h
    · rename_i vk3 mem hsl
      have hs := (slice_heap_out _ _ _ _ _ _ _ hsl).1
      split at h
      · simp at h
      · rename_i slab hslab
        simp at h
        obtain ⟨e1, e2⟩ := h
        subst e1 e2
        refine ⟨slab, hslab, rfl, hs, ?_⟩
        intro hd
        simp [hd]

theorem buffer_slice_fields_witness :
    vk_malloc_buffer hv_ctx1 hv_drv 1 2 4096 16 hv_out0 = some (hv_ctx2, some hv_out2) ∧
      ∃ slab, get_slab hv_ctx2 hv_out2.mem.priv = some slab ∧ hv_out2.buf = slab.buffer ∧
        hv_out2.mem.size = 4096 ∧
        (slab.data ≠ 0 → hv_out2.data = (slab.data + hv_out2.mem.offset) % SIZE_MOD) :=
  ⟨rfl, buffer_slice_fields hv_ctx1 hv_drv 1 2 4096 16 hv_out0 hv_ctx2 hv_out2 rfl⟩

/-- C15: the search over the regions of one slab in `heap_get_region` selects a
region index iff some region of the slab fits the request; the selected
region is the one at that index, it fits, and no fitting region of the slab
is shorter. In scenario S3 (free regions of 32, 8 and 16 KiB) a request of
6 KiB with alignment 1 is placed at the start of the 8 KiB region. -/
theorem best_fit_search_correct :
    (∀ (regions : List vk_region) (size align : Nat),
      ((∃ idx r, best_fit_loop size align 0 none regions = some (idx, r)) ↔
        ∃ r ∈ regions, region_fits r size align = true) ∧
      (∀ idx r, best_fit_loop size align 0 none regions = some (idx, r) →
        regions.get? idx = some r ∧ region_fits r size align = true ∧
        ∀ r1 ∈ regions, region_fits r1 size align = true → region_len r ≤ region_len r1)) ∧
    (regions_at s3_state 0 =
        some [{ start := 0, end_ := 32768 }, { start := 33792, end_ := 41984 },
              { start := 43008, end_ := 59392 }] ∧
      best_fit_loop 6144 1 0 none
        [{ start := 0, end_ := 32768 }, { start := 33792, end_ := 41984 },
         { start := 43008, end_ := 59392 }] = some (1, { start := 33792, end_ := 41984 }) ∧
      s3_request.map (fun r => (r.2.priv, r.2.offset, r.2.size)) = some (0, 33792, 6144)) := by
  refine ⟨?_, rfl, rfl, rfl⟩
  intro regions size align
  have hsel : ∀ idx r, best_fit_loop size align 0 none regions = some (idx, r) →
      regions.get? idx = some r ∧ region_fits r size align = true ∧
      ∀ r1 ∈ regions, region_fits r1 size align = true → region_len r ≤ region_len r1 := by
    intro idx r h
    rcases best_fit_loop_spec size align regions 0 none idx r h with h1 | ⟨i, h1, h2, h3⟩
    · simp at h1
    · refine ⟨?_, h3, (best_fit_loop_min size align regions 0 none idx r h).1⟩
      rw [h2]; simpa using h1
  refine ⟨⟨?_, ?_⟩, hsel⟩
  · rintro ⟨idx, r, h⟩
    have := hsel idx r h
    exact ⟨r, List.get?_mem this.1, this.2.1⟩
  · rintro ⟨r, hr, hf⟩
    cases hres : best_fit_loop size align 0 none regions with
    | none =>
      have := ((best_fit_loop_none size align regions 0 none).1 hres).2 r hr
      rw [hf] at this
      simp at this
    | some x => exact ⟨x.1, x.2, rfl⟩

/-- C16: `insert_region` leaves the region list unchanged when the region is
empty, or when its length is below the minimum region size and it touches no
region of the list. -/
theorem insert_region_unchanged (l : List vk_region) (region : vk_region)
    (h : region.start = region.end_ ∨
      (region_len region < MPVK_HEAP_MINIMUM_REGION_SIZE ∧
        ∀ e ∈ l, e.end_ ≠ region.start ∧ e.start ≠ region.end_)) :
    insert_region l region = l := by
  unfold insert_region
  split
  · rfl
  · rcases h with h | ⟨h1, h2⟩
    · contradiction
    · have : decide (region_len region ≥ MPVK_HEAP_MINIMUM_REGION_SIZE) = false := by
        simp; omega
      rw [this]
      exact insert_region_loop_untouched region l h2

theorem insert_region_unchanged_witness :
    (regions_at (s4_full.map (fun r => r.1)) 0 = some [] ∧
      s4_full.map (fun r => (r.2.priv, r.2.offset, r.2.size)) = some (0, 0, 512) ∧
      regions_at s4_freed 0 = some [] ∧
      s4_request.map (fun r => r.2.priv) = some 1) ∧
    (region_len { start := 0, end_ := 512 } < MPVK_HEAP_MINIMUM_REGION_SIZE ∧
      ∀ e ∈ demo_slab2.regions, e.end_ ≠ 0 ∧ e.start ≠ 512) ∧
    insert_region demo_slab2.regions { start := 0, end_ := 512 } = demo_slab2.regions :=
  ⟨⟨rfl, rfl, rfl, rfl⟩, ⟨by decide, by decide⟩,
    insert_region_unchanged demo_slab2.regions { start := 0, end_ := 512 }
      (Or.inr ⟨by decide, by decide⟩)⟩

theorem slab_alloc_error_eq (vk : mpvk_ctx) (calls : List dev_call) (slab : vk_slab)
    (hu : slab.used = 0) :
    slab_alloc_error vk calls slab =
      some ({ vk with
              calls := calls ++ [dev_call.destroy_buffer slab.buffer,
                                 dev_call.free_memory slab.mem],
              slabs := vk.slabs ++ [none] }, none) := by
  unfold slab_alloc_error slab_free
  rw [get_slab_append_length]
  simp [hu]

theorem slab_alloc_error_failed (vk : mpvk_ctx) (calls c : List dev_call) (slab : vk_slab)
    (hu : slab.used = 0) (hcalls : calls = vk.calls ++ c)
    (hc : creation_calls c slab.buffer slab.mem) :
    creation_failed vk (slab_alloc_error vk calls slab) := by
  rw [slab_alloc_error_eq vk _ slab hu, hcalls]
  exact ⟨_, rfl, rfl, rfl, rfl, c, slab.buffer, slab.mem, rfl, hc⟩

theorem creation_calls_append (c c1 : List dev_call) (b m : Nat)
    (hc : creation_calls c b m) (hc1 : creation_calls c1 b m) :
    creation_calls (c ++ c1) b m := by
  obtain ⟨a1, a2, a3, a4⟩ := hc
  obtain ⟨b1, b2, b3, b4⟩ := hc1
  refine ⟨?_, ?_, ?_, ?_⟩
  · intro sz u x hx
    rcases List.mem_append.1 hx with h | h
    · exact a1 sz u x h
    · exact b1 sz u x h
  · intro t sz x hx
    rcases List.mem_append.1 hx with h | h
    · exact a2 t sz x h
    · exact b2 t sz x h
  · intro x hx
    rcases List.mem_append.1 hx with h | h
    · exact a3 x h
    · exact b3 x h
  · intro x hx
    rcases List.mem_append.1 hx with h | h
    · exact a4 x h
    · exact b4 x h

theorem slab_alloc_bind_cases (vk : mpvk_ctx) (calls c : List dev_call) (drv : vk_driver)
    (type : vk_memtype) (usage size : Nat) (slab : vk_slab)
    (hcalls : calls = vk.calls ++ c)
    (hs : slab_fresh size slab) (hc : creation_calls c slab.buffer slab.mem)
    (hm : drv.allocateMemory = some slab.mem)
    (hb0 : usage = 0 → slab.buffer = 0) (hb1 : usage ≠ 0 → drv.createBuffer = some slab.buffer)
    (hd0 : type.flags &&& VK_MEMORY_PROPERTY_HOST_VISIBLE_BIT = 0 → slab.data = 0)
    (hd1 : type.flags &&& VK_MEMORY_PROPERTY_HOST_VISIBLE_BIT ≠ 0 →
      drv.mapMemory = some slab.data)
    (hd2 : type.flags &&& VK_MEMORY_PROPERTY_HOST_VISIBLE_BIT ≠ 0 →
      dev_call.map_memory slab.mem true slab.data ∈ c) :
    (usage ≠ 0 ∧ drv.bindBufferMemory = false →
      creation_failed vk (slab_alloc_bind vk calls drv usage slab)) ∧
    (¬ (usage ≠ 0 ∧ drv.bindBufferMemory = false) →
      creation_done vk drv type usage size (slab_alloc_bind vk calls drv usage slab)) := by
  unfold slab_alloc_bind
  subst hcalls
  constructor
  · rintro ⟨h1, h2⟩
    rw [if_pos h1, h2, if_neg (by simp)]
    apply slab_alloc_error_failed vk _ (c ++ [dev_call.bind_buffer slab.buffer slab.mem false])
      slab hs.2.1 (by simp)
    exact creation_calls_append _ _ _ _ hc (by simp [creation_calls])
  · intro h
    by_cases hu : usage = 0
    · rw [if_neg (by simpa using hu)]
      exact ⟨_, slab, rfl, rfl, rfl, rfl, ⟨c, rfl, hd2⟩, hs, hm, hb0, hb1, hd0, hd1⟩
    · rw [if_pos hu]
      have hbb : drv.bindBufferMemory = true := by
        cases hbv : drv.bindBufferMemory
        · exact absurd ⟨hu, hbv⟩ h
        · rfl
      rw [hbb, if_pos rfl]
      exact ⟨_, slab, rfl, rfl, rfl, rfl,
        ⟨_, List.append_assoc _ _ _, fun h => List.mem_append_left _ (hd2 h)⟩, hs, hm, hb0,
        hb1, hd0, hd1⟩

theorem slab_alloc_memory_cases (vk : mpvk_ctx) (calls c : List dev_call) (drv : vk_driver)
    (type : vk_memtype) (usage size asz : Nat) (slab : vk_slab)
    (hcalls : calls = vk.calls ++ c)
    (hs : slab_fresh size slab) (hc : ∀ m, creation_calls c slab.buffer m)
    (hdata : slab.data = 0)
    (hb0 : usage = 0 → slab.buffer = 0)
    (hb1 : usage ≠ 0 → drv.createBuffer = some slab.buffer) :
    (drv.allocateMemory = none ∨
      (type.flags &&& VK_MEMORY_PROPERTY_HOST_VISIBLE_BIT ≠ 0 ∧ drv.mapMemory = none) ∨
      (usage ≠ 0 ∧ drv.bindBufferMemory = false) →
      creation_failed vk (slab_alloc_memory vk calls drv type usage slab asz)) ∧
    (¬ (drv.allocateMemory = none ∨
      (type.flags &&& VK_MEMORY_PROPERTY_HOST_VISIBLE_BIT ≠ 0 ∧ drv.mapMemory = none) ∨
      (usage ≠ 0 ∧ drv.bindBufferMemory = false)) →
      creation_done vk drv type usage size
        (slab_alloc_memory vk calls drv type usage slab asz)) := by
  unfold slab_alloc_memory
  subst hcalls
  cases ham : drv.allocateMemory with
  | none =>
    simp only [true_or, not_true_eq_false, false_implies, and_true, forall_const]
    apply slab_alloc_error_failed vk _
      (c ++ [dev_call.allocate_memory type.index asz false 0]) slab hs.2.1 (by simp)
    exact creation_calls_append _ _ _ _ (hc _) (by simp [creation_calls])
  | some m =>
    simp only []
    have hs1 : ∀ d, slab_fresh size { slab with mem := m, data := d } := fun d => hs
    have hcm : creation_calls (c ++ [dev_call.allocate_memory type.index asz true m])
        slab.buffer m :=
      creation_calls_append _ _ _ _ (hc m) (by simp [creation_calls])
    by_cases hv : type.flags &&& VK_MEMORY_PROPERTY_HOST_VISIBLE_BIT = 0
    · rw [if_neg (by simpa using hv)]
      have hb := slab_alloc_bind_cases vk
        (vk.calls ++ c ++ [dev_call.allocate_memory type.index asz true m])
        (c ++ [dev_call.allocate_memory type.index asz true m]) drv type usage size
        { slab with mem := m } (by simp) hs hcm ham hb0 hb1 (fun _ => hdata)
        (fun h => absurd hv h) (fun h => absurd hv h)
      constructor
      · intro h
        rcases h with h | h | h
        · simp at h
        · exact absurd hv h.1
        · exact hb.1 h
      · intro h
        exact hb.2 (fun h1 => h (Or.inr (Or.inr h1)))
    · rw [if_pos hv]
      cases hmm : drv.mapMemory with
      | none =>
        constructor
        · intro _
          apply slab_alloc_error_failed vk _
            (c ++ [dev_call.allocate_memory type.index asz true m,
                   dev_call.map_memory m false 0])
            { slab with mem := m } hs.2.1 (by simp)
          exact creation_calls_append _ _ _ _ (hc m) (by simp [creation_calls])
        · intro h
          exact absurd (Or.inr (Or.inl ⟨hv, rfl⟩)) h
      | some d =>
        have hb := slab_alloc_bind_cases vk
          (vk.calls ++ c ++ [dev_call.allocate_memory type.index asz true m]
            ++ [dev_call.map_memory m true d])
          (c ++ [dev_call.allocate_memory type.index asz true m, dev_call.map_memory m true d])
          drv type usage size
          { slab with mem := m, data := d } (by simp) (hs1 d)
          (creation_calls_append _ _ _ _ (hc m) (by simp [creation_calls])) ham hb0 hb1
          (fun h => absurd h hv) (fun _ => hmm) (fun _ => by simp)
        constructor
        · intro h
          rcases h with h | h | h
          · simp at h
          · simp at h
          · exact hb.1 h
        · intro h
          exact hb.2 (fun h1 => h (Or.inr (Or.inr h1)))

/-- Slab creation fails exactly in the cases the specification lists, and
then the slab is torn down; otherwise the slab is created. -/
theorem slab_alloc_cases (vk : mpvk_ctx) (drv : vk_driver) (type : vk_memtype)
    (usage size : Nat) :
    (slab_alloc_fails drv type usage → creation_failed vk (slab_alloc vk drv type usage size)) ∧
    (¬ slab_alloc_fails drv type usage →
      creation_done vk drv type usage size (slab_alloc vk drv type usage size)) := by
  unfold slab_alloc slab_alloc_fails
  simp only []
  have hfresh : ∀ b, slab_fresh size
      { mem := 0, size := size, used := 0, dedicated := false,
        regions := [{ start := 0, end_ := size }], buffer := b, data := 0, elided := 0 } :=
    fun b => ⟨rfl, rfl, rfl, rfl, rfl⟩
  by_cases hu : usage = 0
  · rw [if_neg (by simpa using hu)]
    have hm := slab_alloc_memory_cases vk vk.calls [] drv type usage size size
      { mem := 0, size := size, used := 0, dedicated := false,
        regions := [{ start := 0, end_ := size }], buffer := 0, data := 0, elided := 0 }
      (by simp) (hfresh 0) (by simp [creation_calls]) rfl (fun _ => rfl)
      (fun h => absurd hu h)
    constructor
    · intro h
      apply hm.1
      rcases h with h | h | h | h | h
      · exact absurd hu h.1
      · exact absurd hu h.1
      · exact Or.inl h
      · exact Or.inr (Or.inl h)
      · exact Or.inr (Or.inr h)
    · intro h
      apply hm.2
      intro h1
      apply h
      rcases h1 with h1 | h1 | h1
      · exact Or.inr (Or.inr (Or.inl h1))
      · exact Or.inr (Or.inr (Or.inr (Or.inl h1)))
      · exact Or.inr (Or.inr (Or.inr (Or.inr h1)))
  · rw [if_pos hu]
    cases hcb : drv.createBuffer with
    | none =>
      constructor
      · intro _
        exact slab_alloc_error_failed vk _ [dev_call.create_buffer size usage false 0] _ rfl
          rfl (by simp [creation_calls])
      · intro h
        exact absurd (Or.inl ⟨hu, rfl⟩) h
    | some b =>
      simp only []
      by_cases hbits : drv.reqs_memoryTypeBits &&& (1 <<< type.index) = 0
      · rw [if_pos hbits]
        constructor
        · intro _
          exact slab_alloc_error_failed vk _ [dev_call.create_buffer size usage true b] _ rfl
            rfl (by simp [creation_calls])
        · intro h
          exact absurd (Or.inr (Or.inl ⟨hu, hbits⟩)) h
      · rw [if_neg hbits]
        have hm := slab_alloc_memory_cases vk
          (vk.calls ++ [dev_call.create_buffer size usage true b])
          [dev_call.create_buffer size usage true b] drv type usage size drv.reqs_size
          { mem := 0, size := size, used := 0, dedicated := false,
            regions := [{ start := 0, end_ := size }], buffer := b, data := 0, elided := 0 }
          rfl (hfresh b) (by simp [creation_calls]) rfl (fun h => absurd h hu)
          (fun _ => hcb)
        constructor
        · intro h
          apply hm.1
          rcases h with h | h | h | h | h
          · simp at h
          · exact absurd h.2 hbits
          · exact Or.inl h
          · exact Or.inr (Or.inl h)
          · exact Or.inr (Or.inr h)
        · intro h
          apply hm.2
          intro h1
          apply h
          rcases h1 with h1 | h1 | h1
          · exact Or.inr (Or.inr (Or.inl h1))
          · exact Or.inr (Or.inr (Or.inr (Or.inl h1)))
          · exact Or.inr (Or.inr (Or.inr (Or.inr h1)))

theorem heap_get_region_effect (vk : mpvk_ctx) (drv : vk_driver) (h : Nat × Nat)
    (size align : Nat) (vk2 : mpvk_ctx) (r : Option (Nat × Nat))
    (ma : vk_malloc) (type : vk_memtype) (hp : vk_heap)
    (hma : vk.alloc = some ma) (htype : ma.types.get? h.1 = some type)
    (hheap : type.heaps.get? h.2 = some hp)
    (hr : heap_get_region vk drv (some h) size align = some (vk2, r)) :
    hgr_outcome vk drv ma h type hp size align vk2 r := by
  unfold heap_get_region at hr
  simp only [hma, htype, hheap] at hr
  split at hr
  · rename_i hbig
    split at hr
    · simp at hr
    · rename_i vk3 hsa
      simp at hr
      obtain ⟨e1, e2⟩ := hr
      subst e1 e2
      exact hgr_outcome.failed size _ hsa
    · rename_i vk3 p hsa
      simp at hr
      obtain ⟨e1, e2⟩ := hr
      subst e1 e2
      exact hgr_outcome.oversized _ p hbig hsa
  · rename_i hsmall
    have hsmall' : size ≤ MPVK_HEAP_MAXIMUM_SLAB_SIZE := by omega
    split at hr
    · simp at hr
    · rename_i found last hsearch
      simp at hr
      obtain ⟨e1, e2⟩ := hr
      subst e1 e2
      exact hgr_outcome.found found.1 found.2 last hsmall' hsearch
    · rename_i last hsearch
      split at hr
      · rename_i hge
        split at hr
        · simp at hr
        · rename_i vk3 hsa
          simp at hr
          obtain ⟨e1, e2⟩ := hr
          subst e1 e2
          exact hgr_outcome.failed _ _ hsa
        · rename_i vk3 p hsa
          split at hr
          · simp at hr
          · split at hr
            · simp at hr
              obtain ⟨e1, e2⟩ := hr
              subst e1 e2
              refine hgr_outcome.grown vk3 p last hsmall' hsearch ?_ ?_
              · cases last <;> exact hge
              · cases last <;> exact hsa
            · simp at hr
      · simp at hr

theorem slice_heap_effect (vk : mpvk_ctx) (drv : vk_driver) (heap : Option (Nat × Nat))
    (size alignment : Nat) (vk1 : mpvk_ctx) (out : Option vk_memslice)
    (h : slice_heap vk drv heap size alignment = some (vk1, out)) :
    ∃ vk2 r,
      heap_get_region vk drv heap size (MP_ALIGN_UP alignment vk.bufferImageGranularity)
        = some (vk2, r) ∧
      ((r = none ∧ out = none ∧ vk1 = vk2) ∨
       (∃ p idx slab reg, r = some (p, idx) ∧ get_slab vk2 p = some slab ∧
          slab.regions.get? idx = some reg ∧
          out = some { vkmem := slab.mem,
                       offset := MP_ALIGN_UP reg.start
                         (MP_ALIGN_UP alignment vk.bufferImageGranularity),
                       size := size, priv := p } ∧
          vk1 = set_slab vk2 p
            (carve_slab slab idx reg
              (MP_ALIGN_UP reg.start (MP_ALIGN_UP alignment vk.bufferImageGranularity))
              size))) := by
  unfold slice_heap at h
  simp only [] at h
  split at h
  · simp at h
  · rename_i vk2 hgr
    simp at h
    obtain ⟨e1, e2⟩ := h
    subst e1 e2
    exact ⟨_, _, hgr, Or.inl ⟨rfl, rfl, rfl⟩⟩
  · rename_i vk2 p idx hgr
    split at h
    · simp at h
    · rename_i slab hslab
      split at h
      · simp at h
      · rename_i reg hreg
        simp at h
        obtain ⟨e1, e2⟩ := h
        subst e1 e2
        exact ⟨_, _, hgr, Or.inr ⟨p, idx, slab, reg, rfl, hslab, hreg, rfl, rfl⟩⟩

theorem run_effect (vk : mpvk_ctx) (drv : vk_driver) (req : vk_request) (vk1 : mpvk_ctx)
    (out : Option vk_memslice) (h : req.run vk drv = some (vk1, out)) :
    ∃ vk0 heap, select_heap vk req.flags req.typeBits req.usage = some (vk0, heap) ∧
      slice_heap vk0 drv heap req.size req.alignment = some (vk1, out) := by
  cases req with
  | generic reqs flags =>
    simp only [vk_request.run, vk_malloc_generic] at h
    split at h
    · simp at h
    · rename_i vk2 heap hsel
      exact ⟨vk2, heap, hsel, h⟩
  | buffer bufFlags memFlags size alignment out0 =>
    simp only [vk_request.run, vk_malloc_buffer] at h
    split at h
    · simp at h
    · rename_i vk2 hb
      simp at h
      obtain ⟨e1, e2⟩ := h
      subst e1 e2
      split at hb
      · simp at hb
      · rename_i vk3 heap hsel
        split at hb
        · simp at hb
        · rename_i vk4 hsl
          simp at hb
          subst hb
          exact ⟨vk3, heap, hsel, hsl⟩
        · split at hb <;> simp at hb
    · rename_i vk2 o hb
      simp at h
      obtain ⟨e1, e2⟩ := h
      subst e1 e2
      split at hb
      · simp at hb
      · rename_i vk3 heap hsel
        split at hb
        · simp at hb
        · simp at hb
        · rename_i vk4 mem hsl
          split at hb
          · simp at hb
          · simp at hb
            obtain ⟨e1, e2⟩ := hb
            subst e1 e2
            exact ⟨vk3, heap, hsel, hsl⟩

theorem find_heap_loop_some (usage : Nat) (l : List vk_heap) (i j : Nat)
    (h : find_heap_loop usage i l = some j) :
    i ≤ j ∧ ∃ hp, l.get? (j - i) = some hp ∧ hp.usage = usage := by
  induction l generalizing i with
  | nil => simp [find_heap_loop] at h
  | cons x xs ih =>
    unfold find_heap_loop at h
    split at h
    · rename_i hx
      simp at h
      subst h
      exact ⟨le_refl _, x, by simp, hx⟩
    · obtain ⟨h1, hp, h2, h3⟩ := ih _ h
      refine ⟨by omega, hp, ?_, h3⟩
      have : j - i = (j - (i + 1)) + 1 := by omega
      rw [this]
      simpa using h2

theorem get_heap_set_types (ma : vk_malloc) (ti : Nat) (t t1 : vk_memtype)
    (ht : ma.types.get? ti = some t) (h : Nat × Nat) :
    get_heap { ma with types := ma.types.set ti t1 } h =
      if h.1 = ti then t1.heaps.get? h.2 else get_heap ma h := by
  have hlt : ti < ma.types.length := by
    by_contra hc
    have : ma.types.get? ti = none := by rw [List.get?_eq_none]; omega
    rw [this] at ht; simp at ht
  unfold get_heap
  simp only [List.get?_eq_getElem?, List.getElem?_set]
  by_cases e : h.1 = ti
  · rw [e]; simp [hlt]
  · have : ¬ ti = h.1 := fun e1 => e e1.symm
    simp [e, this]

/-- What `find_heap` returns for a valid memory type: a heap of that type with
the usage asked for; the memory type keeps its index and flags and every heap
there was is unchanged. -/
theorem find_heap_effect (ma : vk_malloc) (ti usage : Nat) (t : vk_memtype)
    (ht : ma.types.get? ti = some t) :
    ∃ ma1 hi t1 hp, find_heap ma (some ti) usage = (ma1, some (ti, hi)) ∧
      ma1.types.get? ti = some t1 ∧ t1.index = t.index ∧ t1.flags = t.flags ∧
      t1.heaps.get? hi = some hp ∧ hp.usage = usage ∧
      (∀ h heap, get_heap ma h = some heap → get_heap ma1 h = some heap) ∧
      (ma1 = ma ∨ (hi = t.heaps.length ∧ hp = heap_init usage ∧
        ma1 = { ma with types := ma.types.set ti { t with heaps := t.heaps ++ [hp] } })) := by
  unfold find_heap
  simp only [ht]
  split
  · rename_i hi hfound
    obtain ⟨_, hp, h1, h2⟩ := find_heap_loop_some usage t.heaps 0 hi hfound
    exact ⟨ma, hi, t, hp, rfl, ht, rfl, rfl, by simpa using h1, h2, fun _ _ h => h, Or.inl rfl⟩
  · have hlt : ti < ma.types.length := by
      by_contra hc
      have : ma.types.get? ti = none := by rw [List.get?_eq_none]; omega
      rw [this] at ht; simp at ht
    refine ⟨_, t.heaps.length, { t with heaps := t.heaps ++ [heap_init usage] },
      heap_init usage, rfl, ?_, rfl, rfl, ?_, rfl, ?_, Or.inr ⟨rfl, rfl, rfl⟩⟩
    · simp [List.getElem?_set, hlt]
    · simp
    · intro h heap hh
      rw [get_heap_set_types ma ti t _ ht h]
      by_cases e : h.1 = ti
      · rw [if_pos e]
        unfold get_heap at hh
        rw [e, ht] at hh
        simp only [] at hh
        simp only [List.get?_eq_getElem?] at hh ⊢
        have hlt2 : h.2 < t.heaps.length := by
          by_contra hc
          have : t.heaps[h.2]? = none := by rw [List.getElem?_eq_none]; omega
          rw [this] at hh; simp at hh
        rw [List.getElem?_append_left hlt2]
        exact hh
      · rw [if_neg e]; exact hh

theorem slab_alloc_fails_congr (drv : vk_driver) (t t1 : vk_memtype) (usage : Nat)
    (hi : t1.index = t.index) (hf : t1.flags = t.flags) (h : slab_alloc_fails drv t usage) :
    slab_alloc_fails drv t1 usage := by
  unfold slab_alloc_fails at *
  rw [hi, hf]
  exact h

theorem set_slab_length (vk : mpvk_ctx) (p : Nat) (s : vk_slab) :
    (set_slab vk p s).slabs.length = vk.slabs.length := by
  simp [set_slab]

/-- C12: when slab creation fails for the memory type chosen for the request
(for one of the five causes of `slab_alloc_fails`), an allocation either is
served from an existing slab without any device call, or it returns false;
then the slab object is freed again and the slab torn down (`destroy_buffer`
and `free_memory` on what the creation obtained), every heap there was is
unchanged (its slab list included) and every slab there was is unchanged. -/
theorem slab_creation_failure_no_change (vk : mpvk_ctx) (ma : vk_malloc) (drv : vk_driver)
    (req : vk_request) (ti : Nat) (type : vk_memtype) (vk1 : mpvk_ctx)
    (out : Option vk_memslice)
    (hma : vk.alloc = some ma)
    (hti : find_best_memtype ma req.flags req.typeBits = some ti)
    (htype : ma.types.get? ti = some type)
    (hfail : slab_alloc_fails drv type req.usage)
    (hrun : req.run vk drv = some (vk1, out)) :
    (∃ s, out = some s ∧ vk1.calls = vk.calls ∧ vk1.slabs.length = vk.slabs.length) ∨
    (out = none ∧ vk1.slabs = vk.slabs ++ [none] ∧ torn_down vk.calls vk1.calls ∧
      (∃ ma1, vk1.alloc = some ma1 ∧
        ∀ h heap, get_heap ma h = some heap → get_heap ma1 h = some heap) ∧
      ∀ p slab, get_slab vk p = some slab → get_slab vk1 p = some slab) := by
  obtain ⟨vk0, heap, hsel, hsl⟩ := run_effect vk drv req vk1 out hrun
  unfold select_heap at hsel
  simp only [hma, hti] at hsel
  obtain ⟨ma1, hi, t1, hp, f1, f2, f3, f4, f5, f6, f7, _⟩ :=
    find_heap_effect ma ti req.usage type htype
  rw [f1] at hsel
  simp at hsel
  obtain ⟨e1, e2⟩ := hsel
  subst e1 e2
  obtain ⟨vk2, r, hgr, hcase⟩ := slice_heap_effect _ _ _ _ _ _ _ hsl
  have hout := heap_get_region_effect _ drv (ti, hi) _ _ vk2 r ma1 t1 hp rfl f2 f5 hgr
  have hfail1 : slab_alloc_fails drv t1 hp.usage := by
    rw [f6]; exact slab_alloc_fails_congr drv type t1 _ f3 f4 hfail
  have hcf := fun sz => (slab_alloc_cases { vk with alloc := some ma1 } drv t1 hp.usage sz).1
    hfail1
  cases hout with
  | found p idx last hsmall hsearch =>
    left
    rcases hcase with ⟨e, _, _⟩ | ⟨p1, idx1, slab, reg, e1, e2, e3, e4, e5⟩
    · simp at e
    · exact ⟨_, e4, by rw [e5]; rfl, by rw [e5, set_slab_length]⟩
  | failed sz vk3 hsa =>
    right
    rcases hcase with ⟨_, e2, e3⟩ | ⟨p1, idx1, slab, reg, e1, _⟩
    · subst e3
      obtain ⟨vk4, g1, g2, g3, g4, g5⟩ := hcf sz
      rw [hsa] at g1
      simp at g1
      subst g1
      refine ⟨e2, g4, g5, ⟨ma1, g2, f7⟩, ?_⟩
      intro p slab hps
      have hlt := get_slab_lt vk p slab hps
      have := get_slab_append { vk with alloc := some ma1 } vk1 none g4 p
      rw [this, if_neg (by simp; omega)]
      exact hps
    · simp at e1
  | oversized vk3 p hbig hsa =>
    obtain ⟨vk4, g1, _⟩ := hcf req.size
    rw [hsa] at g1
    simp at g1
  | grown vk3 p last hsmall hsearch hge hsa =>
    obtain ⟨vk4, g1, _⟩ := hcf (new_slab_size req.size last)
    rw [hsa] at g1
    simp at g1

theorem slab_creation_failure_no_change_witness :
    demo_init.alloc = some { types := init_types 0 [{ propertyFlags := 0, heapIndex := 0 }] } ∧
      find_best_memtype { types := init_types 0 [{ propertyFlags := 0, heapIndex := 0 }] }
        demo_req.flags demo_req.typeBits = some 0 ∧
      (init_types 0 [{ propertyFlags := 0, heapIndex := 0 }]).get? 0
        = some { index := 0, heapIndex := 0, flags := 0, heaps := [] } ∧
      slab_alloc_fails fail_drv { index := 0, heapIndex := 0, flags := 0, heaps := [] }
        demo_req.usage ∧
      demo_req.run demo_init fail_drv = some (fail_ctx, none) ∧
      ((∃ s, (none : Option vk_memslice) = some s ∧ fail_ctx.calls = demo_init.calls ∧
          fail_ctx.slabs.length = demo_init.slabs.length) ∨
       ((none : Option vk_memslice) = none ∧ fail_ctx.slabs = demo_init.slabs ++ [none] ∧
        torn_down demo_init.calls fail_ctx.calls ∧
        (∃ ma1, fail_ctx.alloc = some ma1 ∧
          ∀ h heap,
            get_heap { types := init_types 0 [{ propertyFlags := 0, heapIndex := 0 }] } h
              = some heap → get_heap ma1 h = some heap) ∧
        ∀ p slab, get_slab demo_init p = some slab → get_slab fail_ctx p = some slab)) :=
  ⟨rfl, rfl, rfl, Or.inr (Or.inr (Or.inl rfl)), rfl,
    slab_creation_failure_no_change demo_init _ fail_drv demo_req 0
      { index := 0, heapIndex := 0, flags := 0, heaps := [] } fail_ctx none rfl rfl rfl
      (Or.inr (Or.inr (Or.inl rfl))) rfl⟩

theorem get_types_set (l : List vk_memtype) (ti : Nat) (t1 : vk_memtype) (j : Nat)
    (t : vk_memtype) (h : (l.set ti t1).get? j = some t) :
    (j = ti ∧ t = t1) ∨ (j ≠ ti ∧ l.get? j = some t) := by
  simp only [List.get?_eq_getElem?, List.getElem?_set] at h
  by_cases e : ti = j
  · rw [if_pos e] at h
    split at h
    · simp at h; exact Or.inl ⟨e.symm, h.symm⟩
    · simp at h
  · rw [if_neg e] at h
    exact Or.inr ⟨fun e1 => e e1.symm, by simpa using h⟩

theorem find_heap_types (ma : vk_malloc) (type : Option Nat) (usage : Nat) (j : Nat)
    (t1 : vk_memtype) (h : (find_heap ma type usage).1.types.get? j = some t1) :
    ∃ t, ma.types.get? j = some t ∧ t1.flags = t.flags ∧ t1.index = t.index ∧
      type_slabs t1 = type_slabs t := by
  unfold find_heap at h
  split at h
  · exact ⟨t1, h, rfl, rfl, rfl⟩
  · split at h
    · exact ⟨t1, h, rfl, rfl, rfl⟩
    · rename_i ti t ht
      split at h
      · exact ⟨t1, h, rfl, rfl, rfl⟩
      · simp only [] at h
        rcases get_types_set _ _ _ _ _ h with ⟨e1, e2⟩ | ⟨e1, e2⟩
        · subst e1 e2
          exact ⟨t, ht, rfl, rfl, by simp [type_slabs, heap_init]⟩
        · exact ⟨t1, e2, rfl, rfl, rfl⟩

theorem heap_append_slab_types (ma : vk_malloc) (h : Nat × Nat) (p : Nat) (j : Nat)
    (t1 : vk_memtype) (ht1 : (heap_append_slab ma h p).types.get? j = some t1) :
    ∃ t, ma.types.get? j = some t ∧ t1.flags = t.flags ∧ t1.index = t.index ∧
      ∀ q ∈ type_slabs t1, q ∈ type_slabs t ∨ (q = p ∧ j = h.1) := by
  unfold heap_append_slab at ht1
  split at ht1
  · exact ⟨t1, ht1, rfl, rfl, fun q hq => Or.inl hq⟩
  · rename_i t ht
    split at ht1
    · exact ⟨t1, ht1, rfl, rfl, fun q hq => Or.inl hq⟩
    · rename_i hp hhp
      simp only [] at ht1
      rcases get_types_set _ _ _ _ _ ht1 with ⟨e1, e2⟩ | ⟨e1, e2⟩
      · subst e1 e2
        refine ⟨t, ht, rfl, rfl, ?_⟩
        intro q hq
        have hperm : ((t.heaps.set h.2 ({ hp with slabs := hp.slabs ++ [p] })).flatMap
            (fun h => h.slabs)).Perm (p :: type_slabs t) := by
          unfold type_slabs
          apply flatMap_set_perm _ _ hp _ _ p hhp
          exact List.perm_append_singleton _ _
        rcases List.mem_cons.1 (hperm.mem_iff.1 hq) with e | e
        · exact Or.inr ⟨e, rfl⟩
        · exact Or.inl e
      · exact ⟨t1, e2, rfl, rfl, fun q hq => Or.inl hq⟩

theorem type_slabs_sub (ma : vk_malloc) (ti : Nat) (t : vk_memtype)
    (ht : ma.types.get? ti = some t) (p : Nat) (hp : p ∈ type_slabs t) :
    p ∈ heap_slabs ma := by
  unfold heap_slabs
  simp only [List.mem_flatMap]
  unfold type_slabs at hp
  simp only [List.mem_flatMap] at hp
  obtain ⟨h, h1, h2⟩ := hp
  exact ⟨t, List.get?_mem ht, h, h1, h2⟩

theorem heap_get_region_valid (vk : mpvk_ctx) (drv : vk_driver) (h : Nat × Nat)
    (size align : Nat) (x : mpvk_ctx × Option (Nat × Nat))
    (hr : heap_get_region vk drv (some h) size align = some x) :
    ∃ ma type hp, vk.alloc = some ma ∧ ma.types.get? h.1 = some type ∧
      type.heaps.get? h.2 = some hp := by
  unfold heap_get_region at hr
  cases hma : vk.alloc with
  | none => simp [hma] at hr
  | some ma =>
    simp only [hma] at hr
    split at hr
    · simp at hr
    · rename_i type htype
      split at hr
      · simp at hr
      · rename_i hp hheap
        exact ⟨ma, type, hp, rfl, htype, hheap⟩

theorem data_ok_mono (flags : Nat) (calls c : List dev_call) (slab : vk_slab)
    (h : data_ok flags calls slab) : data_ok flags (calls ++ c) slab :=
  ⟨h.1, fun hv => List.mem_append_left _ (h.2 hv)⟩

theorem data_inv_set_slab (vk : mpvk_ctx) (p : Nat) (slab slab1 : vk_slab)
    (hD : data_inv vk) (hp : get_slab vk p = some slab)
    (hd : slab1.data = slab.data) (hm : slab1.mem = slab.mem) :
    data_inv (set_slab vk p slab1) := by
  intro ma hma ti t ht q hq sq hsq
  have hlt := get_slab_lt vk p slab hp
  rw [get_slab_set_slab vk p q slab1 hlt] at hsq
  by_cases e : q = p
  · subst e
    rw [if_pos rfl] at hsq
    simp at hsq
    subst hsq
    have := hD ma hma ti t ht q hq slab hp
    unfold data_ok at *
    rw [hd, hm]
    exact this
  · rw [if_neg e] at hsq
    exact hD ma hma ti t ht q hq sq hsq

theorem data_inv_append (vk vk1 : mpvk_ctx) (x : Option vk_slab) (c : List dev_call)
    (hD : data_inv vk) (ha : vk1.alloc = vk.alloc) (hs : vk1.slabs = vk.slabs ++ [x])
    (hc : vk1.calls = vk.calls ++ c)
    (hv : ∀ ma, vk.alloc = some ma → ∀ q ∈ heap_slabs ma, q < vk.slabs.length) :
    data_inv vk1 := by
  intro ma hma ti t ht q hq sq hsq
  rw [ha] at hma
  have hlt := hv ma hma q (type_slabs_sub ma ti t ht q hq)
  rw [get_slab_append vk vk1 x hs q, if_neg (by omega)] at hsq
  rw [hc]
  exact data_ok_mono _ _ _ _ (hD ma hma ti t ht q hq sq hsq)

theorem heaps_valid (vk : mpvk_ctx) (live : List vk_memslice) (hI : Inv vk live) :
    ∀ ma, vk.alloc = some ma → ∀ q ∈ heap_slabs ma, q < vk.slabs.length := by
  intro ma hma q hq
  obtain ⟨_, ⟨ma0, hma0, hh⟩, _⟩ := hI
  rw [hma] at hma0; simp at hma0; subst hma0
  obtain ⟨s, hs, _⟩ := hh.2 q hq
  exact get_slab_lt vk q s hs

theorem torn_down_calls (a b : List dev_call) (h : torn_down a b) : ∃ c, b = a ++ c := by
  obtain ⟨c, x, y, h1, _⟩ := h
  exact ⟨c ++ [dev_call.destroy_buffer x, dev_call.free_memory y], by rw [h1]; simp⟩

/-- The mappings after `heap_get_region`: the invariant of the mappings holds,
and the slab of the region returned agrees with the memory type of the heap. -/
theorem heap_get_region_data (vk : mpvk_ctx) (live : List vk_memslice) (drv : vk_driver)
    (heap : Option (Nat × Nat)) (size align : Nat) (vk2 : mpvk_ctx)
    (r : Option (Nat × Nat)) (hI : Inv vk live) (hD : data_inv vk)
    (hgr : heap_get_region vk drv heap size align = some (vk2, r)) :
    data_inv vk2 ∧
      ∀ h ma type p idx, heap = some h → vk.alloc = some ma →
        ma.types.get? h.1 = some type → r = some (p, idx) →
        ∃ slab, get_slab vk2 p = some slab ∧ data_ok type.flags vk2.calls slab := by
  have hval := heaps_valid vk live hI
  cases heap with
  | none =>
    simp [heap_get_region] at hgr
    obtain ⟨e1, e2⟩ := hgr
    subst e1 e2
    exact ⟨hD, by simp⟩
  | some h =>
    obtain ⟨ma, type, hp, hma, htype, hheap⟩ := heap_get_region_valid _ _ _ _ _ _ hgr
    have hout := heap_get_region_effect vk drv h size align vk2 r ma type hp hma htype hheap hgr
    have key : data_inv vk2 ∧ ∀ p idx, r = some (p, idx) →
        ∃ slab, get_slab vk2 p = some slab ∧ data_ok type.flags vk2.calls slab := by
      cases hout with
      | found p idx last hsmall hsearch =>
        refine ⟨hD, ?_⟩
        intro p1 idx1 e
        simp at e
        obtain ⟨e1, e2⟩ := e
        subst e1 e2
        obtain ⟨hmem, slab, reg, g1, _⟩ := search_slabs_spec _ _ _ _ _ _ _ _ hsearch
        refine ⟨slab, g1, hD ma hma h.1 type htype p ?_ slab g1⟩
        unfold type_slabs
        simp only [List.mem_flatMap]
        exact ⟨hp, List.get?_mem hheap, hmem⟩
      | failed sz vk3 hsa =>
        refine ⟨?_, by simp⟩
        by_cases hf : slab_alloc_fails drv type hp.usage
        · obtain ⟨vk4, g1, g2, g3, g4, g5⟩ := (slab_alloc_cases vk drv type hp.usage sz).1 hf
          rw [hsa] at g1; simp at g1; subst g1
          obtain ⟨c, hc⟩ := torn_down_calls _ _ g5
          exact data_inv_append vk vk2 none c hD g2 g4 hc hval
        · obtain ⟨vk4, slab, g1, _⟩ := (slab_alloc_cases vk drv type hp.usage sz).2 hf
          rw [hsa] at g1; simp at g1
      | oversized vk3 p hbig hsa =>
        by_cases hf : slab_alloc_fails drv type hp.usage
        · obtain ⟨vk4, g1, _⟩ := (slab_alloc_cases vk drv type hp.usage size).1 hf
          rw [hsa] at g1; simp at g1
        · obtain ⟨vk4, slab, g1, g2, g3, g4, ⟨c, g5, g6⟩, g7, g8, g9, g10, g11, g12⟩ :=
            (slab_alloc_cases vk drv type hp.usage size).2 hf
          rw [hsa] at g1; simp at g1
          obtain ⟨e1, e2⟩ := g1
          subst e1 e2
          refine ⟨data_inv_append vk vk2 _ c hD g2 g4 g5 hval, ?_⟩
          intro p1 idx1 e
          simp at e
          obtain ⟨e1, e2⟩ := e
          subst e1 e2
          refine ⟨slab, by rw [get_slab_append vk vk2 _ g4, if_pos rfl], g11, ?_⟩
          intro hv
          rw [g5]
          exact List.mem_append_right _ (g6 hv)
      | grown vk3 p last hsmall hsearch hge hsa =>
        by_cases hf : slab_alloc_fails drv type hp.usage
        · obtain ⟨vk4, g1, _⟩ := (slab_alloc_cases vk drv type hp.usage _).1 hf
          rw [hsa] at g1; simp at g1
        · obtain ⟨vk4, slab, g1, g2, g3, g4, ⟨c, g5, g6⟩, g7, g8, g9, g10, g11, g12⟩ :=
            (slab_alloc_cases vk drv type hp.usage (new_slab_size size last)).2 hf
          rw [hsa] at g1; simp at g1
          obtain ⟨e1, e2⟩ := g1
          subst e1 e2
          have hnew : get_slab vk3 vk.slabs.length = some slab := by
            rw [get_slab_append vk vk3 _ g4, if_pos rfl]
          have hok : data_ok type.flags vk3.calls slab := by
            refine ⟨g11, ?_⟩
            intro hv
            rw [g5]
            exact List.mem_append_right _ (g6 hv)
          have hD3 := data_inv_append vk vk3 _ c hD g2 g4 g5 hval
          refine ⟨?_, ?_⟩
          · intro ma1 hma1 ti t1 ht1 q hq sq hsq
            simp at hma1
            subst hma1
            obtain ⟨t, a1, a2, a3, a4⟩ := heap_append_slab_types ma h _ ti t1 ht1
            rw [a2]
            rcases a4 q hq with e | ⟨e1, e2⟩
            · exact hD3 ma (by rw [g2]; exact hma) ti t a1 q e sq hsq
            · subst e1 e2
              have hsq' : get_slab vk3 vk.slabs.length = some sq := hsq
              rw [hnew] at hsq'
              simp at hsq'
              subst hsq'
              rw [htype] at a1
              simp at a1
              subst a1
              exact hok
          · intro p1 idx1 e
            simp at e
            obtain ⟨e1, e2⟩ := e
            subst e1 e2
            exact ⟨slab, hnew, hok⟩
    refine ⟨key.1, ?_⟩
    intro h1 ma1 type1 p idx e1 e2 e3 e4
    simp at e1
    subst e1
    rw [hma] at e2; simp at e2; subst e2
    rw [htype] at e3; simp at e3; subst e3
    exact key.2 p idx e4

theorem slice_heap_data (vk : mpvk_ctx) (live : List vk_memslice) (drv : vk_driver)
    (heap : Option (Nat × Nat)) (size alignment : Nat) (vk1 : mpvk_ctx)
    (out : Option vk_memslice) (hI : Inv vk live) (hD : data_inv vk)
    (hsl : slice_heap vk drv heap size alignment = some (vk1, out)) :
    data_inv vk1 ∧
      ∀ h ma type s, heap = some h → vk.alloc = some ma →
        ma.types.get? h.1 = some type → out = some s →
        ∃ slab, get_slab vk1 s.priv = some slab ∧ data_ok type.flags vk1.calls slab := by
  obtain ⟨vk2, r, hgr, hcase⟩ := slice_heap_effect _ _ _ _ _ _ _ hsl
  obtain ⟨d1, d2⟩ := heap_get_region_data vk live drv heap size _ vk2 r hI hD hgr
  rcases hcase with ⟨e1, e2, e3⟩ | ⟨p, idx, slab, reg, e1, e2, e3, e4, e5⟩
  · subst e1 e2 e3
    exact ⟨d1, by simp⟩
  · subst e1 e4 e5
    refine ⟨data_inv_set_slab vk2 p slab _ d1 e2 rfl rfl, ?_⟩
    intro h ma type s a1 a2 a3 a4
    simp at a4
    subst a4
    obtain ⟨slab1, b1, b2⟩ := d2 h ma type p idx a1 a2 a3 rfl
    rw [e2] at b1; simp at b1; subst b1
    have hlt := get_slab_lt vk2 p slab e2
    exact ⟨carve_slab slab idx reg _ size,
      by rw [get_slab_set_slab vk2 p p _ hlt, if_pos rfl], ⟨b2.1, b2.2⟩⟩

theorem select_heap_data (vk : mpvk_ctx) (flags : Nat) (reqs : Option Nat) (usage : Nat)
    (vk0 : mpvk_ctx) (heap : Option (Nat × Nat)) (hD : data_inv vk)
    (h : select_heap vk flags reqs usage = some (vk0, heap)) :
    data_inv vk0 ∧
      ∀ ma ti type, vk.alloc = some ma → find_best_memtype ma flags reqs = some ti →
        ma.types.get? ti = some type →
        ∃ hi ma1 t1, heap = some (ti, hi) ∧ vk0.alloc = some ma1 ∧
          ma1.types.get? ti = some t1 ∧ t1.flags = type.flags := by
  unfold select_heap at h
  split at h
  · simp at h
  · rename_i ma hma
    simp at h
    obtain ⟨e1, e2⟩ := h
    subst e1 e2
    constructor
    · intro ma1 hma1 ti t1 ht1 q hq sq hsq
      simp at hma1
      subst hma1
      obtain ⟨t, a1, a2, a3, a4⟩ := find_heap_types ma _ usage ti t1 ht1
      rw [a2]
      rw [a4] at hq
      exact hD ma hma ti t a1 q hq sq hsq
    · intro ma0 ti type hma0 hti htype
      rw [hma] at hma0; simp at hma0; subst hma0
      rw [hti]
      obtain ⟨ma1, hi, t1, hp, f1, f2, f3, f4, _⟩ := find_heap_effect ma ti usage type htype
      rw [f1]
      exact ⟨hi, ma1, t1, rfl, rfl, f2, f4⟩

theorem run_data (vk : mpvk_ctx) (live : List vk_memslice) (drv : vk_driver)
    (req : vk_request) (vk1 : mpvk_ctx) (out : Option vk_memslice)
    (hI : Inv vk live) (hD : data_inv vk) (h : req.run vk drv = some (vk1, out)) :
    data_inv vk1 := by
  obtain ⟨vk0, heap, hsel, hsl⟩ := run_effect vk drv req vk1 out h
  have hI0 := (select_heap_spec vk live _ _ _ vk0 heap hI hsel).1
  have hD0 := (select_heap_data vk _ _ _ vk0 heap hD hsel).1
  exact (slice_heap_data vk0 live drv heap _ _ vk1 out hI0 hD0 hsl).1

theorem free_data (vk : mpvk_ctx) (live : List vk_memslice) (slice : vk_memslice)
    (vk1 : mpvk_ctx) (hI : Inv vk live) (hD : data_inv vk)
    (h : vk_free_memslice vk slice = some vk1) : data_inv vk1 := by
  unfold vk_free_memslice at h
  split at h
  · simp at h
  · rename_i slab hp
    have hded := (hI.2.2.1 _ slab hp).2.1
    split at h
    · simp only [hded] at h
      simp at h
      subst h
      have hset : ∀ (a b : vk_slab), set_slab (set_slab vk slice.priv a) slice.priv b
          = set_slab vk slice.priv b := by
        intro a b; simp [set_slab]
      rw [hset]
      exact data_inv_set_slab vk slice.priv slab _ hD hp rfl rfl
    · simp at h

/-- The invariant of the mappings holds in every reachable state. -/
theorem Reachable_data_inv (vk : mpvk_ctx) (live : List vk_memslice) (h : Reachable vk live) :
    data_inv vk := by
  induction h with
  | init vk0 prop g hg hgv hs hlen =>
    intro ma hma ti t ht q hq sq hsq
    simp [get_slab, vk_malloc_init, hs] at hsq
  | malloc vk live drv req k vk1 out hr hk ha hsz hrun ih =>
    exact run_data vk live drv req vk1 out (Reachable_Inv vk live hr) ih hrun
  | free vk live slice vk1 hr hs hfree ih =>
    exact free_data vk live slice vk1 (Reachable_Inv vk live hr) ih hfree

/-- C14 (as amended): for a successful `vk_malloc_buffer` in a reachable state,
with `type` the memory type chosen: if the type is not host visible, the
`data` of the slab is null and `out.data` is not written (it keeps the value
it held before the call); if the type is host visible, the `data` of the slab
is the pointer a successful `map_memory` of the slab's memory returned, and
`out.data` is `slab.data + out.mem.offset` when that pointer is non-null; it is
non-null, and `out.data` is that sum, when every successful `map_memory` the
driver answered returned a non-null pointer. -/
theorem buffer_slice_mapping (vk : mpvk_ctx) (live : List vk_memslice)
    (h : Reachable vk live) (drv : vk_driver) (bufFlags memFlags size alignment : Nat)
    (out0 : vk_bufslice) (vk1 : mpvk_ctx) (out : vk_bufslice) (ma : vk_malloc) (ti : Nat)
    (type : vk_memtype) (hma : vk.alloc = some ma)
    (hti : find_best_memtype ma memFlags none = some ti)
    (htype : ma.types.get? ti = some type)
    (hrun : vk_malloc_buffer vk drv bufFlags memFlags size alignment out0
      = some (vk1, some out)) :
    ∃ slab, get_slab vk1 out.mem.priv = some slab ∧
      (type.flags &&& VK_MEMORY_PROPERTY_HOST_VISIBLE_BIT = 0 →
        slab.data = 0 ∧ out.data = out0.data) ∧
      (type.flags &&& VK_MEMORY_PROPERTY_HOST_VISIBLE_BIT ≠ 0 →
        dev_call.map_memory slab.mem true slab.data ∈ vk1.calls ∧
        (slab.data ≠ 0 → out.data = (slab.data + out.mem.offset) % SIZE_MOD) ∧
        ((∀ m d, dev_call.map_memory m true d ∈ vk1.calls → d ≠ 0) →
          slab.data ≠ 0 ∧ out.data = (slab.data + out.mem.offset) % SIZE_MOD)) := by
  have hI := Reachable_Inv vk live h
  have hD := Reachable_data_inv vk live h
  unfold vk_malloc_buffer at hrun
  split at hrun
  · simp at hrun
  · rename_i vk2 heap hsel
    obtain ⟨d1, d2⟩ := select_heap_data vk _ _ _ vk2 heap hD hsel
    obtain ⟨hi, ma1, t1, e1, e2, e3, e4⟩ := d2 ma ti type hma hti htype
    have hI2 := (select_heap_spec vk live _ _ _ vk2 heap hI hsel).1
    split at hrun
    · simp at hrun
    · simp at hrun
    · rename_i vk3 mem hsl
      obtain ⟨slab1, g1, g2⟩ :=
        (slice_heap_data vk2 live drv heap _ _ vk3 _ hI2 d1 hsl).2 (ti, hi) ma1 t1 mem e1 e2 e3
          rfl
      split at hrun
      · simp at hrun
      · rename_i slab hslab
        rw [g1] at hslab
        simp at hslab
        subst hslab
        simp at hrun
        obtain ⟨a1, a2⟩ := hrun
        subst a1 a2
        rw [e4] at g2
        refine ⟨slab1, g1, ?_, ?_⟩
        · intro hv
          have := g2.1 hv
          exact ⟨this, by simp [this]⟩
        · intro hv
          refine ⟨g2.2 hv, ?_, ?_⟩
          · intro hd
            simp [hd]
          · intro hdrv
            have hd := hdrv _ _ (g2.2 hv)
            exact ⟨hd, by simp [hd]⟩

/-- In `hv_ctx1` every successful `map_memory` the driver answered returned a
non-null pointer: the one call returned 65536, and the slab and the slice of
the first request hold it. -/
theorem hv_ctx1_mapping :
    (∀ m d, dev_call.map_memory m true d ∈ hv_ctx1.calls → d ≠ 0) ∧
    (get_slab hv_ctx1 hv_out1.mem.priv).map (fun s => s.data) = some 65536 ∧
    hv_out1.data = 65536 := by
  refine ⟨?_, rfl, rfl⟩
  intro m d hm
  have hc : hv_ctx1.calls =
      [dev_call.create_buffer 1048576 1 true 7, dev_call.allocate_memory 0 1048576 true 9,
        dev_call.map_memory 9 true 65536, dev_call.bind_buffer 7 9 true] := rfl
  rw [hc] at hm
  simp at hm
  omega

theorem buffer_slice_mapping_witness :
    Reachable hv_init [] ∧
      hv_init.alloc = some { types := init_types 0 [{ propertyFlags := 2, heapIndex := 0 }] } ∧
      find_best_memtype { types := init_types 0 [{ propertyFlags := 2, heapIndex := 0 }] } 2 none
        = some 0 ∧
      (init_types 0 [{ propertyFlags := 2, heapIndex := 0 }]).get? 0
        = some { index := 0, heapIndex := 0, flags := 2, heaps := [] } ∧
      vk_malloc_buffer hv_init hv_drv 1 2 4096 16 hv_out0 = some (hv_ctx1, some hv_out1) ∧
      (∀ m d, dev_call.map_memory m true d ∈ hv_ctx1.calls → d ≠ 0) ∧
      ∃ slab, get_slab hv_ctx1 hv_out1.mem.priv = some slab ∧
        ((2 : Nat) &&& VK_MEMORY_PROPERTY_HOST_VISIBLE_BIT = 0 →
          slab.data = 0 ∧ hv_out1.data = hv_out0.data) ∧
        ((2 : Nat) &&& VK_MEMORY_PROPERTY_HOST_VISIBLE_BIT ≠ 0 →
          dev_call.map_memory slab.mem true slab.data ∈ hv_ctx1.calls ∧
          (slab.data ≠ 0 → hv_out1.data = (slab.data + hv_out1.mem.offset) % SIZE_MOD) ∧
          ((∀ m d, dev_call.map_memory m true d ∈ hv_ctx1.calls → d ≠ 0) →
            slab.data ≠ 0 ∧
            hv_out1.data = (slab.data + hv_out1.mem.offset) % SIZE_MOD)) :=
  ⟨Reachable.init demo_vk0 _ 0 (by decide) rfl rfl (by decide), rfl, rfl, rfl, rfl,
    hv_ctx1_mapping.1,
    buffer_slice_mapping hv_init [] (Reachable.init demo_vk0 _ 0 (by decide) rfl rfl (by decide))
      hv_drv 1 2 4096 16 hv_out0 hv_ctx1 hv_out1 _ 0
      { index := 0, heapIndex := 0, flags := 2, heaps := [] } rfl rfl rfl rfl⟩

/-- C14 is false as stated: on the device of `demo_init`, whose memory type is
not host visible, a successful `vk_malloc_buffer` whose `out` held the mapped
pointer 5 before the call leaves `out.data = 5`, not null. -/
theorem buffer_data_not_cleared :
    Reachable demo_init [] ∧
      find_best_memtype { types := init_types 0 [{ propertyFlags := 0, heapIndex := 0 }] } 0 none
        = some 0 ∧
      (0 : Nat) &&& VK_MEMORY_PROPERTY_HOST_VISIBLE_BIT = 0 ∧
      vk_malloc_buffer demo_init hv_drv 1 0 4096 16 stale_out = some (nv_ctx, some nv_out) ∧
      (get_slab nv_ctx nv_out.mem.priv).map (fun s => s.data) = some 0 ∧
      nv_out.data ≠ 0 :=
  ⟨demo_init_reachable, rfl, rfl, rfl, rfl, by decide⟩

theorem search_slabs_none (vk : mpvk_ctx) (size align : Nat) (ps : List Nat)
    (last : Option vk_slab)
    (hv : ∀ p ∈ ps, ∃ slab, get_slab vk p = some slab)
    (hnofit : ∀ p ∈ ps, ∀ slab, get_slab vk p = some slab → size ≤ slab.size →
      ∀ r ∈ slab.regions, region_fits r size align = false) :
    ∃ l, search_slabs vk size align last ps = some (none, l) ∧
      slab_size_or_zero l =
        if ps = [] then slab_size_or_zero last else last_slab_size vk ps := by
  induction ps generalizing last with
  | nil => exact ⟨last, rfl, by simp⟩
  | cons p ps ih =>
    obtain ⟨slab, hslab⟩ := hv p (List.mem_cons_self _ _)
    obtain ⟨l, hl1, hl2⟩ := ih (some slab) (fun q hq => hv q (List.mem_cons_of_mem _ hq))
      (fun q hq => hnofit q (List.mem_cons_of_mem _ hq))
    refine ⟨l, ?_, ?_⟩
    · unfold search_slabs
      simp only [hslab]
      split
      · exact hl1
      · rename_i hsz
        have hnf := hnofit p (List.mem_cons_self _ _) slab hslab (by omega)
        have : best_fit_loop size align 0 none slab.regions = none :=
          (best_fit_loop_none size align slab.regions 0 none).2 ⟨rfl, hnf⟩
        rw [this]
        exact hl1
    · rw [hl2, if_neg (List.cons_ne_nil _ _)]
      cases ps with
      | nil => simp [last_slab_size, slab_size_or_zero, hslab]
      | cons q qs =>
        rw [if_neg (List.cons_ne_nil _ _)]
        simp [last_slab_size, List.getLast?_cons_cons]

theorem new_slab_size_unfold (size : Nat) (last : Option vk_slab) :
    new_slab_size size last =
      MPMIN MPVK_HEAP_MAXIMUM_SLAB_SIZE
        (MPMAX MPVK_HEAP_MINIMUM_SLAB_SIZE
          ((MPVK_HEAP_SLAB_GROWTH_RATE * MPMAX size (slab_size_or_zero last)) % SIZE_MOD)) := by
  cases last <;> rfl

theorem new_slab_size_eq (size : Nat) (last : Option vk_slab)
    (hsz : size ≤ MPVK_HEAP_MAXIMUM_SLAB_SIZE)
    (hb : slab_size_or_zero last ≤ MPVK_HEAP_MAXIMUM_SLAB_SIZE) :
    new_slab_size size last = grown_slab_size size (slab_size_or_zero last) ∧
    size ≤ new_slab_size size last := by
  rw [new_slab_size_unfold]
  unfold grown_slab_size
  generalize slab_size_or_zero last = x at hb ⊢
  unfold MPVK_HEAP_MAXIMUM_SLAB_SIZE at hsz hb
  unfold MPMIN MPMAX MPVK_HEAP_MAXIMUM_SLAB_SIZE MPVK_HEAP_MINIMUM_SLAB_SIZE
    MPVK_HEAP_SLAB_GROWTH_RATE SIZE_MOD
  have hm : ∀ y, y ≤ 2 ^ 29 → (4 * y) % 2 ^ 64 = 4 * y := fun y hy =>
    Nat.mod_eq_of_lt (by omega)
  by_cases h1 : size > x
  · rw [if_pos h1, hm size hsz, max_eq_left (by omega : x ≤ size)]
    simp only [Nat.min_def, Nat.max_def]
    split_ifs <;> omega
  · rw [if_neg h1, hm x hb, max_eq_right (by omega : size ≤ x)]
    simp only [Nat.min_def, Nat.max_def]
    split_ifs <;> omega

theorem get_heap_append_self (ma : vk_malloc) (h : Nat × Nat) (p : Nat) (hp : vk_heap)
    (hh : get_heap ma h = some hp) :
    get_heap (heap_append_slab ma h p) h = some { hp with slabs := hp.slabs ++ [p] } := by
  unfold get_heap at hh
  split at hh
  · simp at hh
  · rename_i t ht
    unfold heap_append_slab
    simp only [ht, hh]
    rw [get_heap_set_types ma h.1 t _ ht h, if_pos rfl]
    have hlt : h.2 < t.heaps.length := by
      by_contra hc
      have : t.heaps.get? h.2 = none := by rw [List.get?_eq_none]; omega
      rw [this] at hh; simp at hh
    simp [List.getElem?_set, hlt]

theorem last_slab_size_le (vk : mpvk_ctx) (ma : vk_malloc) (hh : heaps_inv vk ma)
    (ps : List Nat) (hsub : ∀ p ∈ ps, p ∈ heap_slabs ma) :
    last_slab_size vk ps ≤ MPVK_HEAP_MAXIMUM_SLAB_SIZE := by
  unfold last_slab_size
  cases hl : ps.getLast? with
  | none => simp
  | some p =>
    obtain ⟨s, hs, hle⟩ := hh.2 p (hsub p (List.mem_of_getLast?_eq_some hl))
    simp [hs, hle]

theorem heap_get_region_grow (vk : mpvk_ctx) (drv : vk_driver) (h : Nat × Nat)
    (size align : Nat) (ma : vk_malloc) (type : vk_memtype) (hp : vk_heap)
    (l : Option vk_slab)
    (hma : vk.alloc = some ma) (htype : ma.types.get? h.1 = some type)
    (hheap : type.heaps.get? h.2 = some hp)
    (hsize : size ≤ MPVK_HEAP_MAXIMUM_SLAB_SIZE)
    (hl : search_slabs vk size align none hp.slabs = some (none, l))
    (hn : size ≤ new_slab_size size l) :
    heap_get_region vk drv (some h) size align =
      match slab_alloc vk drv type hp.usage (new_slab_size size l) with
      | none => none
      | some (vk1, none) => some (vk1, none)
      | some (vk1, some p) =>
        match get_slab vk1 p with
        | none => none
        | some slab =>
          if slab.regions.length = 1 then
            some ({ vk1 with alloc := some (heap_append_slab ma h p) }, some (p, 0))
          else none := by
  have hnot : ¬ size > MPVK_HEAP_MAXIMUM_SLAB_SIZE := by omega
  unfold new_slab_size at hn
  unfold heap_get_region new_slab_size
  simp only [hma, htype, hheap, if_neg hnot, hl]
  rw [if_pos hn]

/-- Claim C19. In a reachable state, for a request of `size <= 2^29` on a heap
in whose slabs no region fits: the size of the new slab is
`min(2^29, max(2^20, 4 * max(size, s_last)))` with `s_last` the size of the
last slab of `heap.slabs` (0 if there is none); it is at least `size`, so
`heap_get_region` returns (the assertion holds); and either the creation of the
slab fails and the heap keeps its slabs, or the region 0 of the new slab, of
that size, is returned and the slab is appended at the end of `heap.slabs`. -/
theorem new_slab_growth (vk : mpvk_ctx) (live : List vk_memslice) (drv : vk_driver)
    (h : Nat × Nat) (size align : Nat) (ma : vk_malloc) (type : vk_memtype) (hp : vk_heap)
    (hreach : Reachable vk live)
    (hma : vk.alloc = some ma) (htype : ma.types.get? h.1 = some type)
    (hheap : type.heaps.get? h.2 = some hp)
    (hsize : size ≤ MPVK_HEAP_MAXIMUM_SLAB_SIZE)
    (hnofit : ∀ p ∈ hp.slabs, ∀ slab, get_slab vk p = some slab → size ≤ slab.size →
      ∀ r ∈ slab.regions, region_fits r size align = false) :
    size ≤ grown_slab_size size (last_slab_size vk hp.slabs) ∧
    ((slab_alloc_fails drv type hp.usage ∧
        ∃ vk2, heap_get_region vk drv (some h) size align = some (vk2, none) ∧
          vk2.alloc = some ma) ∨
     (¬ slab_alloc_fails drv type hp.usage ∧
        ∃ vk2 ma2 slab,
          heap_get_region vk drv (some h) size align =
            some (vk2, some (vk.slabs.length, 0)) ∧
          get_slab vk2 vk.slabs.length = some slab ∧
          slab.size = grown_slab_size size (last_slab_size vk hp.slabs) ∧
          slab.regions = [{ start := 0, end_ := slab.size }] ∧
          vk2.alloc = some ma2 ∧
          get_heap ma2 h = some { hp with slabs := hp.slabs ++ [vk.slabs.length] })) := by
  obtain ⟨_, ⟨ma0, hma0, hh⟩, _⟩ := Reachable_Inv vk live hreach
  rw [hma] at hma0
  simp only [Option.some.injEq] at hma0
  subst hma0
  have hsub : ∀ p ∈ hp.slabs, p ∈ heap_slabs ma := fun p hpm =>
    mem_heap_slabs ma h type hp p htype hheap hpm
  obtain ⟨l, hl1, hl2⟩ := search_slabs_none vk size align hp.slabs none
    (fun p hpm => by
      obtain ⟨s, hs, _⟩ := hh.2 p (hsub p hpm)
      exact ⟨s, hs⟩) hnofit
  have hlast : slab_size_or_zero l = last_slab_size vk hp.slabs := by
    rw [hl2]
    split
    · rename_i hnil
      rw [hnil]
      rfl
    · rfl
  have hle := last_slab_size_le vk ma hh hp.slabs hsub
  obtain ⟨hn1, hn2⟩ := new_slab_size_eq size l hsize (by rw [hlast]; exact hle)
  rw [hlast] at hn1
  rw [hn1] at hn2
  refine ⟨hn2, ?_⟩
  have hget : get_heap ma h = some hp := by
    unfold get_heap
    rw [htype]
    exact hheap
  have hcases := slab_alloc_cases vk drv type hp.usage
    (grown_slab_size size (last_slab_size vk hp.slabs))
  have hgr := heap_get_region_grow vk drv h size align ma type hp l hma htype hheap hsize hl1
    (by rw [hn1]; exact hn2)
  rw [hn1] at hgr
  by_cases hf : slab_alloc_fails drv type hp.usage
  · left
    obtain ⟨vk1, hres, halloc, _⟩ := hcases.1 hf
    refine ⟨hf, vk1, ?_, by rw [halloc, hma]⟩
    rw [hgr, hres]
  · right
    obtain ⟨vk1, slab, hres, halloc, _, hslabs, _, hfresh, _⟩ := hcases.2 hf
    have hg : get_slab vk1 vk.slabs.length = some slab := by
      rw [get_slab_append vk vk1 (some slab) hslabs, if_pos rfl]
    refine ⟨hf, { vk1 with alloc := some (heap_append_slab ma h vk.slabs.length) },
      heap_append_slab ma h vk.slabs.length, slab, ?_, ?_, hfresh.1, ?_, rfl,
      get_heap_append_self ma h _ hp hget⟩
    · rw [hgr, hres]
      simp only [hg]
      rw [if_pos (by rw [hfresh.2.2.2.1]; rfl)]
    · exact hg
    · rw [hfresh.2.2.2.1, hfresh.1]

set_option maxRecDepth 100000 in
/-- Witness of C19: a request of 1 MiB on the heap of `demo_ctx1`, whose one
slab of 1 MiB has 512 bytes in use, makes a slab of 4 MiB; and scenario S6: 341
successive requests of 2 MiB, none freed, in a fresh generic heap create slabs
of 8, 32, 128, 512 and 512 MiB. -/
theorem new_slab_growth_witness :
    (1048576 ≤ grown_slab_size 1048576
        (last_slab_size demo_ctx1 [0]) ∧
      ((slab_alloc_fails demo_drv
          { index := 0, heapIndex := 0, flags := 0, heaps := [{ usage := 0, slabs := [0] }] }
          0 ∧
        ∃ vk2, heap_get_region demo_ctx1 demo_drv (some (0, 0)) 1048576 1 = some (vk2, none) ∧
          vk2.alloc = some demo_alloc) ∨
      (¬ slab_alloc_fails demo_drv
          { index := 0, heapIndex := 0, flags := 0, heaps := [{ usage := 0, slabs := [0] }] }
          0 ∧
        ∃ vk2 ma2 slab,
          heap_get_region demo_ctx1 demo_drv (some (0, 0)) 1048576 1 =
            some (vk2, some (demo_ctx1.slabs.length, 0)) ∧
          get_slab vk2 demo_ctx1.slabs.length = some slab ∧
          slab.size = grown_slab_size 1048576 (last_slab_size demo_ctx1 [0]) ∧
          slab.regions = [{ start := 0, end_ := slab.size }] ∧
          vk2.alloc = some ma2 ∧
          get_heap ma2 (0, 0) = some { usage := 0, slabs := [0] ++ [demo_ctx1.slabs.length] }))) ∧
    grown_slab_size 1048576 (last_slab_size demo_ctx1 [0]) = 4194304 ∧
    slab_sizes (alloc_n 341 demo_init) =
      some [8388608, 33554432, 134217728, 536870912, 536870912] ∧
    slab_sizes (alloc_n 340 demo_init) =
      some [8388608, 33554432, 134217728, 536870912] :=
  ⟨new_slab_growth demo_ctx1 [demo_slice_a] demo_drv (0, 0) 1048576 1 demo_alloc
      { index := 0, heapIndex := 0, flags := 0, heaps := [{ usage := 0, slabs := [0] }] }
      { usage := 0, slabs := [0] }
      (Reachable.malloc demo_init [] demo_drv demo_req 0 demo_ctx1 (some demo_slice_a)
        (Reachable.init demo_vk0 _ 0 (by decide) rfl rfl (by decide))
        (by decide) rfl (by decide) rfl)
      rfl rfl rfl (by decide)
      (by
        intro p hp slab hs _ r hr
        simp only [List.mem_singleton] at hp
        subst hp
        have : slab = demo_slab1 := by
          have h1 : get_slab demo_ctx1 0 = some demo_slab1 := rfl
          rw [h1] at hs
          exact (Option.some.inj hs).symm
        subst this
        simp only [demo_slab1, List.mem_singleton] at hr
        subst hr
        decide),
    by rfl, by rfl, by rfl⟩

/-- Claim C18. For every power-of-two `bufferImageGranularity` `2^j` (a 64-bit
value), scenario S1 in a freshly initialised allocator runs to its end, and the
slice C lies in the same slab as A and at the same offset. -/
theorem s1_reuses_offset (j : Nat) (hj : j < 64) :
    ∃ a c, s1_run (2 ^ j) = some (a, c) ∧ c.priv = a.priv ∧ c.offset = a.offset := by
  interval_cases j <;> exact ⟨_, _, rfl, rfl, rfl⟩

/-- Witness of C18: the granularities 1, 4096 (B follows A in the slab), 8192
(a gap is left between A and B) and 2^20 (B needs a slab of its own). -/
theorem s1_reuses_offset_witness :
    (0 < 64 ∧ ∃ a c, s1_run (2 ^ 0) = some (a, c) ∧ c.priv = a.priv ∧ c.offset = a.offset) ∧
    s1_run 4096 = some ({ vkmem := 9, offset := 0, size := 4096, priv := 0 },
      { vkmem := 9, offset := 0, size := 4096, priv := 0 }) ∧
    s1_run 8192 = some ({ vkmem := 9, offset := 0, size := 4096, priv := 0 },
      { vkmem := 9, offset := 0, size := 4096, priv := 0 }) ∧
    s1_run 1048576 = some ({ vkmem := 9, offset := 0, size := 4096, priv := 0 },
      { vkmem := 9, offset := 0, size := 4096, priv := 0 }) :=
  ⟨⟨by decide, s1_reuses_offset 0 (by decide)⟩, rfl, rfl, rfl⟩

theorem coalesce_following_grid (r : vk_region) (rest : List vk_region)
    (hr : on_grid r) (hrest : ∀ y ∈ rest, on_grid y) :
    ∀ x ∈ coalesce_following r rest, on_grid x := by
  induction rest generalizing r with
  | nil => intro x hx; simp [coalesce_following] at hx; rw [hx]; exact hr
  | cons next rest ih =>
    intro x hx
    have hnext := hrest next (List.mem_cons_self _ _)
    have hrest' : ∀ y ∈ rest, on_grid y := fun y hy => hrest y (List.mem_cons_of_mem _ hy)
    unfold coalesce_following at hx
    split at hx
    · exact ih { r with end_ := next.end_ } (And.intro hr.1 hnext.2) hrest' x hx
    · simp only [List.mem_cons] at hx
      rcases hx with e | e | e
      · rw [e]; exact hr
      · rw [e]; exact hnext
      · exact hrest' x e

theorem insert_region_loop_grid (region : vk_region) (b : Bool) (l : List vk_region)
    (hr : on_grid region) (hl : ∀ y ∈ l, on_grid y) :
    ∀ x ∈ insert_region_loop region b l, on_grid x := by
  induction l with
  | nil =>
    intro x hx
    unfold insert_region_loop at hx
    split at hx
    · simp at hx; rw [hx]; exact hr
    · simp at hx
  | cons r rest ih =>
    intro x hx
    have hr0 := hl r (List.mem_cons_self _ _)
    have hrest : ∀ y ∈ rest, on_grid y := fun y hy => hl y (List.mem_cons_of_mem _ hy)
    unfold insert_region_loop at hx
    split at hx
    · exact coalesce_following_grid { r with end_ := region.end_ } rest
        (And.intro hr0.1 hr.2) hrest x hx
    · split at hx
      · simp only [List.mem_cons] at hx
        rcases hx with e | e
        · rw [e]; exact ⟨hr.1, hr0.2⟩
        · exact hrest x e
      · split at hx
        · split at hx
          · simp only [List.mem_cons] at hx
            rcases hx with e | e | e
            · rw [e]; exact hr
            · rw [e]; exact hr0
            · exact hrest x e
          · exact hl x hx
        · simp only [List.mem_cons] at hx
          rcases hx with e | e
          · rw [e]; exact hr0
          · exact ih hrest x e

theorem insert_region_grid (l : List vk_region) (region : vk_region)
    (hr : on_grid region) (hl : ∀ y ∈ l, on_grid y) :
    ∀ x ∈ insert_region l region, on_grid x := by
  unfold insert_region
  split
  · exact hl
  · exact insert_region_loop_grid region _ l hr hl

theorem insert_region_elided_loop_true (region : vk_region) (l : List vk_region) :
    insert_region_elided_loop region true l = 0 := by
  induction l with
  | nil => simp [insert_region_elided_loop]
  | cons r rest ih =>
    unfold insert_region_elided_loop
    split
    · rfl
    · split
      · rfl
      · split
        · simp
        · exact ih

theorem insert_region_elided_grid (l : List vk_region) (region : vk_region)
    (hr : on_grid region) (hle : region.start ≤ region.end_) (hn : region.end_ < SIZE_MOD) :
    insert_region_elided l region = 0 := by
  unfold insert_region_elided
  split
  · rfl
  · rename_i hne
    have hbig : region_len region ≥ MPVK_HEAP_MINIMUM_REGION_SIZE := by
      obtain ⟨a, ha⟩ := hr.1
      obtain ⟨b, hb⟩ := hr.2
      unfold region_len
      unfold SIZE_MOD at *
      unfold MPVK_HEAP_MINIMUM_REGION_SIZE at *
      omega
    rw [decide_eq_true hbig]
    exact insert_region_elided_loop_true region l

theorem align_up_grid (x j n : Nat) (hj : j < 64)
    (hx : MPVK_HEAP_MINIMUM_REGION_SIZE ∣ x)
    (hb : x + MPVK_HEAP_MINIMUM_REGION_SIZE ≤ n) (hn : n < SIZE_MOD)
    (h3 : MP_ALIGN_UP x (2 ^ j) % 2 ^ j = 0) :
    MPVK_HEAP_MINIMUM_REGION_SIZE ∣ MP_ALIGN_UP x (2 ^ j) := by
  unfold MPVK_HEAP_MINIMUM_REGION_SIZE at *
  unfold SIZE_MOD at hn
  by_cases h10 : 10 ≤ j
  · exact Dvd.dvd.trans (Nat.pow_dvd_pow 2 h10) (Nat.dvd_of_mod_eq_zero h3)
  · have hle : (2:Nat) ^ j ≤ 2 ^ 10 := Nat.pow_le_pow_right (by norm_num) (by omega)
    have hdv : 2 ^ j ∣ x := Dvd.dvd.trans (Nat.pow_dvd_pow 2 (by omega : j ≤ 10)) hx
    rw [MP_ALIGN_UP_eq x j hj (by omega)]
    obtain ⟨m, hm⟩ := hdv
    have hpos : 0 < 2 ^ j := Nat.two_pow_pos j
    have : (x + 2 ^ j - 1) / 2 ^ j = m := by
      rw [hm]
      have e : 2 ^ j * m + 2 ^ j - 1 = (2 ^ j - 1) + 2 ^ j * m := by omega
      rw [e, Nat.add_mul_div_left _ _ hpos, Nat.div_eq_of_lt (by omega)]
      simp
    rw [this, ← hm]
    exact hx

theorem carve_grid (live : List vk_memslice) (p : Nat) (slab : vk_slab) (idx : Nat)
    (reg : vk_region) (j size : Nat) (out : vk_memslice)
    (hsi : slab_inv live p slab) (hG : grid_ok live p slab)
    (hg : slab.regions.get? idx = some reg) (hj : j < 64)
    (h1 : reg.start ≤ MP_ALIGN_UP reg.start (2 ^ j))
    (h2 : MP_ALIGN_UP reg.start (2 ^ j) + size ≤ reg.end_)
    (h3 : MP_ALIGN_UP reg.start (2 ^ j) % 2 ^ j = 0)
    (hsz : out.priv = p → MPVK_HEAP_MINIMUM_REGION_SIZE ∣ size)
    (ho : out.offset = MP_ALIGN_UP reg.start (2 ^ j)) (hos : out.size = size) :
    out.priv = p →
      grid_ok (out :: live) p (carve_slab slab idx reg (MP_ALIGN_UP reg.start (2 ^ j)) size) := by
  intro hop
  have hsz := hsz hop
  obtain ⟨hel, hreg, hlive⟩ := hG
  have hmem : reg ∈ slab.regions := List.get?_mem hg
  have hrg := hreg reg hmem
  have hwf := regions_wf_le _ _ hsi.2.2.1 reg hmem
  have hrok := hsi.2.2.1.2 reg hmem
  have hlt := hsi.1
  have hoff : MPVK_HEAP_MINIMUM_REGION_SIZE ∣ MP_ALIGN_UP reg.start (2 ^ j) :=
    align_up_grid reg.start j slab.size hj hrg.1
      (by unfold region_ok at hrok; omega) hlt h3
  generalize MP_ALIGN_UP reg.start (2 ^ j) = off at *
  have hmod : (off + size) % SIZE_MOD = off + size :=
    Nat.mod_eq_of_lt (by omega)
  have hhead : on_grid { start := reg.start, end_ := off } := ⟨hrg.1, hoff⟩
  have htail : on_grid { start := off + size, end_ := reg.end_ } :=
    ⟨Nat.dvd_add hoff hsz, hrg.2⟩
  have h0 : ∀ y ∈ slab.regions.eraseIdx idx, on_grid y := fun y hy =>
    hreg y (List.mem_of_mem_eraseIdx hy)
  have h1g := insert_region_grid _ _ hhead h0
  have h2g := insert_region_grid _ _ htail h1g
  unfold carve_slab
  simp only [hmod]
  refine ⟨?_, h2g, ?_⟩
  · rw [hel, insert_region_elided_grid _ _ hhead h1 (by simp only []; omega),
      insert_region_elided_grid _ _ htail (by simp only []; omega) (by simp only []; omega)]
  · intro s hs hsp
    simp only [List.mem_cons] at hs
    rcases hs with e | e
    · rw [e, ho, hos]
      exact ⟨hoff, hsz⟩
    · exact hlive s e hsp

theorem free_grid_slab (live : List vk_memslice) (p : Nat) (slab slab1 : vk_slab)
    (slice : vk_memslice) (hsi : slab_inv live p slab) (hG : grid_ok live p slab)
    (hs : slice ∈ live) (hp : slice.priv = p)
    (e_reg : slab1.regions = insert_region slab.regions
      { start := slice.offset, end_ := (slice.offset + slice.size) % SIZE_MOD })
    (e_el : slab1.elided = slab.elided + insert_region_elided slab.regions
      { start := slice.offset, end_ := (slice.offset + slice.size) % SIZE_MOD }) :
    grid_ok (live.erase slice) p slab1 := by
  obtain ⟨hel, hreg, hlive⟩ := hG
  have hb := (hsi.2.2.2.2.2 slice hs hp).1
  have hlt := hsi.1
  have hmod : (slice.offset + slice.size) % SIZE_MOD = slice.offset + slice.size :=
    Nat.mod_eq_of_lt (by omega)
  rw [hmod] at e_reg e_el
  obtain ⟨g1, g2⟩ := hlive slice hs hp
  have hr : on_grid { start := slice.offset, end_ := slice.offset + slice.size } :=
    ⟨g1, Nat.dvd_add g1 g2⟩
  refine ⟨?_, ?_, ?_⟩
  · rw [e_el, hel, insert_region_elided_grid _ _ hr (by simp) (by simp only []; omega)]
  · rw [e_reg]
    exact insert_region_grid _ _ hr hreg
  · intro s hs1 hsp
    exact hlive s (List.mem_of_mem_erase hs1) hsp

theorem new_slab_size_pos (size : Nat) (last : Option vk_slab) :
    0 < new_slab_size size last := by
  rw [new_slab_size_unfold]
  unfold MPMIN MPMAX MPVK_HEAP_MAXIMUM_SLAB_SIZE MPVK_HEAP_MINIMUM_SLAB_SIZE
  split_ifs <;> omega

/-- The slab store after `heap_get_region`: it is unchanged, or it grew by the
entry of a slab that was freed again, or by a fresh slab of positive size. -/
theorem heap_get_region_store (vk : mpvk_ctx) (drv : vk_driver)
    (heap : Option (Nat × Nat)) (size align : Nat) (vk2 : mpvk_ctx)
    (r : Option (Nat × Nat))
    (hgr : heap_get_region vk drv heap size align = some (vk2, r)) :
    vk2.slabs = vk.slabs ∨ vk2.slabs = vk.slabs ++ [none] ∨
      ∃ slab n, vk2.slabs = vk.slabs ++ [some slab] ∧ slab_fresh n slab ∧ 0 < n := by
  cases heap with
  | none =>
    simp [heap_get_region] at hgr
    left
    rw [hgr.1]
  | some h =>
    obtain ⟨ma, type, hp, hma, htype, hheap⟩ := heap_get_region_valid _ _ _ _ _ _ hgr
    have hout := heap_get_region_effect vk drv h size align vk2 r ma type hp hma htype hheap hgr
    have key : ∀ sz vk3 r3, 0 < sz → slab_alloc vk drv type hp.usage sz = some (vk3, r3) →
        vk3.slabs = vk.slabs ++ [none] ∨
        ∃ slab n, vk3.slabs = vk.slabs ++ [some slab] ∧ slab_fresh n slab ∧ 0 < n := by
      intro sz vk3 r3 hpos hsa
      obtain ⟨_, _, a3⟩ := slab_alloc_spec _ _ _ _ _ _ _ hsa
      rcases a3 with ⟨_, a4⟩ | ⟨_, slab, a4, a5⟩
      · left; exact a4
      · right; exact ⟨slab, sz, a4, a5, hpos⟩
    cases hout with
    | found p idx last hsmall hsearch => left; rfl
    | failed sz vk3 hsa =>
      right
      obtain ⟨_, _, a3⟩ := slab_alloc_spec _ _ _ _ _ _ _ hsa
      rcases a3 with ⟨_, a4⟩ | ⟨a3, _⟩
      · left; exact a4
      · simp at a3
    | oversized vk3 p hbig hsa =>
      right
      exact key size vk2 _ (by omega) hsa
    | grown vk3 p last hsmall hsearch hge hsa =>
      right
      exact key _ vk3 _ (new_slab_size_pos size last) hsa

theorem grid_ok_cons (live : List vk_memslice) (p : Nat) (slab : vk_slab) (out : vk_memslice)
    (hG : grid_ok live p slab) (hne : out.priv ≠ p) : grid_ok (out :: live) p slab := by
  refine ⟨hG.1, hG.2.1, ?_⟩
  intro s hs hsp
  simp only [List.mem_cons] at hs
  rcases hs with e | e
  · rw [e] at hsp; exact absurd hsp hne
  · exact hG.2.2 s e hsp

theorem grid_inv_slabs (p : Nat) (vk vk1 : mpvk_ctx) (live : List vk_memslice)
    (hG : grid_inv p vk live) (hs : vk1.slabs = vk.slabs) : grid_inv p vk1 live := by
  intro slab hp
  apply hG slab
  unfold get_slab at *
  rw [← hs]
  exact hp

theorem grid_inv_store (p : Nat) (vk vk2 : mpvk_ctx) (live : List vk_memslice)
    (hI : Inv vk live) (hG : grid_inv p vk live)
    (hs : vk2.slabs = vk.slabs ∨ vk2.slabs = vk.slabs ++ [none] ∨
      ∃ slab n, vk2.slabs = vk.slabs ++ [some slab] ∧ slab_fresh n slab ∧ 0 < n) :
    grid_inv p vk2 live := by
  rcases hs with hs | hs | ⟨fresh, n, hs, hf, hn⟩
  · exact grid_inv_slabs p vk vk2 live hG hs
  · intro slab hp
    rw [get_slab_append vk vk2 none hs p] at hp
    split at hp
    · simp at hp
    · exact hG slab hp
  · intro slab hp
    rw [get_slab_append vk vk2 (some fresh) hs p] at hp
    split at hp
    · rename_i hpl
      simp only [Option.some.injEq] at hp
      subst hp
      obtain ⟨f1, f2, f3, f4, f5⟩ := hf
      refine ⟨by omega, ?_⟩
      intro hm
      refine ⟨f5, ?_, ?_⟩
      · intro r hr
        rw [f4] at hr
        simp only [List.mem_singleton] at hr
        rw [hr]
        exact ⟨Nat.dvd_zero _, by rw [← f1]; exact hm⟩
      · intro s hsl hsp
        obtain ⟨sl, hslab⟩ := hI.2.2.2.1 s hsl
        have := get_slab_lt vk s.priv sl hslab
        omega
    · exact hG slab hp

theorem slice_heap_grid (p : Nat) (vk : mpvk_ctx) (live : List vk_memslice) (drv : vk_driver)
    (heap : Option (Nat × Nat)) (size k : Nat) (vk1 : mpvk_ctx) (out : Option vk_memslice)
    (hI : Inv vk live) (hG : grid_inv p vk live) (hsz : size < SIZE_MOD) (hk : k < 64)
    (hsl : slice_heap vk drv heap size (2 ^ k) = some (vk1, out))
    (hmul : ∀ s, out = some s → s.priv = p → MPVK_HEAP_MINIMUM_REGION_SIZE ∣ size) :
    grid_inv p vk1 (returned out ++ live) := by
  obtain ⟨g, hg, hgv⟩ := hI.1
  obtain ⟨vk2, r, hgr, hcase⟩ := slice_heap_effect _ _ _ _ _ _ _ hsl
  rw [hgv, MP_ALIGN_UP_pow k g hk hg] at hgr
  have hj : max k g < 64 := by omega
  obtain ⟨hI2, _, hfound⟩ := heap_get_region_spec vk live drv heap size (max k g) vk2 r hI hsz
    hj hgr
  have hG2 := grid_inv_store p vk vk2 live hI hG (heap_get_region_store _ _ _ _ _ _ _ hgr)
  rcases hcase with ⟨e1, e2, e3⟩ | ⟨q, idx, slab, reg, e1, e2, e3, e4, e5⟩
  · subst e1 e2 e3
    exact hG2
  · rw [hgv, MP_ALIGN_UP_pow k g hk hg] at e4 e5
    obtain ⟨slab', reg', a1, a2, a3, a4, a5⟩ := hfound q idx e1
    rw [e2] at a1
    simp only [Option.some.injEq] at a1
    subst a1
    rw [e3] at a2
    simp only [Option.some.injEq] at a2
    subst a2
    have hlt := get_slab_lt vk2 q slab e2
    subst e5
    intro slab1 hp1
    rw [get_slab_set_slab vk2 q p _ hlt] at hp1
    rw [e4]
    simp only [returned, List.singleton_append]
    split at hp1
    · rename_i hpq
      subst hpq
      simp only [Option.some.injEq] at hp1
      subst hp1
      have hold := hG2 slab e2
      refine ⟨hold.1, ?_⟩
      intro hm
      exact carve_grid live p slab idx reg (max k g) size _ (hI2.2.2.1 p slab e2)
        (hold.2 hm) e3 hj a3 a4 a5 (fun _ => hmul _ e4 rfl) rfl rfl rfl
    · rename_i hpq
      have hold := hG2 slab1 hp1
      exact ⟨hold.1, fun hm => grid_ok_cons live p slab1 _ (hold.2 hm)
        (fun e => hpq e.symm)⟩

theorem select_heap_slabs (vk : mpvk_ctx) (flags : Nat) (reqs : Option Nat) (usage : Nat)
    (vk0 : mpvk_ctx) (heap : Option (Nat × Nat))
    (h : select_heap vk flags reqs usage = some (vk0, heap)) : vk0.slabs = vk.slabs := by
  unfold select_heap at h
  split at h
  · simp at h
  · simp at h
    rw [← h.1]

theorem run_grid (p : Nat) (vk : mpvk_ctx) (live : List vk_memslice) (drv : vk_driver)
    (req : vk_request) (k : Nat) (vk1 : mpvk_ctx) (out : Option vk_memslice)
    (hI : Inv vk live) (hG : grid_inv p vk live)
    (hk : k < 64) (ha : req.alignment = 2 ^ k) (hsz : req.size < SIZE_MOD)
    (h : req.run vk drv = some (vk1, out))
    (hmul : ∀ s, out = some s → s.priv = p → MPVK_HEAP_MINIMUM_REGION_SIZE ∣ req.size) :
    grid_inv p vk1 (returned out ++ live) := by
  obtain ⟨vk0, heap, hsel, hsl⟩ := run_effect vk drv req vk1 out h
  have hI0 := (select_heap_spec vk live _ _ _ vk0 heap hI hsel).1
  have hG0 := grid_inv_slabs p vk vk0 live hG (select_heap_slabs _ _ _ _ _ _ hsel)
  rw [ha] at hsl
  exact slice_heap_grid p vk0 live drv heap _ k vk1 out hI0 hG0 hsz hk hsl hmul

theorem free_grid (p : Nat) (vk : mpvk_ctx) (live : List vk_memslice) (slice : vk_memslice)
    (vk1 : mpvk_ctx) (hI : Inv vk live) (hG : grid_inv p vk live) (hs : slice ∈ live)
    (h : vk_free_memslice vk slice = some vk1) : grid_inv p vk1 (live.erase slice) := by
  unfold vk_free_memslice at h
  split at h
  · simp at h
  · rename_i slab hp
    have hsi := hI.2.2.1 _ slab hp
    have hded := hsi.2.1
    have hlt := get_slab_lt vk _ slab hp
    split at h
    · simp only [hded] at h
      simp at h
      subst h
      have hset : ∀ (a b : vk_slab), set_slab (set_slab vk slice.priv a) slice.priv b
          = set_slab vk slice.priv b := by
        intro a b; simp [set_slab]
      rw [hset]
      intro slab1 hp1
      rw [get_slab_set_slab vk slice.priv p _ hlt] at hp1
      split at hp1
      · rename_i hpq
        subst hpq
        simp only [Option.some.injEq] at hp1
        subst hp1
        have hold := hG slab hp
        exact ⟨hold.1, fun hm =>
          free_grid_slab live slice.priv slab _ slice hsi (hold.2 hm) hs rfl rfl rfl⟩
      · have hold := hG slab1 hp1
        refine ⟨hold.1, fun hm => ⟨(hold.2 hm).1, (hold.2 hm).2.1, ?_⟩⟩
        intro s hs1 hsp
        exact (hold.2 hm).2.2 s (List.mem_of_mem_erase hs1) hsp
    · simp at h

theorem ReachableOn_Reachable (p : Nat) (vk : mpvk_ctx) (live : List vk_memslice)
    (h : ReachableOn p vk live) : Reachable vk live := by
  induction h with
  | init vk0 prop g hg hgv hs hlen => exact Reachable.init vk0 prop g hg hgv hs hlen
  | malloc vk live drv req k vk1 out _ hk ha hsz hrun _ ih =>
    exact Reachable.malloc vk live drv req k vk1 out ih hk ha hsz hrun
  | free vk live slice vk1 _ hs hfree ih =>
    exact Reachable.free vk live slice vk1 ih hs hfree

theorem ReachableOn_grid (p : Nat) (vk : mpvk_ctx) (live : List vk_memslice)
    (h : ReachableOn p vk live) : grid_inv p vk live := by
  induction h with
  | init vk0 prop g hg hgv hs hlen =>
    intro slab hp
    simp [get_slab, vk_malloc_init, hs] at hp
  | malloc vk live drv req k vk1 out hr hk ha hsz hrun hmul ih =>
    exact run_grid p vk live drv req k vk1 out
      (Reachable_Inv vk live (ReachableOn_Reachable p vk live hr)) ih hk ha hsz hrun hmul
  | free vk live slice vk1 hr hs hfree ih =>
    exact free_grid p vk live slice vk1
      (Reachable_Inv vk live (ReachableOn_Reachable p vk live hr)) ih hs hfree

theorem region_sum_lt (n : Nat) (l : List vk_region) (b : Nat)
    (hp : l.Pairwise sep) (hl : ∀ r ∈ l, b < r.start ∧ r.start ≤ r.end_ ∧ r.end_ ≤ n) :
    region_sum l + b < n ∨ l = [] := by
  induction l generalizing b with
  | nil => right; rfl
  | cons r rest ih =>
    left
    obtain ⟨h1, h2, h3⟩ := hl r (List.mem_cons_self _ _)
    rw [List.pairwise_cons] at hp
    have := ih r.end_ hp.2 (fun x hx => by
      have hs := hp.1 x hx
      have hx2 := hl x (List.mem_cons_of_mem _ hx)
      unfold sep at hs
      exact ⟨hs, hx2.2⟩)
    unfold region_sum
    rcases this with h | h
    · omega
    · rw [h]
      simp only [region_sum]
      omega

theorem single_region_of_full (n : Nat) (l : List vk_region) (hw : regions_wf n l)
    (hs : region_sum l = n) (hn : 0 < n) : l = [{ start := 0, end_ := n }] := by
  cases l with
  | nil => simp [region_sum] at hs; omega
  | cons r rest =>
    have hle := regions_wf_le n _ hw
    obtain ⟨h1, h2⟩ := hle r (List.mem_cons_self _ _)
    have hp := hw.1
    rw [List.pairwise_cons] at hp
    have := region_sum_lt n rest r.end_ hp.2 (fun x hx => by
      have hs := hp.1 x hx
      have hx2 := hle x (List.mem_cons_of_mem _ hx)
      unfold sep at hs
      exact ⟨hs, by omega, hx2.2⟩)
    unfold region_sum at hs
    rcases this with h | h
    · omega
    · subst h
      simp only [region_sum] at hs
      have e1 : r.start = 0 := by omega
      have e2 : r.end_ = n := by omega
      cases r
      simp only at e1 e2
      subst e1 e2
      rfl

/-- Claim C17. For a slab `p` whose size is a multiple of 1024, in a state
reached by any sequence of requests and frees in which every slice carved from
the slab has a size that is a multiple of 1024 (alignments and the granularity
are powers of two): no byte was elided, the bytes in use and the free regions
add up to the size of the slab, and whenever no slice of the slab is live the
region list is exactly the single region `[0, slab.size)`. -/
theorem no_free_space_lost (p : Nat) (vk : mpvk_ctx) (live : List vk_memslice)
    (slab : vk_slab) (h : ReachableOn p vk live) (hp : get_slab vk p = some slab)
    (hm : MPVK_HEAP_MINIMUM_REGION_SIZE ∣ slab.size) :
    slab.elided = 0 ∧ slab.used + region_sum slab.regions = slab.size ∧
    ((∀ s ∈ live, s.priv ≠ p) → slab.regions = [{ start := 0, end_ := slab.size }]) := by
  have hI := Reachable_Inv vk live (ReachableOn_Reachable p vk live h)
  obtain ⟨hpos, hG⟩ := ReachableOn_grid p vk live h slab hp
  have hel := (hG hm).1
  obtain ⟨_, _, hwf, hused, hsum, _⟩ := hI.2.2.1 p slab hp
  rw [hel] at hsum
  refine ⟨hel, hsum, ?_⟩
  intro hnone
  rw [hused, live_used_zero p live hnone] at hsum
  exact single_region_of_full slab.size slab.regions hwf (by omega) hpos

/-- Witness of C17, scenario S2: three slices of 4 KiB back to back in a fresh
slab of 1 MiB, freed middle, then left, then right. The free space map is
`[4096, 8192), [12288, 1 MiB)`, then `[0, 8192), [12288, 1 MiB)`, then
`[0, 1 MiB)`. -/
theorem no_free_space_lost_witness :
    ReachableOn 0 s2_ctx6 [] ∧ get_slab s2_ctx6 0 = some s2_slab ∧
    MPVK_HEAP_MINIMUM_REGION_SIZE ∣ s2_slab.size ∧
    (s2_slab.elided = 0 ∧ s2_slab.used + region_sum s2_slab.regions = s2_slab.size ∧
      ((∀ s ∈ ([] : List vk_memslice), s.priv ≠ 0) →
        s2_slab.regions = [{ start := 0, end_ := s2_slab.size }])) ∧
    (get_slab s2_ctx3 0).map (fun s => s.regions) =
      some [{ start := 12288, end_ := 1048576 }] ∧
    (get_slab s2_ctx4 0).map (fun s => s.regions) =
      some [{ start := 4096, end_ := 8192 }, { start := 12288, end_ := 1048576 }] ∧
    (get_slab s2_ctx5 0).map (fun s => s.regions) =
      some [{ start := 0, end_ := 8192 }, { start := 12288, end_ := 1048576 }] ∧
    (get_slab s2_ctx6 0).map (fun s => s.regions) =
      some [{ start := 0, end_ := 1048576 }] :=
  have r0 : ReachableOn 0 demo_init [] :=
    ReachableOn.init demo_vk0 _ 0 (by decide) rfl rfl (by decide)
  have r1 : ReachableOn 0 s2_ctx1 [s2_left] :=
    ReachableOn.malloc demo_init [] demo_drv s2_req 0 s2_ctx1 (some s2_left) r0
      (by decide) rfl (by decide) rfl (fun _ _ _ => by decide)
  have r2 : ReachableOn 0 s2_ctx2 [s2_middle, s2_left] :=
    ReachableOn.malloc s2_ctx1 [s2_left] demo_drv s2_req 0 s2_ctx2 (some s2_middle) r1
      (by decide) rfl (by decide) rfl (fun _ _ _ => by decide)
  have r3 : ReachableOn 0 s2_ctx3 [s2_right, s2_middle, s2_left] :=
    ReachableOn.malloc s2_ctx2 [s2_middle, s2_left] demo_drv s2_req 0 s2_ctx3 (some s2_right) r2
      (by decide) rfl (by decide) rfl (fun _ _ _ => by decide)
  have r4 : ReachableOn 0 s2_ctx4 [s2_right, s2_left] :=
    ReachableOn.free s2_ctx3 [s2_right, s2_middle, s2_left] s2_middle s2_ctx4 r3
      (by decide) rfl
  have r5 : ReachableOn 0 s2_ctx5 [s2_right] :=
    ReachableOn.free s2_ctx4 [s2_right, s2_left] s2_left s2_ctx5 r4 (by decide) rfl
  have r6 : ReachableOn 0 s2_ctx6 [] :=
    ReachableOn.free s2_ctx5 [s2_right] s2_right s2_ctx6 r5 (by decide) rfl
  ⟨r6, rfl, by decide, no_free_space_lost 0 s2_ctx6 [] s2_slab r6 rfl (by decide),
    rfl, rfl, rfl, rfl⟩

/-! ## UTF-8 decoding (`misc/bstr_utf8.c`): the proofs -/

set_option maxRecDepth 100000 in
theorem parse_length_eq : ∀ b, b < 256 →
    bstr_parse_utf8_code_length b =
      if b < 128 then 1
      else if b < 192 then -1
      else if b < 224 then 2
      else if b < 240 then 3
      else if b < 248 then 4
      else -1 := by
  decide

set_option maxRecDepth 100000 in
theorem lead_mask_eq : ∀ b, b < 256 →
    (192 ≤ b → b < 224 → b &&& (127 >>> 2) = b - 192) ∧
    (224 ≤ b → b < 240 → b &&& (127 >>> 3) = b - 224) ∧
    (240 ≤ b → b < 248 → b &&& (127 >>> 4) = b - 240) := by
  decide

set_option maxRecDepth 100000 in
theorem cont_byte_eq : ∀ t, t < 256 →
    (t &&& 0xC0 = 0x80 ↔ 128 ≤ t ∧ t < 192) ∧ t &&& 0xFFFFFF3F = t % 64 := by
  decide

theorem shift_or_eq (cp low : Nat) (hcp : cp < 2 ^ 26) (hlow : low < 64) :
    ((cp <<< 6) % 2 ^ 32) ||| low = cp * 64 + low := by
  rw [Nat.shiftLeft_eq, Nat.mod_eq_of_lt (by omega), Nat.mul_comm cp (2 ^ 6),
    ← Nat.mul_add_lt_is_or (show low < 2 ^ 6 by omega) cp]

theorem decode_loop_step (n cp t : Nat) (rest : List Nat) (ht : t < 256)
    (hcp : cp < 2 ^ 26) :
    decode_loop (n + 1) cp (t :: rest) =
      if 128 ≤ t ∧ t < 192 then decode_loop n (cp * 64 + (t - 128)) rest else some none := by
  obtain ⟨h1, h2⟩ := cont_byte_eq t ht
  simp only [decode_loop]
  by_cases hc : 128 ≤ t ∧ t < 192
  · rw [if_neg (by rw [not_not]; exact h1.2 hc), if_pos hc, h2,
      shift_or_eq cp (t % 64) hcp (Nat.mod_lt _ (by norm_num))]
    have e : cp * 64 + t % 64 = cp * 64 + (t - 128) := by omega
    rw [e]
  · rw [if_pos (fun e => hc (h1.1 e)), if_neg hc]

theorem decode_ascii (b : Nat) (s1 out : List Nat) (hb : b < 128) :
    bstr_decode_utf8 (b :: s1) out = some ((b : Int), s1) := by
  unfold bstr_decode_utf8
  simp only []
  rw [if_neg (by omega)]

theorem decode_bad_lead (b : Nat) (s1 out : List Nat) (hb : b < 256)
    (h : (128 ≤ b ∧ b < 192) ∨ 248 ≤ b) :
    bstr_decode_utf8 (b :: s1) out = some (-1, out) := by
  unfold bstr_decode_utf8
  simp only []
  rw [if_pos (by omega), parse_length_eq b hb]
  have : (if b < 128 then (1 : Int) else if b < 192 then -1 else if b < 224 then 2
      else if b < 240 then 3 else if b < 248 then 4 else -1) = -1 := by
    split_ifs <;> first | rfl | omega
  rw [this]
  simp

theorem decode_two (b t1 : Nat) (s2 out : List Nat) (hb : 192 ≤ b ∧ b < 224)
    (ht1 : t1 < 256) :
    bstr_decode_utf8 [b] out = some (-1, out) ∧
    bstr_decode_utf8 (b :: t1 :: s2) out =
      if 128 ≤ t1 ∧ t1 < 192 ∧ 128 ≤ (b - 192) * 64 + (t1 - 128) then
        some ((((b - 192) * 64 + (t1 - 128) : Nat) : Int), s2)
      else some (-1, out) := by
  have hp : bstr_parse_utf8_code_length b = 2 := by
    rw [parse_length_eq b (by omega)]
    split_ifs <;> first | rfl | omega
  have hm := (lead_mask_eq b (by omega)).1 hb.1 hb.2
  constructor
  · unfold bstr_decode_utf8
    simp only []
    rw [if_pos (by omega), hp]
    simp
  · unfold bstr_decode_utf8
    simp only []
    rw [if_pos (by omega), hp]
    rw [if_neg (by simp)]
    simp only [Int.toNat_ofNat, show (2 : Int).toNat = 2 from rfl, if_true]
    rw [hm, decode_loop_step 0 (b - 192) t1 s2 ht1 (by omega)]
    by_cases hc : 128 ≤ t1 ∧ t1 < 192
    · rw [if_pos hc]
      simp only [decode_loop]
      rw [if_neg (by omega)]
      by_cases hmin : 128 ≤ (b - 192) * 64 + (t1 - 128)
      · rw [if_neg (by omega), if_pos ⟨hc.1, hc.2, hmin⟩]
      · rw [if_pos (by omega), if_neg (by omega)]
    · rw [if_neg hc, if_neg (by omega)]

theorem decode_three (b t1 t2 : Nat) (s3 out : List Nat) (hb : 224 ≤ b ∧ b < 240)
    (ht1 : t1 < 256) (ht2 : t2 < 256) :
    bstr_decode_utf8 [b] out = some (-1, out) ∧
    bstr_decode_utf8 [b, t1] out = some (-1, out) ∧
    bstr_decode_utf8 (b :: t1 :: t2 :: s3) out =
      if 128 ≤ t1 ∧ t1 < 192 ∧ 128 ≤ t2 ∧ t2 < 192 ∧
          2048 ≤ ((b - 224) * 64 + (t1 - 128)) * 64 + (t2 - 128) ∧
          ¬ (55296 ≤ ((b - 224) * 64 + (t1 - 128)) * 64 + (t2 - 128) ∧
             ((b - 224) * 64 + (t1 - 128)) * 64 + (t2 - 128) ≤ 57343) then
        some (((((b - 224) * 64 + (t1 - 128)) * 64 + (t2 - 128) : Nat) : Int), s3)
      else some (-1, out) := by
  have hp : bstr_parse_utf8_code_length b = 3 := by
    rw [parse_length_eq b (by omega)]
    split_ifs <;> first | rfl | omega
  have hm := (lead_mask_eq b (by omega)).2.1 hb.1 hb.2
  refine ⟨?_, ?_, ?_⟩
  · unfold bstr_decode_utf8
    simp only []
    rw [if_pos (by omega), hp]
    simp
  · unfold bstr_decode_utf8
    simp only []
    rw [if_pos (by omega), hp]
    simp
  · unfold bstr_decode_utf8
    simp only []
    rw [if_pos (by omega), hp]
    rw [if_neg (by simp; omega)]
    simp only [show (3 : Int).toNat = 3 from rfl, show ¬ ((3 : Int) = 2) by decide, if_false]
    rw [hm, decode_loop_step 1 (b - 224) t1 (t2 :: s3) ht1 (by omega)]
    by_cases hc1 : 128 ≤ t1 ∧ t1 < 192
    · rw [if_pos hc1, decode_loop_step 0 _ t2 s3 ht2 (by omega)]
      by_cases hc2 : 128 ≤ t2 ∧ t2 < 192
      · rw [if_pos hc2]
        simp only [decode_loop]
        have e : (1 : Nat) <<< (5 * 3 - 4) = 2048 := by decide
        rw [e]
        obtain ⟨cp, hcp⟩ : ∃ cp, cp = ((b - 224) * 64 + (t1 - 128)) * 64 + (t2 - 128) :=
          ⟨_, rfl⟩
        rw [← hcp]
        by_cases h1 : cp > 1114111 ∨ cp ≥ 55296 ∧ cp ≤ 57343
        · rw [if_pos h1, if_neg (by omega)]
        · rw [if_neg h1]
          by_cases h2 : cp < 2048
          · rw [if_pos h2, if_neg (by omega)]
          · rw [if_neg h2, if_pos (by omega)]
      · rw [if_neg hc2, if_neg (by omega)]
    · rw [if_neg hc1, if_neg (by omega)]

theorem decode_four (b t1 t2 t3 : Nat) (s4 out : List Nat) (hb : 240 ≤ b ∧ b < 248)
    (ht1 : t1 < 256) (ht2 : t2 < 256) (ht3 : t3 < 256) :
    bstr_decode_utf8 [b] out = some (-1, out) ∧
    bstr_decode_utf8 [b, t1] out = some (-1, out) ∧
    bstr_decode_utf8 [b, t1, t2] out = some (-1, out) ∧
    bstr_decode_utf8 (b :: t1 :: t2 :: t3 :: s4) out =
      if 128 ≤ t1 ∧ t1 < 192 ∧ 128 ≤ t2 ∧ t2 < 192 ∧ 128 ≤ t3 ∧ t3 < 192 ∧
          65536 ≤ (((b - 240) * 64 + (t1 - 128)) * 64 + (t2 - 128)) * 64 + (t3 - 128) ∧
          (((b - 240) * 64 + (t1 - 128)) * 64 + (t2 - 128)) * 64 + (t3 - 128) ≤ 1114111 then
        some ((((((b - 240) * 64 + (t1 - 128)) * 64 + (t2 - 128)) * 64 + (t3 - 128) : Nat)
          : Int), s4)
      else some (-1, out) := by
  have hp : bstr_parse_utf8_code_length b = 4 := by
    rw [parse_length_eq b (by omega)]
    split_ifs <;> first | rfl | omega
  have hm := (lead_mask_eq b (by omega)).2.2 hb.1 hb.2
  refine ⟨?_, ?_, ?_, ?_⟩
  · unfold bstr_decode_utf8
    simp only []
    rw [if_pos (by omega), hp]
    simp
  · unfold bstr_decode_utf8
    simp only []
    rw [if_pos (by omega), hp]
    simp
  · unfold bstr_decode_utf8
    simp only []
    rw [if_pos (by omega), hp]
    simp
  · unfold bstr_decode_utf8
    simp only []
    rw [if_pos (by omega), hp]
    rw [if_neg (by simp; omega)]
    simp only [show (4 : Int).toNat = 4 from rfl, show ¬ ((4 : Int) = 2) by decide, if_false]
    rw [hm, decode_loop_step 2 (b - 240) t1 (t2 :: t3 :: s4) ht1 (by omega)]
    by_cases hc1 : 128 ≤ t1 ∧ t1 < 192
    · rw [if_pos hc1, decode_loop_step 1 _ t2 (t3 :: s4) ht2 (by omega)]
      by_cases hc2 : 128 ≤ t2 ∧ t2 < 192
      · rw [if_pos hc2, decode_loop_step 0 _ t3 s4 ht3 (by omega)]
        by_cases hc3 : 128 ≤ t3 ∧ t3 < 192
        · rw [if_pos hc3]
          simp only [decode_loop]
          have e : (1 : Nat) <<< (5 * 4 - 4) = 65536 := by decide
          rw [e]
          obtain ⟨cp, hcp⟩ : ∃ cp,
              cp = (((b - 240) * 64 + (t1 - 128)) * 64 + (t2 - 128)) * 64 + (t3 - 128) :=
            ⟨_, rfl⟩
          rw [← hcp]
          by_cases h1 : cp > 1114111 ∨ cp ≥ 55296 ∧ cp ≤ 57343
          · rw [if_pos h1, if_neg (by omega)]
          · rw [if_neg h1]
            by_cases h2 : cp < 65536
            · rw [if_pos h2, if_neg (by omega)]
            · rw [if_neg h2, if_pos (by omega)]
        · rw [if_neg hc3, if_neg (by omega)]
      · rw [if_neg hc2, if_neg (by omega)]
    · rw [if_neg hc1, if_neg (by omega)]

theorem decode_encode (cp : Nat) (rest out : List Nat) (h : is_scalar_value cp) :
    bstr_decode_utf8 (utf8_encode cp ++ rest) out = some ((cp : Int), rest) := by
  obtain ⟨h1, h2⟩ := h
  unfold utf8_encode
  by_cases r1 : cp < 128
  · rw [if_pos r1]
    exact decode_ascii cp rest out r1
  · rw [if_neg r1]
    by_cases r2 : cp < 2048
    · rw [if_pos r2]
      simp only [List.cons_append, List.nil_append]
      rw [(decode_two (192 + cp / 64) (128 + cp % 64) rest out (by omega) (by omega)).2,
        if_pos (by omega)]
      have e : (192 + cp / 64 - 192) * 64 + (128 + cp % 64 - 128) = cp := by omega
      rw [e]
    · rw [if_neg r2]
      by_cases r3 : cp < 65536
      · rw [if_pos r3]
        simp only [List.cons_append, List.nil_append]
        have e : ((224 + cp / 4096 - 224) * 64 + (128 + cp / 64 % 64 - 128)) * 64
            + (128 + cp % 64 - 128) = cp := by omega
        rw [(decode_three (224 + cp / 4096) (128 + cp / 64 % 64) (128 + cp % 64) rest out
          (by omega) (by omega) (by omega)).2.2, e, if_pos (by omega)]
      · rw [if_neg r3]
        simp only [List.cons_append, List.nil_append]
        have e : (((240 + cp / 262144 - 240) * 64 + (128 + cp / 4096 % 64 - 128)) * 64
            + (128 + cp / 64 % 64 - 128)) * 64 + (128 + cp % 64 - 128) = cp := by omega
        rw [(decode_four (240 + cp / 262144) (128 + cp / 4096 % 64) (128 + cp / 64 % 64)
          (128 + cp % 64) rest out (by omega) (by omega) (by omega) (by omega)).2.2.2, e,
          if_pos (by omega)]

theorem decode_total (s out : List Nat) (hb : ∀ b ∈ s, b < 256) :
    bstr_decode_utf8 s out = some (-1, out) ∨
      ∃ cp rest, is_scalar_value cp ∧ s = utf8_encode cp ++ rest := by
  match s, hb with
  | [], _ => left; rfl
  | b :: s1, hb =>
    have hb0 : b < 256 := hb b (by simp)
    by_cases r1 : b < 128
    · right
      refine ⟨b, s1, ⟨by omega, by omega⟩, ?_⟩
      unfold utf8_encode
      rw [if_pos r1]
      rfl
    by_cases r2 : b < 192
    · left; exact decode_bad_lead b s1 out hb0 (Or.inl ⟨by omega, r2⟩)
    by_cases r5 : 248 ≤ b
    · left; exact decode_bad_lead b s1 out hb0 (Or.inr r5)
    by_cases r3 : b < 224
    · -- two bytes
      match s1, hb with
      | [], _ => left; exact (decode_two b 0 [] out ⟨by omega, r3⟩ (by omega)).1
      | t1 :: s2, hb =>
        have ht1 : t1 < 256 := hb t1 (by simp)
        rw [(decode_two b t1 s2 out ⟨by omega, r3⟩ ht1).2]
        by_cases hc : 128 ≤ t1 ∧ t1 < 192 ∧ 128 ≤ (b - 192) * 64 + (t1 - 128)
        · right
          obtain ⟨cp, hcp⟩ : ∃ cp, cp = (b - 192) * 64 + (t1 - 128) := ⟨_, rfl⟩
          refine ⟨cp, s2, ⟨by omega, by omega⟩, ?_⟩
          unfold utf8_encode
          rw [if_neg (by omega), if_pos (by omega)]
          have e1 : 192 + cp / 64 = b := by omega
          have e2 : 128 + cp % 64 = t1 := by omega
          rw [e1, e2]
          rfl
        · left; rw [if_neg hc]
    by_cases r4 : b < 240
    · -- three bytes
      match s1, hb with
      | [], _ => left; exact (decode_three b 0 0 [] out ⟨by omega, r4⟩ (by omega) (by omega)).1
      | [t1], hb =>
        left
        exact (decode_three b t1 0 [] out ⟨by omega, r4⟩ (hb t1 (by simp)) (by omega)).2.1
      | t1 :: t2 :: s3, hb =>
        have ht1 : t1 < 256 := hb t1 (by simp)
        have ht2 : t2 < 256 := hb t2 (by simp)
        rw [(decode_three b t1 t2 s3 out ⟨by omega, r4⟩ ht1 ht2).2.2]
        split
        · rename_i hc
          right
          obtain ⟨cp, hcp⟩ : ∃ cp, cp = ((b - 224) * 64 + (t1 - 128)) * 64 + (t2 - 128) :=
            ⟨_, rfl⟩
          rw [← hcp] at hc
          refine ⟨cp, s3, ⟨by omega, by omega⟩, ?_⟩
          unfold utf8_encode
          rw [if_neg (by omega), if_neg (by omega), if_pos (by omega)]
          have e1 : 224 + cp / 4096 = b := by omega
          have e2 : 128 + cp / 64 % 64 = t1 := by omega
          have e3 : 128 + cp % 64 = t2 := by omega
          rw [e1, e2, e3]
          rfl
        · left; rfl
    · -- four bytes
      match s1, hb with
      | [], _ =>
        left
        exact (decode_four b 0 0 0 [] out ⟨by omega, by omega⟩ (by omega) (by omega)
          (by omega)).1
      | [t1], hb =>
        left
        exact (decode_four b t1 0 0 [] out ⟨by omega, by omega⟩ (hb t1 (by simp)) (by omega)
          (by omega)).2.1
      | [t1, t2], hb =>
        left
        exact (decode_four b t1 t2 0 [] out ⟨by omega, by omega⟩ (hb t1 (by simp))
          (hb t2 (by simp)) (by omega)).2.2.1
      | t1 :: t2 :: t3 :: s4, hb =>
        have ht1 : t1 < 256 := hb t1 (by simp)
        have ht2 : t2 < 256 := hb t2 (by simp)
        have ht3 : t3 < 256 := hb t3 (by simp)
        rw [(decode_four b t1 t2 t3 s4 out ⟨by omega, by omega⟩ ht1 ht2 ht3).2.2.2]
        split
        · rename_i hc
          right
          obtain ⟨cp, hcp⟩ : ∃ cp,
              cp = (((b - 240) * 64 + (t1 - 128)) * 64 + (t2 - 128)) * 64 + (t3 - 128) :=
            ⟨_, rfl⟩
          rw [← hcp] at hc
          refine ⟨cp, s4, ⟨by omega, by omega⟩, ?_⟩
          unfold utf8_encode
          rw [if_neg (by omega), if_neg (by omega), if_neg (by omega)]
          have e1 : 240 + cp / 262144 = b := by omega
          have e2 : 128 + cp / 4096 % 64 = t1 := by omega
          have e3 : 128 + cp / 64 % 64 = t2 := by omega
          have e4 : 128 + cp % 64 = t3 := by omega
          rw [e1, e2, e3, e4]
          rfl
        · left; rfl

theorem utf8_encode_length (cp : Nat) :
    1 ≤ (utf8_encode cp).length ∧ (utf8_encode cp).length ≤ 4 := by
  unfold utf8_encode
  split_ifs <;> simp

/-- Claim C20. For every byte string `s` and every value `out_next` of
`*out_next` before the call, `bstr_decode_utf8` is defined (it reads no byte
past the end), and: if `s` begins with the shortest-form UTF-8 encoding of a
Unicode scalar value `cp`, it returns `cp` and `*out_next` is `s` without the 1
to 4 bytes of that encoding; if `s` begins with no such encoding, it returns -1
and `*out_next` is unchanged; and a returned value `r >= 0` is a scalar value
whose encoding `s` begins with. -/
theorem decode_utf8_correct (s out_next : List Nat) (hb : ∀ b ∈ s, b < 256) :
    (∀ cp rest, is_scalar_value cp → s = utf8_encode cp ++ rest →
      bstr_decode_utf8 s out_next = some ((cp : Int), rest) ∧
      1 ≤ (utf8_encode cp).length ∧ (utf8_encode cp).length ≤ 4) ∧
    ((¬ ∃ cp rest, is_scalar_value cp ∧ s = utf8_encode cp ++ rest) →
      bstr_decode_utf8 s out_next = some (-1, out_next)) ∧
    (∀ r next, bstr_decode_utf8 s out_next = some (r, next) → 0 ≤ r →
      is_scalar_value r.toNat ∧ s = utf8_encode r.toNat ++ next) := by
  refine ⟨?_, ?_, ?_⟩
  · intro cp rest hs he
    rw [he]
    exact ⟨decode_encode cp rest out_next hs, utf8_encode_length cp⟩
  · intro hno
    rcases decode_total s out_next hb with h | h
    · exact h
    · exact absurd h hno
  · intro r next hr hpos
    rcases decode_total s out_next hb with h | ⟨cp, rest, hs, he⟩
    · rw [h] at hr
      simp only [Option.some.injEq, Prod.mk.injEq] at hr
      omega
    · rw [he, decode_encode cp rest out_next hs] at hr
      simp only [Option.some.injEq, Prod.mk.injEq] at hr
      obtain ⟨e1, e2⟩ := hr
      subst e1 e2
      exact ⟨hs, he⟩

/-- Witness of C20: the encoding `E2 82 AC` of U+20AC followed by `A`; and the
cases of the error: the empty string, a stray continuation byte, the lead
bytes `F8` and `FF`, a truncated sequence, a lead byte followed by a byte that
is no continuation byte, the overlong forms `C0 80` and `E0 80 80`, the
surrogate U+D800, and a code point above U+10FFFF. -/
theorem decode_utf8_correct_witness :
    (∀ b ∈ [226, 130, 172, 65], b < 256) ∧
    ((∀ cp rest, is_scalar_value cp → [226, 130, 172, 65] = utf8_encode cp ++ rest →
        bstr_decode_utf8 [226, 130, 172, 65] [1, 2] = some ((cp : Int), rest) ∧
        1 ≤ (utf8_encode cp).length ∧ (utf8_encode cp).length ≤ 4) ∧
      ((¬ ∃ cp rest, is_scalar_value cp ∧ [226, 130, 172, 65] = utf8_encode cp ++ rest) →
        bstr_decode_utf8 [226, 130, 172, 65] [1, 2] = some (-1, [1, 2])) ∧
      (∀ r next, bstr_decode_utf8 [226, 130, 172, 65] [1, 2] = some (r, next) → 0 ≤ r →
        is_scalar_value r.toNat ∧ [226, 130, 172, 65] = utf8_encode r.toNat ++ next)) ∧
    utf8_encode 8364 = [226, 130, 172] ∧
    bstr_decode_utf8 [226, 130, 172, 65] [1, 2] = some (8364, [65]) ∧
    bstr_decode_utf8 [244, 143, 191, 191] [1, 2] = some (1114111, []) ∧
    bstr_decode_utf8 [] [1, 2] = some (-1, [1, 2]) ∧
    bstr_decode_utf8 [128, 65] [1, 2] = some (-1, [1, 2]) ∧
    bstr_decode_utf8 [248, 128, 128, 128, 128] [1, 2] = some (-1, [1, 2]) ∧
    bstr_decode_utf8 [255] [1, 2] = some (-1, [1, 2]) ∧
    bstr_decode_utf8 [226, 130] [1, 2] = some (-1, [1, 2]) ∧
    bstr_decode_utf8 [226, 65, 65] [1, 2] = some (-1, [1, 2]) ∧
    bstr_decode_utf8 [192, 128] [1, 2] = some (-1, [1, 2]) ∧
    bstr_decode_utf8 [224, 128, 128] [1, 2] = some (-1, [1, 2]) ∧
    bstr_decode_utf8 [237, 160, 128] [1, 2] = some (-1, [1, 2]) ∧
    bstr_decode_utf8 [244, 144, 128, 128] [1, 2] = some (-1, [1, 2]) :=
  ⟨by decide, decode_utf8_correct [226, 130, 172, 65] [1, 2] (by decide),
    by decide, by decide, by decide, by decide, by decide, by decide, by decide, by decide,
    by decide, by decide, by decide, by decide, by decide⟩

theorem parse_length_cases (b : Nat) (hb : b < 256) :
    (b < 128 → bstr_parse_utf8_code_length b = 1) ∧
    (128 ≤ b → b < 192 → bstr_parse_utf8_code_length b = -1) ∧
    (192 ≤ b → b < 224 → bstr_parse_utf8_code_length b = 2) ∧
    (224 ≤ b → b < 240 → bstr_parse_utf8_code_length b = 3) ∧
    (240 ≤ b → b < 248 → bstr_parse_utf8_code_length b = 4) ∧
    (248 ≤ b → bstr_parse_utf8_code_length b = -1) := by
  rw [parse_length_eq b hb]
  refine ⟨?_, ?_, ?_, ?_, ?_, ?_⟩ <;> intros <;> split_ifs <;> first | rfl | omega

theorem encode_head_length (cp : Nat) (h : is_scalar_value cp) :
    ∃ b0 tl, utf8_encode cp = b0 :: tl ∧ b0 < 256 ∧
      bstr_parse_utf8_code_length b0 = ((utf8_encode cp).length : Int) := by
  obtain ⟨h1, h2⟩ := h
  unfold utf8_encode
  by_cases r1 : cp < 128
  · rw [if_pos r1]
    exact ⟨cp, [], rfl, by omega, (parse_length_cases cp (by omega)).1 r1⟩
  · rw [if_neg r1]
    by_cases r2 : cp < 2048
    · rw [if_pos r2]
      exact ⟨_, _, rfl, by omega,
        (parse_length_cases _ (by omega)).2.2.1 (by omega) (by omega)⟩
    · rw [if_neg r2]
      by_cases r3 : cp < 65536
      · rw [if_pos r3]
        exact ⟨_, _, rfl, by omega,
          (parse_length_cases _ (by omega)).2.2.2.1 (by omega) (by omega)⟩
      · rw [if_neg r3]
        exact ⟨_, _, rfl, by omega,
          (parse_length_cases _ (by omega)).2.2.2.2.1 (by omega) (by omega)⟩

/-- Claim C24. For every byte `b`, `bstr_parse_utf8_code_length(b)` is -1 or a
value in `[1, 4]`: 1 for `b < 0x80`, -1 for `0x80..0xBF`, 2 for `0xC0..0xDF`, 3
for `0xE0..0xEF`, 4 for `0xF0..0xF7`, -1 for `0xF8..0xFF`; and whenever
`bstr_decode_utf8` succeeds on a string that starts with `b`, the bytes it
consumes are `bstr_parse_utf8_code_length(b)` many. -/
theorem code_length_table (b : Nat) (hb : b < 256) :
    (bstr_parse_utf8_code_length b = -1 ∨
      (1 ≤ bstr_parse_utf8_code_length b ∧ bstr_parse_utf8_code_length b ≤ 4)) ∧
    (b < 0x80 → bstr_parse_utf8_code_length b = 1) ∧
    (0x80 ≤ b → b ≤ 0xBF → bstr_parse_utf8_code_length b = -1) ∧
    (0xC0 ≤ b → b ≤ 0xDF → bstr_parse_utf8_code_length b = 2) ∧
    (0xE0 ≤ b → b ≤ 0xEF → bstr_parse_utf8_code_length b = 3) ∧
    (0xF0 ≤ b → b ≤ 0xF7 → bstr_parse_utf8_code_length b = 4) ∧
    (0xF8 ≤ b → bstr_parse_utf8_code_length b = -1) ∧
    (∀ s1 out r next, (∀ x ∈ s1, x < 256) →
      bstr_decode_utf8 (b :: s1) out = some (r, next) → 0 ≤ r →
      ∃ used, b :: s1 = used ++ next ∧
        (used.length : Int) = bstr_parse_utf8_code_length b) := by
  obtain ⟨c1, c2, c3, c4, c5, c6⟩ := parse_length_cases b hb
  refine ⟨?_, c1, fun a1 a2 => c2 a1 (by omega), fun a1 a2 => c3 a1 (by omega),
    fun a1 a2 => c4 a1 (by omega), fun a1 a2 => c5 a1 (by omega), c6, ?_⟩
  · rw [parse_length_eq b hb]
    split_ifs <;> simp
  · intro s1 out r next hs hr hpos
    have hall : ∀ x ∈ b :: s1, x < 256 := by
      intro x hx
      simp only [List.mem_cons] at hx
      rcases hx with e | e
      · rw [e]; exact hb
      · exact hs x e
    rcases decode_total (b :: s1) out hall with h | ⟨cp, rest, hsc, he⟩
    · rw [h] at hr
      simp only [Option.some.injEq, Prod.mk.injEq] at hr
      omega
    · have hd := decode_encode cp rest out hsc
      rw [← he, hr] at hd
      simp only [Option.some.injEq, Prod.mk.injEq] at hd
      obtain ⟨e1, e2⟩ := hd
      subst e2
      obtain ⟨b0, tl, g1, g2, g3⟩ := encode_head_length cp hsc
      refine ⟨utf8_encode cp, he, ?_⟩
      rw [← g3]
      rw [g1] at he
      simp only [List.cons_append, List.cons.injEq] at he
      rw [he.1]

/-- Witness of C24: the lead byte `E2` of the encoding of U+20AC, a sequence of
three bytes. -/
theorem code_length_table_witness :
    (226 < 256) ∧ bstr_parse_utf8_code_length 226 = 3 ∧
    bstr_decode_utf8 [226, 130, 172, 65] [] = some (8364, [65]) ∧
    ((bstr_parse_utf8_code_length 226 = -1 ∨
      (1 ≤ bstr_parse_utf8_code_length 226 ∧ bstr_parse_utf8_code_length 226 ≤ 4)) ∧
    (226 < 0x80 → bstr_parse_utf8_code_length 226 = 1) ∧
    (0x80 ≤ 226 → 226 ≤ 0xBF → bstr_parse_utf8_code_length 226 = -1) ∧
    (0xC0 ≤ 226 → 226 ≤ 0xDF → bstr_parse_utf8_code_length 226 = 2) ∧
    (0xE0 ≤ 226 → 226 ≤ 0xEF → bstr_parse_utf8_code_length 226 = 3) ∧
    (0xF0 ≤ 226 → 226 ≤ 0xF7 → bstr_parse_utf8_code_length 226 = 4) ∧
    (0xF8 ≤ 226 → bstr_parse_utf8_code_length 226 = -1) ∧
    (∀ s1 out r next, (∀ x ∈ s1, x < 256) →
      bstr_decode_utf8 (226 :: s1) out = some (r, next) → 0 ≤ r →
      ∃ used, 226 :: s1 = used ++ next ∧
        (used.length : Int) = bstr_parse_utf8_code_length 226)) :=
  ⟨by decide, by decide, by decide, code_length_table 226 (by decide)⟩

theorem bytes_append (a b : List Nat) (h : ∀ x ∈ a ++ b, x < 256) :
    (∀ x ∈ a, x < 256) ∧ (∀ x ∈ b, x < 256) :=
  ⟨fun x hx => h x (List.mem_append_left _ hx), fun x hx => h x (List.mem_append_right _ hx)⟩

theorem utf8_encode_bytes (cp : Nat) (h : is_scalar_value cp) :
    ∀ x ∈ utf8_encode cp, x < 256 := by
  obtain ⟨h1, h2⟩ := h
  unfold utf8_encode
  intro x hx
  split_ifs at hx <;> simp only [List.mem_cons, List.mem_singleton, List.not_mem_nil,
    or_false] at hx <;> omega

/-- A sequence accepted by `bstr_decode_utf8` is the encoding of a scalar
value. -/
theorem accepted_iff (seq : List Nat) (hb : ∀ x ∈ seq, x < 256) :
    (∃ r, bstr_decode_utf8 seq [] = some (r, []) ∧ 0 ≤ r) ↔
      ∃ cp, is_scalar_value cp ∧ seq = utf8_encode cp := by
  constructor
  · rintro ⟨r, hr, hpos⟩
    rcases decode_total seq [] hb with h | ⟨cp, rest, hs, he⟩
    · rw [h] at hr
      simp only [Option.some.injEq, Prod.mk.injEq] at hr
      omega
    · have hd := decode_encode cp rest [] hs
      rw [← he, hr] at hd
      simp only [Option.some.injEq, Prod.mk.injEq] at hd
      rw [← hd.2] at he
      exact ⟨cp, hs, by simpa using he⟩
  · rintro ⟨cp, hs, he⟩
    have hd := decode_encode cp [] [] hs
    rw [List.append_nil, ← he] at hd
    exact ⟨cp, hd, by omega⟩

theorem valid_encode_cons (cp : Nat) (rest : List Nat) (hs : is_scalar_value cp)
    (hv : valid_utf8 rest) : valid_utf8 (utf8_encode cp ++ rest) := by
  have hd := decode_encode cp [] [] hs
  rw [List.append_nil] at hd
  exact valid_utf8.cons _ rest cp hd (by omega) hv

theorem validate_step_ok (fuel cp : Nat) (rest : List Nat) (hs : is_scalar_value cp) :
    bstr_validate_utf8 (fuel + 1) (utf8_encode cp ++ rest) = bstr_validate_utf8 fuel rest := by
  obtain ⟨b0, tl, g1, _, _⟩ := encode_head_length cp hs
  have hd := decode_encode cp rest (utf8_encode cp ++ rest) hs
  rw [g1] at hd ⊢
  simp only [List.cons_append] at hd ⊢
  rw [bstr_validate_utf8, hd]
  simp only []
  rw [if_neg (by omega)]

theorem validate_step_fail (fuel b : Nat) (t : List Nat)
    (hd : bstr_decode_utf8 (b :: t) (b :: t) = some (-1, b :: t)) :
    bstr_validate_utf8 (fuel + 1) (b :: t) = validate_error (b :: t) := by
  rw [bstr_validate_utf8, hd]
  simp only []
  rw [if_pos (by omega)]

theorem neg_missing (bytes len : Nat) (h1 : len < bytes) (h2 : bytes ≤ 4) :
    size_to_int ((2 ^ 64 - (bytes + 2 ^ 64 - len) % 2 ^ 64) % 2 ^ 64) =
      -((bytes - len : Nat) : Int) := by
  have e1 : (bytes + 2 ^ 64 - len) % 2 ^ 64 = bytes - len := by omega
  have e2 : (2 ^ 64 - (bytes - len)) % 2 ^ 64 = 2 ^ 64 - (bytes - len) := by omega
  have e3 : (2 ^ 64 - (bytes - len)) % 2 ^ 32 = 2 ^ 32 - (bytes - len) := by omega
  unfold size_to_int
  rw [e1, e2, e3, if_neg (by omega)]
  omega

theorem cut_off_loop_spec (L : Nat) (s : List Nat) (hb : ∀ x ∈ s, x < 256) (k n : Nat)
    (hn : n ≤ s.length) :
    (((s.drop n).length < k ∧ ∀ x ∈ s.drop n, 128 ≤ x ∧ x < 192) →
      cut_off_loop L s k n =
        some (some (size_to_int ((2 ^ 64 - (L + 2 ^ 64 - s.length) % 2 ^ 64) % 2 ^ 64)))) ∧
    (¬ ((s.drop n).length < k ∧ ∀ x ∈ s.drop n, 128 ≤ x ∧ x < 192) →
      cut_off_loop L s k n = some none) := by
  induction k generalizing n with
  | zero =>
    constructor
    · intro h; omega
    · intro _; rfl
  | succ k ih =>
    unfold cut_off_loop
    by_cases hlen : n ≥ s.length
    · rw [if_pos hlen]
      have hd : s.drop n = [] := List.drop_eq_nil_of_le hlen
      constructor
      · intro _; rfl
      · intro h
        exfalso
        apply h
        rw [hd]
        simp
    · rw [if_neg hlen]
      have hlt : n < s.length := by omega
      have hd : s.drop n = s.get ⟨n, hlt⟩ :: s.drop (n + 1) :=
        List.drop_eq_getElem_cons hlt
      have hg : s.get? n = some (s.get ⟨n, hlt⟩) := List.get?_eq_get hlt
      rw [hg]
      simp only []
      have hx : s.get ⟨n, hlt⟩ < 256 := hb _ (List.get_mem _ _ _)
      obtain ⟨c1, _⟩ := cont_byte_eq _ hx
      obtain ⟨i1, i2⟩ := ih (n + 1) (by omega)
      rw [hd]
      by_cases hc : 128 ≤ s.get ⟨n, hlt⟩ ∧ s.get ⟨n, hlt⟩ < 192
      · rw [if_neg (by rw [not_not]; exact c1.2 hc)]
        constructor
        · intro h
          apply i1
          refine ⟨?_, fun x hx => h.2 x (List.mem_cons_of_mem _ hx)⟩
          have := h.1
          simp only [List.length_cons] at this
          omega
        · intro h
          apply i2
          intro h2
          apply h
          refine ⟨?_, ?_⟩
          · simp only [List.length_cons]; omega
          · intro x hx
            simp only [List.mem_cons] at hx
            rcases hx with e | e
            · rw [e]; exact hc
            · exact h2.2 x e
      · rw [if_pos (fun e => hc (c1.1 e))]
        constructor
        · intro h
          exact absurd (h.2 _ (List.mem_cons_self _ _)) hc
        · intro _; rfl

theorem validate_error_spec (b : Nat) (t : List Nat) (hb : ∀ x ∈ b :: t, x < 256) :
    (∀ N, cut_off_tail (b :: t) N → validate_error (b :: t) = some (-(N : Int))) ∧
    ((¬ ∃ N, cut_off_tail (b :: t) N) → validate_error (b :: t) = some (-8)) := by
  have hb0 : b < 256 := hb b (List.mem_cons_self _ _)
  have hloop := cut_off_loop_spec (bstr_parse_utf8_code_length b).toNat (b :: t) hb
    ((bstr_parse_utf8_code_length b).toNat - 1) 1 (by simp)
  simp only [List.drop_succ_cons, List.drop_zero, List.length_cons] at hloop
  have hrange : bstr_parse_utf8_code_length b ≤ 4 := by
    rw [parse_length_eq b hb0]
    split_ifs <;> omega
  constructor
  · rintro N ⟨lead, conts, e1, e2, e3, e4⟩
    simp only [List.cons.injEq] at e1
    obtain ⟨e1a, e1b⟩ := e1
    subst e1a e1b
    simp only [List.length_cons] at e4
    unfold validate_error
    simp only [List.length_cons]
    rw [if_pos (by omega)]
    have htn : (bstr_parse_utf8_code_length b).toNat = t.length + 1 + N := by omega
    rw [hloop.1 ⟨by omega, e2⟩]
    simp only []
    rw [neg_missing _ _ (by omega) (by omega), htn]
    congr 2
    omega
  · intro hno
    unfold validate_error
    simp only [List.length_cons]
    split
    · rename_i hc
      have hnot : ¬ (t.length < (bstr_parse_utf8_code_length b).toNat - 1 ∧
          ∀ x ∈ t, 128 ≤ x ∧ x < 192) := by
        intro h
        apply hno
        refine ⟨(bstr_parse_utf8_code_length b).toNat - (t.length + 1), b, t, rfl, h.2,
          by omega, ?_⟩
        simp only [List.length_cons]
        omega
      rw [hloop.2 hnot]
    · rfl

theorem validate_nil (fuel : Nat) : bstr_validate_utf8 fuel [] = some 0 := by
  cases fuel <;> rfl

theorem decode_unique (cp cp1 : Nat) (rest rest1 : List Nat) (h : is_scalar_value cp)
    (h1 : is_scalar_value cp1) (e : utf8_encode cp ++ rest = utf8_encode cp1 ++ rest1) :
    cp = cp1 ∧ rest = rest1 := by
  have d := decode_encode cp rest [] h
  have d1 := decode_encode cp1 rest1 [] h1
  rw [e, d1] at d
  simp only [Option.some.injEq, Prod.mk.injEq] at d
  exact ⟨by omega, d.2.symm⟩

theorem utf8_encode_ne_nil (cp : Nat) : utf8_encode cp ≠ [] := by
  have := (utf8_encode_length cp).1
  intro h
  rw [h] at this
  simp at this

theorem valid_inv (s : List Nat) (hb : ∀ x ∈ s, x < 256) (hv : valid_utf8 s) :
    s = [] ∨ ∃ cp rest, is_scalar_value cp ∧ s = utf8_encode cp ++ rest ∧ valid_utf8 rest := by
  cases hv with
  | nil => left; rfl
  | cons seq rest r hd hpos hrest =>
    right
    obtain ⟨cp, hs, he⟩ := (accepted_iff seq (bytes_append seq rest hb).1).1 ⟨r, hd, hpos⟩
    exact ⟨cp, rest, hs, by rw [he], hrest⟩

theorem decode_fail_not_valid (s out : List Nat) (hb : ∀ x ∈ s, x < 256) (hne : s ≠ [])
    (hd : bstr_decode_utf8 s out = some (-1, out)) :
    ¬ valid_utf8 s ∧ ∀ out1, bstr_decode_utf8 s out1 = some (-1, out1) := by
  have hno : ¬ ∃ cp rest, is_scalar_value cp ∧ s = utf8_encode cp ++ rest := by
    rintro ⟨cp, rest, hs, he⟩
    have := decode_encode cp rest out hs
    rw [← he, hd] at this
    simp only [Option.some.injEq, Prod.mk.injEq] at this
    omega
  constructor
  · intro hv
    rcases valid_inv s hb hv with e | ⟨cp, rest, hs, he, _⟩
    · exact hne e
    · exact hno ⟨cp, rest, hs, he⟩
  · intro out1
    rcases decode_total s out1 hb with h | h
    · exact h
    · exact absurd h hno

/-- The run of `bstr_validate_utf8`: the string is valid and the result is 0,
or the string is a valid part `v` followed by a rest at which decoding fails,
and the result is what the error branch computes for that rest. -/
theorem validate_run (n : Nat) (s : List Nat) (hn : s.length ≤ n) (hb : ∀ x ∈ s, x < 256) :
    (valid_utf8 s ∧ ∀ fuel, s.length ≤ fuel → bstr_validate_utf8 fuel s = some 0) ∨
    (¬ valid_utf8 s ∧ ∃ v rest, valid_utf8 v ∧ s = v ++ rest ∧ rest ≠ [] ∧
      (∀ out, bstr_decode_utf8 rest out = some (-1, out)) ∧
      ∀ fuel, s.length ≤ fuel → bstr_validate_utf8 fuel s = validate_error rest) := by
  induction n generalizing s with
  | zero =>
    have : s = [] := List.eq_nil_of_length_eq_zero (by omega)
    subst this
    exact Or.inl ⟨valid_utf8.nil, fun fuel _ => validate_nil fuel⟩
  | succ m ih =>
    match s, hn, hb with
    | [], _, _ => exact Or.inl ⟨valid_utf8.nil, fun fuel _ => validate_nil fuel⟩
    | b :: t, hn, hb =>
      rcases decode_total (b :: t) (b :: t) hb with hfail | ⟨cp, rest, hs, he⟩
      · right
        obtain ⟨f1, f2⟩ := decode_fail_not_valid (b :: t) (b :: t) hb (by simp) hfail
        refine ⟨f1, [], b :: t, valid_utf8.nil, rfl, by simp, f2, ?_⟩
        intro fuel hf
        cases fuel with
        | zero => simp at hf
        | succ f => exact validate_step_fail f b t hfail
      · have hlen := (utf8_encode_length cp).1
        have hl : (b :: t).length = (utf8_encode cp).length + rest.length := by
          rw [he, List.length_append]
        have hbr : ∀ x ∈ rest, x < 256 := by
          rw [he] at hb
          exact (bytes_append _ _ hb).2
        have hstep : ∀ fuel, (b :: t).length ≤ fuel →
            ∃ f, rest.length ≤ f ∧
              bstr_validate_utf8 fuel (b :: t) = bstr_validate_utf8 f rest := by
          intro fuel hf
          cases fuel with
          | zero => simp at hf
          | succ f =>
            refine ⟨f, by omega, ?_⟩
            rw [he]
            exact validate_step_ok f cp rest hs
        rcases ih rest (by omega) hbr with ⟨v1, v2⟩ | ⟨v1, v, rest1, w1, w2, w3, w4, w5⟩
        · left
          refine ⟨by rw [he]; exact valid_encode_cons cp rest hs v1, ?_⟩
          intro fuel hf
          obtain ⟨f, g1, g2⟩ := hstep fuel hf
          rw [g2]
          exact v2 f g1
        · right
          refine ⟨?_, utf8_encode cp ++ v, rest1, valid_encode_cons cp v hs w1,
            by rw [he, w2, List.append_assoc], w3, w4, ?_⟩
          · intro hv
            rcases valid_inv (b :: t) hb hv with e | ⟨cp1, r1, hs1, he1, hv1⟩
            · simp at e
            · rw [he] at he1
              obtain ⟨_, e2⟩ := decode_unique cp cp1 rest r1 hs hs1 he1
              rw [← e2] at hv1
              exact v1 hv1
          · intro fuel hf
            obtain ⟨f, g1, g2⟩ := hstep fuel hf
            rw [g2]
            exact w5 f g1

theorem validate_error_neg (rest : List Nat) (hb : ∀ x ∈ rest, x < 256) (hne : rest ≠ []) :
    ∃ r, validate_error rest = some r ∧ r < 0 ∧
      ((∃ N, cut_off_tail rest N ∧ N ≤ 3 ∧ r = -(N : Int)) ∨
       ((¬ ∃ N, cut_off_tail rest N) ∧ r = -8)) := by
  match rest, hb, hne with
  | b :: t, hb, _ =>
    obtain ⟨s1, s2⟩ := validate_error_spec b t hb
    by_cases hc : ∃ N, cut_off_tail (b :: t) N
    · obtain ⟨N, hN⟩ := hc
      have hN' := hN
      obtain ⟨lead, conts, e1, _, e3, e4⟩ := hN
      have hle : bstr_parse_utf8_code_length lead ≤ 4 := by
        simp only [List.cons.injEq] at e1
        rw [← e1.1, parse_length_eq b (hb b (List.mem_cons_self _ _))]
        split_ifs <;> omega
      simp only [List.length_cons] at e4
      exact ⟨-(N : Int), s1 N hN', by omega, Or.inl ⟨N, hN', by omega, rfl⟩⟩
    · exact ⟨-8, s2 hc, by omega, Or.inr ⟨hc, rfl⟩⟩

/-- Claim C21. For every byte string `s` (zero bytes included), the loop of
`bstr_validate_utf8` ends after at most `s.len` iterations with a result `r`
(the same for every sufficient fuel), and `r >= 0` iff `s` is valid UTF-8, a
concatenation of sequences each accepted by `bstr_decode_utf8`; then `r = 0`,
and otherwise `r` is negative. -/
theorem validate_utf8_correct (s : List Nat) (hb : ∀ x ∈ s, x < 256) :
    ∃ r, (∀ fuel, s.length ≤ fuel → bstr_validate_utf8 fuel s = some r) ∧
      (0 ≤ r ↔ valid_utf8 s) ∧ (valid_utf8 s → r = 0) ∧ (¬ valid_utf8 s → r < 0) := by
  rcases validate_run s.length s (le_refl _) hb with ⟨v1, v2⟩ | ⟨v1, v, rest, w1, w2, w3, w4, w5⟩
  · exact ⟨0, v2, ⟨fun _ => v1, fun _ => le_refl _⟩, fun _ => rfl, fun h => absurd v1 h⟩
  · have hbr : ∀ x ∈ rest, x < 256 := by
      rw [w2] at hb
      exact (bytes_append _ _ hb).2
    obtain ⟨r, hr, hneg, _⟩ := validate_error_neg rest hbr w3
    refine ⟨r, fun fuel hf => by rw [w5 fuel hf, hr], ⟨fun h => by omega, fun h => absurd h v1⟩,
      fun h => absurd h v1, fun _ => hneg⟩

/-- Witness of C21: the string `41 00 E2 82 AC` (with an embedded zero byte) is
valid; `41 E2 82` and `41 80` are not. -/
theorem validate_utf8_correct_witness :
    (∀ x ∈ [65, 0, 226, 130, 172], x < 256) ∧
    (∃ r, (∀ fuel, [65, 0, 226, 130, 172].length ≤ fuel →
        bstr_validate_utf8 fuel [65, 0, 226, 130, 172] = some r) ∧
      (0 ≤ r ↔ valid_utf8 [65, 0, 226, 130, 172]) ∧
      (valid_utf8 [65, 0, 226, 130, 172] → r = 0) ∧
      (¬ valid_utf8 [65, 0, 226, 130, 172] → r < 0)) ∧
    bstr_validate_utf8 5 [65, 0, 226, 130, 172] = some 0 ∧
    bstr_validate_utf8 3 [65, 226, 130] = some (-1) ∧
    bstr_validate_utf8 2 [65, 128] = some (-8) ∧
    bstr_validate_utf8 0 [] = some 0 :=
  ⟨by decide, validate_utf8_correct [65, 0, 226, 130, 172] (by decide),
    by decide, by decide, by decide, by decide⟩

theorem encode_head_tail (cp : Nat) (h : is_scalar_value cp) :
    ∃ b0 tl, utf8_encode cp = b0 :: tl ∧ (b0 < 128 ∨ 194 ≤ b0) ∧
      ∀ x ∈ tl, 128 ≤ x ∧ x < 192 := by
  obtain ⟨h1, h2⟩ := h
  unfold utf8_encode
  split_ifs
  · exact ⟨cp, [], rfl, by omega, by simp⟩
  · refine ⟨_, _, rfl, by omega, ?_⟩
    intro x hx
    simp only [List.mem_singleton] at hx
    omega
  · refine ⟨_, _, rfl, by omega, ?_⟩
    intro x hx
    simp only [List.mem_cons, List.mem_singleton, List.not_mem_nil, or_false] at hx
    omega
  · refine ⟨_, _, rfl, by omega, ?_⟩
    intro x hx
    simp only [List.mem_cons, List.mem_singleton, List.not_mem_nil, or_false] at hx
    omega

theorem cut_off_decode_fails (rest out : List Nat) (N : Nat) (hb : ∀ x ∈ rest, x < 256)
    (h : cut_off_tail rest N) : bstr_decode_utf8 rest out = some (-1, out) := by
  obtain ⟨lead, conts, e1, e2, e3, e4⟩ := h
  subst e1
  have hl : lead < 256 := hb lead (List.mem_cons_self _ _)
  obtain ⟨c1, c2, c3, c4, c5, c6⟩ := parse_length_cases lead hl
  simp only [List.length_cons] at e4
  have hcases : lead < 128 ∨ (128 ≤ lead ∧ lead < 192) ∨ (192 ≤ lead ∧ lead < 224) ∨
      (224 ≤ lead ∧ lead < 240) ∨ (240 ≤ lead ∧ lead < 248) ∨ 248 ≤ lead := by omega
  rcases hcases with r | r | r | r | r | r
  · rw [c1 r] at e4; omega
  · rw [c2 r.1 r.2] at e4; omega
  · rw [c3 r.1 r.2] at e4
    have : conts = [] := List.eq_nil_of_length_eq_zero (by omega)
    subst this
    exact (decode_two lead 0 [] out r (by omega)).1
  · rw [c4 r.1 r.2] at e4
    match conts, hb, e4 with
    | [], _, _ => exact (decode_three lead 0 0 [] out r (by omega) (by omega)).1
    | [t1], hb, _ =>
      exact (decode_three lead t1 0 [] out r (hb t1 (by simp)) (by omega)).2.1
    | _ :: _ :: _, _, e4 => simp only [List.length_cons] at e4; omega
  · rw [c5 r.1 r.2] at e4
    match conts, hb, e4 with
    | [], _, _ => exact (decode_four lead 0 0 0 [] out r (by omega) (by omega) (by omega)).1
    | [t1], hb, _ =>
      exact (decode_four lead t1 0 0 [] out r (hb t1 (by simp)) (by omega) (by omega)).2.1
    | [t1, t2], hb, _ =>
      exact (decode_four lead t1 t2 0 [] out r (hb t1 (by simp)) (hb t2 (by simp))
        (by omega)).2.2.1
    | _ :: _ :: _ :: _, _, e4 => simp only [List.length_cons] at e4; omega
  · rw [c6 r] at e4; omega

theorem validate_append (v : List Nat) (hv : valid_utf8 v) (x : List Nat)
    (hb : ∀ y ∈ v ++ x, y < 256) (fuel : Nat) (hf : (v ++ x).length ≤ fuel) :
    ∃ f, x.length ≤ f ∧ bstr_validate_utf8 fuel (v ++ x) = bstr_validate_utf8 f x := by
  induction hv generalizing fuel with
  | nil => exact ⟨fuel, by simpa using hf, rfl⟩
  | cons seq rest r hd hpos hrest ih =>
    rw [List.append_assoc] at hb hf ⊢
    obtain ⟨cp, hs, he⟩ := (accepted_iff seq (bytes_append _ _ hb).1).1 ⟨r, hd, hpos⟩
    have hlen := (utf8_encode_length cp).1
    rw [he] at hf ⊢
    rw [List.length_append] at hf
    cases fuel with
    | zero => omega
    | succ f =>
      rw [validate_step_ok f cp (rest ++ x) hs]
      exact ih (bytes_append _ _ hb).2 f (by omega)

theorem validate_cut_off_tail (v rest : List Nat) (N : Nat) (hv : valid_utf8 v)
    (hc : cut_off_tail rest N) (hb : ∀ y ∈ v ++ rest, y < 256) (fuel : Nat)
    (hf : (v ++ rest).length ≤ fuel) :
    bstr_validate_utf8 fuel (v ++ rest) = some (-(N : Int)) := by
  obtain ⟨f, g1, g2⟩ := validate_append v hv rest hb fuel hf
  rw [g2]
  have hbr := (bytes_append _ _ hb).2
  have hfail := cut_off_decode_fails rest rest N hbr hc
  have hc1 := hc
  obtain ⟨lead, conts, e1, _⟩ := hc1
  subst e1
  cases f with
  | zero => simp at g1
  | succ f0 =>
    rw [validate_step_fail f0 lead conts hfail]
    exact (validate_error_spec lead conts hbr).1 N hc

theorem cut_off_to_tail (s : List Nat) (N : Nat) (h : cut_off s N) :
    ∃ v rest, valid_utf8 v ∧ s = v ++ rest ∧ cut_off_tail rest N := by
  obtain ⟨v, cp, pre, suf, hv, hs, he, hne, hN, h1, hsv⟩ := h
  refine ⟨v, pre, hv, hsv, ?_⟩
  obtain ⟨b0, tl, g1, _, g3⟩ := encode_head_length cp hs
  obtain ⟨b1, tl1, k1, _, k3⟩ := encode_head_tail cp hs
  rw [g1] at k1
  simp only [List.cons.injEq] at k1
  obtain ⟨k1a, k1b⟩ := k1
  subst k1a k1b
  match pre, hne with
  | lead :: conts, _ =>
    rw [g1] at he
    simp only [List.cons_append, List.cons.injEq] at he
    obtain ⟨e1, e2⟩ := he
    subst e1
    refine ⟨b0, conts, rfl, ?_, h1, ?_⟩
    · intro t ht
      exact k3 t (by rw [e2]; exact List.mem_append_left _ ht)
    · rw [g3, g1, e2]
      simp only [List.length_cons, List.length_append]
      omega

/-- Claim C22, as amended. For every byte string `s` the result `r` of
`bstr_validate_utf8` is greater than -8 iff `s` is valid UTF-8, or `s` is a
valid string followed by a rest that is a lead byte of a sequence of `L` bytes
(`L` in 2..4) and fewer than `L - 1` continuation bytes; for such a rest with
`N` bytes missing the result is `-N` (`N <= 3`). Every valid-but-cut-off string
with `N` bytes missing is of that kind, so its result is `-N`; in every other
invalid case the result is -8. -/
theorem validate_cut_off (s : List Nat) (hb : ∀ x ∈ s, x < 256) :
    ∃ r, (∀ fuel, s.length ≤ fuel → bstr_validate_utf8 fuel s = some r) ∧
      (-8 < r ↔ (valid_utf8 s ∨
        ∃ v rest N, valid_utf8 v ∧ s = v ++ rest ∧ cut_off_tail rest N)) ∧
      (∀ v rest N, valid_utf8 v → s = v ++ rest → cut_off_tail rest N →
        r = -(N : Int) ∧ N ≤ 3) ∧
      (∀ N, cut_off s N → r = -(N : Int)) ∧
      (r ≤ -8 → r = -8) := by
  have key : ∀ r, (∀ fuel, s.length ≤ fuel → bstr_validate_utf8 fuel s = some r) →
      ∀ v rest N, valid_utf8 v → s = v ++ rest → cut_off_tail rest N →
        r = -(N : Int) ∧ N ≤ 3 := by
    intro r hr v rest N hv he hc
    have h1 := hr s.length (le_refl _)
    have h2 := validate_cut_off_tail v rest N hv hc (by rw [← he]; exact hb) s.length
      (by rw [he])
    rw [← he, h1] at h2
    simp only [Option.some.injEq] at h2
    refine ⟨h2, ?_⟩
    obtain ⟨lead, conts, e1, _, e3, e4⟩ := hc
    have hl : lead < 256 := by
      apply hb
      rw [he, e1]
      exact List.mem_append_right _ (List.mem_cons_self _ _)
    have : bstr_parse_utf8_code_length lead ≤ 4 := by
      rw [parse_length_eq lead hl]
      split_ifs <;> omega
    rw [e1] at e4
    simp only [List.length_cons] at e4
    omega
  rcases validate_run s.length s (le_refl _) hb with ⟨v1, v2⟩ | ⟨v1, v, rest, w1, w2, w3, w4, w5⟩
  · refine ⟨0, v2, ⟨fun _ => Or.inl v1, fun _ => by omega⟩, key 0 v2, ?_, fun h => by omega⟩
    intro N hN
    obtain ⟨v, rest, a1, a2, a3⟩ := cut_off_to_tail s N hN
    exact (key 0 v2 v rest N a1 a2 a3).1
  · have hbr : ∀ x ∈ rest, x < 256 := by
      rw [w2] at hb
      exact (bytes_append _ _ hb).2
    obtain ⟨r, hr, hneg, hkind⟩ := validate_error_neg rest hbr w3
    have hrun : ∀ fuel, s.length ≤ fuel → bstr_validate_utf8 fuel s = some r :=
      fun fuel hf => by rw [w5 fuel hf, hr]
    refine ⟨r, hrun, ⟨?_, ?_⟩, key r hrun, ?_, ?_⟩
    · intro hgt
      rcases hkind with ⟨N, c1, _, _⟩ | ⟨_, c2⟩
      · exact Or.inr ⟨v, rest, N, w1, w2, c1⟩
      · omega
    · intro h
      rcases h with h | ⟨v0, rest0, N, a1, a2, a3⟩
      · exact absurd h v1
      · have := key r hrun v0 rest0 N a1 a2 a3
        omega
    · intro N hN
      obtain ⟨v0, rest0, a1, a2, a3⟩ := cut_off_to_tail s N hN
      exact (key r hrun v0 rest0 N a1 a2 a3).1
    · intro hle
      rcases hkind with ⟨N, _, c2, c3⟩ | ⟨_, c2⟩
      · omega
      · exact c2

/-- Witness of C22 (as amended): `41 E2 82`, the string `41 E2 82 AC` without
its last byte, gives -1; `41 F0`, with three bytes missing, gives -3; and
`41 E2 41` gives -8. -/
theorem validate_cut_off_witness :
    (∀ x ∈ [65, 226, 130], x < 256) ∧
    (∃ r, (∀ fuel, [65, 226, 130].length ≤ fuel →
        bstr_validate_utf8 fuel [65, 226, 130] = some r) ∧
      (-8 < r ↔ (valid_utf8 [65, 226, 130] ∨
        ∃ v rest N, valid_utf8 v ∧ [65, 226, 130] = v ++ rest ∧ cut_off_tail rest N)) ∧
      (∀ v rest N, valid_utf8 v → [65, 226, 130] = v ++ rest → cut_off_tail rest N →
        r = -(N : Int) ∧ N ≤ 3) ∧
      (∀ N, cut_off [65, 226, 130] N → r = -(N : Int)) ∧
      (r ≤ -8 → r = -8)) ∧
    bstr_validate_utf8 3 [65, 226, 130] = some (-1) ∧
    bstr_validate_utf8 2 [65, 240] = some (-3) ∧
    bstr_validate_utf8 3 [65, 226, 65] = some (-8) ∧
    utf8_encode 8364 = [226, 130] ++ [172] :=
  ⟨by decide, validate_cut_off [65, 226, 130] (by decide), by decide, by decide, by decide,
    by decide⟩

/-- C22 is false as stated: for the single byte `C0` the result is -1, greater
than -8, but `C0` is neither valid nor a valid string cut off: no sequence of a
scalar value begins with `C0` (`C0 xx` is an overlong form). -/
theorem cut_off_claim_fails :
    (∀ fuel, 1 ≤ fuel → bstr_validate_utf8 fuel [192] = some (-1)) ∧
    ¬ valid_utf8 [192] ∧ ¬ ∃ N, cut_off [192] N := by
  have hhead : ∀ cp tl, is_scalar_value cp → utf8_encode cp ≠ 192 :: tl := by
    intro cp tl hs he
    obtain ⟨b0, tl0, g1, g2, _⟩ := encode_head_tail cp hs
    rw [g1] at he
    simp only [List.cons.injEq] at he
    omega
  refine ⟨?_, ?_, ?_⟩
  · intro fuel hf
    cases fuel with
    | zero => omega
    | succ f => rfl
  · intro hv
    rcases valid_inv [192] (by decide) hv with e | ⟨cp, rest, hs, he, _⟩
    · simp at e
    · obtain ⟨b0, tl0, g1, _⟩ := encode_head_tail cp hs
      rw [g1] at he
      simp only [List.cons_append, List.cons.injEq] at he
      exact hhead cp tl0 hs (by rw [g1, ← he.1])
  · rintro ⟨N, v, cp, pre, suf, hv, hs, he, hne, _, _, hsv⟩
    match v, pre, hne, hsv, hv with
    | [], pre, _, hsv, _ =>
      simp only [List.nil_append] at hsv
      apply hhead cp suf hs
      rw [he, ← hsv]
      rfl
    | x :: v1, [], hne, _, _ => exact hne rfl
    | x :: v1, y :: pre1, _, hsv, _ =>
      have := congrArg List.length hsv
      simp only [List.length_cons, List.length_append, List.length_nil] at this
      omega

set_option maxRecDepth 100000 in
theorem put_utf8_latin1 : ∀ c, c < 256 → PUT_UTF8 c = utf8_encode c := by
  decide

theorem xappend_getD (ae : Bool) (s : Option (List Nat)) (app : List Nat) :
    (bstr_xappend ae s app).getD [] = s.getD [] ++ app := by
  unfold bstr_xappend
  split
  · rename_i h
    have : app = [] := List.eq_nil_of_length_eq_zero h.1
    rw [this, List.append_nil]
  · rfl

theorem xappend_some (ae : Bool) (s : Option (List Nat)) (app : List Nat) (h : app ≠ []) :
    bstr_xappend ae s app = some (s.getD [] ++ app) := by
  unfold bstr_xappend
  rw [if_neg]
  intro hc
  exact h (List.eq_nil_of_length_eq_zero hc.1)

theorem take_consumed (a rest : List Nat) :
    (a ++ rest).take ((a ++ rest).length - rest.length) = a := by
  rw [List.length_append, Nat.add_sub_cancel]
  exact List.take_left a rest

theorem sanitize_loop_nil (ae : Bool) (fuel : Nat) (new : Option (List Nat)) (ok : List Nat) :
    sanitize_loop ae fuel new ok [] = some (new, ok) := by
  cases fuel <;> rfl

theorem sanitize_loop_spec (ae : Bool) (n : Nat) (left : List Nat) (hn : left.length ≤ n)
    (hb : ∀ x ∈ left, x < 256) (new : Option (List Nat)) (ok : List Nat) :
    ∃ out, sanitized left out ∧
      ((valid_utf8 left ∧ out = left ∧
          ∀ fuel, left.length ≤ fuel →
            sanitize_loop ae fuel new ok left = some (new, ok ++ left)) ∨
       (¬ valid_utf8 left ∧
          ∀ fuel, left.length ≤ fuel → ∃ new1 ok1,
            sanitize_loop ae fuel new ok left = some (some new1, ok1) ∧
            new1 ++ ok1 = new.getD [] ++ ok ++ out)) := by
  induction n generalizing left new ok with
  | zero =>
    have : left = [] := List.eq_nil_of_length_eq_zero (by omega)
    subst this
    exact ⟨[], sanitized.nil, Or.inl ⟨valid_utf8.nil, rfl, fun fuel _ => by
      rw [sanitize_loop_nil, List.append_nil]⟩⟩
  | succ m ih =>
    match left, hn, hb with
    | [], _, _ =>
      exact ⟨[], sanitized.nil, Or.inl ⟨valid_utf8.nil, rfl, fun fuel _ => by
        rw [sanitize_loop_nil, List.append_nil]⟩⟩
    | b :: t, hn, hb =>
      rcases decode_total (b :: t) (b :: t) hb with hfail | ⟨cp, rest, hs, he⟩
      · obtain ⟨f1, f2⟩ := decode_fail_not_valid (b :: t) (b :: t) hb (by simp) hfail
        have hb0 : b < 256 := hb b (List.mem_cons_self _ _)
        have hbt : ∀ x ∈ t, x < 256 := fun x hx => hb x (List.mem_cons_of_mem _ hx)
        have hnew2 : bstr_append_utf8 ae (bstr_xappend ae new ok) b
            = some (new.getD [] ++ ok ++ utf8_encode b) := by
          unfold bstr_append_utf8
          rw [put_utf8_latin1 b hb0, xappend_some ae _ _ (utf8_encode_ne_nil b), xappend_getD]
        have hstep : ∀ fuel, sanitize_loop ae (fuel + 1) new ok (b :: t) =
            sanitize_loop ae fuel (some (new.getD [] ++ ok ++ utf8_encode b)) [] t := by
          intro fuel
          rw [sanitize_loop, hfail]
          simp only []
          rw [if_pos (by omega), hnew2]
        obtain ⟨out1, s1, hcase⟩ :=
          ih t (by simpa using hn) hbt (some (new.getD [] ++ ok ++ utf8_encode b)) []
        refine ⟨utf8_encode b ++ out1, sanitized.replace b t out1 (f2 []) s1, Or.inr ⟨f1, ?_⟩⟩
        intro fuel hf
        cases fuel with
        | zero => simp at hf
        | succ f =>
          rw [hstep f]
          have hf1 : t.length ≤ f := by simpa using hf
          rcases hcase with ⟨_, c2, c3⟩ | ⟨_, c2⟩
          · refine ⟨_, _, c3 f hf1, ?_⟩
            rw [c2]
            simp
          · obtain ⟨new1, ok1, d1, d2⟩ := c2 f hf1
            refine ⟨new1, ok1, d1, ?_⟩
            rw [d2]
            simp
      · have hlen := (utf8_encode_length cp).1
        have hl : (b :: t).length = (utf8_encode cp).length + rest.length := by
          rw [he, List.length_append]
        have hbr : ∀ x ∈ rest, x < 256 := by
          rw [he] at hb
          exact (bytes_append _ _ hb).2
        have hd := decode_encode cp rest (b :: t) hs
        rw [← he] at hd
        have hstep : ∀ fuel, sanitize_loop ae (fuel + 1) new ok (b :: t) =
            sanitize_loop ae fuel new (ok ++ utf8_encode cp) rest := by
          intro fuel
          rw [sanitize_loop, hd]
          simp only []
          rw [if_neg (by omega), he, take_consumed]
        obtain ⟨out1, s1, hcase⟩ := ih rest (by omega) hbr new (ok ++ utf8_encode cp)
        refine ⟨utf8_encode cp ++ out1, by rw [he]; exact sanitized.copy cp rest out1 hs s1, ?_⟩
        rcases hcase with ⟨c1, c2, c3⟩ | ⟨c1, c2⟩
        · left
          refine ⟨by rw [he]; exact valid_encode_cons cp rest hs c1, by rw [c2, he], ?_⟩
          intro fuel hf
          cases fuel with
          | zero => simp at hf
          | succ f =>
            rw [hstep f, c3 f (by omega), he, List.append_assoc]
        · right
          constructor
          · intro hv
            rcases valid_inv (b :: t) hb hv with e | ⟨cp1, r1, hs1, he1, hv1⟩
            · simp at e
            · rw [he] at he1
              obtain ⟨_, e2⟩ := decode_unique cp cp1 rest r1 hs hs1 he1
              rw [← e2] at hv1
              exact c1 hv1
          · intro fuel hf
            cases fuel with
            | zero => simp at hf
            | succ f =>
              rw [hstep f]
              obtain ⟨new1, ok1, d1, d2⟩ := c2 f (by omega)
              refine ⟨new1, ok1, d1, ?_⟩
              rw [d2]
              simp

theorem sanitized_valid (s out : List Nat) (h : sanitized s out) (hb : ∀ x ∈ s, x < 256) :
    valid_utf8 out ∧ ∀ x ∈ out, x < 256 := by
  induction h with
  | nil => exact ⟨valid_utf8.nil, by simp⟩
  | copy cp rest out hs _ ih =>
    obtain ⟨i1, i2⟩ := ih (bytes_append _ _ hb).2
    refine ⟨valid_encode_cons cp out hs i1, ?_⟩
    intro x hx
    rcases List.mem_append.1 hx with e | e
    · exact utf8_encode_bytes cp hs x e
    · exact i2 x e
  | replace b t out _ _ ih =>
    obtain ⟨i1, i2⟩ := ih (fun x hx => hb x (List.mem_cons_of_mem _ hx))
    have hb0 : b < 256 := hb b (List.mem_cons_self _ _)
    have hs : is_scalar_value b := ⟨by omega, by omega⟩
    refine ⟨valid_encode_cons b out hs i1, ?_⟩
    intro x hx
    rcases List.mem_append.1 hx with e | e
    · exact utf8_encode_bytes b hs x e
    · exact i2 x e

/-- Claim C23. For every byte string `s`, `bstr_sanitize_utf8_latin1` returns a
string `out` (the loop ends after at most `s.len` iterations, whatever
`bstr_xappend` does for an empty append): `out` is `s` with every validly
decoded sequence copied and every byte at which decoding fails replaced by the
UTF-8 encoding of that byte as a Latin-1 code point; `out` is valid UTF-8 and
`bstr_validate_utf8` of it is 0; and `out` is `s` when `s` is valid. -/
theorem sanitize_correct (alloc_empty : Bool) (s : List Nat) (hb : ∀ x ∈ s, x < 256) :
    ∃ out, (∀ fuel, s.length ≤ fuel →
        bstr_sanitize_utf8_latin1 alloc_empty fuel s = some out) ∧
      sanitized s out ∧ valid_utf8 out ∧
      (∀ fuel, out.length ≤ fuel → bstr_validate_utf8 fuel out = some 0) ∧
      (valid_utf8 s → out = s) := by
  obtain ⟨out, hs, hcase⟩ := sanitize_loop_spec alloc_empty s.length s (le_refl _) hb none []
  obtain ⟨hv, hbo⟩ := sanitized_valid s out hs hb
  have hval : ∀ fuel, out.length ≤ fuel → bstr_validate_utf8 fuel out = some 0 := by
    intro fuel hf
    obtain ⟨f, _, g⟩ := validate_append out hv [] (by simpa using hbo) fuel (by simpa using hf)
    rw [List.append_nil] at g
    rw [g, validate_nil]
  refine ⟨out, ?_, hs, hv, hval, ?_⟩
  · intro fuel hf
    unfold bstr_sanitize_utf8_latin1
    rcases hcase with ⟨_, c2, c3⟩ | ⟨_, c2⟩
    · rw [c3 fuel hf, c2]
    · obtain ⟨new1, ok1, d1, d2⟩ := c2 fuel hf
      rw [d1]
      simp only [Option.getD_none, List.nil_append] at d2
      by_cases hok : ok1 = []
      · subst hok
        simp only [ne_eq, not_true_eq_false, if_false]
        rw [← d2, List.append_nil]
      · simp only [ne_eq, hok, not_false_eq_true, if_true]
        rw [xappend_some alloc_empty _ _ hok, ← d2]
        rfl
  · intro hvs
    rcases hcase with ⟨_, c2, _⟩ | ⟨c1, _⟩
    · exact c2
    · exact absurd hvs c1

/-- Witness of C23: in `41 E9 E2 82 AC FF` the bytes `E9` and `FF` do not
decode and are replaced by `C3 A9` and `C3 BF`; a valid string is returned as
it is. -/
theorem sanitize_correct_witness :
    (∀ x ∈ [65, 233, 226, 130, 172, 255], x < 256) ∧
    (∃ out, (∀ fuel, [65, 233, 226, 130, 172, 255].length ≤ fuel →
        bstr_sanitize_utf8_latin1 true fuel [65, 233, 226, 130, 172, 255] = some out) ∧
      sanitized [65, 233, 226, 130, 172, 255] out ∧ valid_utf8 out ∧
      (∀ fuel, out.length ≤ fuel → bstr_validate_utf8 fuel out = some 0) ∧
      (valid_utf8 [65, 233, 226, 130, 172, 255] → out = [65, 233, 226, 130, 172, 255])) ∧
    bstr_sanitize_utf8_latin1 true 6 [65, 233, 226, 130, 172, 255] =
      some [65, 195, 169, 226, 130, 172, 195, 191] ∧
    bstr_sanitize_utf8_latin1 false 6 [65, 233, 226, 130, 172, 255] =
      some [65, 195, 169, 226, 130, 172, 195, 191] ∧
    bstr_validate_utf8 8 [65, 195, 169, 226, 130, 172, 195, 191] = some 0 ∧
    bstr_sanitize_utf8_latin1 false 4 [65, 226, 130, 172] = some [65, 226, 130, 172] ∧
    bstr_sanitize_utf8_latin1 false 1 [233] = some [195, 169] :=
  ⟨by decide, sanitize_correct true [65, 233, 226, 130, 172, 255] (by decide),
    by decide, by decide, by decide, by decide, by decide⟩

theorem best_fit_loop_index (size align : Nat) (l : List vk_region) (n b0 : Nat)
    (r0 : vk_region) (b : Nat) (rb : vk_region)
    (h : best_fit_loop size align n (some (b0, r0)) l = some (b, rb)) :
    b = b0 ∨ n ≤ b := by
  rcases best_fit_loop_spec size align l n _ b rb h with h1 | ⟨i, _, h2, _⟩
  · simp only [Option.some.injEq, Prod.mk.injEq] at h1
    left; exact h1.1.symm
  · right; omega

theorem best_fit_loop_last (size align : Nat) (l : List vk_region) (n : Nat)
    (best : Option (Nat × vk_region)) (b : Nat) (rb : vk_region)
    (h : best_fit_loop size align n best l = some (b, rb)) :
    ∀ i r, l.get? i = some r → region_fits r size align = true →
      region_len r = region_len rb → n + i ≤ b := by
  induction l generalizing n best with
  | nil => intro i r hi; simp at hi
  | cons x rest ih =>
    unfold best_fit_loop at h
    have tail : ∀ best1, best_fit_loop size align (n + 1) best1 rest = some (b, rb) →
        ∀ i r, (x :: rest).get? (i + 1) = some r → region_fits r size align = true →
          region_len r = region_len rb → n + (i + 1) ≤ b := by
      intro best1 h1 i r hi hf hl
      have := ih (n + 1) best1 h1 i r (by simpa using hi) hf hl
      omega
    split at h
    · rename_i hfit
      intro i r hi hf hl
      cases i with
      | zero =>
        simp only [List.get?_cons_zero, Option.some.injEq] at hi
        subst hi
        exact absurd hf hfit
      | succ j => exact tail _ h j r hi hf hl
    · split at h
      · rename_i b0 r0
        split at h
        · rename_i hgt
          intro i r hi hf hl
          cases i with
          | zero =>
            simp only [List.get?_cons_zero, Option.some.injEq] at hi
            subst hi
            have := (best_fit_loop_min size align rest (n + 1) _ b rb h).2 b0 r0 rfl
            omega
          | succ j => exact tail _ h j r hi hf hl
        · intro i r hi hf hl
          cases i with
          | zero =>
            rcases best_fit_loop_index size align rest (n + 1) n x b rb h with e | e
            · omega
            · omega
          | succ j => exact tail _ h j r hi hf hl
      · intro i r hi hf hl
        cases i with
        | zero =>
          rcases best_fit_loop_index size align rest (n + 1) n x b rb h with e | e
          · omega
          · omega
        | succ j => exact tail _ h j r hi hf hl

/-- Claim C25, as amended. When several regions of a slab fit the request and
share the smallest length, the best fit search of `heap_get_region` selects the
last such region: every fitting region of the length of the selected one has an
index not above the selected index (the selected region fits and no fitting
region is shorter). -/
theorem best_fit_tie_last (regions : List vk_region) (size align idx : Nat) (r : vk_region)
    (h : best_fit_loop size align 0 none regions = some (idx, r)) :
    regions.get? idx = some r ∧ region_fits r size align = true ∧
    (∀ r1 ∈ regions, region_fits r1 size align = true → region_len r ≤ region_len r1) ∧
    ∀ j r1, regions.get? j = some r1 → region_fits r1 size align = true →
      region_len r1 = region_len r → j ≤ idx := by
  refine ⟨?_, ?_, (best_fit_loop_min size align regions 0 none idx r h).1, ?_⟩
  · rcases best_fit_loop_spec size align regions 0 none idx r h with h1 | ⟨i, h1, h2, _⟩
    · simp at h1
    · have : idx = i := by omega
      rw [this]; exact h1
  · rcases best_fit_loop_spec size align regions 0 none idx r h with h1 | ⟨i, _, _, h3⟩
    · simp at h1
    · exact h3
  · intro j r1 hj hf hl
    have := best_fit_loop_last size align regions 0 none idx r h j r1 hj hf hl
    omega

/-- Witness of C25 (as amended): of the two free regions of 4 KiB the search
selects the one at index 1. -/
theorem best_fit_tie_last_witness :
    best_fit_loop 4096 1 0 none
        [{ start := 0, end_ := 4096 }, { start := 8192, end_ := 12288 },
         { start := 16384, end_ := 1048576 }] = some (1, { start := 8192, end_ := 12288 }) ∧
    (([{ start := 0, end_ := 4096 }, { start := 8192, end_ := 12288 },
        { start := 16384, end_ := 1048576 }] : List vk_region).get? 1
        = some { start := 8192, end_ := 12288 } ∧
      region_fits { start := 8192, end_ := 12288 } 4096 1 = true ∧
      (∀ r1 ∈ ([{ start := 0, end_ := 4096 }, { start := 8192, end_ := 12288 },
          { start := 16384, end_ := 1048576 }] : List vk_region),
        region_fits r1 4096 1 = true →
          region_len { start := 8192, end_ := 12288 } ≤ region_len r1) ∧
      ∀ j r1, ([{ start := 0, end_ := 4096 }, { start := 8192, end_ := 12288 },
          { start := 16384, end_ := 1048576 }] : List vk_region).get? j = some r1 →
        region_fits r1 4096 1 = true →
        region_len r1 = region_len { start := 8192, end_ := 12288 } → j ≤ 1) :=
  ⟨rfl, best_fit_tie_last _ 4096 1 1 { start := 8192, end_ := 12288 } rfl⟩

/-- C25 is false as stated: in `tie_state` the regions at the indices 0 and 1
both fit a request of 4 KiB and share the smallest length, and the search
selects the region at index 1, not the first; the slice is placed at offset
8192. -/
theorem best_fit_tie_not_first :
    regions_at tie_state 0 =
      some [{ start := 0, end_ := 4096 }, { start := 8192, end_ := 12288 },
            { start := 16384, end_ := 1048576 }] ∧
    region_fits { start := 0, end_ := 4096 } 4096 1 = true ∧
    region_fits { start := 8192, end_ := 12288 } 4096 1 = true ∧
    region_len { start := 0, end_ := 4096 } = region_len { start := 8192, end_ := 12288 } ∧
    region_len { start := 0, end_ := 4096 } < region_len { start := 16384, end_ := 1048576 } ∧
    best_fit_loop 4096 1 0 none
        [{ start := 0, end_ := 4096 }, { start := 8192, end_ := 12288 },
         { start := 16384, end_ := 1048576 }] = some (1, { start := 8192, end_ := 12288 }) ∧
    tie_request.map (fun r => (r.2.priv, r.2.offset, r.2.size)) = some (0, 8192, 4096) := by
  refine ⟨rfl, rfl, rfl, rfl, by decide, rfl, rfl⟩

theorem coalesce_following_exact (x : vk_region) (rest : List vk_region)
    (hx : x.start < x.end_) (hw : wf_regions rest) (hle : ∀ y ∈ rest, x.end_ ≤ y.start) :
    wf_regions (coalesce_following x rest) ∧
      ∀ t, covered (coalesce_following x rest) t ↔ in_region x t ∨ covered rest t := by
  induction rest generalizing x with
  | nil =>
    simp only [coalesce_following]
    refine ⟨⟨List.pairwise_singleton _ _, ?_⟩, ?_⟩
    · intro e he
      simp only [List.mem_singleton] at he
      rw [he]; exact hx
    · intro t
      simp [covered]
  | cons next rest ih =>
    obtain ⟨hp, hne⟩ := hw
    rw [List.pairwise_cons] at hp
    have hnext := hne next (List.mem_cons_self _ _)
    have hwr : wf_regions rest := ⟨hp.2, fun e he => hne e (List.mem_cons_of_mem _ he)⟩
    have hxn := hle next (List.mem_cons_self _ _)
    unfold coalesce_following
    split
    · rename_i heq
      have hle2 : ∀ y ∈ rest, ({ x with end_ := next.end_ } : vk_region).end_ ≤ y.start := by
        intro y hy
        have := hp.1 y hy
        simp only [sep] at this
        simp only []
        omega
      obtain ⟨i1, i2⟩ := ih { x with end_ := next.end_ } (by simp only []; omega) hwr hle2
      refine ⟨i1, ?_⟩
      intro t
      rw [i2 t]
      simp only [covered, in_region, List.mem_cons, exists_eq_or_imp]
      constructor
      · rintro (h | h)
        · by_cases ht : t < x.end_
          · left; omega
          · right; left; omega
        · right; right; exact h
      · rintro (h | h | h)
        · left; omega
        · left; omega
        · right; exact h
    · rename_i hneq
      refine ⟨⟨?_, ?_⟩, ?_⟩
      · rw [List.pairwise_cons]
        refine ⟨?_, List.pairwise_cons.2 hp⟩
        intro y hy
        simp only [List.mem_cons] at hy
        simp only [sep]
        rcases hy with e | e
        · rw [e]; omega
        · have := hp.1 y e
          simp only [sep] at this
          omega
      · intro e he
        simp only [List.mem_cons] at he
        rcases he with e1 | e1 | e1
        · rw [e1]; exact hx
        · rw [e1]; exact hnext
        · exact hne e (List.mem_cons_of_mem _ e1)
      · intro t
        simp only [covered, List.mem_cons, exists_eq_or_imp]

theorem insert_region_loop_exact (region : vk_region) (b : Bool) (l : List vk_region)
    (hr : region.start < region.end_) (hw : wf_regions l)
    (hd : ∀ e ∈ l, region.end_ ≤ e.start ∨ e.end_ ≤ region.start)
    (hk : touches l region ∨ b = true) :
    wf_regions (insert_region_loop region b l) ∧
      ∀ t, covered (insert_region_loop region b l) t ↔ covered l t ∨ in_region region t := by
  induction l with
  | nil =>
    have hb : b = true := by
      rcases hk with ⟨e, he, _⟩ | h
      · simp at he
      · exact h
    subst hb
    simp only [insert_region_loop, if_true]
    refine ⟨⟨List.pairwise_singleton _ _, ?_⟩, ?_⟩
    · intro e he
      simp only [List.mem_singleton] at he
      rw [he]; exact hr
    · intro t
      simp [covered]
  | cons e rest ih =>
    obtain ⟨hp, hne⟩ := hw
    rw [List.pairwise_cons] at hp
    have he := hne e (List.mem_cons_self _ _)
    have hwr : wf_regions rest := ⟨hp.2, fun x hx => hne x (List.mem_cons_of_mem _ hx)⟩
    have hde := hd e (List.mem_cons_self _ _)
    have hdr : ∀ x ∈ rest, region.end_ ≤ x.start ∨ x.end_ ≤ region.start :=
      fun x hx => hd x (List.mem_cons_of_mem _ hx)
    have hsep : ∀ y ∈ rest, e.end_ < y.start := fun y hy => hp.1 y hy
    unfold insert_region_loop
    split
    · rename_i h1
      have hle : ∀ y ∈ rest, ({ e with end_ := region.end_ } : vk_region).end_ ≤ y.start := by
        intro y hy
        have := hsep y hy
        have := hdr y hy
        have := hne y (List.mem_cons_of_mem _ hy)
        simp only []
        omega
      obtain ⟨c1, c2⟩ := coalesce_following_exact { e with end_ := region.end_ } rest
        (by simp only []; omega) hwr hle
      refine ⟨c1, ?_⟩
      intro t
      rw [c2 t]
      simp only [covered, in_region, List.mem_cons, exists_eq_or_imp]
      constructor
      · rintro (h | h)
        · by_cases ht : t < e.end_
          · left; left; omega
          · right; omega
        · left; right; exact h
      · rintro ((h | h) | h)
        · left; omega
        · right; exact h
        · left; omega
    · rename_i h1
      split
      · rename_i h2
        refine ⟨⟨?_, ?_⟩, ?_⟩
        · rw [List.pairwise_cons]
          exact ⟨fun y hy => hsep y hy, hp.2⟩
        · intro x hx
          simp only [List.mem_cons] at hx
          rcases hx with e1 | e1
          · rw [e1]; simp only []; omega
          · exact hne x (List.mem_cons_of_mem _ e1)
        · intro t
          simp only [covered, in_region, List.mem_cons, exists_eq_or_imp]
          constructor
          · rintro (h | h)
            · by_cases ht : t < region.end_
              · right; omega
              · left; left; omega
            · left; right; exact h
          · rintro ((h | h) | h)
            · left; omega
            · right; exact h
            · left; omega
      · rename_i h2
        split
        · rename_i h3
          have hb : b = true := by
            rcases hk with ⟨y, hy, hty⟩ | h
            · exfalso
              simp only [List.mem_cons] at hy
              rcases hy with e1 | e1
              · rw [e1] at hty
                rcases hty with h | h
                · exact h1 h
                · exact h2 h
              · have := hsep y e1
                have := hne y (List.mem_cons_of_mem _ e1)
                omega
            · exact h
          subst hb
          simp only [if_true]
          refine ⟨⟨?_, ?_⟩, ?_⟩
          · rw [List.pairwise_cons]
            refine ⟨?_, List.pairwise_cons.2 hp⟩
            intro y hy
            simp only [List.mem_cons] at hy
            simp only [sep]
            rcases hy with e1 | e1
            · rw [e1]; omega
            · have := hsep y e1
              omega
          · intro x hx
            simp only [List.mem_cons] at hx
            rcases hx with e1 | e1 | e1
            · rw [e1]; exact hr
            · rw [e1]; exact he
            · exact hne x (List.mem_cons_of_mem _ e1)
          · intro t
            simp only [covered, List.mem_cons, exists_eq_or_imp]
            exact or_comm
        · rename_i h3
          have hk1 : touches rest region ∨ b = true := by
            rcases hk with ⟨y, hy, hty⟩ | h
            · left
              simp only [List.mem_cons] at hy
              rcases hy with e1 | e1
              · rw [e1] at hty
                rcases hty with h | h
                · exact absurd h h1
                · exact absurd h h2
              · exact ⟨y, e1, hty⟩
            · right; exact h
          obtain ⟨i1, i2⟩ := ih hwr hdr hk1
          refine ⟨⟨?_, ?_⟩, ?_⟩
          · rw [List.pairwise_cons]
            refine ⟨?_, i1.1⟩
            intro x hx
            simp only [sep]
            rcases insert_region_loop_starts region b rest x hx with e1 | ⟨y, hy, e1⟩
            · rw [e1]; omega
            · rw [e1]; exact hsep y hy
          · intro x hx
            simp only [List.mem_cons] at hx
            rcases hx with e1 | e1
            · rw [e1]; exact he
            · exact i1.2 x e1
          · intro t
            have := i2 t
            simp only [covered, List.mem_cons, exists_eq_or_imp] at this ⊢
            rw [this]
            exact or_assoc.symm

theorem wf_regions_append_mem (pre l : List vk_region) (x y : vk_region)
    (hw : wf_regions (pre ++ l)) (hx : x ∈ pre) (hy : y ∈ l) :
    x.start < x.end_ ∧ x.end_ < y.start ∧ y.start < y.end_ := by
  obtain ⟨hp, hne⟩ := hw
  rw [List.pairwise_append] at hp
  exact ⟨hne x (List.mem_append_left _ hx), hp.2.2 x hx y hy,
    hne y (List.mem_append_right _ hy)⟩

theorem wf_regions_tail (x : vk_region) (l : List vk_region) (hw : wf_regions (x :: l)) :
    wf_regions l :=
  ⟨(List.pairwise_cons.1 hw.1).2, fun e he => hw.2 e (List.mem_cons_of_mem _ he)⟩

theorem insert_region_loop_merge (region : vk_region) (b : Bool) (pre : List vk_region)
    (a c : vk_region) (post : List vk_region) (hw : wf_regions (pre ++ a :: c :: post))
    (h1 : a.end_ = region.start) (h2 : region.end_ = c.start)
    (hr : region.start < region.end_) :
    insert_region_loop region b (pre ++ a :: c :: post) =
      pre ++ { start := a.start, end_ := c.end_ } :: post := by
  induction pre with
  | nil =>
    simp only [List.nil_append] at hw ⊢
    unfold insert_region_loop
    rw [if_pos h1]
    unfold coalesce_following
    rw [if_pos (by simp only []; exact h2)]
    cases post with
    | nil => rfl
    | cons d post1 =>
      have hcd : c.end_ < d.start := by
        have := (List.pairwise_cons.1 (wf_regions_tail a _ hw).1).1 d (List.mem_cons_self _ _)
        exact this
      unfold coalesce_following
      rw [if_neg (by simp only []; omega)]
  | cons e pre1 ih =>
    have hea := wf_regions_append_mem [e] (pre1 ++ a :: c :: post) e a hw
      (List.mem_singleton_self _) (List.mem_append_right _ (List.mem_cons_self _ _))
    simp only [List.cons_append]
    unfold insert_region_loop
    rw [if_neg (by omega), if_neg (by omega), if_neg (by omega)]
    rw [ih (wf_regions_tail e _ hw)]

theorem insert_region_loop_head (region : vk_region) (b : Bool) (pre : List vk_region)
    (e : vk_region) (post : List vk_region) (hw : wf_regions (pre ++ e :: post))
    (hd : ∀ x ∈ pre, region.end_ ≤ x.start ∨ x.end_ ≤ region.start)
    (h1 : e.start = region.end_) (hr : region.start < region.end_)
    (hpre : ∀ x ∈ pre, x.end_ ≠ region.start) :
    insert_region_loop region b (pre ++ e :: post) =
      pre ++ { e with start := region.start } :: post := by
  induction pre with
  | nil =>
    have he := hw.2 e (by simp)
    simp only [List.nil_append]
    unfold insert_region_loop
    rw [if_neg (by omega), if_pos h1]
  | cons x pre1 ih =>
    have hxe := wf_regions_append_mem [x] (pre1 ++ e :: post) x e hw
      (List.mem_singleton_self _) (List.mem_append_right _ (List.mem_cons_self _ _))
    have hdx := hd x (List.mem_cons_self _ _)
    have hpx := hpre x (List.mem_cons_self _ _)
    simp only [List.cons_append]
    unfold insert_region_loop
    rw [if_neg hpx, if_neg (by omega), if_neg (by omega)]
    rw [ih (wf_regions_tail x _ hw) (fun y hy => hd y (List.mem_cons_of_mem _ hy))
      (fun y hy => hpre y (List.mem_cons_of_mem _ hy))]

/-- Claim C26. For a well-formed region list `l` (sorted, disjoint, no two
consecutive regions touching, no empty region) and a non-empty region `r`
disjoint from the regions of `l` that touches a region of `l` or has
`region_len(r) >= 1024`: after `insert_region` the list is well-formed again
(so maximally coalesced) and covers exactly the bytes of `l` and of `r`; a
region that touches its predecessor `a` and its successor `c` gives the one
region `[a.start, c.end)` and the list shrinks by one; and a region that
touches its successor `e` only gives `[r.start, e.end)` in the place of `e`. -/
theorem insert_region_exact (l : List vk_region) (r : vk_region) (hw : wf_regions l)
    (hr : r.start < r.end_)
    (hd : ∀ e ∈ l, r.end_ ≤ e.start ∨ e.end_ ≤ r.start)
    (hk : touches l r ∨ region_len r ≥ MPVK_HEAP_MINIMUM_REGION_SIZE) :
    wf_regions (insert_region l r) ∧
    (∀ t, covered (insert_region l r) t ↔ covered l t ∨ in_region r t) ∧
    (∀ pre a c post, l = pre ++ a :: c :: post → a.end_ = r.start → r.end_ = c.start →
      insert_region l r = pre ++ { start := a.start, end_ := c.end_ } :: post ∧
      (insert_region l r).length + 1 = l.length) ∧
    (∀ pre e post, l = pre ++ e :: post → e.start = r.end_ →
      (∀ x ∈ pre, x.end_ ≠ r.start) →
      insert_region l r = pre ++ { e with start := r.start } :: post) := by
  have hun : insert_region l r = insert_region_loop r
      (decide (region_len r ≥ MPVK_HEAP_MINIMUM_REGION_SIZE)) l := by
    unfold insert_region
    rw [if_neg (by omega)]
  rw [hun]
  have hk1 : touches l r ∨ decide (region_len r ≥ MPVK_HEAP_MINIMUM_REGION_SIZE) = true := by
    rcases hk with h | h
    · left; exact h
    · right; exact decide_eq_true h
  obtain ⟨e1, e2⟩ := insert_region_loop_exact r _ l hr hw hd hk1
  refine ⟨e1, e2, ?_, ?_⟩
  · intro pre a c post hl h1 h2
    subst hl
    rw [insert_region_loop_merge r _ pre a c post hw h1 h2 hr]
    refine ⟨rfl, ?_⟩
    simp only [List.length_append, List.length_cons]
    omega
  · intro pre e post hl h1 hpre
    subst hl
    exact insert_region_loop_head r _ pre e post hw
      (fun x hx => hd x (List.mem_append_left _ hx)) h1 hr hpre

/-- Witness of C26: the region `[1024, 2048)` between `[0, 1024)` and
`[2048, 4096)` merges the three into `[0, 4096)`; the region `[7168, 8192)`
before `[8192, 9216)` extends it backwards. -/
theorem insert_region_exact_witness :
    insert_region [{ start := 0, end_ := 1024 }, { start := 2048, end_ := 4096 },
        { start := 8192, end_ := 9216 }] { start := 1024, end_ := 2048 } =
      [{ start := 0, end_ := 4096 }, { start := 8192, end_ := 9216 }] ∧
    insert_region [{ start := 0, end_ := 1024 }, { start := 2048, end_ := 4096 },
        { start := 8192, end_ := 9216 }] { start := 7168, end_ := 8192 } =
      [{ start := 0, end_ := 1024 }, { start := 2048, end_ := 4096 },
        { start := 7168, end_ := 9216 }] ∧
    wf_regions (insert_region [{ start := 0, end_ := 1024 }, { start := 2048, end_ := 4096 },
        { start := 8192, end_ := 9216 }] { start := 1024, end_ := 2048 }) ∧
    (∀ t, covered (insert_region [{ start := 0, end_ := 1024 }, { start := 2048, end_ := 4096 },
          { start := 8192, end_ := 9216 }] { start := 1024, end_ := 2048 }) t ↔
        covered [{ start := 0, end_ := 1024 }, { start := 2048, end_ := 4096 },
          { start := 8192, end_ := 9216 }] t ∨ in_region { start := 1024, end_ := 2048 } t) :=
  have h := insert_region_exact
    [{ start := 0, end_ := 1024 }, { start := 2048, end_ := 4096 },
      { start := 8192, end_ := 9216 }] { start := 1024, end_ := 2048 }
    (by simp [wf_regions, sep]) (by decide) (by simp) (Or.inr (by decide))
  ⟨rfl, rfl, h.1, h.2.1⟩

theorem search_slabs_first (vk : mpvk_ctx) (size align : Nat) (pre : List Nat) (p : Nat)
    (post : List Nat) (last : Option vk_slab) (slab : vk_slab) (idx : Nat) (reg : vk_region)
    (hv : ∀ q ∈ pre, ∃ s, get_slab vk q = some s)
    (hno : ∀ q ∈ pre, ¬ qualifies vk size align q)
    (hp : get_slab vk p = some slab) (hsz : size ≤ slab.size)
    (hbest : best_fit_loop size align 0 none slab.regions = some (idx, reg)) :
    search_slabs vk size align last (pre ++ p :: post) = some (some (p, idx), some slab) := by
  induction pre generalizing last with
  | nil =>
    simp only [List.nil_append]
    unfold search_slabs
    simp only [hp]
    rw [if_neg (by omega), hbest]
  | cons q pre1 ih =>
    obtain ⟨s, hs⟩ := hv q (List.mem_cons_self _ _)
    have hnq := hno q (List.mem_cons_self _ _)
    have ih1 := fun l => ih l (fun x hx => hv x (List.mem_cons_of_mem _ hx))
      (fun x hx => hno x (List.mem_cons_of_mem _ hx))
    simp only [List.cons_append]
    unfold search_slabs
    simp only [hs]
    split
    · exact ih1 _
    · rename_i hge
      have hnone : best_fit_loop size align 0 none s.regions = none := by
        rw [best_fit_loop_none]
        refine ⟨rfl, ?_⟩
        intro r hr
        by_contra hc
        apply hnq
        exact ⟨s, hs, by omega, r, hr, by simpa using hc⟩
      rw [hnone]
      exact ih1 _

theorem first_of_exists (l : List Nat) (P : Nat → Prop) (h : ∃ q ∈ l, P q) :
    ∃ pre p post, l = pre ++ p :: post ∧ (∀ q ∈ pre, ¬ P q) ∧ P p := by
  induction l with
  | nil => obtain ⟨q, hq, _⟩ := h; simp at hq
  | cons x rest ih =>
    by_cases hx : P x
    · exact ⟨[], x, rest, rfl, by simp, hx⟩
    · obtain ⟨q, hq, hP⟩ := h
      simp only [List.mem_cons] at hq
      rcases hq with e | e
      · rw [e] at hP; exact absurd hP hx
      · obtain ⟨pre, p, post, e1, e2, e3⟩ := ih ⟨q, e, hP⟩
        refine ⟨x :: pre, p, post, by rw [e1]; rfl, ?_, e3⟩
        intro y hy
        simp only [List.mem_cons] at hy
        rcases hy with e4 | e4
        · rw [e4]; exact hx
        · exact e2 y e4

/-- The growth of a heap: when no slab of the heap qualifies for a request of
at most the maximum slab size, `heap_get_region` creates a slab; on failure the
store grows by the entry of the freed slab, on success by the fresh slab, which
is appended to the heap. -/
theorem grow_cases (vk : mpvk_ctx) (live : List vk_memslice) (drv : vk_driver)
    (h : Nat × Nat) (size align : Nat) (ma : vk_malloc) (type : vk_memtype) (hp : vk_heap)
    (hI : Inv vk live)
    (hma : vk.alloc = some ma) (htype : ma.types.get? h.1 = some type)
    (hheap : type.heaps.get? h.2 = some hp)
    (hsize : size ≤ MPVK_HEAP_MAXIMUM_SLAB_SIZE)
    (hno : ∀ q ∈ hp.slabs, ¬ qualifies vk size align q) :
    (slab_alloc_fails drv type hp.usage ∧
        ∃ vk2, heap_get_region vk drv (some h) size align = some (vk2, none) ∧
          vk2.alloc = some ma ∧ vk2.slabs = vk.slabs ++ [none]) ∨
    (¬ slab_alloc_fails drv type hp.usage ∧
        ∃ vk2 slab,
          heap_get_region vk drv (some h) size align =
            some (vk2, some (vk.slabs.length, 0)) ∧
          vk2.slabs = vk.slabs ++ [some slab] ∧
          slab_fresh (grown_slab_size size (last_slab_size vk hp.slabs)) slab ∧
          size ≤ slab.size ∧
          vk2.alloc = some (heap_append_slab ma h vk.slabs.length) ∧
          get_heap (heap_append_slab ma h vk.slabs.length) h =
            some { hp with slabs := hp.slabs ++ [vk.slabs.length] }) := by
  obtain ⟨_, ⟨ma0, hma0, hh⟩, _⟩ := hI
  rw [hma] at hma0
  simp only [Option.some.injEq] at hma0
  subst hma0
  have hsub : ∀ p ∈ hp.slabs, p ∈ heap_slabs ma := fun p hpm =>
    mem_heap_slabs ma h type hp p htype hheap hpm
  have hnofit : ∀ p ∈ hp.slabs, ∀ slab, get_slab vk p = some slab → size ≤ slab.size →
      ∀ r ∈ slab.regions, region_fits r size align = false := by
    intro p hpm slab hs hle r hr
    by_contra hc
    exact hno p hpm ⟨slab, hs, hle, r, hr, by simpa using hc⟩
  obtain ⟨l, hl1, hl2⟩ := search_slabs_none vk size align hp.slabs none
    (fun p hpm => by
      obtain ⟨s, hs, _⟩ := hh.2 p (hsub p hpm)
      exact ⟨s, hs⟩) hnofit
  have hlast : slab_size_or_zero l = last_slab_size vk hp.slabs := by
    rw [hl2]
    split
    · rename_i hnil
      rw [hnil]
      rfl
    · rfl
  have hle := last_slab_size_le vk ma hh hp.slabs hsub
  obtain ⟨hn1, hn2⟩ := new_slab_size_eq size l hsize (by rw [hlast]; exact hle)
  rw [hlast] at hn1
  rw [hn1] at hn2
  have hget : get_heap ma h = some hp := by
    unfold get_heap
    rw [htype]
    exact hheap
  have hcases := slab_alloc_cases vk drv type hp.usage
    (grown_slab_size size (last_slab_size vk hp.slabs))
  have hgr := heap_get_region_grow vk drv h size align ma type hp l hma htype hheap hsize hl1
    (by rw [hn1]; exact hn2)
  rw [hn1] at hgr
  by_cases hf : slab_alloc_fails drv type hp.usage
  · left
    obtain ⟨vk1, hres, halloc, _, hslabs, _⟩ := hcases.1 hf
    refine ⟨hf, vk1, ?_, by rw [halloc, hma], hslabs⟩
    rw [hgr, hres]
  · right
    obtain ⟨vk1, slab, hres, halloc, _, hslabs, _, hfresh, _⟩ := hcases.2 hf
    have hg : get_slab vk1 vk.slabs.length = some slab := by
      rw [get_slab_append vk vk1 (some slab) hslabs, if_pos rfl]
    refine ⟨hf, { vk1 with alloc := some (heap_append_slab ma h vk.slabs.length) },
      slab, ?_, hslabs, hfresh, by rw [hfresh.1]; exact hn2, rfl,
      get_heap_append_self ma h _ hp hget⟩
    rw [hgr, hres]
    simp only [hg]
    rw [if_pos (by rw [hfresh.2.2.2.1]; rfl)]

/-- Claim C27. In a reachable state, for a request of `size <= 2^29` on a heap:
if the slab `p` is the first one in `heap.slabs` that qualifies (it has
`slab.size >= size` and a fitting region), `heap_get_region` returns `p` with
the index of the best fit inside that slab and creates no slab; if any slab
qualifies, a slab of the list is returned and the state is unchanged; and if
no slab qualifies, a slab is created, and when the creation succeeds it is the
slab returned, with region index 0, appended to `heap.slabs`. -/
theorem first_fit_slab (vk : mpvk_ctx) (live : List vk_memslice) (drv : vk_driver)
    (h : Nat × Nat) (size align : Nat) (ma : vk_malloc) (type : vk_memtype) (hp : vk_heap)
    (hreach : Reachable vk live)
    (hma : vk.alloc = some ma) (htype : ma.types.get? h.1 = some type)
    (hheap : type.heaps.get? h.2 = some hp)
    (hsize : size ≤ MPVK_HEAP_MAXIMUM_SLAB_SIZE) :
    (∀ pre p post, hp.slabs = pre ++ p :: post →
      (∀ q ∈ pre, ¬ qualifies vk size align q) → qualifies vk size align p →
      ∃ slab idx reg, get_slab vk p = some slab ∧
        best_fit_loop size align 0 none slab.regions = some (idx, reg) ∧
        heap_get_region vk drv (some h) size align = some (vk, some (p, idx))) ∧
    ((∃ q ∈ hp.slabs, qualifies vk size align q) →
      ∃ p idx, p ∈ hp.slabs ∧ qualifies vk size align p ∧
        heap_get_region vk drv (some h) size align = some (vk, some (p, idx))) ∧
    ((∀ q ∈ hp.slabs, ¬ qualifies vk size align q) →
      (slab_alloc_fails drv type hp.usage ∧
        ∃ vk2, heap_get_region vk drv (some h) size align = some (vk2, none) ∧
          vk2.alloc = some ma ∧ vk2.slabs = vk.slabs ++ [none]) ∨
      (¬ slab_alloc_fails drv type hp.usage ∧
        ∃ vk2 slab,
          heap_get_region vk drv (some h) size align =
            some (vk2, some (vk.slabs.length, 0)) ∧
          vk2.slabs = vk.slabs ++ [some slab] ∧
          slab.regions = [{ start := 0, end_ := slab.size }] ∧ size ≤ slab.size ∧
          vk2.alloc = some (heap_append_slab ma h vk.slabs.length) ∧
          get_heap (heap_append_slab ma h vk.slabs.length) h =
            some { hp with slabs := hp.slabs ++ [vk.slabs.length] })) := by
  have hI := Reachable_Inv vk live hreach
  have hvalid : ∀ q ∈ hp.slabs, ∃ s, get_slab vk q = some s := by
    intro q hq
    obtain ⟨_, ⟨ma0, hma0, hh⟩, _⟩ := hI
    rw [hma] at hma0
    simp only [Option.some.injEq] at hma0
    subst hma0
    obtain ⟨s, hs, _⟩ := hh.2 q (mem_heap_slabs ma h type hp q htype hheap hq)
    exact ⟨s, hs⟩
  have hnot : ¬ size > MPVK_HEAP_MAXIMUM_SLAB_SIZE := by omega
  have first : ∀ pre p post, hp.slabs = pre ++ p :: post →
      (∀ q ∈ pre, ¬ qualifies vk size align q) → qualifies vk size align p →
      ∃ slab idx reg, get_slab vk p = some slab ∧
        best_fit_loop size align 0 none slab.regions = some (idx, reg) ∧
        heap_get_region vk drv (some h) size align = some (vk, some (p, idx)) := by
    intro pre p post hl hno hq
    obtain ⟨slab, hs, hle, r, hr, hfit⟩ := hq
    have hsome : best_fit_loop size align 0 none slab.regions ≠ none := by
      intro hc
      rw [best_fit_loop_none] at hc
      have := hc.2 r hr
      rw [hfit] at this
      simp at this
    obtain ⟨⟨idx, reg⟩, hbest⟩ := Option.ne_none_iff_exists'.1 hsome
    have hsearch := search_slabs_first vk size align pre p post none slab idx reg
      (fun q hq => hvalid q (by rw [hl]; exact List.mem_append_left _ hq)) hno hs hle hbest
    refine ⟨slab, idx, reg, hs, hbest, ?_⟩
    unfold heap_get_region
    simp only [hma, htype, hheap, if_neg hnot, hl, hsearch]
  refine ⟨first, ?_, ?_⟩
  · intro hex
    obtain ⟨pre, p, post, e1, e2, e3⟩ := first_of_exists hp.slabs _ hex
    obtain ⟨slab, idx, reg, _, _, g3⟩ := first pre p post e1 e2 e3
    exact ⟨p, idx, by rw [e1]; simp, e3, g3⟩
  · intro hno
    rcases grow_cases vk live drv h size align ma type hp hI hma htype hheap hsize hno with
      ⟨f, vk2, g1, g2, g3⟩ | ⟨f, vk2, slab, g1, g2, g3, g4, g5, g6⟩
    · exact Or.inl ⟨f, vk2, g1, g2, g3⟩
    · refine Or.inr ⟨f, vk2, slab, g1, g2, ?_, g4, g5, g6⟩
      rw [g3.2.2.2.1, g3.1]

/-- Witness of C27: in `ff_ctx3` the heap holds the slab 0, fully used, and the
slab 1; a request of 4 KiB is served from the slab 1 and the state is
unchanged. -/
theorem first_fit_slab_witness :
    Reachable ff_ctx3 [ff_slice_c, ff_slice_b, ff_slice_a] ∧
    (get_slab ff_ctx3 0).map (fun s => (s.size, s.regions)) = some (4194304, []) ∧
    get_slab ff_ctx3 1 = some ff_slab1 ∧
    ¬ qualifies ff_ctx3 4096 1 0 ∧ qualifies ff_ctx3 4096 1 1 ∧
    (∃ slab idx reg, get_slab ff_ctx3 1 = some slab ∧
      best_fit_loop 4096 1 0 none slab.regions = some (idx, reg) ∧
      heap_get_region ff_ctx3 demo_drv (some (0, 0)) 4096 1 = some (ff_ctx3, some (1, idx))) ∧
    heap_get_region ff_ctx3 demo_drv (some (0, 0)) 4096 1 = some (ff_ctx3, some (1, 0)) :=
  have r0 : Reachable demo_init [] :=
    Reachable.init demo_vk0 _ 0 (by decide) rfl rfl (by decide)
  have r1 : Reachable ff_ctx1 [ff_slice_a] :=
    Reachable.malloc demo_init [] demo_drv (gen_req 1048576 1) 0 ff_ctx1 (some ff_slice_a) r0
      (by decide) rfl (by decide) rfl
  have r2 : Reachable ff_ctx2 [ff_slice_b, ff_slice_a] :=
    Reachable.malloc ff_ctx1 [ff_slice_a] demo_drv (gen_req 3145728 1) 0 ff_ctx2
      (some ff_slice_b) r1 (by decide) rfl (by decide) rfl
  have r3 : Reachable ff_ctx3 [ff_slice_c, ff_slice_b, ff_slice_a] :=
    Reachable.malloc ff_ctx2 [ff_slice_b, ff_slice_a] demo_drv (gen_req 4096 1) 0 ff_ctx3
      (some ff_slice_c) r2 (by decide) rfl (by decide) rfl
  have q0 : ¬ qualifies ff_ctx3 4096 1 0 := by
    rintro ⟨slab, hs, _, r, hr, _⟩
    have h0 : (get_slab ff_ctx3 0).map (fun s => s.regions) = some [] := rfl
    rw [hs] at h0
    simp only [Option.map_some', Option.some.injEq] at h0
    rw [h0] at hr
    simp at hr
  have q1 : qualifies ff_ctx3 4096 1 1 :=
    ⟨ff_slab1, rfl, by decide, { start := 4096, end_ := 16777216 }, by simp [ff_slab1], rfl⟩
  ⟨r3, rfl, rfl, q0, q1,
    (first_fit_slab ff_ctx3 [ff_slice_c, ff_slice_b, ff_slice_a] demo_drv (0, 0) 4096 1
      ff_alloc ff_type ff_heap r3 rfl rfl rfl (by decide)).1 [0] 1 [] rfl
      (by
        intro q hq
        simp only [List.mem_singleton] at hq
        rw [hq]
        exact q0) q1,
    rfl⟩

theorem Steps_Reachable (vk : mpvk_ctx) (live : List vk_memslice) (vk1 : mpvk_ctx)
    (live1 : List vk_memslice) (h : Reachable vk live) (hs : Steps vk live vk1 live1) :
    Reachable vk1 live1 := by
  induction hs with
  | refl => exact h
  | malloc vk1 live1 drv req k vk2 out _ hk ha hsz hrun ih =>
    exact Reachable.malloc vk1 live1 drv req k vk2 out ih hk ha hsz hrun
  | free vk1 live1 slice vk2 _ hmem hfree ih =>
    exact Reachable.free vk1 live1 slice vk2 ih hmem hfree

theorem get_slab_store (vk vk2 : mpvk_ctx) (p : Nat) (slab : vk_slab)
    (hp : get_slab vk p = some slab)
    (hs : vk2.slabs = vk.slabs ∨ vk2.slabs = vk.slabs ++ [none] ∨
      ∃ s n, vk2.slabs = vk.slabs ++ [some s] ∧ slab_fresh n s ∧ 0 < n) :
    get_slab vk2 p = some slab := by
  have hlt := get_slab_lt vk p slab hp
  rcases hs with hs | hs | ⟨s, n, hs, _⟩
  · unfold get_slab at *
    rw [hs]; exact hp
  · rw [get_slab_append vk vk2 none hs p, if_neg (by omega)]; exact hp
  · rw [get_slab_append vk vk2 (some s) hs p, if_neg (by omega)]; exact hp

theorem run_slab_size (vk : mpvk_ctx) (drv : vk_driver) (req : vk_request) (vk1 : mpvk_ctx)
    (out : Option vk_memslice) (hrun : req.run vk drv = some (vk1, out)) (p : Nat)
    (slab : vk_slab) (hp : get_slab vk p = some slab) :
    ∃ slab1, get_slab vk1 p = some slab1 ∧ slab1.size = slab.size := by
  obtain ⟨vk0, heap, hsel, hsl⟩ := run_effect vk drv req vk1 out hrun
  have hp0 : get_slab vk0 p = some slab := by
    unfold get_slab at *
    rw [select_heap_slabs _ _ _ _ _ _ hsel]; exact hp
  obtain ⟨vk2, r, hgr, hcase⟩ := slice_heap_effect _ _ _ _ _ _ _ hsl
  have hp2 := get_slab_store vk0 vk2 p slab hp0 (heap_get_region_store _ _ _ _ _ _ _ hgr)
  rcases hcase with ⟨_, _, e3⟩ | ⟨q, idx, sq, reg, _, e2, _, _, e5⟩
  · rw [e3]; exact ⟨slab, hp2, rfl⟩
  · rw [e5, get_slab_set_slab vk2 q p _ (get_slab_lt vk2 q sq e2)]
    by_cases hpq : p = q
    · rw [if_pos hpq]
      rw [hpq, e2] at hp2
      simp only [Option.some.injEq] at hp2
      subst hp2
      exact ⟨_, rfl, rfl⟩
    · rw [if_neg hpq]; exact ⟨slab, hp2, rfl⟩

theorem free_slab_size (vk : mpvk_ctx) (live : List vk_memslice) (slice : vk_memslice)
    (vk1 : mpvk_ctx) (hI : Inv vk live) (h : vk_free_memslice vk slice = some vk1) (p : Nat)
    (slab : vk_slab) (hp : get_slab vk p = some slab) :
    ∃ slab1, get_slab vk1 p = some slab1 ∧ slab1.size = slab.size := by
  unfold vk_free_memslice at h
  split at h
  · simp at h
  · rename_i sq hq
    have hded := (hI.2.2.1 _ sq hq).2.1
    have hlt := get_slab_lt vk _ sq hq
    split at h
    · simp only [hded] at h
      simp at h
      subst h
      have hset : ∀ (a b : vk_slab), set_slab (set_slab vk slice.priv a) slice.priv b
          = set_slab vk slice.priv b := by
        intro a b; simp [set_slab]
      rw [hset, get_slab_set_slab vk slice.priv p _ hlt]
      by_cases hpq : p = slice.priv
      · rw [if_pos hpq]
        rw [hpq, hq] at hp
        simp only [Option.some.injEq] at hp
        subst hp
        exact ⟨_, rfl, rfl⟩
      · rw [if_neg hpq]; exact ⟨slab, hp, rfl⟩
    · simp at h

theorem Steps_slab_size (vk : mpvk_ctx) (live : List vk_memslice) (vk1 : mpvk_ctx)
    (live1 : List vk_memslice) (h : Reachable vk live) (hs : Steps vk live vk1 live1)
    (p : Nat) (slab : vk_slab) (hp : get_slab vk p = some slab) :
    ∃ slab1, get_slab vk1 p = some slab1 ∧ slab1.size = slab.size := by
  induction hs with
  | refl => exact ⟨slab, hp, rfl⟩
  | malloc vk1 live1 drv req k vk2 out _ hk ha hsz hrun ih =>
    obtain ⟨s1, g1, g2⟩ := ih
    obtain ⟨s2, g3, g4⟩ := run_slab_size vk1 drv req vk2 out hrun p s1 g1
    exact ⟨s2, g3, by rw [g4, g2]⟩
  | free vk1 live1 slice vk2 hst hmem hfree ih =>
    obtain ⟨s1, g1, g2⟩ := ih
    have hI := Reachable_Inv vk1 live1 (Steps_Reachable vk live vk1 live1 h hst)
    obtain ⟨s2, g3, g4⟩ := free_slab_size vk1 live1 slice vk2 hI hfree p s1 g1
    exact ⟨s2, g3, by rw [g4, g2]⟩

theorem live_used_mem (p : Nat) (live : List vk_memslice) (s : vk_memslice) (hs : s ∈ live)
    (hp : s.priv = p) : s.size ≤ live_used p live := by
  induction live with
  | nil => simp at hs
  | cons a l ih =>
    unfold live_used
    simp only [List.mem_cons] at hs
    rcases hs with e | e
    · rw [← e, if_pos hp]; omega
    · have := ih e; omega

/-- A slab whose size is in use by one live slice has an empty region list. -/
theorem full_slab_regions (live : List vk_memslice) (p : Nat) (slab : vk_slab)
    (s : vk_memslice) (hsi : slab_inv live p slab) (hs : s ∈ live) (hp : s.priv = p)
    (hsz : s.size = slab.size) : slab.regions = [] ∧ slab.used = slab.size := by
  obtain ⟨_, _, hwf, hused, hsum, _⟩ := hsi
  have := live_used_mem p live s hs hp
  have hu : slab.used = slab.size := by omega
  refine ⟨?_, hu⟩
  cases hr : slab.regions with
  | nil => rfl
  | cons r rest =>
    exfalso
    rw [hr] at hsum hwf
    have := (regions_wf_le _ _ hwf r (List.mem_cons_self _ _)).1
    simp only [region_sum] at hsum
    omega

theorem find_heap_get_heap (ma : vk_malloc) (type : Option Nat) (usage : Nat)
    (h : Nat × Nat) (hp : vk_heap) (hg : get_heap ma h = some hp) :
    get_heap (find_heap ma type usage).1 h = some hp := by
  cases type with
  | none => exact hg
  | some ti =>
    cases ht : ma.types.get? ti with
    | none =>
      unfold find_heap
      simp only [ht]
      exact hg
    | some t =>
      obtain ⟨ma1, hi, t1, hp1, f1, _, _, _, _, _, f7, _⟩ := find_heap_effect ma ti usage t ht
      rw [f1]
      exact f7 h hp hg

/-- The result of a successful oversized request: a slab of the size of the
request is stored at the end of the store and holds the slice at offset 0; the
allocator is the one `select_heap` left. -/
theorem oversized_effect (vk : mpvk_ctx) (live : List vk_memslice) (drv : vk_driver)
    (req : vk_request) (k : Nat) (vk1 : mpvk_ctx) (s : vk_memslice) (ma : vk_malloc)
    (hI : Inv vk live)
    (hk : k < 64) (ha : req.alignment = 2 ^ k) (hsz : req.size < SIZE_MOD)
    (hbig : req.size > MPVK_HEAP_MAXIMUM_SLAB_SIZE) (hma : vk.alloc = some ma)
    (hrun : req.run vk drv = some (vk1, some s)) :
    s.priv = vk.slabs.length ∧ s.offset = 0 ∧ s.size = req.size ∧
    (∃ slab, get_slab vk1 s.priv = some slab ∧ slab.size = req.size ∧
      slab.regions = [] ∧ slab.used = req.size) ∧
    vk1.alloc = some (find_heap ma (find_best_memtype ma req.flags req.typeBits) req.usage).1 := by
  obtain ⟨g, hg, hgv⟩ := hI.1
  obtain ⟨vk0, heap, hsel, hsl⟩ := run_effect vk drv req vk1 (some s) hrun
  have hslabs0 := select_heap_slabs _ _ _ _ _ _ hsel
  unfold select_heap at hsel
  simp only [hma, Option.some.injEq, Prod.mk.injEq] at hsel
  obtain ⟨hvk0, _⟩ := hsel
  have hg0 : vk0.bufferImageGranularity = 2 ^ g := by rw [← hvk0]; exact hgv
  have ha0 : vk0.alloc =
      some (find_heap ma (find_best_memtype ma req.flags req.typeBits) req.usage).1 := by
    rw [← hvk0]
  obtain ⟨vk2, r, hgr, hcase⟩ := slice_heap_effect _ _ _ _ _ _ _ hsl
  rw [ha, hg0, MP_ALIGN_UP_pow k g hk hg] at hgr hcase
  rcases hcase with ⟨_, e2, _⟩ | ⟨p, idx, slab, reg, e1, e2, e3, e4, e5⟩
  · simp at e2
  · cases heap with
    | none =>
      simp [heap_get_region] at hgr
      rw [e1] at hgr
      simp at hgr
    | some h =>
      obtain ⟨ma0, type, hp, hma0, htype, hheap⟩ := heap_get_region_valid _ _ _ _ _ _ hgr
      have hout := heap_get_region_effect vk0 drv h req.size _ vk2 r ma0 type hp hma0 htype
        hheap hgr
      have key : ∃ slab0, vk2.alloc = vk0.alloc ∧ p = vk0.slabs.length ∧ idx = 0 ∧
          vk2.slabs = vk0.slabs ++ [some slab0] ∧ slab_fresh req.size slab0 := by
        cases hout with
        | found p1 idx1 last hsmall _ => omega
        | failed sz vk3 hsa => simp at e1
        | oversized vk3 p1 _ hsa =>
          obtain ⟨a1, _, a3⟩ := slab_alloc_spec _ _ _ _ _ _ _ hsa
          rcases a3 with ⟨a3, _⟩ | ⟨a3, slab0, a4, a5⟩
          · simp at a3
          · simp only [Option.some.injEq] at a3
            simp only [Option.some.injEq, Prod.mk.injEq] at e1
            exact ⟨slab0, a1, by rw [← e1.1, a3], e1.2.symm, a4, a5⟩
        | grown vk3 p1 last hsmall _ _ _ => omega
      obtain ⟨slab0, k1, k2, k3, k4, k5⟩ := key
      subst k2 k3
      have hnew : get_slab vk2 vk0.slabs.length = some slab0 := by
        rw [get_slab_append vk0 vk2 (some slab0) k4, if_pos rfl]
      rw [hnew] at e2
      simp only [Option.some.injEq] at e2
      subst e2
      obtain ⟨f1, f2, f3, f4, f5⟩ := k5
      rw [f4] at e3
      simp only [List.get?_cons_zero, Option.some.injEq] at e3
      subst e3
      have hz : MP_ALIGN_UP 0 (2 ^ max k g) = 0 := MP_ALIGN_UP_zero (max k g) (by omega)
      simp only [hz] at e4 e5
      simp only [Option.some.injEq] at e4
      have hlt := get_slab_lt vk2 _ _ hnew
      refine ⟨by rw [e4, hslabs0], by rw [e4], by rw [e4], ?_, ?_⟩
      · refine ⟨_, by rw [e4, e5, get_slab_set_slab vk2 _ _ _ hlt, if_pos rfl], ?_, ?_, ?_⟩
        · exact f1
        · simp [carve_slab, f4, insert_region, Nat.mod_eq_of_lt hsz]
        · simp [carve_slab, f2, Nat.mod_eq_of_lt hsz]
      · rw [e5]
        simp only [set_slab]
        rw [k1, ha0]

/-- Claim C28. For every successful request with `size > 2^29` in a reachable
state: the slab created has exactly the size of the request and is stored at a
new slab pointer that no heap's slab list holds (the slab lists are those
before the call); the slice has offset 0 and the size of the slab; and in every
later state in which the slice is still live, the region list of the slab is
empty and `slab.used` is `size`. -/
theorem oversized_request (vk : mpvk_ctx) (live : List vk_memslice) (drv : vk_driver)
    (req : vk_request) (k : Nat) (vk1 : mpvk_ctx) (s : vk_memslice) (ma : vk_malloc)
    (hreach : Reachable vk live)
    (hk : k < 64) (ha : req.alignment = 2 ^ k) (hsz : req.size < SIZE_MOD)
    (hbig : req.size > MPVK_HEAP_MAXIMUM_SLAB_SIZE) (hma : vk.alloc = some ma)
    (hrun : req.run vk drv = some (vk1, some s)) :
    s.priv = vk.slabs.length ∧ s.offset = 0 ∧ s.size = req.size ∧
    (∃ slab, get_slab vk1 s.priv = some slab ∧ slab.size = req.size ∧
      slab.regions = [] ∧ slab.used = req.size) ∧
    (∃ ma1, vk1.alloc = some ma1 ∧ heap_slabs ma1 = heap_slabs ma ∧
      s.priv ∉ heap_slabs ma1 ∧
      ∀ h hp, get_heap ma h = some hp → get_heap ma1 h = some hp) ∧
    (∀ vk2 live2, Steps vk1 (s :: live) vk2 live2 → s ∈ live2 →
      ∃ slab2, get_slab vk2 s.priv = some slab2 ∧ slab2.size = req.size ∧
        slab2.regions = [] ∧ slab2.used = req.size) := by
  have hI := Reachable_Inv vk live hreach
  obtain ⟨e1, e2, e3, ⟨slab, e4, e5, e6, e7⟩, e8⟩ :=
    oversized_effect vk live drv req k vk1 s ma hI hk ha hsz hbig hma hrun
  refine ⟨e1, e2, e3, ⟨slab, e4, e5, e6, e7⟩, ⟨_, e8, heap_slabs_find_heap ma _ _, ?_,
    fun h hp hg => find_heap_get_heap ma _ _ h hp hg⟩, ?_⟩
  · rw [heap_slabs_find_heap, e1]
    intro hc
    have := heaps_valid vk live hI ma hma _ hc
    omega
  · intro vk2 live2 hst hmem
    have hr1 : Reachable vk1 (s :: live) :=
      Reachable.malloc vk live drv req k vk1 (some s) hreach hk ha hsz hrun
    obtain ⟨slab2, g1, g2⟩ := Steps_slab_size vk1 (s :: live) vk2 live2 hr1 hst s.priv slab e4
    have hI2 := Reachable_Inv vk2 live2 (Steps_Reachable vk1 (s :: live) vk2 live2 hr1 hst)
    obtain ⟨h1, h2⟩ := full_slab_regions live2 s.priv slab2 s (hI2.2.2.1 _ slab2 g1) hmem rfl
      (by rw [g2, e5, e3])
    exact ⟨slab2, g1, by rw [g2, e5], h1, by rw [h2, g2, e5]⟩

/-- Witness of C28: the request of 1 GiB in the fresh allocator `demo_init`. -/
theorem oversized_request_witness :
    Reachable demo_init [] ∧ big_req.run demo_init demo_drv = some (big_ctx1, some big_slice) ∧
    get_slab big_ctx1 0 = some big_slab1 ∧
    (big_slice.priv = demo_init.slabs.length ∧ big_slice.offset = 0 ∧
      big_slice.size = big_req.size ∧
      (∃ slab, get_slab big_ctx1 big_slice.priv = some slab ∧ slab.size = big_req.size ∧
        slab.regions = [] ∧ slab.used = big_req.size) ∧
      (∃ ma1, big_ctx1.alloc = some ma1 ∧
        heap_slabs ma1 = heap_slabs { types := init_types 0 [{ propertyFlags := 0, heapIndex := 0 }] } ∧
        big_slice.priv ∉ heap_slabs ma1 ∧
        ∀ h hp, get_heap { types := init_types 0 [{ propertyFlags := 0, heapIndex := 0 }] } h
            = some hp → get_heap ma1 h = some hp) ∧
      (∀ vk2 live2, Steps big_ctx1 (big_slice :: []) vk2 live2 → big_slice ∈ live2 →
        ∃ slab2, get_slab vk2 big_slice.priv = some slab2 ∧ slab2.size = big_req.size ∧
          slab2.regions = [] ∧ slab2.used = big_req.size)) :=
  ⟨Reachable.init demo_vk0 _ 0 (by decide) rfl rfl (by decide), rfl, rfl,
    oversized_request demo_init [] demo_drv big_req 0 big_ctx1 big_slice _
      (Reachable.init demo_vk0 _ 0 (by decide) rfl rfl (by decide)) (by decide) rfl
      (by decide) (by decide) rfl rfl⟩

theorem heap_get_region_alloc (vk : mpvk_ctx) (drv : vk_driver) (heap : Option (Nat × Nat))
    (size align : Nat) (vk2 : mpvk_ctx) (r : Option (Nat × Nat)) (ma : vk_malloc)
    (hma : vk.alloc = some ma)
    (hgr : heap_get_region vk drv heap size align = some (vk2, r)) :
    vk2.alloc = some ma ∨ ∃ h p, vk2.alloc = some (heap_append_slab ma h p) := by
  cases heap with
  | none =>
    simp [heap_get_region] at hgr
    left
    rw [← hgr.1]; exact hma
  | some h =>
    obtain ⟨ma0, type, hp, hma0, htype, hheap⟩ := heap_get_region_valid _ _ _ _ _ _ hgr
    have hout := heap_get_region_effect vk drv h size align vk2 r ma0 type hp hma0 htype hheap hgr
    rw [hma] at hma0
    simp only [Option.some.injEq] at hma0
    subst hma0
    cases hout with
    | found p idx last _ _ => left; exact hma
    | failed sz vk3 hsa =>
      left
      rw [(slab_alloc_spec _ _ _ _ _ _ _ hsa).1]; exact hma
    | oversized vk3 p _ hsa =>
      left
      rw [(slab_alloc_spec _ _ _ _ _ _ _ hsa).1]; exact hma
    | grown vk3 p last _ _ _ hsa => right; exact ⟨h, p, rfl⟩

theorem run_alloc (vk : mpvk_ctx) (drv : vk_driver) (req : vk_request) (vk1 : mpvk_ctx)
    (out : Option vk_memslice) (ma : vk_malloc) (hma : vk.alloc = some ma)
    (hrun : req.run vk drv = some (vk1, out)) :
    ∃ type usage,
      vk1.alloc = some (find_heap ma type usage).1 ∨
      ∃ h p, vk1.alloc = some (heap_append_slab (find_heap ma type usage).1 h p) := by
  obtain ⟨vk0, heap, hsel, hsl⟩ := run_effect vk drv req vk1 out hrun
  unfold select_heap at hsel
  simp only [hma, Option.some.injEq, Prod.mk.injEq] at hsel
  obtain ⟨hvk0, _⟩ := hsel
  have ha0 : vk0.alloc =
      some (find_heap ma (find_best_memtype ma req.flags req.typeBits) req.usage).1 := by
    rw [← hvk0]
  obtain ⟨vk2, r, hgr, hcase⟩ := slice_heap_effect _ _ _ _ _ _ _ hsl
  have h2 := heap_get_region_alloc vk0 drv heap _ _ vk2 r _ ha0 hgr
  have h1 : vk1.alloc = vk2.alloc := by
    rcases hcase with ⟨_, _, e3⟩ | ⟨q, idx, sq, reg, _, _, _, _, e5⟩
    · rw [e3]
    · rw [e5]; rfl
  rw [h1]
  exact ⟨_, _, h2⟩

theorem free_alloc (vk : mpvk_ctx) (live : List vk_memslice) (slice : vk_memslice)
    (vk1 : mpvk_ctx) (hI : Inv vk live) (h : vk_free_memslice vk slice = some vk1) :
    vk1.alloc = vk.alloc := by
  unfold vk_free_memslice at h
  split at h
  · simp at h
  · rename_i sq hq
    have hded := (hI.2.2.1 _ sq hq).2.1
    split at h
    · simp only [hded] at h
      simp at h
      subst h
      rfl
    · simp at h

/-- A property of the allocator tree that `vk_malloc_init` establishes and
`find_heap` and the append of a slab to a heap preserve holds in every
reachable state. -/
theorem Reachable_alloc_inv (P : vk_malloc → Prop)
    (hinit : ∀ prop : List VkMemoryType, P { types := init_types 0 prop })
    (hfind : ∀ ma type usage, P ma → P (find_heap ma type usage).1)
    (happ : ∀ ma h p, P ma → P (heap_append_slab ma h p))
    (vk : mpvk_ctx) (live : List vk_memslice) (hr : Reachable vk live) :
    ∃ ma, vk.alloc = some ma ∧ P ma := by
  induction hr with
  | init vk0 prop g hg hgv hs hlen => exact ⟨_, rfl, hinit prop⟩
  | malloc vk live drv req k vk1 out hr hk ha hsz hrun ih =>
    obtain ⟨ma, hma, hP⟩ := ih
    obtain ⟨type, usage, h | ⟨h, p, e⟩⟩ := run_alloc vk drv req vk1 out ma hma hrun
    · exact ⟨_, h, hfind ma type usage hP⟩
    · exact ⟨_, e, happ _ h p (hfind ma type usage hP)⟩
  | free vk live slice vk1 hr hs hfree ih =>
    obtain ⟨ma, hma, hP⟩ := ih
    exact ⟨ma, by rw [free_alloc vk live slice vk1 (Reachable_Inv vk live hr) hfree, hma], hP⟩

theorem init_types_get (i : Nat) (prop : List VkMemoryType) (j : Nat) :
    (init_types i prop).get? j =
      (prop.get? j).map (fun m =>
        { index := i + j, heapIndex := m.heapIndex, flags := m.propertyFlags, heaps := [] }) := by
  induction prop generalizing i j with
  | nil => simp [init_types]
  | cons m ms ih =>
    cases j with
    | zero => simp [init_types]
    | succ j =>
      simp only [init_types, List.get?_cons_succ]
      rw [ih (i + 1) j]
      have : i + 1 + j = i + (j + 1) := by omega
      rw [this]

theorem init_types_length (i : Nat) (prop : List VkMemoryType) :
    (init_types i prop).length = prop.length := by
  induction prop generalizing i with
  | nil => rfl
  | cons m ms ih => simp [init_types, ih]

theorem find_loop_step (flags : Nat) (reqs : Option Nat) (i : Nat) (t : vk_memtype)
    (ts : List vk_memtype) (hi : t.index = i) :
    (memtype_matches t flags reqs → find_best_memtype_loop flags reqs i (t :: ts) = some i) ∧
    (¬ memtype_matches t flags reqs →
      find_best_memtype_loop flags reqs i (t :: ts) =
        find_best_memtype_loop flags reqs (i + 1) ts) := by
  unfold memtype_matches
  rw [hi]
  constructor
  · rintro ⟨h1, h2⟩
    unfold find_best_memtype_loop
    rw [if_neg (by rw [not_not]; exact h1)]
    cases reqs with
    | none => rfl
    | some bits =>
      simp only []
      rw [if_neg (h2 bits rfl)]
  · intro h
    conv_lhs => unfold find_best_memtype_loop
    by_cases h1 : t.flags &&& flags = flags
    · rw [if_neg (by rw [not_not]; exact h1)]
      cases reqs with
      | none => exact absurd ⟨h1, by simp⟩ h
      | some bits =>
        simp only []
        by_cases h2 : bits &&& (1 <<< i) = 0
        · rw [if_pos h2]
        · exfalso
          apply h
          refine ⟨h1, ?_⟩
          intro b hb
          simp only [Option.some.injEq] at hb
          rw [← hb]; exact h2
    · rw [if_pos h1]

theorem find_loop_spec (flags : Nat) (reqs : Option Nat) (i : Nat) (l : List vk_memtype)
    (hidx : ∀ j t, l.get? j = some t → t.index = i + j) (r : Nat) :
    find_best_memtype_loop flags reqs i l = some r ↔
      ∃ j t, r = i + j ∧ l.get? j = some t ∧ memtype_matches t flags reqs ∧
        ∀ j1 t1, j1 < j → l.get? j1 = some t1 → ¬ memtype_matches t1 flags reqs := by
  induction l generalizing i with
  | nil => simp [find_best_memtype_loop]
  | cons t ts ih =>
    have hi : t.index = i := by simpa using hidx 0 t (by simp)
    have hidx1 : ∀ j t1, ts.get? j = some t1 → t1.index = i + 1 + j := by
      intro j t1 hj
      have := hidx (j + 1) t1 (by simpa using hj)
      omega
    obtain ⟨s1, s2⟩ := find_loop_step flags reqs i t ts hi
    by_cases hm : memtype_matches t flags reqs
    · rw [s1 hm]
      constructor
      · intro e
        simp only [Option.some.injEq] at e
        exact ⟨0, t, by omega, by simp, hm, fun j1 t1 hlt _ => by omega⟩
      · rintro ⟨j, t1, e1, e2, e3, e4⟩
        cases j with
        | zero => simp only [Option.some.injEq]; omega
        | succ j => exact absurd hm (e4 0 t (by omega) (by simp))
    · rw [s2 hm, ih (i + 1) hidx1]
      constructor
      · rintro ⟨j, t1, e1, e2, e3, e4⟩
        refine ⟨j + 1, t1, by omega, by simpa using e2, e3, ?_⟩
        intro j1 t2 hlt hj1
        cases j1 with
        | zero =>
          simp only [List.get?_cons_zero, Option.some.injEq] at hj1
          rw [← hj1]; exact hm
        | succ j2 => exact e4 j2 t2 (by omega) (by simpa using hj1)
      · rintro ⟨j, t1, e1, e2, e3, e4⟩
        cases j with
        | zero =>
          simp only [List.get?_cons_zero, Option.some.injEq] at e2
          rw [← e2] at e3
          exact absurd e3 hm
        | succ j =>
          refine ⟨j, t1, by omega, by simpa using e2, e3, ?_⟩
          intro j1 t2 hlt hj1
          exact e4 (j1 + 1) t2 (by omega) (by simpa using hj1)

theorem find_loop_none_iff (flags : Nat) (reqs : Option Nat) (i : Nat) (l : List vk_memtype)
    (hidx : ∀ j t, l.get? j = some t → t.index = i + j) :
    find_best_memtype_loop flags reqs i l = none ↔
      ∀ j t, l.get? j = some t → ¬ memtype_matches t flags reqs := by
  induction l generalizing i with
  | nil => simp [find_best_memtype_loop]
  | cons t ts ih =>
    have hi : t.index = i := by simpa using hidx 0 t (by simp)
    have hidx1 : ∀ j t1, ts.get? j = some t1 → t1.index = i + 1 + j := by
      intro j t1 hj
      have := hidx (j + 1) t1 (by simpa using hj)
      omega
    obtain ⟨s1, s2⟩ := find_loop_step flags reqs i t ts hi
    by_cases hm : memtype_matches t flags reqs
    · rw [s1 hm]
      constructor
      · intro e; simp at e
      · intro h; exact absurd hm (h 0 t (by simp))
    · rw [s2 hm, ih (i + 1) hidx1]
      constructor
      · intro h j t1 hj
        cases j with
        | zero =>
          simp only [List.get?_cons_zero, Option.some.injEq] at hj
          rw [← hj]; exact hm
        | succ j1 => exact h j1 t1 (by simpa using hj)
      · intro h j t1 hj
        exact h (j + 1) t1 (by simpa using hj)

theorem types_indexed_set (l : List vk_memtype) (ti : Nat) (t t1 : vk_memtype)
    (ht : l.get? ti = some t) (hi : t1.index = t.index)
    (h : ∀ i x, l.get? i = some x → x.index = i) :
    ∀ i x, (l.set ti t1).get? i = some x → x.index = i := by
  intro i x hx
  rcases get_types_set l ti t1 i x hx with ⟨e1, e2⟩ | ⟨_, e2⟩
  · rw [e2, hi, e1]; exact h ti t ht
  · exact h i x e2

theorem types_indexed (vk : mpvk_ctx) (live : List vk_memslice) (hr : Reachable vk live) :
    ∃ ma, vk.alloc = some ma ∧ ∀ i t, ma.types.get? i = some t → t.index = i := by
  apply Reachable_alloc_inv (fun ma => ∀ i t, ma.types.get? i = some t → t.index = i)
  · intro prop i t hi
    rw [init_types_get] at hi
    cases hp : prop.get? i with
    | none => rw [hp] at hi; simp at hi
    | some m =>
      rw [hp] at hi
      simp only [Option.map_some', Option.some.injEq] at hi
      rw [← hi]
      simp
  · intro ma type usage hP i t1 hi
    obtain ⟨t, a1, _, a3, _⟩ := find_heap_types ma type usage i t1 hi
    rw [a3]; exact hP i t a1
  · intro ma h p hP i t1 hi
    obtain ⟨t, a1, _, a3, _⟩ := heap_append_slab_types ma h p i t1 hi
    rw [a3]; exact hP i t a1
  · exact hr

/-- Claim C29. After `vk_malloc_init` the allocator holds one memory type per
type the device reports, `types[i]` with `index = i` and the `heapIndex` and
the flags of the device's type `i`; in every state reached afterwards
`types[i].index = i`, and `find_best_memtype(flags, reqs)` returns `i` iff
`types[i]` matches (its flags include `flags` and, when `reqs` is given, bit
`types[i].index` of `reqs.memoryTypeBits` is set) and no type of a lower index
matches; it returns `NULL` iff no type matches. On a device with types of the
flags 1, 6, 7 the request for the flags 2 gives the type 1, and with
`memoryTypeBits = 4` the type 2. -/
theorem find_best_memtype_first :
    (∀ (vk0 : mpvk_ctx) (prop : List VkMemoryType),
      ∃ ma, (vk_malloc_init vk0 prop).alloc = some ma ∧ ma.types.length = prop.length ∧
        ∀ i m, prop.get? i = some m →
          ma.types.get? i = some
            { index := i, heapIndex := m.heapIndex, flags := m.propertyFlags, heaps := [] }) ∧
    (∀ (vk : mpvk_ctx) (live : List vk_memslice) (ma : vk_malloc) (flags : Nat)
        (reqs : Option Nat), Reachable vk live → vk.alloc = some ma →
      (∀ i t, ma.types.get? i = some t → t.index = i) ∧
      (∀ i, find_best_memtype ma flags reqs = some i ↔
        (∃ t, ma.types.get? i = some t ∧ memtype_matches t flags reqs) ∧
        ∀ j t, j < i → ma.types.get? j = some t → ¬ memtype_matches t flags reqs) ∧
      (find_best_memtype ma flags reqs = none ↔
        ∀ i t, ma.types.get? i = some t → ¬ memtype_matches t flags reqs)) ∧
    (find_best_memtype three_types 2 none = some 1 ∧
      find_best_memtype three_types 2 (some 4) = some 2 ∧
      find_best_memtype three_types 8 none = none ∧
      find_best_memtype three_types 1 (some 2) = none) := by
  refine ⟨?_, ?_, by decide⟩
  · intro vk0 prop
    refine ⟨{ types := init_types 0 prop }, rfl, init_types_length 0 prop, ?_⟩
    intro i m hm
    simp only []
    rw [init_types_get, hm]
    simp
  · intro vk live ma flags reqs hr hma
    obtain ⟨ma0, hma0, hidx⟩ := types_indexed vk live hr
    rw [hma] at hma0
    simp only [Option.some.injEq] at hma0
    subst hma0
    have hidx0 : ∀ j t, ma.types.get? j = some t → t.index = 0 + j := by
      intro j t hj
      rw [hidx j t hj]; omega
    refine ⟨hidx, ?_, ?_⟩
    · intro i
      unfold find_best_memtype
      rw [find_loop_spec flags reqs 0 ma.types hidx0 i]
      constructor
      · rintro ⟨j, t, e1, e2, e3, e4⟩
        have : i = j := by omega
        subst this
        exact ⟨⟨t, e2, e3⟩, fun j1 t1 hlt hj1 => e4 j1 t1 hlt hj1⟩
      · rintro ⟨⟨t, e2, e3⟩, e4⟩
        exact ⟨i, t, by omega, e2, e3, fun j1 t1 hlt hj1 => e4 j1 t1 hlt hj1⟩
    · unfold find_best_memtype
      exact find_loop_none_iff flags reqs 0 ma.types hidx0

theorem find_heap_loop_none_iff (usage i : Nat) (l : List vk_heap) :
    find_heap_loop usage i l = none ↔ ∀ x ∈ l, x.usage ≠ usage := by
  induction l generalizing i with
  | nil => simp [find_heap_loop]
  | cons h hs ih =>
    unfold find_heap_loop
    by_cases e : h.usage = usage
    · rw [if_pos e]
      simp only [List.mem_cons, forall_eq_or_imp]
      constructor
      · intro hc; simp at hc
      · intro hc; exact absurd e hc.1
    · rw [if_neg e, ih]
      simp only [List.mem_cons, forall_eq_or_imp]
      exact ⟨fun hc => ⟨e, hc⟩, fun hc => hc.2⟩

theorem find_heap_loop_append (usage i : Nat) (l : List vk_heap) (h : vk_heap)
    (hl : ∀ x ∈ l, x.usage ≠ usage) (hu : h.usage = usage) :
    find_heap_loop usage i (l ++ [h]) = some (i + l.length) := by
  induction l generalizing i with
  | nil => simp [find_heap_loop, hu]
  | cons x xs ih =>
    simp only [List.cons_append]
    unfold find_heap_loop
    rw [if_neg (hl x (List.mem_cons_self _ _)),
      ih (i + 1) (fun y hy => hl y (List.mem_cons_of_mem _ hy))]
    simp only [List.length_cons]
    congr 1
    omega

theorem map_set_same (l : List vk_heap) (i : Nat) (x y : vk_heap)
    (hy : l.get? i = some y) (hxy : x.usage = y.usage) :
    (l.set i x).map (fun h => h.usage) = l.map (fun h => h.usage) := by
  induction l generalizing i with
  | nil => rfl
  | cons a as ih =>
    cases i with
    | zero =>
      simp only [List.get?_cons_zero, Option.some.injEq] at hy
      simp [hxy, hy]
    | succ j =>
      simp only [List.get?_cons_succ] at hy
      simp only [List.set_cons_succ, List.map_cons, List.cons.injEq, true_and]
      exact ih j hy

theorem usages_nodup_find_heap (ma : vk_malloc) (type : Option Nat) (usage : Nat)
    (hP : usages_nodup ma) : usages_nodup (find_heap ma type usage).1 := by
  unfold find_heap
  split
  · exact hP
  · rename_i ti
    split
    · exact hP
    · rename_i t ht
      split
      · exact hP
      · rename_i hnone
        intro i x hx
        simp only [] at hx
        rcases get_types_set ma.types ti _ i x hx with ⟨_, e2⟩ | ⟨_, e2⟩
        · rw [e2]
          simp only [List.map_append, List.map_cons, List.map_nil, heap_init]
          rw [List.nodup_append]
          refine ⟨hP ti t ht, List.nodup_singleton _, ?_⟩
          intro a ha hb
          simp only [List.mem_singleton] at hb
          simp only [List.mem_map] at ha
          obtain ⟨y, hy, hya⟩ := ha
          exact (find_heap_loop_none_iff usage 0 t.heaps).1 hnone y hy (by rw [hya, hb])
        · exact hP i x e2

theorem usages_nodup_append_slab (ma : vk_malloc) (h : Nat × Nat) (p : Nat)
    (hP : usages_nodup ma) : usages_nodup (heap_append_slab ma h p) := by
  unfold heap_append_slab
  split
  · exact hP
  · rename_i t ht
    split
    · exact hP
    · rename_i heap hheap
      intro i x hx
      simp only [] at hx
      rcases get_types_set ma.types h.1 _ i x hx with ⟨_, e2⟩ | ⟨_, e2⟩
      · rw [e2]
        simp only []
        rw [map_set_same t.heaps h.2 { usage := heap.usage, slabs := heap.slabs ++ [p] } heap
          hheap rfl]
        exact hP h.1 t ht
      · exact hP i x e2

theorem usages_nodup_reachable (vk : mpvk_ctx) (live : List vk_memslice)
    (hr : Reachable vk live) : ∃ ma, vk.alloc = some ma ∧ usages_nodup ma := by
  apply Reachable_alloc_inv usages_nodup
  · intro prop i t hi
    rw [init_types_get] at hi
    cases hp : prop.get? i with
    | none => rw [hp] at hi; simp at hi
    | some m =>
      rw [hp] at hi
      simp only [Option.map_some', Option.some.injEq] at hi
      rw [← hi]
      simp
  · exact usages_nodup_find_heap
  · exact usages_nodup_append_slab
  · exact hr

/-- Claim C30. For a non-null memory type `t` (at `ti`), `find_heap(type, usage)`
returns a heap of that type whose usage is `usage`. If the type holds such a
heap, the allocator is unchanged; otherwise exactly one heap with an empty slab
list is appended to the heaps of the type, and the existing heaps and the
other types are unchanged. A second call with the same arguments returns the
same heap and changes nothing. In every reachable state no memory type holds
two heaps with the same usage mask. -/
theorem find_heap_unique :
    (∀ (ma : vk_malloc) (ti : Nat) (t : vk_memtype) (usage : Nat),
      ma.types.get? ti = some t →
      ∃ ma1 hi t1 hp, find_heap ma (some ti) usage = (ma1, some (ti, hi)) ∧
        ma1.types.get? ti = some t1 ∧ t1.heaps.get? hi = some hp ∧ hp.usage = usage ∧
        ((∃ x ∈ t.heaps, x.usage = usage) → ma1 = ma) ∧
        ((¬ ∃ x ∈ t.heaps, x.usage = usage) →
          hi = t.heaps.length ∧ hp = { usage := usage, slabs := [] } ∧
          t1 = { t with heaps := t.heaps ++ [hp] } ∧
          ma1.types = ma.types.set ti t1) ∧
        find_heap ma1 (some ti) usage = (ma1, some (ti, hi))) ∧
    (∀ (vk : mpvk_ctx) (live : List vk_memslice) (ma : vk_malloc),
      Reachable vk live → vk.alloc = some ma →
      ∀ i t, ma.types.get? i = some t → (t.heaps.map (fun h => h.usage)).Nodup) := by
  constructor
  · intro ma ti t usage ht
    have hlt : ti < ma.types.length := by
      by_contra hc
      have : ma.types.get? ti = none := by rw [List.get?_eq_none]; omega
      rw [this] at ht; simp at ht
    cases hloop : find_heap_loop usage 0 t.heaps with
    | some hi =>
      obtain ⟨_, hp, h1, h2⟩ := find_heap_loop_some usage t.heaps 0 hi hloop
      have hfind : find_heap ma (some ti) usage = (ma, some (ti, hi)) := by
        unfold find_heap
        simp only [ht, hloop]
      refine ⟨ma, hi, t, hp, hfind, ht, by simpa using h1, h2, fun _ => rfl, ?_, hfind⟩
      intro hno
      exfalso
      apply hno
      exact ⟨hp, List.get?_mem h1, h2⟩
    | none =>
      have hnone := (find_heap_loop_none_iff usage 0 t.heaps).1 hloop
      have hfind : find_heap ma (some ti) usage =
          ({ ma with types := ma.types.set ti { t with heaps := t.heaps ++ [heap_init usage] } },
            some (ti, t.heaps.length)) := by
        unfold find_heap
        simp only [ht, hloop]
      have hget : (ma.types.set ti { t with heaps := t.heaps ++ [heap_init usage] }).get? ti
          = some { t with heaps := t.heaps ++ [heap_init usage] } := by
        simp [List.getElem?_set, hlt]
      refine ⟨_, t.heaps.length, { t with heaps := t.heaps ++ [heap_init usage] },
        heap_init usage, hfind, hget, by simp, rfl, ?_, ?_, ?_⟩
      · rintro ⟨x, hx, hxu⟩
        exact absurd hxu (hnone x hx)
      · intro _
        exact ⟨rfl, rfl, rfl, rfl⟩
      · unfold find_heap
        simp only [hget]
        rw [find_heap_loop_append usage 0 t.heaps (heap_init usage) hnone rfl]
        simp
  · intro vk live ma hr hma
    obtain ⟨ma0, hma0, hP⟩ := usages_nodup_reachable vk live hr
    rw [hma] at hma0
    simp only [Option.some.injEq] at hma0
    subst hma0
    exact hP

/-- The free of a live slice returns: the slab of the slice is there, its
`used` is at least the size of the slice (the assertion holds) and the slab is
not dedicated. -/
theorem free_live_returns (vk : mpvk_ctx) (live : List vk_memslice) (slice : vk_memslice)
    (hI : Inv vk live) (hs : slice ∈ live) :
    ∃ slab vk1, get_slab vk slice.priv = some slab ∧ slab.used ≥ slice.size ∧
      vk_free_memslice vk slice = some vk1 ∧
      ∃ slab1, get_slab vk1 slice.priv = some slab1 ∧
        slab1.used = slab.used - slice.size := by
  obtain ⟨slab, hslab⟩ := hI.2.2.2.1 slice hs
  obtain ⟨_, hded, _, hused, _, _⟩ := hI.2.2.1 _ slab hslab
  have hge : slab.used ≥ slice.size := by
    rw [hused]; exact live_used_mem _ live slice hs rfl
  have hlt := get_slab_lt vk _ slab hslab
  have hfree : vk_free_memslice vk slice = some (set_slab vk slice.priv
      { slab with
        used := slab.used - slice.size,
        regions := insert_region slab.regions
          { start := slice.offset, end_ := (slice.offset + slice.size) % SIZE_MOD },
        elided := slab.elided + insert_region_elided slab.regions
          { start := slice.offset, end_ := (slice.offset + slice.size) % SIZE_MOD } }) := by
    unfold vk_free_memslice
    simp only [hslab, if_pos hge, hded]
    simp [set_slab]
  refine ⟨slab, _, hslab, hge, hfree, ?_⟩
  rw [get_slab_set_slab _ _ _ _ hlt, if_pos rfl]
  exact ⟨_, rfl, rfl⟩

/-- Claim C31. In every reachable state, `slab.used` is the sum of the sizes of
the live slices carved from the slab (`live_used`). Hence the free of a live
slice passes the assertion `slab->used >= slice.size`, returns, and subtracts
exactly `slice.size`; a successful allocation adds exactly the size of the
slice to `used` of its slab; and the free of the slice just allocated returns
and restores `used` of every slab. -/
theorem used_is_live_sum (vk : mpvk_ctx) (live : List vk_memslice)
    (h : Reachable vk live) :
    (∀ p slab, get_slab vk p = some slab → slab.used = live_used p live) ∧
    (∀ slice ∈ live, ∃ slab vk1, get_slab vk slice.priv = some slab ∧
      slab.used ≥ slice.size ∧ vk_free_memslice vk slice = some vk1 ∧
      ∃ slab1, get_slab vk1 slice.priv = some slab1 ∧
        slab1.used = slab.used - slice.size) ∧
    (∀ (drv : vk_driver) (req : vk_request) (k : Nat) (vk1 : mpvk_ctx) (s : vk_memslice),
      k < 64 → req.alignment = 2 ^ k → req.size < SIZE_MOD →
      req.run vk drv = some (vk1, some s) →
      ∃ slab1 vk2 slab2, get_slab vk1 s.priv = some slab1 ∧
        slab1.used = live_used s.priv live + s.size ∧
        vk_free_memslice vk1 s = some vk2 ∧
        get_slab vk2 s.priv = some slab2 ∧ slab2.used = live_used s.priv live ∧
        ∀ p slab, get_slab vk p = some slab →
          ∃ slab3, get_slab vk2 p = some slab3 ∧ slab3.used = slab.used) := by
  have hI := Reachable_Inv vk live h
  refine ⟨fun p slab hp => (hI.2.2.1 p slab hp).2.2.2.1,
    fun slice hs => free_live_returns vk live slice hI hs, ?_⟩
  intro drv req k vk1 s hk ha hsz hrun
  have hR1 : Reachable vk1 (s :: live) :=
    Reachable.malloc vk live drv req k vk1 (some s) h hk ha hsz hrun
  have hI1 := Reachable_Inv _ _ hR1
  obtain ⟨slab1, vk2, g1, g2, g3, slab2, g4, g5⟩ :=
    free_live_returns vk1 (s :: live) s hI1 (List.mem_cons_self _ _)
  have hR2 : Reachable vk2 live := by
    have := Reachable.free vk1 (s :: live) s vk2 hR1 (List.mem_cons_self _ _) g3
    rwa [List.erase_cons_head] at this
  have hI2 := Reachable_Inv _ _ hR2
  have hu1 : slab1.used = live_used s.priv live + s.size := by
    rw [(hI1.2.2.1 _ slab1 g1).2.2.2.1]
    simp only [live_used, if_true]
    omega
  refine ⟨slab1, vk2, slab2, g1, hu1, g3, g4, (hI2.2.2.1 _ slab2 g4).2.2.2.1, ?_⟩
  intro p slab hp
  obtain ⟨sa, ha1, _⟩ := run_slab_size vk drv req vk1 (some s) hrun p slab hp
  obtain ⟨sb, hb1, _⟩ := free_slab_size vk1 (s :: live) s vk2 hI1 g3 p sa ha1
  refine ⟨sb, hb1, ?_⟩
  rw [(hI2.2.2.1 _ sb hb1).2.2.2.1, (hI.2.2.1 p slab hp).2.2.2.1]

theorem used_is_live_sum_witness :
    Reachable demo_ctx2 [demo_slice_b, demo_slice_a] ∧
    ((∀ p slab, get_slab demo_ctx2 p = some slab →
        slab.used = live_used p [demo_slice_b, demo_slice_a]) ∧
    (∀ slice ∈ [demo_slice_b, demo_slice_a], ∃ slab vk1,
      get_slab demo_ctx2 slice.priv = some slab ∧
      slab.used ≥ slice.size ∧ vk_free_memslice demo_ctx2 slice = some vk1 ∧
      ∃ slab1, get_slab vk1 slice.priv = some slab1 ∧
        slab1.used = slab.used - slice.size) ∧
    (∀ (drv : vk_driver) (req : vk_request) (k : Nat) (vk1 : mpvk_ctx) (s : vk_memslice),
      k < 64 → req.alignment = 2 ^ k → req.size < SIZE_MOD →
      req.run demo_ctx2 drv = some (vk1, some s) →
      ∃ slab1 vk2 slab2, get_slab vk1 s.priv = some slab1 ∧
        slab1.used = live_used s.priv [demo_slice_b, demo_slice_a] + s.size ∧
        vk_free_memslice vk1 s = some vk2 ∧
        get_slab vk2 s.priv = some slab2 ∧
        slab2.used = live_used s.priv [demo_slice_b, demo_slice_a] ∧
        ∀ p slab, get_slab demo_ctx2 p = some slab →
          ∃ slab3, get_slab vk2 p = some slab3 ∧ slab3.used = slab.used)) :=
  ⟨demo_ctx2_reachable, used_is_live_sum demo_ctx2 _ demo_ctx2_reachable⟩

/-- Two slices of non-zero size that share no byte lie one after the other. -/
theorem slices_apart (s t : vk_memslice) (hs : 0 < s.size) (ht : 0 < t.size)
    (hd : ∀ x, in_slice s x → in_slice t x → False) :
    s.offset + s.size ≤ t.offset ∨ t.offset + t.size ≤ s.offset :=
  order_of_disjoint s.offset (s.offset + s.size) t.offset (t.offset + t.size)
    (by omega) (by omega) (fun x h1 h2 h3 h4 => hd x ⟨h1, h2⟩ ⟨h3, h4⟩)

/-- Claim C32. In every reachable state, any two live slices of non-zero size
that refer to the same slab lie within the slab and occupy disjoint byte
intervals `[offset, offset + size)`: one ends before the other starts, and no
byte belongs to both. This holds for any two entries of the list of live
slices, and so for any two distinct live slices. -/
theorem live_slices_do_not_overlap (vk : mpvk_ctx) (live : List vk_memslice)
    (h : Reachable vk live) :
    live.Pairwise (fun s t => s.priv = t.priv → 0 < s.size → 0 < t.size →
      s.offset + s.size ≤ t.offset ∨ t.offset + t.size ≤ s.offset) ∧
    ∀ s ∈ live, ∀ t ∈ live, s ≠ t → s.priv = t.priv → 0 < s.size → 0 < t.size →
      (∃ slab, get_slab vk s.priv = some slab ∧
        s.offset + s.size ≤ slab.size ∧ t.offset + t.size ≤ slab.size) ∧
      (s.offset + s.size ≤ t.offset ∨ t.offset + t.size ≤ s.offset) ∧
      ∀ x, ¬ (in_slice s x ∧ in_slice t x) := by
  have hI := Reachable_Inv vk live h
  have hpw := hI.2.2.2.2
  have hmem : ∀ s ∈ live, ∀ t ∈ live, s ≠ t → slices_disjoint s t := by
    intro s hs t ht hne
    have : t ∈ live.erase s := (List.mem_erase_of_ne (Ne.symm hne)).2 ht
    exact pairwise_erase_rel slices_disjoint slices_disjoint_symm live s t hpw hs this
  refine ⟨hpw.imp ?_, ?_⟩
  · intro s t hd hp hs ht
    exact slices_apart s t hs ht (hd hp)
  · intro s hs t ht hne hp h1 h2
    obtain ⟨slab, hslab⟩ := hI.2.2.2.1 s hs
    have hsi := (hI.2.2.1 _ slab hslab).2.2.2.2.2
    have hd := hmem s hs t ht hne hp
    exact ⟨⟨slab, hslab, (hsi s hs rfl).1, (hsi t ht hp.symm).1⟩,
      slices_apart s t h1 h2 hd, fun x hx => hd x hx.1 hx.2⟩

theorem live_slices_do_not_overlap_witness :
    Reachable demo_ctx2 [demo_slice_b, demo_slice_a] ∧
    ([demo_slice_b, demo_slice_a].Pairwise (fun s t => s.priv = t.priv → 0 < s.size →
      0 < t.size → s.offset + s.size ≤ t.offset ∨ t.offset + t.size ≤ s.offset) ∧
    ∀ s ∈ [demo_slice_b, demo_slice_a], ∀ t ∈ [demo_slice_b, demo_slice_a], s ≠ t →
      s.priv = t.priv → 0 < s.size → 0 < t.size →
      (∃ slab, get_slab demo_ctx2 s.priv = some slab ∧
        s.offset + s.size ≤ slab.size ∧ t.offset + t.size ≤ slab.size) ∧
      (s.offset + s.size ≤ t.offset ∨ t.offset + t.size ≤ s.offset) ∧
      ∀ x, ¬ (in_slice s x ∧ in_slice t x)) :=
  ⟨demo_ctx2_reachable, live_slices_do_not_overlap demo_ctx2 _ demo_ctx2_reachable⟩

/-- An allocation keeps the size of every slab and never lowers the count of
dropped bytes. -/
theorem run_slab_elided (vk : mpvk_ctx) (drv : vk_driver) (req : vk_request) (vk1 : mpvk_ctx)
    (out : Option vk_memslice) (hrun : req.run vk drv = some (vk1, out)) (p : Nat)
    (slab : vk_slab) (hp : get_slab vk p = some slab) :
    ∃ slab1, get_slab vk1 p = some slab1 ∧ slab1.size = slab.size ∧
      slab.elided ≤ slab1.elided := by
  obtain ⟨vk0, heap, hsel, hsl⟩ := run_effect vk drv req vk1 out hrun
  have hp0 : get_slab vk0 p = some slab := by
    unfold get_slab at *
    rw [select_heap_slabs _ _ _ _ _ _ hsel]; exact hp
  obtain ⟨vk2, r, hgr, hcase⟩ := slice_heap_effect _ _ _ _ _ _ _ hsl
  have hp2 := get_slab_store vk0 vk2 p slab hp0 (heap_get_region_store _ _ _ _ _ _ _ hgr)
  rcases hcase with ⟨_, _, e3⟩ | ⟨q, idx, sq, reg, _, e2, _, _, e5⟩
  · rw [e3]; exact ⟨slab, hp2, rfl, le_refl _⟩
  · rw [e5, get_slab_set_slab vk2 q p _ (get_slab_lt vk2 q sq e2)]
    by_cases hpq : p = q
    · rw [if_pos hpq]
      rw [hpq, e2] at hp2
      simp only [Option.some.injEq] at hp2
      subst hp2
      refine ⟨_, rfl, rfl, ?_⟩
      simp only [carve_slab]
      omega
    · rw [if_neg hpq]; exact ⟨slab, hp2, rfl, le_refl _⟩

/-- A free keeps the size of every slab and never lowers the count of dropped
bytes. -/
theorem free_slab_elided (vk : mpvk_ctx) (live : List vk_memslice) (slice : vk_memslice)
    (vk1 : mpvk_ctx) (hI : Inv vk live) (h : vk_free_memslice vk slice = some vk1) (p : Nat)
    (slab : vk_slab) (hp : get_slab vk p = some slab) :
    ∃ slab1, get_slab vk1 p = some slab1 ∧ slab1.size = slab.size ∧
      slab.elided ≤ slab1.elided := by
  unfold vk_free_memslice at h
  split at h
  · simp at h
  · rename_i sq hq
    have hded := (hI.2.2.1 _ sq hq).2.1
    have hlt := get_slab_lt vk _ sq hq
    split at h
    · simp only [hded] at h
      simp at h
      subst h
      have hset : ∀ (a b : vk_slab), set_slab (set_slab vk slice.priv a) slice.priv b
          = set_slab vk slice.priv b := by
        intro a b; simp [set_slab]
      rw [hset, get_slab_set_slab vk slice.priv p _ hlt]
      by_cases hpq : p = slice.priv
      · rw [if_pos hpq]
        rw [hpq, hq] at hp
        simp only [Option.some.injEq] at hp
        subst hp
        exact ⟨_, rfl, rfl, Nat.le_add_right _ _⟩
      · rw [if_neg hpq]; exact ⟨slab, hp, rfl, le_refl _⟩
    · simp at h

theorem Steps_slab_elided (vk : mpvk_ctx) (live : List vk_memslice) (vk1 : mpvk_ctx)
    (live1 : List vk_memslice) (h : Reachable vk live) (hs : Steps vk live vk1 live1)
    (p : Nat) (slab : vk_slab) (hp : get_slab vk p = some slab) :
    ∃ slab1, get_slab vk1 p = some slab1 ∧ slab1.size = slab.size ∧
      slab.elided ≤ slab1.elided := by
  induction hs with
  | refl => exact ⟨slab, hp, rfl, le_refl _⟩
  | malloc vk1 live1 drv req k vk2 out _ hk ha hsz hrun ih =>
    obtain ⟨s1, g1, g2, g5⟩ := ih
    obtain ⟨s2, g3, g4, g6⟩ := run_slab_elided vk1 drv req vk2 out hrun p s1 g1
    exact ⟨s2, g3, by rw [g4, g2], le_trans g5 g6⟩
  | free vk1 live1 slice vk2 hst hmem hfree ih =>
    obtain ⟨s1, g1, g2, g5⟩ := ih
    have hI := Reachable_Inv vk1 live1 (Steps_Reachable vk live vk1 live1 h hst)
    obtain ⟨s2, g3, g4, g6⟩ := free_slab_elided vk1 live1 slice vk2 hI hfree p s1 g1
    exact ⟨s2, g3, by rw [g4, g2], le_trans g5 g6⟩

/-- Claim C33. In every reachable state every slab satisfies
`used + (sum of region_len over its region list) <= size`: the free map never
reports more free space than there is. The bytes that are neither in use nor
in the free map, `size - used - sum`, never become fewer in any later state
(whatever is allocated or freed afterwards): bytes lost to a dropped region are
not recovered. -/
theorem free_map_under_reports (vk : mpvk_ctx) (live : List vk_memslice)
    (h : Reachable vk live) (p : Nat) (slab : vk_slab) (hp : get_slab vk p = some slab) :
    slab.used + free_bytes slab.regions ≤ slab.size ∧
    ∀ vk1 live1, Steps vk live vk1 live1 →
      ∃ slab1, get_slab vk1 p = some slab1 ∧ slab1.size = slab.size ∧
        slab1.used + free_bytes slab1.regions ≤ slab1.size ∧
        slab.size - slab.used - free_bytes slab.regions
          ≤ slab1.size - slab1.used - free_bytes slab1.regions := by
  have hI := Reachable_Inv vk live h
  obtain ⟨s1, _, s3, _, s5, _⟩ := hI.2.2.1 p slab hp
  have e0 := free_bytes_eq slab.size slab.regions s1 s3.2
  refine ⟨by omega, ?_⟩
  intro vk1 live1 hst
  obtain ⟨slab1, g1, g2, g3⟩ := Steps_slab_elided vk live vk1 live1 h hst p slab hp
  have hI1 := Reachable_Inv vk1 live1 (Steps_Reachable vk live vk1 live1 h hst)
  obtain ⟨t1, _, t3, _, t5, _⟩ := hI1.2.2.1 p slab1 g1
  have e1 := free_bytes_eq slab1.size slab1.regions t1 t3.2
  exact ⟨slab1, g1, g2, by omega, by omega⟩

theorem free_map_under_reports_witness :
    Reachable demo_ctx3 [demo_slice_b] ∧ get_slab demo_ctx3 0 = some demo_slab3 ∧
    (demo_slab3.used + free_bytes demo_slab3.regions ≤ demo_slab3.size ∧
    ∀ vk1 live1, Steps demo_ctx3 [demo_slice_b] vk1 live1 →
      ∃ slab1, get_slab vk1 0 = some slab1 ∧ slab1.size = demo_slab3.size ∧
        slab1.used + free_bytes slab1.regions ≤ slab1.size ∧
        demo_slab3.size - demo_slab3.used - free_bytes demo_slab3.regions
          ≤ slab1.size - slab1.used - free_bytes slab1.regions) :=
  ⟨demo_ctx3_reachable, rfl,
    free_map_under_reports demo_ctx3 _ demo_ctx3_reachable 0 demo_slab3 rfl⟩

theorem heap_sizes_ok_store (vk vk1 : mpvk_ctx) (hp : vk_heap)
    (hst : ∀ p slab, get_slab vk p = some slab →
      ∃ slab1, get_slab vk1 p = some slab1 ∧ slab1.size = slab.size)
    (hok : heap_sizes_ok vk hp) : heap_sizes_ok vk1 hp := by
  obtain ⟨h1, h2⟩ := hok
  have heq : heap_slab_sizes vk1 hp = heap_slab_sizes vk hp := by
    unfold heap_slab_sizes
    apply List.map_congr_left
    intro p hpm
    obtain ⟨slab, hs, _⟩ := h1 p hpm
    obtain ⟨slab1, hs1, e⟩ := hst p slab hs
    rw [hs, hs1]
    exact e
  refine ⟨?_, by rw [heq]; exact h2⟩
  intro p hpm
  obtain ⟨slab, hs, b1, b2⟩ := h1 p hpm
  obtain ⟨slab1, hs1, e⟩ := hst p slab hs
  exact ⟨slab1, hs1, by rw [e]; exact b1, by rw [e]; exact b2⟩

theorem heap_sizes_ok_nil (vk : mpvk_ctx) (hp : vk_heap) (h : hp.slabs = []) :
    heap_sizes_ok vk hp := by
  unfold heap_sizes_ok heap_slab_sizes
  rw [h]
  simp

/-- The variable `slab` after the loop of `heap_get_region`, when no region
was found: it points to the last slab of the heap. -/
theorem search_slabs_last (vk : mpvk_ctx) (size align : Nat) (ps : List Nat)
    (last0 last : Option vk_slab)
    (h : search_slabs vk size align last0 ps = some (none, last)) :
    slab_size_or_zero last =
      if ps = [] then slab_size_or_zero last0 else last_slab_size vk ps := by
  induction ps generalizing last0 with
  | nil =>
    simp only [search_slabs, Option.some.injEq, Prod.mk.injEq, true_and] at h
    rw [h]; simp
  | cons p ps ih =>
    rw [if_neg (List.cons_ne_nil _ _)]
    unfold search_slabs at h
    cases hs : get_slab vk p with
    | none => simp [hs] at h
    | some slab =>
      simp only [hs] at h
      have key : search_slabs vk size align (some slab) ps = some (none, last) := by
        split at h
        · exact h
        · split at h
          · simp at h
          · exact h
      rw [ih (some slab) key]
      cases ps with
      | nil => simp [last_slab_size, slab_size_or_zero, hs]
      | cons q qs =>
        rw [if_neg (List.cons_ne_nil _ _)]
        simp [last_slab_size, List.getLast?_cons_cons]

theorem last_slab_size_mem (vk : mpvk_ctx) (ps : List Nat) (hne : ps ≠ []) :
    ∃ q ∈ ps, last_slab_size vk ps = slab_size_or_zero (get_slab vk q) := by
  cases hl : ps.getLast? with
  | none => exact absurd (List.getLast?_eq_none_iff.1 hl) hne
  | some q =>
    refine ⟨q, List.mem_of_getLast?_eq_some hl, ?_⟩
    unfold last_slab_size
    rw [hl]
    simp only []
    cases hq : get_slab vk q <;> simp [slab_size_or_zero]

theorem sizes_le_last (vk : mpvk_ctx) (ps : List Nat)
    (hpw : (ps.map (fun p => slab_size_or_zero (get_slab vk p))).Pairwise (fun a b => a ≤ b))
    (p : Nat) (hp : p ∈ ps) :
    slab_size_or_zero (get_slab vk p) ≤ last_slab_size vk ps := by
  induction ps with
  | nil => simp at hp
  | cons a rest ih =>
    simp only [List.map_cons, List.pairwise_cons] at hpw
    cases rest with
    | nil =>
      simp only [List.mem_singleton] at hp
      rw [hp]
      simp only [last_slab_size, List.getLast?_singleton]
      cases get_slab vk a <;> simp [slab_size_or_zero]
    | cons b rest2 =>
      have hl : last_slab_size vk (a :: b :: rest2) = last_slab_size vk (b :: rest2) := by
        simp [last_slab_size, List.getLast?_cons_cons]
      rw [hl]
      rcases List.mem_cons.1 hp with e | e
      · obtain ⟨q, hq, hq2⟩ := last_slab_size_mem vk (b :: rest2) (List.cons_ne_nil _ _)
        rw [hq2, e]
        exact hpw.1 _ (List.mem_map_of_mem _ hq)
      · exact ih hpw.2 e

theorem new_slab_size_ge (size : Nat) (last : Option vk_slab)
    (hsz : size ≤ MPVK_HEAP_MAXIMUM_SLAB_SIZE)
    (hb : slab_size_or_zero last ≤ MPVK_HEAP_MAXIMUM_SLAB_SIZE) :
    MPVK_HEAP_MINIMUM_SLAB_SIZE ≤ new_slab_size size last ∧
    new_slab_size size last ≤ MPVK_HEAP_MAXIMUM_SLAB_SIZE ∧
    slab_size_or_zero last ≤ new_slab_size size last := by
  rw [(new_slab_size_eq size last hsz hb).1]
  unfold grown_slab_size
  unfold MPVK_HEAP_MAXIMUM_SLAB_SIZE at hsz hb ⊢
  unfold MPVK_HEAP_MINIMUM_SLAB_SIZE
  generalize slab_size_or_zero last = x at hb ⊢
  simp only [Nat.min_def, Nat.max_def]
  split_ifs <;> omega

theorem find_heap_get_heap_inv (ma : vk_malloc) (type : Option Nat) (usage : Nat)
    (h : Nat × Nat) (hp : vk_heap)
    (hg : get_heap (find_heap ma type usage).1 h = some hp) :
    get_heap ma h = some hp ∨ hp.slabs = [] := by
  cases type with
  | none => exact Or.inl hg
  | some ti =>
    cases ht : ma.types.get? ti with
    | none =>
      unfold find_heap at hg
      simp only [ht] at hg
      exact Or.inl hg
    | some t =>
      obtain ⟨ma1, hi, t1, hp1, f1, _, _, _, _, _, _, f8⟩ := find_heap_effect ma ti usage t ht
      rw [f1] at hg
      rcases f8 with e | ⟨e1, e2, e3⟩
      · rw [e] at hg; exact Or.inl hg
      · rw [e3, get_heap_set_types ma ti t _ ht h] at hg
        by_cases e : h.1 = ti
        · rw [if_pos e] at hg
          simp only [List.get?_eq_getElem?] at hg
          by_cases hlt : h.2 < t.heaps.length
          · rw [List.getElem?_append_left hlt] at hg
            left
            unfold get_heap
            rw [e, ht]
            simpa using hg
          · rw [List.getElem?_append_right (by omega)] at hg
            right
            have hz : h.2 - t.heaps.length = 0 := by
              by_contra hc
              rw [List.getElem?_eq_none (by simp; omega)] at hg
              simp at hg
            rw [hz] at hg
            simp only [List.getElem?_cons_zero, Option.some.injEq] at hg
            rw [← hg, e2]
            rfl
        · rw [if_neg e] at hg; exact Or.inl hg

theorem append_slab_get_heap_inv (ma : vk_malloc) (h : Nat × Nat) (p : Nat)
    (h1 : Nat × Nat) (hp1 : vk_heap)
    (hg : get_heap (heap_append_slab ma h p) h1 = some hp1) :
    get_heap ma h1 = some hp1 ∨
      ∃ hp0, get_heap ma h = some hp0 ∧ hp1 = { hp0 with slabs := hp0.slabs ++ [p] } := by
  unfold heap_append_slab at hg
  split at hg
  · exact Or.inl hg
  · rename_i t ht
    split at hg
    · exact Or.inl hg
    · rename_i heap hheap
      simp only [] at hg
      rw [get_heap_set_types ma h.1 t _ ht h1] at hg
      by_cases e : h1.1 = h.1
      · rw [if_pos e] at hg
        simp only [List.get?_eq_getElem?, List.getElem?_set] at hg
        by_cases e2 : h.2 = h1.2
        · rw [if_pos e2] at hg
          split at hg
          · right
            refine ⟨heap, ?_, ?_⟩
            · unfold get_heap; rw [ht]; exact hheap
            · simp only [Option.some.injEq] at hg
              exact hg.symm
          · simp at hg
        · rw [if_neg e2] at hg
          left
          unfold get_heap
          rw [e, ht]
          simpa using hg
      · rw [if_neg e] at hg; exact Or.inl hg

theorem sizes_inv_same (vk vk1 : mpvk_ctx) (ha : vk1.alloc = vk.alloc)
    (hst : ∀ p slab, get_slab vk p = some slab →
      ∃ slab1, get_slab vk1 p = some slab1 ∧ slab1.size = slab.size)
    (h : sizes_inv vk) : sizes_inv vk1 := by
  obtain ⟨ma, hma, hall⟩ := h
  exact ⟨ma, by rw [ha, hma], fun h hp hg => heap_sizes_ok_store vk vk1 hp hst (hall h hp hg)⟩

theorem select_heap_sizes (vk : mpvk_ctx) (flags : Nat) (reqs : Option Nat) (usage : Nat)
    (vk0 : mpvk_ctx) (heap : Option (Nat × Nat))
    (hsel : select_heap vk flags reqs usage = some (vk0, heap)) (h : sizes_inv vk) :
    sizes_inv vk0 := by
  obtain ⟨ma, hma, hall⟩ := h
  have hs := select_heap_slabs _ _ _ _ _ _ hsel
  unfold select_heap at hsel
  simp only [hma, Option.some.injEq, Prod.mk.injEq] at hsel
  obtain ⟨hvk0, _⟩ := hsel
  refine ⟨_, by rw [← hvk0], ?_⟩
  intro h1 hp hg
  rcases find_heap_get_heap_inv ma _ _ h1 hp hg with e | e
  · apply heap_sizes_ok_store vk vk0 hp _ (hall h1 hp e)
    intro p slab hps
    refine ⟨slab, ?_, rfl⟩
    unfold get_slab at *
    rw [hs]; exact hps
  · exact heap_sizes_ok_nil vk0 hp e

theorem heap_get_region_sizes (vk : mpvk_ctx) (drv : vk_driver)
    (heap : Option (Nat × Nat)) (size align : Nat) (vk2 : mpvk_ctx)
    (r : Option (Nat × Nat))
    (hgr : heap_get_region vk drv heap size align = some (vk2, r)) (h : sizes_inv vk) :
    sizes_inv vk2 := by
  have hstore := heap_get_region_store _ _ _ _ _ _ _ hgr
  have hst : ∀ p slab, get_slab vk p = some slab →
      ∃ slab1, get_slab vk2 p = some slab1 ∧ slab1.size = slab.size :=
    fun p slab hp => ⟨slab, get_slab_store vk vk2 p slab hp hstore, rfl⟩
  cases heap with
  | none =>
    simp [heap_get_region] at hgr
    rw [← hgr.1]; exact h
  | some hh =>
    obtain ⟨ma, type, hp, hma, htype, hheap⟩ := heap_get_region_valid _ _ _ _ _ _ hgr
    have hout := heap_get_region_effect vk drv hh size align vk2 r ma type hp hma htype hheap hgr
    obtain ⟨ma0, hma0, hall⟩ := h
    rw [hma] at hma0
    simp only [Option.some.injEq] at hma0
    subst hma0
    have hsame : vk2.alloc = vk.alloc → sizes_inv vk2 := fun ha =>
      sizes_inv_same vk vk2 ha hst ⟨ma, hma, hall⟩
    cases hout with
    | found p idx last _ _ => exact ⟨ma, hma, hall⟩
    | failed sz vk3 hsa => exact hsame (slab_alloc_spec _ _ _ _ _ _ _ hsa).1
    | oversized vk3 p _ hsa => exact hsame (slab_alloc_spec _ _ _ _ _ _ _ hsa).1
    | grown vk3 p last hsmall hsearch hge hsa =>
      obtain ⟨_, _, a3⟩ := slab_alloc_spec _ _ _ _ _ _ _ hsa
      rcases a3 with ⟨a3, _⟩ | ⟨a3, slab, a4, a5, _⟩
      · simp at a3
      simp only [Option.some.injEq] at a3
      obtain ⟨vk2, hvk2⟩ : ∃ vkn : mpvk_ctx,
          vkn = { vk3 with alloc := some (heap_append_slab ma hh p) } := ⟨_, rfl⟩
      rw [← hvk2] at hst hstore ⊢
      have hsl2 : vk2.slabs = vk3.slabs := by rw [hvk2]
      have hal2 : vk2.alloc = some (heap_append_slab ma hh p) := by rw [hvk2]
      have hgh : get_heap ma hh = some hp := by
        unfold get_heap; rw [htype]; exact hheap
      have hok := hall hh hp hgh
      have hnew : get_slab vk2 p = some slab := by
        have : vk2.slabs = vk.slabs ++ [some slab] := by rw [hsl2]; exact a4
        rw [get_slab_append vk vk2 (some slab) this p, if_pos a3]
      have hlast := search_slabs_last vk size align hp.slabs none last hsearch
      have hb : slab_size_or_zero last ≤ MPVK_HEAP_MAXIMUM_SLAB_SIZE := by
        rw [hlast]
        split
        · simp [slab_size_or_zero]
        · rename_i hne
          obtain ⟨q, hq, e⟩ := last_slab_size_mem vk hp.slabs hne
          obtain ⟨sq, hsq, _, b2⟩ := hok.1 q hq
          rw [e, hsq]; exact b2
      obtain ⟨n1, n2, n3⟩ := new_slab_size_ge size last hsmall hb
      refine ⟨_, hal2, ?_⟩
      intro h1 hp1 hg
      rcases append_slab_get_heap_inv ma hh p h1 hp1 hg with e | ⟨hp0, e1, e2⟩
      · exact heap_sizes_ok_store vk _ hp1 hst (hall h1 hp1 e)
      · rw [hgh] at e1
        simp only [Option.some.injEq] at e1
        subst e1
        have hok2 := heap_sizes_ok_store vk vk2 hp hst hok
        rw [e2]
        refine ⟨?_, ?_⟩
        · intro q hq
          simp only [List.mem_append, List.mem_singleton] at hq
          rcases hq with hq | hq
          · exact hok2.1 q hq
          · rw [hq]
            exact ⟨slab, hnew, by rw [a5]; exact n1, by rw [a5]; exact n2⟩
        · unfold heap_slab_sizes
          simp only [List.map_append, List.map_cons, List.map_nil]
          rw [List.pairwise_append]
          refine ⟨hok2.2, List.pairwise_singleton _ _, ?_⟩
          intro a ha b hb2
          simp only [List.mem_singleton] at hb2
          simp only [List.mem_map] at ha
          obtain ⟨q, hq, hqa⟩ := ha
          have hne : hp.slabs ≠ [] := List.ne_nil_of_mem hq
          rw [if_neg hne] at hlast
          have hle := sizes_le_last vk hp.slabs hok.2 q hq
          obtain ⟨sq, hsq, _⟩ := hok.1 q hq
          have hsq2 := get_slab_store vk vk2 q sq hsq hstore
          rw [hb2, ← hqa, hnew, hsq2]
          rw [hsq, ← hlast] at hle
          have hle2 : sq.size ≤ slab_size_or_zero last := hle
          show sq.size ≤ slab.size
          rw [a5]
          omega

theorem run_sizes_inv (vk : mpvk_ctx) (drv : vk_driver) (req : vk_request) (vk1 : mpvk_ctx)
    (out : Option vk_memslice) (hrun : req.run vk drv = some (vk1, out))
    (h : sizes_inv vk) : sizes_inv vk1 := by
  obtain ⟨vk0, heap, hsel, hsl⟩ := run_effect vk drv req vk1 out hrun
  have h0 := select_heap_sizes _ _ _ _ _ _ hsel h
  obtain ⟨vk2, r, hgr, hcase⟩ := slice_heap_effect _ _ _ _ _ _ _ hsl
  have h2 := heap_get_region_sizes _ _ _ _ _ _ _ hgr h0
  rcases hcase with ⟨_, _, e3⟩ | ⟨q, idx, sq, reg, _, e2, _, _, e5⟩
  · rw [e3]; exact h2
  · rw [e5]
    refine sizes_inv_same vk2 (set_slab vk2 q _) rfl ?_ h2
    intro p slab hp
    rw [get_slab_set_slab vk2 q p _ (get_slab_lt vk2 q sq e2)]
    by_cases hpq : p = q
    · rw [if_pos hpq]
      rw [hpq, e2] at hp
      simp only [Option.some.injEq] at hp
      subst hp
      exact ⟨_, rfl, rfl⟩
    · rw [if_neg hpq]; exact ⟨slab, hp, rfl⟩

theorem Reachable_sizes_inv (vk : mpvk_ctx) (live : List vk_memslice)
    (hr : Reachable vk live) : sizes_inv vk := by
  induction hr with
  | init vk0 prop g hg hgv hs hlen =>
    refine ⟨_, rfl, ?_⟩
    intro h hp hg
    apply heap_sizes_ok_nil
    unfold get_heap at hg
    simp only [init_types_get] at hg
    cases hpr : prop.get? h.1 with
    | none => rw [hpr] at hg; simp at hg
    | some m => rw [hpr] at hg; simp at hg
  | malloc vk live drv req k vk1 out _ hk ha hsz hrun ih =>
    exact run_sizes_inv vk drv req vk1 out hrun ih
  | free vk live slice vk1 hr hs hfree ih =>
    have hI := Reachable_Inv vk live hr
    exact sizes_inv_same vk vk1 (free_alloc vk live slice vk1 hI hfree)
      (fun p slab hp => free_slab_size vk live slice vk1 hI hfree p slab hp) ih

theorem ff_ctx3_reachable : Reachable ff_ctx3 [ff_slice_c, ff_slice_b, ff_slice_a] :=
  have r0 : Reachable demo_init [] :=
    Reachable.init demo_vk0 _ 0 (by decide) rfl rfl (by decide)
  have r1 : Reachable ff_ctx1 [ff_slice_a] :=
    Reachable.malloc demo_init [] demo_drv (gen_req 1048576 1) 0 ff_ctx1 (some ff_slice_a) r0
      (by decide) rfl (by decide) rfl
  have r2 : Reachable ff_ctx2 [ff_slice_b, ff_slice_a] :=
    Reachable.malloc ff_ctx1 [ff_slice_a] demo_drv (gen_req 3145728 1) 0 ff_ctx2
      (some ff_slice_b) r1 (by decide) rfl (by decide) rfl
  Reachable.malloc ff_ctx2 [ff_slice_b, ff_slice_a] demo_drv (gen_req 4096 1) 0 ff_ctx3
    (some ff_slice_c) r2 (by decide) rfl (by decide) rfl

/-- Claim C34. In every reachable state, for every heap of every memory type:
every slab linked into `heap.slabs` exists and has a size between
`MPVK_HEAP_MINIMUM_SLAB_SIZE` (2^20) and `MPVK_HEAP_MAXIMUM_SLAB_SIZE` (2^29)
inclusive, and the sizes of the slabs do not decrease along `heap.slabs`: each
slab is at least as large as every slab before it, in particular as the one
just before it. -/
theorem heap_slab_sizes_sorted (vk : mpvk_ctx) (live : List vk_memslice)
    (h : Reachable vk live) :
    ∃ ma, vk.alloc = some ma ∧ ∀ t ∈ ma.types, ∀ hp ∈ t.heaps,
      (∀ p ∈ hp.slabs, ∃ slab, get_slab vk p = some slab ∧
        2 ^ 20 ≤ slab.size ∧ slab.size ≤ 2 ^ 29) ∧
      (heap_slab_sizes vk hp).Pairwise (fun a b => a ≤ b) ∧
      (heap_slab_sizes vk hp).Chain' (fun a b => a ≤ b) := by
  obtain ⟨ma, hma, hall⟩ := Reachable_sizes_inv vk live h
  refine ⟨ma, hma, ?_⟩
  intro t ht hp hhp
  obtain ⟨i, hi⟩ := List.mem_iff_get?.1 ht
  obtain ⟨j, hj⟩ := List.mem_iff_get?.1 hhp
  have hg : get_heap ma (i, j) = some hp := by
    unfold get_heap
    simp only [hi]
    exact hj
  obtain ⟨h1, h2⟩ := hall (i, j) hp hg
  exact ⟨h1, h2, h2.chain'⟩

theorem heap_slab_sizes_sorted_witness :
    Reachable ff_ctx3 [ff_slice_c, ff_slice_b, ff_slice_a] ∧
    ff_ctx3.alloc = some ff_alloc ∧
    heap_slab_sizes ff_ctx3 ff_heap = [4194304, 16777216] ∧
    ∃ ma, ff_ctx3.alloc = some ma ∧ ∀ t ∈ ma.types, ∀ hp ∈ t.heaps,
      (∀ p ∈ hp.slabs, ∃ slab, get_slab ff_ctx3 p = some slab ∧
        2 ^ 20 ≤ slab.size ∧ slab.size ≤ 2 ^ 29) ∧
      (heap_slab_sizes ff_ctx3 hp).Pairwise (fun a b => a ≤ b) ∧
      (heap_slab_sizes ff_ctx3 hp).Chain' (fun a b => a ≤ b) :=
  ⟨ff_ctx3_reachable, rfl, rfl, heap_slab_sizes_sorted ff_ctx3 _ ff_ctx3_reachable⟩

theorem sum_map_set (l : List vk_memtype) (f : vk_memtype → Nat) (i : Nat)
    (t t1 : vk_memtype) (ht : l.get? i = some t) :
    ((l.set i t1).map f).sum + f t = (l.map f).sum + f t1 := by
  induction l generalizing i with
  | nil => simp at ht
  | cons a rest ih =>
    cases i with
    | zero =>
      simp only [List.get?_cons_zero, Option.some.injEq] at ht
      subst ht
      simp only [List.set_cons_zero, List.map_cons, List.sum_cons]
      omega
    | succ j =>
      simp only [List.get?_cons_succ] at ht
      have := ih j ht
      simp only [List.set_cons_succ, List.map_cons, List.sum_cons]
      omega

theorem find_heap_count (ma : vk_malloc) (type : Option Nat) (usage : Nat) :
    (find_heap ma type usage).1.types.length = ma.types.length ∧
    heap_count (find_heap ma type usage).1 ≤ heap_count ma + 1 := by
  unfold find_heap
  split
  · exact ⟨rfl, Nat.le_succ _⟩
  · split
    · exact ⟨rfl, Nat.le_succ _⟩
    · rename_i ti _ t ht
      split
      · exact ⟨rfl, Nat.le_succ _⟩
      · refine ⟨by simp, ?_⟩
        unfold heap_count
        have := sum_map_set ma.types (fun t => t.heaps.length) ti t
          { t with heaps := t.heaps ++ [heap_init usage] } ht
        simp only [List.length_append, List.length_singleton] at this
        simp only []
        omega

theorem heap_append_slab_count (ma : vk_malloc) (h : Nat × Nat) (p : Nat) :
    (heap_append_slab ma h p).types.length = ma.types.length ∧
    heap_count (heap_append_slab ma h p) = heap_count ma ∧
    (heap_slabs (heap_append_slab ma h p)).length ≤ (heap_slabs ma).length + 1 := by
  refine ⟨?_, ?_, ?_⟩
  · unfold heap_append_slab
    split
    · rfl
    · split
      · rfl
      · simp
  · unfold heap_append_slab
    split
    · rfl
    · rename_i t ht
      split
      · rfl
      · rename_i heap hheap
        unfold heap_count
        have := sum_map_set ma.types (fun t => t.heaps.length) h.1 t
          { t with heaps := t.heaps.set h.2 { heap with slabs := heap.slabs ++ [p] } } ht
        simp only [List.length_set] at this
        simp only []
        omega
  · rcases heap_slabs_append ma h p with e | e
    · rw [e]; omega
    · rw [e.length_eq]; simp

theorem append_slab_get_heap (ma : vk_malloc) (h : Nat × Nat) (p : Nat)
    (h1 : Nat × Nat) (hp : vk_heap) (hg : get_heap ma h1 = some hp) :
    ∃ hp1, get_heap (heap_append_slab ma h p) h1 = some hp1 ∧ heap_extends hp hp1 := by
  unfold heap_append_slab
  split
  · exact ⟨hp, hg, rfl, Or.inl rfl⟩
  · rename_i t ht
    split
    · exact ⟨hp, hg, rfl, Or.inl rfl⟩
    · rename_i heap hheap
      simp only []
      rw [get_heap_set_types ma h.1 t _ ht h1]
      by_cases e : h1.1 = h.1
      · rw [if_pos e]
        unfold get_heap at hg
        rw [e, ht] at hg
        simp only [] at hg
        have hlt : h1.2 < t.heaps.length := by
          by_contra hc
          have : t.heaps.get? h1.2 = none := by rw [List.get?_eq_none]; omega
          rw [this] at hg; simp at hg
        simp only [List.get?_eq_getElem?, List.getElem?_set]
        by_cases e2 : h.2 = h1.2
        · rw [if_pos e2, if_pos (by rw [e2]; exact hlt)]
          rw [e2, hg] at hheap
          simp only [Option.some.injEq] at hheap
          subst hheap
          exact ⟨_, rfl, rfl, Or.inr ⟨p, rfl⟩⟩
        · rw [if_neg e2]
          exact ⟨hp, by simpa using hg, rfl, Or.inl rfl⟩
      · rw [if_neg e]
        exact ⟨hp, hg, rfl, Or.inl rfl⟩

/-- What a call of `vk_free_memslice` on a slice of a slab that is not
dedicated changes: `used` and the region list of that slab. -/
theorem free_frame (vk : mpvk_ctx) (slice : vk_memslice) (vk1 : mpvk_ctx) (slab : vk_slab)
    (hfree : vk_free_memslice vk slice = some vk1)
    (hslab : get_slab vk slice.priv = some slab) (hded : slab.dedicated = false) :
    vk1.alloc = vk.alloc ∧ vk1.calls = vk.calls ∧
    vk1.bufferImageGranularity = vk.bufferImageGranularity ∧
    vk1.slabs.length = vk.slabs.length ∧
    (∀ q, q ≠ slice.priv → get_slab vk1 q = get_slab vk q) ∧
    ∃ slab1, get_slab vk1 slice.priv = some slab1 ∧ slab_frame slab slab1 ∧
      slab1.used = slab.used - slice.size ∧
      slab1.regions = insert_region slab.regions
        { start := slice.offset, end_ := (slice.offset + slice.size) % SIZE_MOD } := by
  have hlt := get_slab_lt vk _ slab hslab
  unfold vk_free_memslice at hfree
  simp only [hslab] at hfree
  split at hfree
  · simp only [hded] at hfree
    simp at hfree
    subst hfree
    have hset : ∀ (a b : vk_slab), set_slab (set_slab vk slice.priv a) slice.priv b
        = set_slab vk slice.priv b := by
      intro a b; simp [set_slab]
    rw [hset]
    refine ⟨rfl, rfl, rfl, by simp [set_slab], ?_, ?_⟩
    · intro q hq
      by_cases hql : q < vk.slabs.length
      · cases hg : get_slab vk q with
        | none =>
          unfold get_slab set_slab at *
          simp only [List.get?_eq_getElem?] at hg ⊢
          rw [List.getElem?_set_ne (fun e => hq e.symm)]
          exact hg
        | some sq =>
          rw [get_slab_set_slab vk slice.priv q _ hlt, if_neg hq]
          exact hg
      · unfold get_slab set_slab
        simp only [List.get?_eq_getElem?]
        rw [List.getElem?_eq_none (by simp; omega), List.getElem?_eq_none (by omega)]
    · rw [get_slab_set_slab vk slice.priv _ _ hlt, if_pos rfl]
      exact ⟨_, rfl, ⟨rfl, rfl, hded.symm, rfl, rfl⟩, rfl, rfl⟩
  · simp at hfree

/-- What a successful allocation changes in the slab store: at most one entry
is appended, and of the slabs there were only the one of the slice changes,
and that only in `used` and its region list. -/
theorem run_frame_slabs (vk : mpvk_ctx) (drv : vk_driver) (req : vk_request) (vk1 : mpvk_ctx)
    (s : vk_memslice) (hrun : req.run vk drv = some (vk1, some s)) :
    (vk1.slabs.length = vk.slabs.length ∨ vk1.slabs.length = vk.slabs.length + 1) ∧
    (∀ q slab, get_slab vk q = some slab → q ≠ s.priv → get_slab vk1 q = some slab) ∧
    (∀ slab, get_slab vk s.priv = some slab →
      ∃ slab1, get_slab vk1 s.priv = some slab1 ∧ slab_frame slab slab1) := by
  obtain ⟨vk0, heap, hsel, hsl⟩ := run_effect vk drv req vk1 (some s) hrun
  have hs0 := select_heap_slabs _ _ _ _ _ _ hsel
  have hp0 : ∀ q slab, get_slab vk q = some slab → get_slab vk0 q = some slab := by
    intro q slab hq
    unfold get_slab at *
    rw [hs0]; exact hq
  obtain ⟨vk2, r, hgr, hcase⟩ := slice_heap_effect _ _ _ _ _ _ _ hsl
  have hstore := heap_get_region_store _ _ _ _ _ _ _ hgr
  rcases hcase with ⟨_, e2, _⟩ | ⟨q, idx, sq, reg, _, e2, _, e4, e5⟩
  · simp at e2
  · simp only [Option.some.injEq] at e4
    have hq : s.priv = q := by rw [e4]
    have hlt := get_slab_lt vk2 q sq e2
    refine ⟨?_, ?_, ?_⟩
    · rw [e5, set_slab_length]
      rcases hstore with h | h | ⟨x, n, h, _⟩
      · left; rw [h, hs0]
      · right; rw [h, hs0]; simp
      · right; rw [h, hs0]; simp
    · intro p slab hp hne
      rw [e5, get_slab_set_slab vk2 q p _ hlt, if_neg (by rw [← hq]; exact hne)]
      exact get_slab_store vk0 vk2 p slab (hp0 p slab hp) hstore
    · intro slab hp
      have h2 := get_slab_store vk0 vk2 _ slab (hp0 _ slab hp) hstore
      rw [hq, e2] at h2
      simp only [Option.some.injEq] at h2
      subst h2
      rw [e5, hq, get_slab_set_slab vk2 q q _ hlt, if_pos rfl]
      exact ⟨_, rfl, ⟨rfl, rfl, rfl, rfl, rfl⟩⟩

/-- What an allocation changes in the tree of memory types and heaps: at most
one heap is added and at most one slab is linked, and every heap there was
keeps its place, its usage and its slabs, with at most one slab appended. -/
theorem run_frame_alloc (vk : mpvk_ctx) (drv : vk_driver) (req : vk_request) (vk1 : mpvk_ctx)
    (out : Option vk_memslice) (ma : vk_malloc) (hma : vk.alloc = some ma)
    (hrun : req.run vk drv = some (vk1, out)) :
    ∃ ma1, vk1.alloc = some ma1 ∧ ma1.types.length = ma.types.length ∧
      heap_count ma1 ≤ heap_count ma + 1 ∧
      (heap_slabs ma1).length ≤ (heap_slabs ma).length + 1 ∧
      ∀ h hp, get_heap ma h = some hp →
        ∃ hp1, get_heap ma1 h = some hp1 ∧ heap_extends hp hp1 := by
  obtain ⟨type, usage, e | ⟨h, p, e⟩⟩ := run_alloc vk drv req vk1 out ma hma hrun
  · refine ⟨_, e, (find_heap_count ma type usage).1, (find_heap_count ma type usage).2, ?_, ?_⟩
    · rw [heap_slabs_find_heap]; omega
    · intro h hp hg
      exact ⟨hp, find_heap_get_heap ma type usage h hp hg, rfl, Or.inl rfl⟩
  · obtain ⟨c1, c2, c3⟩ := heap_append_slab_count (find_heap ma type usage).1 h p
    refine ⟨_, e, ?_, ?_, ?_, ?_⟩
    · rw [c1]; exact (find_heap_count ma type usage).1
    · rw [c2]; exact (find_heap_count ma type usage).2
    · rw [heap_slabs_find_heap] at c3; exact c3
    · intro h1 hp hg
      exact append_slab_get_heap _ h p h1 hp (find_heap_get_heap ma type usage h1 hp hg)

/-- Claim C35. `vk_free_memslice` on a slice of a slab that is not dedicated
changes only `used` and the region list of that slab: the slab keeps its size,
memory handle, buffer and data pointer, every other slab is unchanged, the
allocator tree (every heap list and every slab list) is unchanged and no device
call is issued. A successful allocation appends at most one entry to the slab
store, leaves every other slab than the one of the slice unchanged and changes
that one only in `used` and its regions; the number of heaps grows by at most
one and the number of slabs linked into heaps by at most one, and every heap
there was keeps its place and usage, with at most one slab appended to its
slab list. -/
theorem free_and_alloc_frame :
    (∀ (vk : mpvk_ctx) (slice : vk_memslice) (vk1 : mpvk_ctx) (slab : vk_slab),
      vk_free_memslice vk slice = some vk1 →
      get_slab vk slice.priv = some slab → slab.dedicated = false →
      vk1.alloc = vk.alloc ∧ vk1.calls = vk.calls ∧
      vk1.bufferImageGranularity = vk.bufferImageGranularity ∧
      vk1.slabs.length = vk.slabs.length ∧
      (∀ q, q ≠ slice.priv → get_slab vk1 q = get_slab vk q) ∧
      ∃ slab1, get_slab vk1 slice.priv = some slab1 ∧ slab_frame slab slab1 ∧
        slab1.used = slab.used - slice.size ∧
        slab1.regions = insert_region slab.regions
          { start := slice.offset, end_ := (slice.offset + slice.size) % SIZE_MOD }) ∧
    (∀ (vk : mpvk_ctx) (drv : vk_driver) (req : vk_request) (vk1 : mpvk_ctx)
      (s : vk_memslice) (ma : vk_malloc),
      vk.alloc = some ma → req.run vk drv = some (vk1, some s) →
      (vk1.slabs.length = vk.slabs.length ∨ vk1.slabs.length = vk.slabs.length + 1) ∧
      (∀ q slab, get_slab vk q = some slab → q ≠ s.priv → get_slab vk1 q = some slab) ∧
      (∀ slab, get_slab vk s.priv = some slab →
        ∃ slab1, get_slab vk1 s.priv = some slab1 ∧ slab_frame slab slab1) ∧
      ∃ ma1, vk1.alloc = some ma1 ∧ ma1.types.length = ma.types.length ∧
        heap_count ma1 ≤ heap_count ma + 1 ∧
        (heap_slabs ma1).length ≤ (heap_slabs ma).length + 1 ∧
        ∀ h hp, get_heap ma h = some hp →
          ∃ hp1, get_heap ma1 h = some hp1 ∧ heap_extends hp hp1) := by
  refine ⟨free_frame, ?_⟩
  intro vk drv req vk1 s ma hma hrun
  obtain ⟨a1, a2, a3⟩ := run_frame_slabs vk drv req vk1 s hrun
  exact ⟨a1, a2, a3, run_frame_alloc vk drv req vk1 (some s) ma hma hrun⟩

/-- Witness of C35: the free of `demo_slice_a` in `demo_ctx2` and the request
that leads from `demo_ctx1` to `demo_ctx2`. -/
theorem free_and_alloc_frame_witness :
    (vk_free_memslice demo_ctx2 demo_slice_a = some demo_ctx3 ∧
      get_slab demo_ctx2 demo_slice_a.priv = some demo_slab2 ∧
      demo_slab2.dedicated = false ∧
      demo_ctx3.alloc = demo_ctx2.alloc ∧
      ∃ slab1, get_slab demo_ctx3 demo_slice_a.priv = some slab1 ∧
        slab_frame demo_slab2 slab1 ∧ slab1.used = demo_slab2.used - demo_slice_a.size) ∧
    (demo_req.run demo_ctx1 demo_drv = some (demo_ctx2, some demo_slice_b) ∧
      (∀ slab, get_slab demo_ctx1 demo_slice_b.priv = some slab →
        ∃ slab1, get_slab demo_ctx2 demo_slice_b.priv = some slab1 ∧
          slab_frame slab slab1)) :=
  have f := free_and_alloc_frame.1 demo_ctx2 demo_slice_a demo_ctx3 demo_slab2 demo_free3
    rfl rfl
  have g := free_and_alloc_frame.2 demo_ctx1 demo_drv demo_req demo_ctx2 demo_slice_b
    demo_alloc rfl demo_run2
  ⟨⟨demo_free3, rfl, rfl, f.1, let ⟨x, h1, h2, h3, _⟩ := f.2.2.2.2.2; ⟨x, h1, h2, h3⟩⟩,
    ⟨demo_run2, g.2.2.1⟩⟩

/-! ## Colour enum mappings (`video/csputils.c`): the proofs -/

theorem csp_roundtrip (av : avutil_enums) (pl : placebo_enums) (h : av_distinct av)
    (c : Int) :
    (avcol_spc_to_mp_csp av pl (mp_csp_to_avcol_spc av pl c) = c ∨
      avcol_spc_to_mp_csp av pl (mp_csp_to_avcol_spc av pl c) = pl.PL_COLOR_SYSTEM_UNKNOWN) ∧
    (avcol_spc_to_mp_csp av pl (mp_csp_to_avcol_spc av pl c) = c ↔
      c ∈ mp_csp_cases pl ∨ c = pl.PL_COLOR_SYSTEM_UNKNOWN) := by
  have h1 := h.1
  have h2 := List.nodup_reverse.2 (h.1)
  simp only [List.nodup_cons, List.mem_cons, List.mem_singleton, List.not_mem_nil,
    or_false, not_or, List.nodup_nil, and_true, not_false_eq_true, List.reverse_cons,
    List.reverse_nil, List.nil_append, List.cons_append] at h1 h2
  simp only [mp_csp_to_avcol_spc, mp_csp_cases, List.mem_cons,
    List.mem_singleton, List.not_mem_nil, or_false]
  split_ifs <;>
    simp only [avcol_spc_to_mp_csp, h1, h2, if_true, if_false] <;>
    clear h h1 h2 <;>
    first
    | omega
    | (refine ⟨Or.inr trivial, fun e => Or.inr e.symm, fun e => ?_⟩; omega)

theorem levels_roundtrip (av : avutil_enums) (pl : placebo_enums) (h : av_distinct av)
    (c : Int) :
    (avcol_range_to_mp_csp_levels av pl (mp_csp_levels_to_avcol_range av pl c) = c ∨
      avcol_range_to_mp_csp_levels av pl (mp_csp_levels_to_avcol_range av pl c) = pl.PL_COLOR_LEVELS_UNKNOWN) ∧
    (avcol_range_to_mp_csp_levels av pl (mp_csp_levels_to_avcol_range av pl c) = c ↔
      c ∈ mp_levels_cases pl ∨ c = pl.PL_COLOR_LEVELS_UNKNOWN) := by
  have h1 := h.2.1
  have h2 := List.nodup_reverse.2 (h.2.1)
  simp only [List.nodup_cons, List.mem_cons, List.mem_singleton, List.not_mem_nil,
    or_false, not_or, List.nodup_nil, and_true, not_false_eq_true, List.reverse_cons,
    List.reverse_nil, List.nil_append, List.cons_append] at h1 h2
  simp only [mp_csp_levels_to_avcol_range, mp_levels_cases, List.mem_cons,
    List.mem_singleton, List.not_mem_nil, or_false]
  split_ifs <;>
    simp only [avcol_range_to_mp_csp_levels, h1, h2, if_true, if_false] <;>
    clear h h1 h2 <;>
    first
    | omega
    | (refine ⟨Or.inr trivial, fun e => Or.inr e.symm, fun e => ?_⟩; omega)

theorem prim_roundtrip (av : avutil_enums) (pl : placebo_enums) (h : av_distinct av)
    (c : Int) :
    (avcol_pri_to_mp_csp_prim av pl (mp_csp_prim_to_avcol_pri av pl c) = c ∨
      avcol_pri_to_mp_csp_prim av pl (mp_csp_prim_to_avcol_pri av pl c) = pl.PL_COLOR_PRIM_UNKNOWN) ∧
    (avcol_pri_to_mp_csp_prim av pl (mp_csp_prim_to_avcol_pri av pl c) = c ↔
      c ∈ mp_prim_cases pl ∨ c = pl.PL_COLOR_PRIM_UNKNOWN) := by
  have h1 := h.2.2.1
  have h2 := List.nodup_reverse.2 (h.2.2.1)
  simp only [List.nodup_cons, List.mem_cons, List.mem_singleton, List.not_mem_nil,
    or_false, not_or, List.nodup_nil, and_true, not_false_eq_true, List.reverse_cons,
    List.reverse_nil, List.nil_append, List.cons_append] at h1 h2
  simp only [mp_csp_prim_to_avcol_pri, mp_prim_cases, List.mem_cons,
    List.mem_singleton, List.not_mem_nil, or_false]
  split_ifs <;>
    simp only [avcol_pri_to_mp_csp_prim, h1, h2, if_true, if_false] <;>
    clear h h1 h2 <;>
    first
    | omega
    | (refine ⟨Or.inr trivial, fun e => Or.inr e.symm, fun e => ?_⟩; omega)

theorem trc_roundtrip (av : avutil_enums) (pl : placebo_enums) (h : av_distinct av)
    (c : Int) :
    (avcol_trc_to_mp_csp_trc av pl (mp_csp_trc_to_avcol_trc av pl c) = c ∨
      avcol_trc_to_mp_csp_trc av pl (mp_csp_trc_to_avcol_trc av pl c) = pl.PL_COLOR_TRC_UNKNOWN) ∧
    (avcol_trc_to_mp_csp_trc av pl (mp_csp_trc_to_avcol_trc av pl c) = c ↔
      c ∈ mp_trc_cases pl ∨ c = pl.PL_COLOR_TRC_UNKNOWN) := by
  have h1 := h.2.2.2.1
  have h2 := List.nodup_reverse.2 (h.2.2.2.1)
  simp only [List.nodup_cons, List.mem_cons, List.mem_singleton, List.not_mem_nil,
    or_false, not_or, List.nodup_nil, and_true, not_false_eq_true, List.reverse_cons,
    List.reverse_nil, List.nil_append, List.cons_append] at h1 h2
  simp only [mp_csp_trc_to_avcol_trc, mp_trc_cases, List.mem_cons,
    List.mem_singleton, List.not_mem_nil, or_false]
  split_ifs <;>
    simp only [avcol_trc_to_mp_csp_trc, h1, h2, if_true, if_false] <;>
    clear h h1 h2 <;>
    first
    | omega
    | (refine ⟨Or.inr trivial, fun e => Or.inr e.symm, fun e => ?_⟩; omega)

theorem chroma_roundtrip (av : avutil_enums) (pl : placebo_enums) (h : av_distinct av)
    (c : Int) :
    (avchroma_location_to_mp av pl (mp_chroma_location_to_av av pl c) = c ∨
      avchroma_location_to_mp av pl (mp_chroma_location_to_av av pl c) = pl.PL_CHROMA_UNKNOWN) ∧
    (avchroma_location_to_mp av pl (mp_chroma_location_to_av av pl c) = c ↔
      c ∈ mp_chroma_cases pl ∨ c = pl.PL_CHROMA_UNKNOWN) := by
  have h1 := h.2.2.2.2
  have h2 := List.nodup_reverse.2 (h.2.2.2.2)
  simp only [List.nodup_cons, List.mem_cons, List.mem_singleton, List.not_mem_nil,
    or_false, not_or, List.nodup_nil, and_true, not_false_eq_true, List.reverse_cons,
    List.reverse_nil, List.nil_append, List.cons_append] at h1 h2
  simp only [mp_chroma_location_to_av, mp_chroma_cases, List.mem_cons,
    List.mem_singleton, List.not_mem_nil, or_false]
  split_ifs <;>
    simp only [avchroma_location_to_mp, h1, h2, if_true, if_false] <;>
    clear h h1 h2 <;>
    first
    | omega
    | (refine ⟨Or.inr trivial, fun e => Or.inr e.symm, fun e => ?_⟩; omega)

theorem avutil_values_distinct : av_distinct avutil_values := by
  unfold av_distinct avutil_values
  decide

/-- C36 (as amended): provided the libavutil enumerators that `csputils.c`
names are pairwise distinct within each enumeration, for every colour system
`c` the value `avcol_spc_to_mp_csp(mp_csp_to_avcol_spc(c))` is either `c` or
`PL_COLOR_SYSTEM_UNKNOWN`, and it is `c` exactly for the values that have an
explicit case in the `switch` of `mp_csp_to_avcol_spc` and for
`PL_COLOR_SYSTEM_UNKNOWN` itself; the same holds for levels, primaries, transfer
characteristics and chroma location. -/
theorem colour_enum_roundtrip (av : avutil_enums) (pl : placebo_enums)
    (h : av_distinct av) :
    (∀ c : Int,
      (avcol_spc_to_mp_csp av pl (mp_csp_to_avcol_spc av pl c) = c ∨
        avcol_spc_to_mp_csp av pl (mp_csp_to_avcol_spc av pl c) = pl.PL_COLOR_SYSTEM_UNKNOWN) ∧
      (avcol_spc_to_mp_csp av pl (mp_csp_to_avcol_spc av pl c) = c ↔
        c ∈ mp_csp_cases pl ∨ c = pl.PL_COLOR_SYSTEM_UNKNOWN)) ∧
    (∀ c : Int,
      (avcol_range_to_mp_csp_levels av pl (mp_csp_levels_to_avcol_range av pl c) = c ∨
        avcol_range_to_mp_csp_levels av pl (mp_csp_levels_to_avcol_range av pl c) = pl.PL_COLOR_LEVELS_UNKNOWN) ∧
      (avcol_range_to_mp_csp_levels av pl (mp_csp_levels_to_avcol_range av pl c) = c ↔
        c ∈ mp_levels_cases pl ∨ c = pl.PL_COLOR_LEVELS_UNKNOWN)) ∧
    (∀ c : Int,
      (avcol_pri_to_mp_csp_prim av pl (mp_csp_prim_to_avcol_pri av pl c) = c ∨
        avcol_pri_to_mp_csp_prim av pl (mp_csp_prim_to_avcol_pri av pl c) = pl.PL_COLOR_PRIM_UNKNOWN) ∧
      (avcol_pri_to_mp_csp_prim av pl (mp_csp_prim_to_avcol_pri av pl c) = c ↔
        c ∈ mp_prim_cases pl ∨ c = pl.PL_COLOR_PRIM_UNKNOWN)) ∧
    (∀ c : Int,
      (avcol_trc_to_mp_csp_trc av pl (mp_csp_trc_to_avcol_trc av pl c) = c ∨
        avcol_trc_to_mp_csp_trc av pl (mp_csp_trc_to_avcol_trc av pl c) = pl.PL_COLOR_TRC_UNKNOWN) ∧
      (avcol_trc_to_mp_csp_trc av pl (mp_csp_trc_to_avcol_trc av pl c) = c ↔
        c ∈ mp_trc_cases pl ∨ c = pl.PL_COLOR_TRC_UNKNOWN)) ∧
    (∀ c : Int,
      (avchroma_location_to_mp av pl (mp_chroma_location_to_av av pl c) = c ∨
        avchroma_location_to_mp av pl (mp_chroma_location_to_av av pl c) = pl.PL_CHROMA_UNKNOWN) ∧
      (avchroma_location_to_mp av pl (mp_chroma_location_to_av av pl c) = c ↔
        c ∈ mp_chroma_cases pl ∨ c = pl.PL_CHROMA_UNKNOWN)) :=
  ⟨csp_roundtrip av pl h, levels_roundtrip av pl h, prim_roundtrip av pl h,
    trc_roundtrip av pl h, chroma_roundtrip av pl h⟩

theorem colour_enum_roundtrip_witness :
    av_distinct avutil_values ∧
    ((∀ c : Int,
      (avcol_spc_to_mp_csp avutil_values placebo_values (mp_csp_to_avcol_spc avutil_values placebo_values c) = c ∨
        avcol_spc_to_mp_csp avutil_values placebo_values (mp_csp_to_avcol_spc avutil_values placebo_values c) = placebo_values.PL_COLOR_SYSTEM_UNKNOWN) ∧
      (avcol_spc_to_mp_csp avutil_values placebo_values (mp_csp_to_avcol_spc avutil_values placebo_values c) = c ↔
        c ∈ mp_csp_cases placebo_values ∨ c = placebo_values.PL_COLOR_SYSTEM_UNKNOWN)) ∧
    (∀ c : Int,
      (avcol_range_to_mp_csp_levels avutil_values placebo_values (mp_csp_levels_to_avcol_range avutil_values placebo_values c) = c ∨
        avcol_range_to_mp_csp_levels avutil_values placebo_values (mp_csp_levels_to_avcol_range avutil_values placebo_values c) = placebo_values.PL_COLOR_LEVELS_UNKNOWN) ∧
      (avcol_range_to_mp_csp_levels avutil_values placebo_values (mp_csp_levels_to_avcol_range avutil_values placebo_values c) = c ↔
        c ∈ mp_levels_cases placebo_values ∨ c = placebo_values.PL_COLOR_LEVELS_UNKNOWN)) ∧
    (∀ c : Int,
      (avcol_pri_to_mp_csp_prim avutil_values placebo_values (mp_csp_prim_to_avcol_pri avutil_values placebo_values c) = c ∨
        avcol_pri_to_mp_csp_prim avutil_values placebo_values (mp_csp_prim_to_avcol_pri avutil_values placebo_values c) = placebo_values.PL_COLOR_PRIM_UNKNOWN) ∧
      (avcol_pri_to_mp_csp_prim avutil_values placebo_values (mp_csp_prim_to_avcol_pri avutil_values placebo_values c) = c ↔
        c ∈ mp_prim_cases placebo_values ∨ c = placebo_values.PL_COLOR_PRIM_UNKNOWN)) ∧
    (∀ c : Int,
      (avcol_trc_to_mp_csp_trc avutil_values placebo_values (mp_csp_trc_to_avcol_trc avutil_values placebo_values c) = c ∨
        avcol_trc_to_mp_csp_trc avutil_values placebo_values (mp_csp_trc_to_avcol_trc avutil_values placebo_values c) = placebo_values.PL_COLOR_TRC_UNKNOWN) ∧
      (avcol_trc_to_mp_csp_trc avutil_values placebo_values (mp_csp_trc_to_avcol_trc avutil_values placebo_values c) = c ↔
        c ∈ mp_trc_cases placebo_values ∨ c = placebo_values.PL_COLOR_TRC_UNKNOWN)) ∧
    (∀ c : Int,
      (avchroma_location_to_mp avutil_values placebo_values (mp_chroma_location_to_av avutil_values placebo_values c) = c ∨
        avchroma_location_to_mp avutil_values placebo_values (mp_chroma_location_to_av avutil_values placebo_values c) = placebo_values.PL_CHROMA_UNKNOWN) ∧
      (avchroma_location_to_mp avutil_values placebo_values (mp_chroma_location_to_av avutil_values placebo_values c) = c ↔
        c ∈ mp_chroma_cases placebo_values ∨ c = placebo_values.PL_CHROMA_UNKNOWN))) :=
  ⟨avutil_values_distinct,
    colour_enum_roundtrip avutil_values placebo_values avutil_values_distinct⟩

/-- C36 is false as stated: `PL_COLOR_SYSTEM_UNKNOWN` has no explicit case in
the `switch` of `mp_csp_to_avcol_spc`, yet the round trip returns it (through
the two `default` branches); so the round trip is not the identity exactly on
the values with an explicit case. -/
theorem unknown_roundtrip_without_case :
    av_distinct avutil_values ∧
    mp_csp_to_avcol_spc avutil_values placebo_values
      placebo_values.PL_COLOR_SYSTEM_UNKNOWN = avutil_values.AVCOL_SPC_UNSPECIFIED ∧
    avcol_spc_to_mp_csp avutil_values placebo_values
      avutil_values.AVCOL_SPC_UNSPECIFIED = placebo_values.PL_COLOR_SYSTEM_UNKNOWN ∧
    placebo_values.PL_COLOR_SYSTEM_UNKNOWN ∉ mp_csp_cases placebo_values ∧
    ¬ (∀ c : Int,
      avcol_spc_to_mp_csp avutil_values placebo_values
        (mp_csp_to_avcol_spc avutil_values placebo_values c) = c ↔
      c ∈ mp_csp_cases placebo_values) :=
  ⟨avutil_values_distinct, by decide, by decide, by decide,
    fun hall => absurd ((hall placebo_values.PL_COLOR_SYSTEM_UNKNOWN).1 (by decide))
      (by decide)⟩

end VkMalloc
